import Mathlib

/-!
# OS3.0 journaled file system: shallow embedding and verified properties

The development embeds the block device (`kernel/virtio_disk.c`), the buffer
cache (`kernel/bio.c`), the write-ahead log (`kernel/log.c`), the inode, file
data and directory layers (`kernel/fs.c`) and the open-file layer
(`kernel/file.c`, `kernel/sysfile.c`) of the `riscv-os` kernel.

Conventions of the embedding.

* All global C state lives in one record `Kernel`; a C function becomes a
  state transformer `K α := Kernel → Res α`.
* `panic` never returns in the source (it prints and loops forever) and
  `acquiresleep` spins forever on a lock that is already held; both are
  modelled as failing results (`Fault.panic site`, `Fault.spin`).
* Unsigned 32-bit arithmetic is `Nat` with an explicit `% 2 ^ 32` where the
  source can wrap; memory is a function from byte index to byte value.
* A pointer into a global array (`struct buf *`, `struct inode *`,
  `struct file *`) is the index of the element.
-/

namespace OS3


/-! ## Constants (`include/fs.h`, `kernel/virtio_disk.c`) -/

def BSIZE : Nat := 4096
def FSMAGIC : Nat := 0x10203040
def T_UNUSED : Nat := 0
def T_DIR : Nat := 1
def T_FILE : Nat := 2
def T_DEV : Nat := 3
def NDIRECT : Nat := 12
def NINDIRECT : Nat := BSIZE / 4
def MAXFILE : Nat := NDIRECT + NINDIRECT
/-- Size of `struct dinode` in bytes: four shorts, one `uint32`, thirteen `uint32`. -/
def DINODE_SIZE : Nat := 64
def IPB : Nat := BSIZE / DINODE_SIZE
def BPB : Nat := BSIZE * 8
def NINODE : Nat := 50
def DIRSIZ : Nat := 14
/-- Size of `struct dirent` in bytes. -/
def DIRENT_SIZE : Nat := 16
def NBUF : Nat := 30
def LOGSIZE : Nat := 30
def MAXOPBLOCKS : Nat := 10
def ROOTDEV : Nat := 1
def ROOTINO : Nat := 1
def FSSIZE : Nat := 1024
def NFILE : Nat := 100
def NOFILE : Nat := 16
def MAXPATH : Nat := 128
def U32 : Nat := 2 ^ 32

/-! ## Bytes in memory -/

/-- A region of memory: byte index to byte value. -/
abbrev Mem := Nat → Nat

/-- The all-zero region. -/
def zeroMem : Mem := fun _ => 0

/-- Little-endian 16-bit load at byte offset `off`. -/
def rd16 (m : Mem) (off : Nat) : Nat :=
  m off % 256 + 256 * (m (off + 1) % 256)

/-- Little-endian 32-bit load at byte offset `off`. -/
def rd32 (m : Mem) (off : Nat) : Nat :=
  m off % 256 + 256 * (m (off + 1) % 256) + 65536 * (m (off + 2) % 256)
    + 16777216 * (m (off + 3) % 256)

/-- Little-endian 16-bit store at byte offset `off`. -/
def wr16 (m : Mem) (off v : Nat) : Mem := fun i =>
  if i = off then v % 256
  else if i = off + 1 then v / 256 % 256
  else m i

/-- Little-endian 32-bit store at byte offset `off`. -/
def wr32 (m : Mem) (off v : Nat) : Mem := fun i =>
  if i = off then v % 256
  else if i = off + 1 then v / 256 % 256
  else if i = off + 2 then v / 65536 % 256
  else if i = off + 3 then v / 16777216 % 256
  else m i

/-- Effect of `memset_local(p + off, c, n)`: `n` bytes from `off` become `(unsigned char)c`. -/
def memset_local (m : Mem) (off c n : Nat) : Mem := fun i =>
  if off ≤ i ∧ i < off + n then c % 256 else m i

/-- Effect of `memmove_local(dst + doff, src + soff, n)` for regions that do
not overlap (every call site copies between distinct objects): bytes
`doff .. doff+n-1` of `dst` become bytes `soff .. soff+n-1` of `src`. -/
def memmove_local (dst : Mem) (doff : Nat) (src : Mem) (soff n : Nat) : Mem := fun i =>
  if doff ≤ i ∧ i < doff + n then src (soff + (i - doff)) else dst i

/-- Effect of `memmove_local(dst, src, BSIZE)` between two block payloads. A
payload is an array of exactly `BSIZE` bytes, so the destination becomes the
source; indices from `BSIZE` on do not exist in the source and simply travel
with the copy. -/
def memmove_block (_dst src : Mem) : Mem := src

/-! ## Global state -/

/-- The `struct superblock` of `include/fs.h`. -/
structure Superblock where
  magic : Nat
  size : Nat
  nblocks : Nat
  ninodes : Nat
  nlog : Nat
  logstart : Nat
  inodestart : Nat
  bmapstart : Nat

/-- The `struct buf` of `include/fs.h`; `locked` is `lock.locked`; the list
links are kept in `Kernel.lru`. -/
structure Buf where
  valid : Nat
  disk : Nat
  dev : Nat
  blockno : Nat
  locked : Nat
  refcnt : Nat
  data : Mem

/-- The `struct logheader` of `include/fs.h`. -/
structure LogHeader where
  n : Nat
  block : Nat → Nat

/-- The `struct log` of `include/fs.h`. -/
structure Log where
  start : Nat
  size : Nat
  outstanding : Nat
  committing : Nat
  dev : Nat
  lh : LogHeader

/-- The in-memory `struct inode` of `include/fs.h`; `locked` is `lock.locked`. -/
structure Inode where
  dev : Nat
  inum : Nat
  ref : Int
  locked : Nat
  valid : Nat
  type : Nat
  major : Nat
  minor : Nat
  nlink : Nat
  size : Nat
  addrs : Nat → Nat

/-- The `struct file` of `include/file.h`; `ip` is the inode-cache index. -/
structure File where
  type : Nat
  ref : Nat
  readable : Nat
  writable : Nat
  ip : Option Nat
  off : Nat

/-- All global state of the file-system stack. `lru` is the circular list of
`bio.c` read from `head.next` round to `head.prev` (most recently released
first), as indices into `buf`. -/
structure Kernel where
  ramdisk : Nat → Mem
  buf : Nat → Buf
  lru : List Nat
  sb : Superblock
  log : Log
  inode : Nat → Inode
  file : Nat → File
  g_ofile : Nat → Option Nat

/-- The places where the source calls `panic`. -/
inductive PanicSite where
  | virtio_disk_rw_range
  | bget_no_free_buffer
  | bwrite_not_locked
  | brelse_not_locked
  | brelse_refcnt
  | read_head_bad_n
  | begin_op_committing
  | end_op_no_outstanding
  | log_write_full
  | balloc_out_of_blocks
  | bfree_not_allocated
  | bmap_out_of_range
  | iget_no_free_inode
  | ialloc_no_inodes
  | ilock_bad_ip
  | ilock_no_type
  | iunlock
  | readi_addr_zero
  | writei_addr_zero
  | dirlookup_not_dir
  | dirlookup_read
  | dirlink_read
  | dirlink_write
  | fs_init_bad_magic
  | filedup
  | fileclose
  deriving DecidableEq, Repr

/-- Ways in which a call fails to return. -/
inductive Fault where
  | panic (site : PanicSite)
  | spin
  deriving DecidableEq, Repr

/-- Result of running a kernel function. -/
inductive Res (α : Type) where
  | ok (a : α) (s : Kernel)
  | fail (e : Fault)

/-- A kernel function returning `α`. -/
def K (α : Type) : Type := Kernel → Res α

instance : Monad K where
  pure a := fun s => Res.ok a s
  bind x f := fun s =>
    match x s with
    | Res.ok a s1 => f a s1
    | Res.fail e => Res.fail e

/-- The call `panic(...)`. -/
def kpanic {α : Type} (site : PanicSite) : K α := fun _ => Res.fail (Fault.panic site)

/-- An endless busy-wait. -/
def kspin {α : Type} : K α := fun _ => Res.fail Fault.spin

/-- Read the whole state. -/
def getK : K Kernel := fun s => Res.ok s s

/-- Change the state. -/
def modifyK (f : Kernel → Kernel) : K Unit := fun s => Res.ok () (f s)

/-- Replace element `i` of the buffer array. -/
def Kernel.setBuf (s : Kernel) (i : Nat) (b : Buf) : Kernel :=
  { s with buf := Function.update s.buf i b }

/-- Replace element `i` of the inode cache. -/
def Kernel.setInode (s : Kernel) (i : Nat) (ip : Inode) : Kernel :=
  { s with inode := Function.update s.inode i ip }

/-- Replace element `i` of the file table. -/
def Kernel.setFile (s : Kernel) (i : Nat) (f : File) : Kernel :=
  { s with file := Function.update s.file i f }

/-! ## Block device (`kernel/virtio_disk.c`) -/

/-- The function `virtio_disk_rw(b, write)`. -/
def virtio_disk_rw (b : Nat) (write : Bool) : K Unit := fun s =>
  let bf := s.buf b
  if bf.blockno ≥ FSSIZE then Res.fail (Fault.panic PanicSite.virtio_disk_rw_range)
  else if write then
    let blk := memmove_block (s.ramdisk bf.blockno) bf.data
    Res.ok () { s with ramdisk := Function.update s.ramdisk bf.blockno blk }
  else
    Res.ok () (s.setBuf b { bf with data := memmove_block bf.data (s.ramdisk bf.blockno) })

/-! ## Buffer cache (`kernel/bio.c`) -/

/-- The function `acquiresleep(&b->lock)` on a buffer. -/
def acquiresleep_buf (b : Nat) : K Unit := fun s =>
  if (s.buf b).locked ≠ 0 then Res.fail Fault.spin
  else Res.ok () (s.setBuf b { s.buf b with locked := 1 })

/-- The function `bget(dev, blockno)`. -/
def bget (dev blockno : Nat) : K Nat := fun s =>
  match s.lru.find? (fun i => (s.buf i).dev == dev && (s.buf i).blockno == blockno) with
  | some b =>
    let s1 := s.setBuf b { s.buf b with refcnt := (s.buf b).refcnt + 1 }
    (do acquiresleep_buf b; pure b : K Nat) s1
  | none =>
    match s.lru.reverse.find? (fun i => (s.buf i).refcnt == 0) with
    | some b =>
      let s1 := s.setBuf b
        { s.buf b with dev := dev, blockno := blockno, valid := 0, disk := 0, refcnt := 1 }
      (do acquiresleep_buf b; pure b : K Nat) s1
    | none => Res.fail (Fault.panic PanicSite.bget_no_free_buffer)

/-- The function `bread(dev, blockno)`. -/
def bread (dev blockno : Nat) : K Nat := do
  let b ← bget dev blockno
  let s ← getK
  if (s.buf b).valid = 0 then
    virtio_disk_rw b false
    modifyK (fun s => s.setBuf b { s.buf b with valid := 1 })
    pure b
  else
    pure b

/-- Store `data` into the payload of buffer `b` (a write through `b->data`). -/
def setData (b : Nat) (data : Mem) : K Unit :=
  modifyK (fun s => s.setBuf b { s.buf b with data := data })

/-- The function `brelse(b)`. -/
def brelse (b : Nat) : K Unit := fun s =>
  if (s.buf b).locked = 0 then Res.fail (Fault.panic PanicSite.brelse_not_locked)
  else
    let s1 := s.setBuf b { s.buf b with locked := 0 }
    if (s1.buf b).refcnt < 1 then Res.fail (Fault.panic PanicSite.brelse_refcnt)
    else
      let s2 := s1.setBuf b { s1.buf b with refcnt := (s1.buf b).refcnt - 1 }
      if (s2.buf b).refcnt = 0 then
        Res.ok () { s2 with lru := b :: s2.lru.erase b }
      else Res.ok () s2

/-! ## Write-ahead log (`kernel/log.c`) -/

/-- The loop of `log_write` that looks for `blockno` in `log.lh.block[0..n)`;
returns the first matching index from `i` on, or `n`. -/
def log_find (block : Nat → Nat) (blockno n : Nat) : Nat → Nat → Nat
  | 0, i => i
  | fuel + 1, i =>
    if i < n then
      if block i % U32 = blockno then i else log_find block blockno n fuel (i + 1)
    else i

/-- The last part of `log_write(b)`: copy the payload of `b` into log block
`log.start + 1 + i` and write that block to the device. -/
def log_write_slot (b i : Nat) : K Unit := do
  let s0 ← getK
  let lb ← bread s0.log.dev (s0.log.start + 1 + i)
  let s1 ← getK
  setData lb (memmove_block (s1.buf lb).data (s1.buf b).data)
  virtio_disk_rw lb true
  brelse lb

/-- The function `log_write(b)`. -/
def log_write (b : Nat) : K Unit := fun s =>
  if s.log.outstanding < 1 then virtio_disk_rw b true s
  else
    let i := log_find s.log.lh.block (s.buf b).blockno s.log.lh.n s.log.lh.n 0
    if i = s.log.lh.n then
      if s.log.lh.n ≥ s.log.size ∨ s.log.lh.n ≥ LOGSIZE then
        Res.fail (Fault.panic PanicSite.log_write_full)
      else
        log_write_slot b i { s with log := { s.log with lh :=
          { n := s.log.lh.n + 1, block := Function.update s.log.lh.block i (s.buf b).blockno } } }
    else log_write_slot b i s

/-- The function `bwrite(b)` of `kernel/bio.c`. -/
def bwrite (b : Nat) : K Unit := fun s =>
  if (s.buf b).locked = 0 then Res.fail (Fault.panic PanicSite.bwrite_not_locked)
  else log_write b (s.setBuf b { s.buf b with disk := 1 })

/-- Byte offset of `hd->block[i]` in the header block (`int n` comes first). -/
def hdBlockOff (i : Nat) : Nat := 4 + 4 * i

/-- The function `read_head()`. A negative `int` is a 32-bit pattern of at least `2^31`. -/
def read_head : K Unit := do
  let s ← getK
  let b ← bread s.log.dev s.log.start
  let s1 ← getK
  let hd := (s1.buf b).data
  let n := rd32 hd 0
  if n ≥ 2 ^ 31 ∨ n > LOGSIZE then kpanic PanicSite.read_head_bad_n
  else
    modifyK (fun t => { t with log := { t.log with lh :=
      { n := n, block := fun i => if i < n then rd32 hd (hdBlockOff i) else t.log.lh.block i } } })
    brelse b

/-- The header image that `write_head` builds in the buffer: the count, then
`block[0..n)`; the other bytes keep their old value. -/
def write_head_loop (lh : LogHeader) : Nat → Mem → Mem
  | 0, m => m
  | i + 1, m => wr32 (write_head_loop lh i m) (hdBlockOff i) (lh.block i)

/-- The function `write_head()`. -/
def write_head : K Unit := do
  let s ← getK
  let b ← bread s.log.dev s.log.start
  let s1 ← getK
  setData b (write_head_loop s1.log.lh s1.log.lh.n (wr32 (s1.buf b).data 0 s1.log.lh.n))
  virtio_disk_rw b true
  brelse b

/-- The loop of `install_trans_from_log()`, from index `i` for `fuel` rounds. -/
def install_loop : Nat → Nat → K Unit
  | 0, _ => pure ()
  | fuel + 1, i => do
    let s ← getK
    if i < s.log.lh.n then
      let bno := s.log.lh.block i % U32
      let lb ← bread s.log.dev (s.log.start + 1 + i)
      let db ← bread s.log.dev bno
      let s1 ← getK
      setData db (memmove_block (s1.buf db).data (s1.buf lb).data)
      virtio_disk_rw db true
      brelse lb
      brelse db
      install_loop fuel (i + 1)
    else pure ()

/-- The function `install_trans_from_log()`. -/
def install_trans_from_log : K Unit := do
  let s ← getK
  install_loop s.log.lh.n 0

/-- The function `recover_from_log()`. -/
def recover_from_log : K Unit := do
  read_head
  let s ← getK
  if s.log.lh.n > 0 then
    install_trans_from_log
    modifyK (fun t => { t with log := { t.log with lh := { t.log.lh with n := 0 } } })
    write_head
  else pure ()

/-- The function `initlog(dev, sb)`. -/
def initlog (dev : Nat) : K Unit := do
  modifyK (fun t => { t with log := { t.log with
    dev := dev, start := t.sb.logstart, size := t.sb.nlog,
    outstanding := 0, committing := 0, lh := { t.log.lh with n := 0 } } })
  recover_from_log

/-- The function `begin_op()`. -/
def begin_op : K Unit := fun s =>
  if s.log.committing ≠ 0 then Res.fail (Fault.panic PanicSite.begin_op_committing)
  else Res.ok () { s with log := { s.log with outstanding := s.log.outstanding + 1 } }

/-- The function `commit()`. -/
def commit : K Unit := do
  let s ← getK
  if s.log.lh.n > 0 then
    write_head
    install_trans_from_log
    modifyK (fun t => { t with log := { t.log with lh := { t.log.lh with n := 0 } } })
    write_head
  else pure ()

/-- The function `end_op()`. -/
def end_op : K Unit := fun s =>
  if s.log.outstanding < 1 then Res.fail (Fault.panic PanicSite.end_op_no_outstanding)
  else
    let s1 := { s with log := { s.log with outstanding := s.log.outstanding - 1 } }
    if s1.log.outstanding = 0 then
      (do
        modifyK (fun t => { t with log := { t.log with committing := 1 } })
        commit
        modifyK (fun t => { t with log := { t.log with committing := 0 } }) : K Unit) s1
    else Res.ok () s1

/-! ## Block allocator (`kernel/fs.c`) -/

/-- The macro `IBLOCK(inum, sb)`. -/
def IBLOCK (inum : Nat) (sb : Superblock) : Nat := (inum / IPB + sb.inodestart) % U32

/-- The macro `BBLOCK(b, sb)`. -/
def BBLOCK (b : Nat) (sb : Superblock) : Nat := (b / BPB + sb.bmapstart) % U32

/-- The `unsigned char mask = 1 << bit_index` of `balloc` and `bfree`. -/
def bitmask (bi : Nat) : Nat := (1 <<< (bi % 8)) % 256

/-- The test `(bits[byte_index] & mask) == 0` for bit `bi` of a bitmap block. -/
def bit_clear (bits : Mem) (bi : Nat) : Bool := (bits (bi / 8) % 256) &&& bitmask bi == 0

/-- The function `bzero(dev, bno)`. -/
def bzero (dev bno : Nat) : K Unit := do
  let b ← bread dev bno
  let s ← getK
  setData b (memset_local (s.buf b).data 0 0 BSIZE)
  bwrite b
  brelse b

/-- The inner loop of `balloc`: the first `bi` from the given one with
`bi < BPB`, `bno + bi < size` and a clear bit. -/
def balloc_scan (bits : Mem) (bno size : Nat) : Nat → Nat → Option Nat
  | 0, _ => none
  | fuel + 1, bi =>
    if bi < BPB ∧ bno + bi < size then
      if bit_clear bits bi then some bi else balloc_scan bits bno size fuel (bi + 1)
    else none

/-- The outer loop of `balloc`, from bitmap-block base `bno`. -/
def balloc_loop (dev : Nat) : Nat → Nat → K Nat
  | 0, _ => kspin
  | fuel + 1, bno => do
    let s ← getK
    if bno < s.sb.size then
      let b ← bread dev (BBLOCK bno s.sb)
      let s1 ← getK
      let bits := (s1.buf b).data
      match balloc_scan bits bno s.sb.size BPB 0 with
      | some bi =>
        setData b (Function.update bits (bi / 8) ((bits (bi / 8) % 256) ||| bitmask bi))
        bwrite b
        brelse b
        bzero dev (bno + bi)
        pure (bno + bi)
      | none =>
        brelse b
        balloc_loop dev fuel ((bno + BPB) % U32)
    else kpanic PanicSite.balloc_out_of_blocks

/-- The function `balloc(dev)`. The outer loop runs once per bitmap block, so
`size / BPB + 2` rounds reach the final `panic`. -/
def balloc (dev : Nat) : K Nat := do
  let s ← getK
  balloc_loop dev (s.sb.size / BPB + 2) 0

/-- The function `bfree(dev, bno)`. -/
def bfree (dev bno : Nat) : K Unit := do
  let s ← getK
  let b ← bread dev (BBLOCK bno s.sb)
  let s1 ← getK
  let bits := (s1.buf b).data
  let bi := bno % BPB
  if bit_clear bits bi then kpanic PanicSite.bfree_not_allocated
  else
    setData b (Function.update bits (bi / 8) ((bits (bi / 8) % 256) &&& (255 - bitmask bi)))
    bwrite b
    brelse b

/-- Store into `ip->addrs[i]`. -/
def setAddr (ip i v : Nat) : K Unit :=
  modifyK (fun s => s.setInode ip
    { s.inode ip with addrs := Function.update (s.inode ip).addrs i v })

/-- The function `bmap(ip, bn, alloc)`. -/
def bmap (ip bn : Nat) (alloc : Bool) : K Nat := do
  let s ← getK
  if bn < NDIRECT then
    let addr := (s.inode ip).addrs bn
    if addr = 0 ∧ alloc then
      let a ← balloc (s.inode ip).dev
      setAddr ip bn a
      pure a
    else pure addr
  else
    let bn1 := bn - NDIRECT
    if bn1 ≥ NINDIRECT then kpanic PanicSite.bmap_out_of_range
    else
      let addr := (s.inode ip).addrs NDIRECT
      let rest (addr : Nat) : K Nat := do
        let t ← getK
        let b ← bread (t.inode ip).dev addr
        let t1 ← getK
        let a := (t1.buf b).data
        if rd32 a (4 * bn1) = 0 ∧ alloc then
          let fresh ← balloc (t1.inode ip).dev
          let t2 ← getK
          setData b (wr32 (t2.buf b).data (4 * bn1) fresh)
          bwrite b
          let t3 ← getK
          let result := rd32 (t3.buf b).data (4 * bn1)
          brelse b
          pure result
        else
          brelse b
          pure (rd32 a (4 * bn1))
      if addr = 0 then
        if alloc then do
          let a ← balloc (s.inode ip).dev
          setAddr ip NDIRECT a
          rest a
        else pure 0
      else rest addr

/-! ## Inodes (`kernel/fs.c`) -/

/-- Byte offset of the on-disk inode `inum` inside its block. -/
def dinodeOff (inum : Nat) : Nat := (inum % IPB) * DINODE_SIZE

/-- The function `iget(dev, inum)`: the two scans of the cache are one pass in
the source; the hit is the first slot with `ref > 0` and the same identity,
the fallback the first slot with `ref == 0`. -/
def iget (dev inum : Nat) : K Nat := fun s =>
  match (List.range NINODE).find?
      (fun i => decide ((s.inode i).ref > 0) && (s.inode i).dev == dev && (s.inode i).inum == inum) with
  | some ip => Res.ok ip (s.setInode ip { s.inode ip with ref := (s.inode ip).ref + 1 })
  | none =>
    match (List.range NINODE).find? (fun i => (s.inode i).ref == 0) with
    | some ip =>
      Res.ok ip (s.setInode ip { s.inode ip with dev := dev, inum := inum, ref := 1, valid := 0 })
    | none => Res.fail (Fault.panic PanicSite.iget_no_free_inode)

/-- The loop of `ialloc`, from inode number `inum`. -/
def ialloc_loop (dev type : Nat) : Nat → Nat → K Nat
  | 0, _ => kpanic PanicSite.ialloc_no_inodes
  | fuel + 1, inum => do
    let s ← getK
    if inum < s.sb.ninodes then
      let b ← bread dev (IBLOCK inum s.sb)
      let s1 ← getK
      let d := (s1.buf b).data
      let o := dinodeOff inum
      if rd16 d o = T_UNUSED then
        setData b (wr16 (wr16 (memset_local d o 0 DINODE_SIZE) o type) (o + 6) 1)
        bwrite b
        brelse b
        let ip ← iget dev inum
        modifyK (fun t => t.setInode ip { t.inode ip with type := type % 65536, nlink := 1 })
        pure ip
      else
        brelse b
        ialloc_loop dev type fuel (inum + 1)
    else kpanic PanicSite.ialloc_no_inodes

/-- The function `ialloc(dev, type)`. -/
def ialloc (dev type : Nat) : K Nat := do
  let s ← getK
  ialloc_loop dev type s.sb.ninodes 1

/-- The function `ilock(ip)` for a non-null `ip`. -/
def ilock (ip : Nat) : K Unit := do
  let s ← getK
  if (s.inode ip).ref < 1 then kpanic PanicSite.ilock_bad_ip
  else if (s.inode ip).locked ≠ 0 then kspin
  else
    modifyK (fun t => t.setInode ip { t.inode ip with locked := 1 })
    if (s.inode ip).valid = 0 then
      let b ← bread (s.inode ip).dev (IBLOCK (s.inode ip).inum s.sb)
      let s1 ← getK
      let d := (s1.buf b).data
      let o := dinodeOff (s.inode ip).inum
      modifyK (fun t => t.setInode ip { t.inode ip with
        type := rd16 d o, major := rd16 d (o + 2), minor := rd16 d (o + 4),
        nlink := rd16 d (o + 6), size := rd32 d (o + 8),
        addrs := fun i => if i < NDIRECT + 1 then rd32 d (o + 12 + 4 * i) else (t.inode ip).addrs i })
      brelse b
      modifyK (fun t => t.setInode ip { t.inode ip with valid := 1 })
      let s2 ← getK
      if (s2.inode ip).type = T_UNUSED then kpanic PanicSite.ilock_no_type else pure ()
    else pure ()

/-- The function `iunlock(ip)` for a non-null `ip`. -/
def iunlock (ip : Nat) : K Unit := fun s =>
  if (s.inode ip).locked = 0 ∨ (s.inode ip).ref < 1 then Res.fail (Fault.panic PanicSite.iunlock)
  else Res.ok () (s.setInode ip { s.inode ip with locked := 0 })

/-- The thirteen stores `dip->addrs[i] = ip->addrs[i]` of `iupdate`. -/
def wr_addrs (addrs : Nat → Nat) (o : Nat) : Nat → Mem → Mem
  | 0, m => m
  | i + 1, m => wr32 (wr_addrs addrs o i m) (o + 12 + 4 * i) (addrs i)

/-- The on-disk image of the cached inode `x`, written at byte offset `o` of `d`. -/
def dinode_image (x : Inode) (o : Nat) (d : Mem) : Mem :=
  wr_addrs x.addrs o (NDIRECT + 1)
    (wr32 (wr16 (wr16 (wr16 (wr16 d o x.type) (o + 2) x.major) (o + 4) x.minor) (o + 6) x.nlink)
      (o + 8) x.size)

/-- The function `iupdate(ip)`. -/
def iupdate (ip : Nat) : K Unit := do
  let s ← getK
  let b ← bread (s.inode ip).dev (IBLOCK (s.inode ip).inum s.sb)
  let s1 ← getK
  setData b (dinode_image (s1.inode ip) (dinodeOff (s1.inode ip).inum) (s1.buf b).data)
  bwrite b
  brelse b

/-- The first loop of `itrunc`: direct blocks `i .. NDIRECT-1`. -/
def itrunc_direct (ip : Nat) : Nat → Nat → K Unit
  | 0, _ => pure ()
  | fuel + 1, i => do
    let s ← getK
    if i < NDIRECT then
      if (s.inode ip).addrs i ≠ 0 then
        bfree (s.inode ip).dev ((s.inode ip).addrs i)
        setAddr ip i 0
        itrunc_direct ip fuel (i + 1)
      else itrunc_direct ip fuel (i + 1)
    else pure ()

/-- The second loop of `itrunc`: entries `i .. NINDIRECT-1` of the indirect
block held in buffer `b`. -/
def itrunc_indirect (ip b : Nat) : Nat → Nat → K Unit
  | 0, _ => pure ()
  | fuel + 1, i => do
    let s ← getK
    if i < NINDIRECT then
      let a := rd32 (s.buf b).data (4 * i)
      if a ≠ 0 then
        bfree (s.inode ip).dev a
        itrunc_indirect ip b fuel (i + 1)
      else itrunc_indirect ip b fuel (i + 1)
    else pure ()

/-- The function `itrunc(ip)`. -/
def itrunc (ip : Nat) : K Unit := do
  itrunc_direct ip NDIRECT 0
  let s ← getK
  if (s.inode ip).addrs NDIRECT ≠ 0 then
    let b ← bread (s.inode ip).dev ((s.inode ip).addrs NDIRECT)
    itrunc_indirect ip b NINDIRECT 0
    brelse b
    let s1 ← getK
    bfree (s1.inode ip).dev ((s1.inode ip).addrs NDIRECT)
    setAddr ip NDIRECT 0
  else pure ()
  modifyK (fun t => t.setInode ip { t.inode ip with size := 0 })
  iupdate ip

/-- The function `iput(ip)`. -/
def iput (ip : Nat) : K Unit := do
  let s ← getK
  if (s.inode ip).ref = 1 ∧ (s.inode ip).valid ≠ 0 ∧ (s.inode ip).nlink = 0 then
    ilock ip
    itrunc ip
    modifyK (fun t => t.setInode ip { t.inode ip with type := T_UNUSED })
    iupdate ip
    iunlock ip
    modifyK (fun t => t.setInode ip { t.inode ip with valid := 0 })
  else pure ()
  modifyK (fun t => t.setInode ip { t.inode ip with ref := (t.inode ip).ref - 1 })

/-! ## File data (`kernel/fs.c`) -/

/-- Conversion of a `uint32` to `int` (two's complement). -/
def toInt32 (n : Nat) : Int :=
  if n % U32 < 2 ^ 31 then (n % U32 : Nat) else (n % U32 : Nat) - (U32 : Int)

/-- The `while (tot < n)` loop of `readi`; `dst` is the destination region. -/
def readi_loop (ip n : Nat) : Nat → Nat → Nat → Mem → K Mem
  | 0, _, _, dst => pure dst
  | fuel + 1, tot, off, dst =>
    if tot < n then do
      let bn := off / BSIZE
      let boff := off % BSIZE
      let m := if BSIZE - boff > n - tot then n - tot else BSIZE - boff
      let addr ← bmap ip bn false
      if addr = 0 then kpanic PanicSite.readi_addr_zero
      else
        let s ← getK
        let b ← bread (s.inode ip).dev addr
        let s1 ← getK
        let dst1 := memmove_local dst tot (s1.buf b).data boff m
        brelse b
        readi_loop ip n fuel (tot + m) ((off + m) % U32) dst1
    else pure dst

/-- The function `readi(ip, user_dst, dst, off, n)`: returns the `int` result
and the destination region. Every round copies at least one byte, so `n`
rounds are enough. -/
def readi (ip : Nat) (dst : Mem) (off n : Nat) : K (Int × Mem) := do
  let s ← getK
  if off > (s.inode ip).size ∨ (off + n) % U32 < off then pure (0, dst)
  else
    let n1 := if (off + n) % U32 > (s.inode ip).size then ((s.inode ip).size - off) % U32 else n
    let dst1 ← readi_loop ip n1 n1 0 off dst
    pure (toInt32 n1, dst1)

/-- The `while (tot < n)` loop of `writei`; returns the final `off`. -/
def writei_loop (ip : Nat) (src : Mem) (n : Nat) : Nat → Nat → Nat → K Nat
  | 0, _, off => pure off
  | fuel + 1, tot, off =>
    if tot < n then do
      let bn := off / BSIZE
      let boff := off % BSIZE
      let m := if BSIZE - boff > n - tot then n - tot else BSIZE - boff
      let addr ← bmap ip bn true
      if addr = 0 then kpanic PanicSite.writei_addr_zero
      else
        let s ← getK
        let b ← bread (s.inode ip).dev addr
        let s1 ← getK
        setData b (memmove_local (s1.buf b).data boff src tot m)
        bwrite b
        brelse b
        writei_loop ip src n fuel (tot + m) ((off + m) % U32)
    else pure off

/-- The function `writei(ip, user_src, src, off, n)`. -/
def writei (ip : Nat) (src : Mem) (off n : Nat) : K Int := do
  let s ← getK
  if off > (s.inode ip).size ∨ (off + n) % U32 < off then pure (-1)
  else if (off + n) % U32 > MAXFILE * BSIZE then pure (-1)
  else
    let off1 ← writei_loop ip src n n 0 off
    let s1 ← getK
    if off1 > (s1.inode ip).size then
      modifyK (fun t => t.setInode ip { t.inode ip with size := off1 })
    else pure ()
    iupdate ip
    pure (toInt32 n)

/-- The `struct stat` of `include/stat.h`. -/
structure Stat where
  type : Nat
  nlink : Nat
  dev : Nat
  ino : Nat
  size : Nat

/-- The function `stati(ip, st)`. -/
def stati (x : Inode) : Stat :=
  { dev := x.dev, ino := x.inum, type := x.type, nlink := x.nlink, size := x.size }

/-! ## Directories and paths (`kernel/fs.c`) -/

/-- The function `strncmp_local(s, t, n)`, reading `s` and `t` from index `i`. -/
def strncmp_local (s t : Mem) : Nat → Nat → Int
  | 0, _ => 0
  | n + 1, i =>
    if s i % 256 ≠ 0 ∧ t i % 256 ≠ 0 ∧ s i % 256 = t i % 256 then strncmp_local s t n (i + 1)
    else (s i % 256 : Nat) - (t i % 256 : Nat)

/-- The function `namecmp(s, t)`. -/
def namecmp (s t : Mem) : Int := strncmp_local s t DIRSIZ 0

/-- The field `de.name` of a directory entry held in `de`. -/
def de_name (de : Mem) : Mem := fun i => de (2 + i)

/-- The loop of `dirlookup`, from byte offset `off`; `de` is the local entry. -/
def dirlookup_loop (dp : Nat) (name : Mem) : Nat → Nat → Mem → K (Option (Nat × Nat))
  | 0, _, _ => pure none
  | fuel + 1, off, de => do
    let s ← getK
    if off < (s.inode dp).size then
      let (r, de1) ← readi dp de off DIRENT_SIZE
      if r ≠ DIRENT_SIZE then kpanic PanicSite.dirlookup_read
      else if rd16 de1 0 = 0 then dirlookup_loop dp name fuel ((off + DIRENT_SIZE) % U32) de1
      else if namecmp name (de_name de1) = 0 then do
        let t ← getK
        let ip ← iget (t.inode dp).dev (rd16 de1 0)
        pure (some (ip, off))
      else dirlookup_loop dp name fuel ((off + DIRENT_SIZE) % U32) de1
    else pure none

/-- The function `dirlookup(dp, name, poff)`: the inode handle and the value
stored through `poff`, or `none` for a null result. -/
def dirlookup (dp : Nat) (name : Mem) : K (Option (Nat × Nat)) := do
  let s ← getK
  if (s.inode dp).type ≠ T_DIR then kpanic PanicSite.dirlookup_not_dir
  else dirlookup_loop dp name ((s.inode dp).size / DIRENT_SIZE + 1) 0 zeroMem

/-- The free-slot loop of `dirlink`, from byte offset `off`; returns the
offset at which the loop stops. -/
def dirlink_scan (dp : Nat) : Nat → Nat → Mem → K Nat
  | 0, off, _ => pure off
  | fuel + 1, off, de => do
    let s ← getK
    if off < (s.inode dp).size then
      let (r, de1) ← readi dp de off DIRENT_SIZE
      if r ≠ DIRENT_SIZE then kpanic PanicSite.dirlink_read
      else if rd16 de1 0 = 0 then pure off
      else dirlink_scan dp fuel ((off + DIRENT_SIZE) % U32) de1
    else pure off

/-- The name-copy loop of `dirlink`: returns the entry and the final `i`. -/
def dirlink_copy (name : Mem) : Nat → Nat → Mem → Mem × Nat
  | 0, i, de => (de, i)
  | fuel + 1, i, de =>
    if i < DIRSIZ ∧ name i % 256 ≠ 0 then
      dirlink_copy name fuel (i + 1) (Function.update de (2 + i) (name i))
    else (de, i)

/-- The directory entry that `dirlink` builds for `(name, inum)`. -/
def dirlink_entry (name : Mem) (inum : Nat) : Mem :=
  let de0 := wr16 (memset_local zeroMem 0 0 DIRENT_SIZE) 0 inum
  let (de1, i) := dirlink_copy name DIRSIZ 0 de0
  if i < DIRSIZ then Function.update de1 (2 + i) 0 else de1

/-- The function `dirlink(dp, name, inum)`. -/
def dirlink (dp : Nat) (name : Mem) (inum : Nat) : K Int := do
  let found ← dirlookup dp name
  match found with
  | some _ => pure (-1)
  | none =>
    let s ← getK
    let off ← dirlink_scan dp ((s.inode dp).size / DIRENT_SIZE + 1) 0 zeroMem
    let r ← writei dp (dirlink_entry name inum) off DIRENT_SIZE
    if r ≠ DIRENT_SIZE then kpanic PanicSite.dirlink_write else pure 0

/-- The character `'/'`. -/
def SLASH : Nat := 47

/-- The function `skipelem(path, name)`. A C string is the list of its bytes
before the terminating NUL. Returns the rest of the path (`none` for a null
result) and the `name` region; the final `name[len] = 0` is stored at index
`len`, which is `DIRSIZ` for a component of `DIRSIZ` or more characters. -/
def skipelem (path : List Nat) (name : Mem) : Option (List Nat) × Mem :=
  let p := path.dropWhile (fun c => c == SLASH)
  if p.isEmpty then (none, name)
  else
    let comp := p.takeWhile (fun c => c != SLASH)
    let rest := p.dropWhile (fun c => c != SLASH)
    let len := min comp.length DIRSIZ
    let name1 : Mem := fun i => if i < len then comp.getD i 0 else if i = len then 0 else name i
    (some (rest.dropWhile (fun c => c == SLASH)), name1)

/-- The `while` loop of `namex`; `elem` is the local component buffer and
`name` the caller's buffer (`none` for a null pointer). -/
def namex_loop (nameiparent : Bool) :
    Nat → List Nat → Nat → Mem → Option Mem → K (Option Nat × Option Mem)
  | 0, _, _, _, name => pure (none, name)
  | fuel + 1, path, ip, elem, name =>
    match skipelem path elem with
    | (some path1, elem1) => do
      ilock ip
      let s ← getK
      if (s.inode ip).type ≠ T_DIR then
        iunlock ip
        iput ip
        pure (none, name)
      else if nameiparent ∧ path1.isEmpty then
        let name1 := name.map (fun nm => memmove_local nm 0 elem1 0 DIRSIZ)
        iunlock ip
        pure (some ip, name1)
      else
        let next ← dirlookup ip elem1
        iunlock ip
        match next with
        | none =>
          iput ip
          pure (none, name)
        | some (nx, _) =>
          iput ip
          namex_loop nameiparent fuel path1 nx elem1 name
    | (none, _) =>
      if nameiparent then do
        iput ip
        pure (none, name)
      else
        pure (some ip, name.map (fun nm => Function.update nm 0 0))

/-- The function `namex(path, nameiparent, name)`. Each round of the loop
consumes at least one byte of the path. -/
def namex (path : List Nat) (nameiparent : Bool) (name : Option Mem) :
    K (Option Nat × Option Mem) := do
  let ip ← iget ROOTDEV ROOTINO
  if path.isEmpty then pure (none, name)
  else namex_loop nameiparent (path.length + 1) path ip zeroMem name

/-- The function `namei(path)`. -/
def namei (path : List Nat) : K (Option Nat) := do
  let (ip, _) ← namex path false none
  pure ip

/-- The function `nameiparent(path, name)`. -/
def nameiparent (path : List Nat) (name : Mem) : K (Option Nat × Mem) := do
  let (ip, nm) ← namex path true (some name)
  pure (ip, nm.getD name)

/-! ## Open files (`kernel/file.c`) -/

def FD_NONE : Nat := 0
def FD_INODE : Nat := 1
def FD_DEVICE : Nat := 2
def O_RDONLY : Nat := 0x000
def O_WRONLY : Nat := 0x001
def O_RDWR : Nat := 0x002
def O_CREATE : Nat := 0x200
def O_TRUNC : Nat := 0x400

/-- Conversion of an `int` to `uint32`. -/
def toU32 (n : Int) : Nat := (n % (U32 : Int)).toNat

/-- The function `filealloc()`: the table index, or `none` for a null result. -/
def filealloc : K (Option Nat) := fun s =>
  match (List.range NFILE).find? (fun i => (s.file i).ref == 0) with
  | some f => Res.ok (some f) (s.setFile f { s.file f with ref := 1 })
  | none => Res.ok none s

/-- The function `filedup(f)`. -/
def filedup (f : Nat) : K Nat := fun s =>
  if (s.file f).ref < 1 then Res.fail (Fault.panic PanicSite.filedup)
  else Res.ok f (s.setFile f { s.file f with ref := (s.file f).ref + 1 })

/-- The function `fileclose(f)`. -/
def fileclose (f : Nat) : K Unit := do
  let s ← getK
  if (s.file f).ref < 1 then kpanic PanicSite.fileclose
  else
    modifyK (fun t => t.setFile f { t.file f with ref := (t.file f).ref - 1 })
    let s1 ← getK
    if (s1.file f).ref > 0 then pure ()
    else
      let ff := s1.file f
      modifyK (fun t => t.setFile f
        { t.file f with type := FD_NONE, readable := 0, writable := 0, ip := none, off := 0 })
      if ff.type = FD_INODE ∨ ff.type = FD_DEVICE then
        match ff.ip with
        | some ip =>
          begin_op
          iput ip
          end_op
        | none => kspin
      else pure ()

/-- The function `filestat(f, addr)`: the `int` result and the record stored
at `addr`. -/
def filestat (f : Nat) : K (Int × Option Stat) := do
  let s ← getK
  if (s.file f).type ≠ FD_INODE ∧ (s.file f).type ≠ FD_DEVICE then pure (-1, none)
  else
    match (s.file f).ip with
    | some ip =>
      ilock ip
      let s1 ← getK
      let st := stati (s1.inode ip)
      iunlock ip
      pure (0, some st)
    | none => kspin

/-- The function `fileread(f, addr, n)`: the `int` result and the region at `addr`. -/
def fileread (f : Nat) (dst : Mem) (n : Int) : K (Int × Mem) := do
  let s ← getK
  if (s.file f).readable = 0 then pure (-1, dst)
  else if (s.file f).type = FD_INODE ∨ (s.file f).type = FD_DEVICE then
    match (s.file f).ip with
    | some ip =>
      ilock ip
      let (r, dst1) ← readi ip dst (s.file f).off (toU32 n)
      if r > 0 then
        modifyK (fun t => t.setFile f { t.file f with off := ((t.file f).off + r.toNat) % U32 })
      else pure ()
      iunlock ip
      pure (r, dst1)
    | none => kspin
  else pure (-1, dst)

/-- The `while (tot < n)` loop of `filewrite`, with `src` the region at `addr`. -/
def filewrite_loop (f : Nat) (src : Mem) (n : Int) : Nat → Int → K Int
  | 0, tot => pure (if tot = n then n else -1)
  | fuel + 1, tot =>
    if tot < n then do
      let n1 := if n - tot > (MAXOPBLOCKS * BSIZE : Nat) then ((MAXOPBLOCKS * BSIZE : Nat) : Int) else n - tot
      let s ← getK
      match (s.file f).ip with
      | some ip =>
        begin_op
        ilock ip
        let r ← writei ip (fun i => src (tot.toNat + i)) (s.file f).off (toU32 n1)
        if r > 0 then
          modifyK (fun t => t.setFile f { t.file f with off := ((t.file f).off + r.toNat) % U32 })
        else pure ()
        iunlock ip
        end_op
        if r < 0 then pure (-1)
        else if r = 0 then pure (if tot = n then n else -1)
        else filewrite_loop f src n fuel (tot + r)
      | none => kspin
    else pure (if tot = n then n else -1)

/-- The function `filewrite(f, addr, n)`. Every round that continues adds at
least one byte to `tot`, so `n` rounds are enough. -/
def filewrite (f : Nat) (src : Mem) (n : Int) : K Int := do
  let s ← getK
  if (s.file f).writable = 0 then pure (-1)
  else if (s.file f).type ≠ FD_INODE ∧ (s.file f).type ≠ FD_DEVICE then pure (-1)
  else filewrite_loop f src n (n.toNat + 1) 0

/-! ## System calls (`kernel/sysfile.c`) -/

/-- The function `argfd`: the open file behind descriptor `fd`, if any. -/
def argfd (s : Kernel) (fd : Int) : Option Nat :=
  if fd < 0 ∨ fd ≥ (NOFILE : Nat) then none else s.g_ofile fd.toNat

/-- The function `fdalloc(f)`: the descriptor, or `-1`. -/
def fdalloc (f : Nat) : K Int := fun s =>
  match (List.range NOFILE).find? (fun fd => (s.g_ofile fd).isNone) with
  | some fd => Res.ok (fd : Nat) { s with g_ofile := Function.update s.g_ofile fd (some f) }
  | none => Res.ok (-1) s

/-- The C string `"."`. -/
def dotName : Mem := fun i => if i = 0 then 46 else 0

/-- The C string `".."`. -/
def dotdotName : Mem := fun i => if i < 2 then 46 else 0

/-- The roll-back path shared by the two failing `dirlink` calls of `create`. -/
def create_rollback (ip dp : Nat) : K (Option Nat) := do
  iunlock ip
  modifyK (fun t => t.setInode ip { t.inode ip with nlink := 0 })
  iupdate ip
  iunlock dp
  iput ip
  iput dp
  pure none

/-- The function `create(path, type, major, minor)`: the locked inode, or
`none` for a null result. `ialloc` never returns null, so the test after it
is not reachable. -/
def create (path : List Nat) (type major minor : Nat) : K (Option Nat) := do
  let (dpo, name) ← nameiparent path zeroMem
  match dpo with
  | none => pure none
  | some dp =>
    ilock dp
    let found ← dirlookup dp name
    match found with
    | some (ip, _) =>
      iunlock dp
      iput dp
      ilock ip
      let s ← getK
      if type = T_FILE ∧ ((s.inode ip).type = T_FILE ∨ (s.inode ip).type = T_DEV) then
        pure (some ip)
      else
        iunlock ip
        iput ip
        pure none
    | none =>
      let s ← getK
      let ip ← ialloc (s.inode dp).dev type
      ilock ip
      modifyK (fun t => t.setInode ip { t.inode ip with major := major, minor := minor, nlink := 1 })
      iupdate ip
      let link_parent : K (Option Nat) := do
        let t ← getK
        let r ← dirlink dp name (t.inode ip).inum
        if r < 0 then create_rollback ip dp
        else
          iunlock dp
          iput dp
          pure (some ip)
      if type = T_DIR then
        modifyK (fun t => t.setInode dp { t.inode dp with nlink := ((t.inode dp).nlink + 1) % 65536 })
        iupdate dp
        let t ← getK
        let r1 ← dirlink ip dotName (t.inode ip).inum
        if r1 < 0 then create_rollback ip dp
        else
          let t1 ← getK
          let r2 ← dirlink ip dotdotName (t1.inode dp).inum
          if r2 < 0 then create_rollback ip dp
          else link_parent
      else link_parent

/-- The function `sys_dup()` with argument `fd`. -/
def sys_dup (fd : Int) : K Int := do
  let s ← getK
  match argfd s fd with
  | none => pure (-1)
  | some f =>
    let nfd ← fdalloc f
    if nfd < 0 then pure (-1)
    else
      let _ ← filedup f
      pure nfd

/-- The function `sys_read()` with arguments `fd`, the region at `buf` and `n`. -/
def sys_read (fd : Int) (dst : Mem) (n : Int) : K (Int × Mem) := do
  let s ← getK
  match argfd s fd with
  | none => pure (-1, dst)
  | some f => fileread f dst n

/-- The function `sys_write()` with arguments `fd`, the region at `buf` and `n`. -/
def sys_write (fd : Int) (src : Mem) (n : Int) : K Int := do
  let s ← getK
  match argfd s fd with
  | none => pure (-1)
  | some f => filewrite f src n

/-- The function `sys_close()` with argument `fd`. -/
def sys_close (fd : Int) : K Int := do
  let s ← getK
  match argfd s fd with
  | none => pure (-1)
  | some f =>
    modifyK (fun t => { t with g_ofile := Function.update t.g_ofile fd.toNat none })
    fileclose f
    pure 0

/-- The function `sys_fstat()` with argument `fd`. -/
def sys_fstat (fd : Int) : K (Int × Option Stat) := do
  let s ← getK
  match argfd s fd with
  | none => pure (-1, none)
  | some f => filestat f

/-- The function `sys_open()` with a non-null `path` argument and `omode`;
`argstr` keeps the first `MAXPATH - 1` bytes of the path. -/
def sys_open (upath : List Nat) (omode : Nat) : K Int := do
  let path := upath.take (MAXPATH - 1)
  begin_op
  let ipo ← (if omode &&& 0x200 ≠ 0 then create path T_FILE 0 0
    else do
      let r ← namei path
      match r with
      | none => pure none
      | some ip =>
        ilock ip
        let s ← getK
        if (s.inode ip).type = T_DIR ∧ omode ≠ O_RDONLY then
          iunlock ip
          iput ip
          pure none
        else pure (some ip) : K (Option Nat))
  match ipo with
  | none =>
    end_op
    pure (-1)
  | some ip =>
    let fo ← filealloc
    match fo with
    | none =>
      iunlock ip
      iput ip
      end_op
      pure (-1)
    | some f =>
      let fd ← fdalloc f
      if fd < 0 then
        fileclose f
        iunlock ip
        iput ip
        end_op
        pure (-1)
      else
        modifyK (fun t => t.setFile f { t.file f with
          type := FD_INODE, ip := some ip, off := 0,
          readable := if omode &&& O_WRONLY ≠ 0 then 0 else 1,
          writable := if omode &&& O_WRONLY ≠ 0 ∨ omode &&& O_RDWR ≠ 0 then 1 else 0 })
        let s ← getK
        if omode &&& O_TRUNC ≠ 0 ∧ (s.inode ip).type = T_FILE then itrunc ip else pure ()
        iunlock ip
        end_op
        pure fd

/-! ## Initialisation (`virtio_disk_init`, `binit`, `iinit`, `fs_init`) -/

/-- The bitmap loop of `virtio_disk_init`: marks blocks `bno .. data_start-1`. -/
def mkfs_bits (data_start : Nat) : Nat → Nat → Mem → Mem
  | 0, _, bits => bits
  | fuel + 1, bno, bits =>
    if bno < data_start then
      let bi := bno % BPB
      mkfs_bits data_start fuel (bno + 1)
        (Function.update bits (bi / 8) ((bits (bi / 8) % 256) ||| ((1 <<< (bi % 8)) % 256)))
    else bits

/-- The superblock that `virtio_disk_init` computes. -/
def mkfs_sb : Superblock :=
  let nlog := LOGSIZE
  let logstart := 2
  let ninodes := 200
  let ninodeblocks := (ninodes + IPB - 1) / IPB
  let inodestart := logstart + nlog
  let bmapstart := inodestart + ninodeblocks
  let nbitmapblocks := (FSSIZE + BPB - 1) / BPB
  let data_start := bmapstart + nbitmapblocks
  { magic := FSMAGIC, size := FSSIZE, nlog := nlog, logstart := logstart, ninodes := ninodes,
    inodestart := inodestart, bmapstart := bmapstart, nblocks := FSSIZE - data_start }

/-- The bytes of a `struct superblock`, stored from offset 0 of `m`. -/
def sb_image (sb : Superblock) (m : Mem) : Mem :=
  wr32 (wr32 (wr32 (wr32 (wr32 (wr32 (wr32 (wr32 m 0 sb.magic) 4 sb.size) 8 sb.nblocks)
    12 sb.ninodes) 16 sb.nlog) 20 sb.logstart) 24 sb.inodestart) 28 sb.bmapstart

/-- The function `virtio_disk_init()`. -/
def virtio_disk_init : K Unit := modifyK (fun s =>
  let sb := mkfs_sb
  let data_start := sb.bmapstart + (sb.size + BPB - 1) / BPB
  let d0 : Nat → Mem := fun _ => zeroMem
  let d1 := Function.update d0 1 (sb_image sb (d0 1))
  let d2 := Function.update d1 sb.bmapstart (mkfs_bits data_start data_start 0 (d1 sb.bmapstart))
  { s with ramdisk := d2 })

/-- The function `binit()`: every buffer is cleared and pushed at the head of
the list, so the list ends with `buf[0]`. -/
def binit : K Unit := do
  modifyK (fun s => { s with
    buf := fun i => if i < NBUF then
        { s.buf i with valid := 0, disk := 0, dev := 0, blockno := 0, refcnt := 0, locked := 0 }
      else s.buf i,
    lru := (List.range NBUF).reverse })
  virtio_disk_init

/-- The function `iinit()`. -/
def iinit : K Unit := modifyK (fun s => { s with
  inode := fun i => if i < NINODE then { s.inode i with ref := 0, valid := 0, locked := 0 }
    else s.inode i })

/-- The function `readsb(dev, &sb)`. -/
def readsb (dev : Nat) : K Unit := do
  let b ← bread dev 1
  let s ← getK
  let d := (s.buf b).data
  modifyK (fun t => { t with sb :=
    { magic := rd32 d 0, size := rd32 d 4, nblocks := rd32 d 8, ninodes := rd32 d 12,
      nlog := rd32 d 16, logstart := rd32 d 20, inodestart := rd32 d 24, bmapstart := rd32 d 28 } })
  brelse b

/-- The two entries `"."` and `".."` that `fs_init` writes into the root
directory block, the remaining entries being cleared. -/
def root_dir_block (d : Mem) : Mem :=
  let e0 := Function.update (Function.update (wr16 (memset_local d 0 0 DIRENT_SIZE) 0 ROOTINO) 2 46) 3 0
  let e1 := Function.update (Function.update (Function.update
    (wr16 (memset_local e0 DIRENT_SIZE 0 DIRENT_SIZE) DIRENT_SIZE ROOTINO)
    (DIRENT_SIZE + 2) 46) (DIRENT_SIZE + 3) 46) (DIRENT_SIZE + 4) 0
  memset_local e1 (2 * DIRENT_SIZE) 0 (BSIZE - 2 * DIRENT_SIZE)

/-- The function `fs_init(dev)`. -/
def fs_init (dev : Nat) : K Unit := do
  binit
  readsb dev
  let s ← getK
  if s.sb.magic ≠ FSMAGIC then kpanic PanicSite.fs_init_bad_magic
  else
    iinit
    initlog dev
    let b ← bread dev (IBLOCK ROOTINO s.sb)
    let s1 ← getK
    let o := dinodeOff ROOTINO
    if rd16 (s1.buf b).data o = T_UNUSED then
      setData b (wr32 (wr16 (wr16 (wr16 (wr16 (memset_local (s1.buf b).data o 0 DINODE_SIZE)
        o T_DIR) (o + 2) 0) (o + 4) 0) (o + 6) 1) (o + 8) (2 * DIRENT_SIZE))
      let bno ← balloc dev
      let s2 ← getK
      setData b (wr32 (s2.buf b).data (o + 12) bno)
      bwrite b
      brelse b
      let bdata ← bread dev bno
      let s3 ← getK
      setData bdata (root_dir_block (s3.buf bdata).data)
      bwrite bdata
      brelse bdata
    else brelse b

/-- The machine before `fs_init`: zero-initialised globals, an empty list. -/
def boot : Kernel :=
  { ramdisk := fun _ => zeroMem
    buf := fun _ => { valid := 0, disk := 0, dev := 0, blockno := 0, locked := 0, refcnt := 0,
                      data := zeroMem }
    lru := []
    sb := { magic := 0, size := 0, nblocks := 0, ninodes := 0, nlog := 0, logstart := 0,
            inodestart := 0, bmapstart := 0 }
    log := { start := 0, size := 0, outstanding := 0, committing := 0, dev := 0,
             lh := { n := 0, block := fun _ => 0 } }
    inode := fun _ => { dev := 0, inum := 0, ref := 0, locked := 0, valid := 0, type := 0,
                        major := 0, minor := 0, nlink := 0, size := 0, addrs := fun _ => 0 }
    file := fun _ => { type := 0, ref := 0, readable := 0, writable := 0, ip := none, off := 0 }
    g_ofile := fun _ => none }

/-! ## Invariants of the buffer cache -/


/-- Buffer `i` is bound to block `b` of the root device. -/
def Kernel.bound (s : Kernel) (i b : Nat) : Prop :=
  (s.buf i).dev = ROOTDEV ∧ (s.buf i).blockno = b

/-- The buffer bound to block `b`, as `bget` finds it. -/
def Kernel.lookup (s : Kernel) (b : Nat) : Option Nat :=
  s.lru.find? (fun i => (s.buf i).dev == ROOTDEV && (s.buf i).blockno == b)

/-- The content of block `b` as `bread` delivers it: the cached copy if there
is one, the device block otherwise. -/
def Kernel.view (s : Kernel) (b : Nat) : Mem :=
  match s.lookup b with
  | some i => (s.buf i).data
  | none => s.ramdisk b

/-- The buffer that `bget` recycles on a miss: the last one in the list with
`refcnt == 0`. -/
def Kernel.victim (s : Kernel) : Option Nat :=
  s.lru.reverse.find? (fun i => (s.buf i).refcnt == 0)

/-- Structural invariant of the buffer cache. -/
structure CacheOK (s : Kernel) : Prop where
  nodup : s.lru.Nodup
  valid_of_bound : ∀ i ∈ s.lru, (s.buf i).dev = ROOTDEV → (s.buf i).valid ≠ 0
  free_of_unbound : ∀ i ∈ s.lru, (s.buf i).dev ≠ ROOTDEV → (s.buf i).refcnt = 0
  uniq : ∀ i ∈ s.lru, ∀ j ∈ s.lru, (s.buf i).dev = ROOTDEV → (s.buf j).dev = ROOTDEV →
    (s.buf i).blockno = (s.buf j).blockno → i = j
  lock : ∀ i ∈ s.lru, (s.buf i).locked = (s.buf i).refcnt ∧ (s.buf i).refcnt ≤ 1
  range : ∀ i ∈ s.lru, (s.buf i).dev = ROOTDEV → (s.buf i).blockno < FSSIZE


/-- Buffer `h` is held by the caller and bound to block `b`. -/
def Kernel.held (s : Kernel) (h b : Nat) : Prop :=
  h ∈ s.lru ∧ s.bound h b ∧ (s.buf h).refcnt = 1

/-- The parts of the state outside the buffer cache and the device agree. -/
structure Rest (s t : Kernel) : Prop where
  sb : t.sb = s.sb
  log : t.log = s.log
  inode : t.inode = s.inode
  file : t.file = s.file
  g_ofile : t.g_ofile = s.g_ofile

/-- The state after `brelse(h)` of a buffer with `refcnt == 1`. -/
def Kernel.release (s : Kernel) (h : Nat) : Kernel :=
  { s.setBuf h { s.buf h with locked := 0, refcnt := 0 } with lru := h :: s.lru.erase h }

/-- The buffer `v` after `bread` has recycled it for block `b`. -/
def Kernel.missBuf (s : Kernel) (v b : Nat) : Buf :=
  { s.buf v with dev := ROOTDEV, blockno := b, valid := 1, disk := 0, refcnt := 1, locked := 1,
                 data := s.ramdisk b }

/-- The state after a store of `d` into the payload of buffer `h`. -/
def Kernel.store (s : Kernel) (h : Nat) (d : Mem) : Kernel :=
  s.setBuf h { s.buf h with data := d }

/-- The state after the device write of buffer `h`. -/
def Kernel.flush (s : Kernel) (h : Nat) : Kernel :=
  { s with ramdisk := Function.update s.ramdisk (s.buf h).blockno (s.buf h).data }


/-- Buffer `i` is bound to a block of the set `T`. -/
def Kernel.inT (s : Kernel) (T : Set Nat) (i : Nat) : Prop :=
  (s.buf i).dev = ROOTDEV ∧ (s.buf i).blockno ∈ T

/-- Recency discipline of the cache for the blocks `T` touched since the last
point at which every buffer was released and equal to the device: the blocks
of `T` are cached, every pinned or modified buffer belongs to `T`, every
released buffer of `T` sits in the list before every buffer outside `T`, and
at least `m` buffers outside `T` remain (they are the ones `bget` recycles). -/
structure Epoch (s : Kernel) (T : Set Nat) (m : Nat) : Prop where
  cached : ∀ b ∈ T, ∃ i ∈ s.lru, s.bound i b
  hot : ∀ i ∈ s.lru, (s.buf i).dev = ROOTDEV →
    ((s.buf i).refcnt ≠ 0 ∨ (s.buf i).data ≠ s.ramdisk (s.buf i).blockno) →
    (s.buf i).blockno ∈ T
  split : ∃ A B F : List Nat, s.lru = A ++ B ∧ (∀ i ∈ A, s.inT T i) ∧
    (∀ i ∈ B, s.inT T i → (s.buf i).refcnt ≠ 0) ∧
    F.Nodup ∧ m ≤ F.length ∧ ∀ i ∈ F, i ∈ B ∧ ¬ s.inT T i

/-- Cache invariant together with the recency discipline. -/
structure CI (s : Kernel) (T : Set Nat) (m : Nat) : Prop where
  ok : CacheOK s
  ep : Epoch s T m


/-- What `bread` of block `b` establishes: the returned buffer `h` was
released before, is now pinned to `b` and holds the view of `b`; nothing else
changes. -/
structure BreadPost (s : Kernel) (T : Set Nat) (m b h : Nat) (s1 : Kernel) : Prop where
  ci : CI s1 (insert b T) (m - 1)
  ci_in : b ∈ T → CI s1 T m
  held : s1.held h b
  data : (s1.buf h).data = s.view b
  view : s1.view = s.view
  others : ∀ j, j ≠ h → s1.buf j = s.buf j
  was_free : (s.buf h).refcnt = 0
  mem : h ∈ s.lru
  lru : s1.lru = s.lru
  disk : s1.ramdisk = s.ramdisk
  rest : Rest s s1
  /-- A buffer that was bound to `b` is the one returned, with its data. -/
  same : ∀ j ∈ s.lru, s.bound j b → j = h ∧ (s1.buf h).data = (s.buf j).data
  /-- On a miss the data comes from the device. -/
  fresh : (∀ j ∈ s.lru, ¬ s.bound j b) → (s1.buf h).data = s.ramdisk b

/-! ## Invariant of the log and of the file-system layer -/


/-- Block `c` is recorded in the in-memory log header. -/
def Kernel.logged (s : Kernel) (c : Nat) : Prop :=
  ∃ k, k < s.log.lh.n ∧ s.log.lh.block k = c

/-- The device block holding the payload of log entry `k`. -/
def Kernel.slot (s : Kernel) (k : Nat) : Nat := s.log.start + 1 + k

/-- First block of the file-system proper (inodes, bitmap, data): the log
region of the formatted volume ends just before it. -/
def FSSTART : Nat := 32

/-- Invariant tying the log to the cache, for the blocks `T` of the current
epoch: the header stays inside the payload slots of the log region, lists
distinct file-system blocks, the listed blocks and their slots are cached, a
released buffer of a listed block equals its log slot, and every other
released buffer equals the device. -/
structure LogOK (s : Kernel) (T : Set Nat) : Prop where
  dev : s.log.dev = ROOTDEV
  start : s.log.start = 2
  size : s.log.size = LOGSIZE
  n_le : s.log.lh.n + 1 ≤ LOGSIZE
  idle : s.log.outstanding = 0 → s.log.lh.n = 0
  blk_range : ∀ k, k < s.log.lh.n → FSSTART ≤ s.log.lh.block k ∧ s.log.lh.block k < FSSIZE
  blk_inj : ∀ k, k < s.log.lh.n → ∀ k', k' < s.log.lh.n →
    s.log.lh.block k = s.log.lh.block k' → k = k'
  blk_T : ∀ k, k < s.log.lh.n → s.log.lh.block k ∈ T
  slot_T : ∀ k, k < s.log.lh.n → s.slot k ∈ T
  logged_ok : ∀ k, k < s.log.lh.n → ∀ j ∈ s.lru, s.bound j (s.log.lh.block k) →
    (s.buf j).refcnt = 0 → (s.buf j).data = s.ramdisk (s.slot k)
  unlogged_clean : ∀ j ∈ s.lru, (s.buf j).dev = ROOTDEV → (s.buf j).refcnt = 0 →
    ¬ s.logged (s.buf j).blockno → (s.buf j).data = s.ramdisk (s.buf j).blockno
  low_free : ∀ j ∈ s.lru, (s.buf j).dev = ROOTDEV → (s.buf j).blockno < FSSTART →
    (s.buf j).refcnt = 0

/-- The invariant under which the file-system code runs. -/
structure FSInv (s : Kernel) (T : Set Nat) (m : Nat) : Prop where
  ci : CI s T m
  lg : LogOK s T
  sb : s.sb = mkfs_sb

/-- The pinned buffer `h` may be released: its data is in its log slot if its
block is listed in the header, on the device otherwise. -/
structure Kernel.synced (s : Kernel) (h : Nat) : Prop where
  slot : ∀ k, k < s.log.lh.n → s.log.lh.block k = (s.buf h).blockno →
    (s.buf h).data = s.ramdisk (s.slot k)
  dev : ¬ s.logged (s.buf h).blockno → (s.buf h).data = s.ramdisk (s.buf h).blockno

/-- Pinned buffers keep their binding and their data. -/
def HeldEq (s t : Kernel) : Prop :=
  ∀ j b, s.held j b → t.held j b ∧ (t.buf j).data = (s.buf j).data

/-- No pinned buffer is bound to block `c`. -/
def Kernel.unheld (s : Kernel) (c : Nat) : Prop :=
  ∀ i ∈ s.lru, s.bound i c → (s.buf i).refcnt = 0

/-- The state outside cache, device and log header agrees. -/
structure RestL (s t : Kernel) : Prop where
  sb : t.sb = s.sb
  inode : t.inode = s.inode
  file : t.file = s.file
  g_ofile : t.g_ofile = s.g_ofile
  outstanding : t.log.outstanding = s.log.outstanding
  committing : t.log.committing = s.log.committing

/-- What `bread` establishes under the file-system invariant. -/
structure FsBreadPost (s : Kernel) (T : Set Nat) (m b h : Nat) (s1 : Kernel) : Prop where
  inv : FSInv s1 (insert b T) (m - 1)
  inv_in : b ∈ T → FSInv s1 T m
  held : s1.held h b
  data : (s1.buf h).data = s.view b
  view : s1.view = s.view
  synced : s1.synced h
  heldEq : HeldEq s s1
  disk : s1.ramdisk = s.ramdisk
  rest : Rest s s1
  others : ∀ j, j ≠ h → s1.buf j = s.buf j
  lru : s1.lru = s.lru
  was_free : (s.buf h).refcnt = 0

/-- What `bwrite` of the pinned buffer `h` (bound to `X`) establishes. -/
structure BwritePost (s : Kernel) (T : Set Nat) (m h X : Nat) (s1 : Kernel) (T1 : Set Nat)
    (m1 : Nat) : Prop where
  inv : FSInv s1 T1 m1
  sub : T ⊆ T1
  bud : m ≤ m1 + 1
  tight : s.log.outstanding = 0 ∨ s.logged X → T1 = T ∧ m1 = m ∧ s1.log = s.log
  n_le : s1.log.lh.n ≤ s.log.lh.n + 1
  logged : s.log.outstanding ≠ 0 → s1.logged X
  logged_mono : ∀ c, s.logged c → s1.logged c
  synced : s1.synced h
  view : ∀ c, FSSTART ≤ c → s1.view c = s.view c
  heldEq : HeldEq s s1
  rest : RestL s s1
  unheld : ∀ c, s.unheld c → s1.unheld c
  mem : ∀ j, j ∈ s1.lru ↔ j ∈ s.lru
  fresh : s.log.outstanding ≠ 0 → ¬ s.logged X →
    s1.log.lh.n = s.log.lh.n + 1 ∧
    s1.log.lh.block = Function.update s.log.lh.block s.log.lh.n X
  disk : s.log.outstanding ≠ 0 → ∃ k, k < s1.log.lh.n ∧ s1.log.lh.block k = X ∧
    s1.ramdisk = Function.update s.ramdisk (s.slot k) (s.buf h).data

/-- The state of `log_write` after a new entry for block `X` has been added
to the in-memory header. -/
def Kernel.logPush (s : Kernel) (X : Nat) : Kernel :=
  { s with log := { s.log with lh :=
      { n := s.log.lh.n + 1, block := Function.update s.log.lh.block s.log.lh.n X } } }
/-- The bitmap block of the formatted volume. -/
def BMAPBLOCK : Nat := 36
/-- First data block of the formatted volume. -/
def DATASTART : Nat := 37

/-- The bitmap byte after `bits[byte_index] |= mask`. -/
def set_bit (bits : Mem) (bi : Nat) : Mem :=
  Function.update bits (bi / 8) ((bits (bi / 8) % 256) ||| bitmask bi)

/-- The bitmap byte after `bits[byte_index] &= ~mask`. -/
def clear_bit (bits : Mem) (bi : Nat) : Mem :=
  Function.update bits (bi / 8) ((bits (bi / 8) % 256) &&& (255 - bitmask bi))

/-- Block `c` can be read and written again at no cost: it is cached in the
current epoch and, inside a transaction, already listed in the log header. -/
def Kernel.warm (s : Kernel) (T : Set Nat) (c : Nat) : Prop :=
  c ∈ T ∧ (s.log.outstanding = 0 ∨ s.logged c)

/-- Summary of a file-system step that releases every buffer it pins: the
invariant is kept, at most `c` buffers of the reserve and `ln` log entries
are used. -/
structure Step (s : Kernel) (T : Set Nat) (m : Nat) (s1 : Kernel) (T1 : Set Nat) (m1 : Nat)
    (c ln : Nat) : Prop where
  inv : FSInv s1 T1 m1
  sub : T ⊆ T1
  bud : m ≤ m1 + c
  n_le : s1.log.lh.n ≤ s.log.lh.n + ln
  warm : ∀ x, s.warm T x → s1.warm T1 x
  heldEq : HeldEq s s1
  unheld : ∀ x, s.unheld x → s1.unheld x
  rest : RestL s s1
  mem : ∀ j, j ∈ s1.lru ↔ j ∈ s.lru


/-- The device content that `virtio_disk_init` builds. -/
def mkfs_disk : Nat → Mem :=
  match virtio_disk_init boot with
  | Res.ok _ s => s.ramdisk
  | Res.fail _ => boot.ramdisk

/-- A mounted volume with device content `disk` and an empty buffer cache (the
list in the order `binit` builds it), `outstanding` operations open and an
empty log header. -/
def cold (disk : Nat → Mem) (outstanding : Nat) : Kernel :=
  { boot with
    ramdisk := disk
    lru := (List.range NBUF).reverse
    sb := mkfs_sb
    log := { start := 2, size := LOGSIZE, outstanding := outstanding, committing := 0,
             dev := ROOTDEV, lh := { n := 0, block := fun _ => 0 } } }


/-- What one call of a scripted sequence did: the state it started from and
the block number that `balloc` returned or that was passed to `bfree`. -/
inductive AllocEv where
  | allocated (pre : Kernel) (a : Nat) : AllocEv
  | freed (pre : Kernel) (b : Nat) : AllocEv

/-- The block number of a recorded call. -/
def AllocEv.block : AllocEv → Nat
  | AllocEv.allocated _ a => a
  | AllocEv.freed _ b => b

/-- The device address of file block `bn` of the cached inode `ip`, as `bmap`
without allocation finds it (0 when the block is not mapped). -/
def Kernel.baddr (s : Kernel) (ip bn : Nat) : Nat :=
  if bn < NDIRECT then (s.inode ip).addrs bn
  else if (s.inode ip).addrs NDIRECT = 0 then 0
  else rd32 (s.view ((s.inode ip).addrs NDIRECT)) (4 * (bn - NDIRECT))

/-- Byte `p` of the file of inode `ip`. -/
def Kernel.fbyte (s : Kernel) (ip p : Nat) : Nat :=
  s.view (s.baddr ip (p / BSIZE)) (p % BSIZE)

/-- The cached inode `ip` describes a file whose blocks below its size are
mapped to blocks of the file-system area. -/
structure Readable (s : Kernel) (ip : Nat) : Prop where
  dev : (s.inode ip).dev = ROOTDEV
  size_le : (s.inode ip).size ≤ MAXFILE * BSIZE
  ind : NDIRECT * BSIZE < (s.inode ip).size →
    FSSTART ≤ (s.inode ip).addrs NDIRECT ∧ (s.inode ip).addrs NDIRECT < FSSIZE
  map : ∀ bn, bn * BSIZE < (s.inode ip).size →
    FSSTART ≤ s.baddr ip bn ∧ s.baddr ip bn < FSSIZE

/-- The cache at a clean point: no operation is open and the epoch is the
empty one, with the whole cache in reserve. -/
def Calm (s : Kernel) (T : Set Nat) (m : Nat) : Prop :=
  T = ∅ ∧ m = s.lru.length ∧ s.log.outstanding = 0

/-- Number of blocks that the loop of `readi` or `writei` still has to visit
when `tot` of the `n` bytes from offset `o` are done. -/
def blocks_left (o n tot : Nat) : Nat :=
  if tot < n then (o + n + BSIZE - 1) / BSIZE - (o + tot) / BSIZE else 0

/-- A device on which blocks 40 and 41 hold recognisable bytes. -/
def demo_file_disk : Nat → Mem :=
  Function.update (Function.update mkfs_disk 40 (fun i => i % 251)) 41 (fun i => (7 * i + 3) % 256)

/-- A mounted volume with an empty cache whose inode slot 0 holds a file of
5000 bytes mapped to blocks 40 and 41. -/
def demo_file : Kernel :=
  (cold demo_file_disk 0).setInode 0
    { dev := ROOTDEV, inum := 2, ref := 1, locked := 1, valid := 1, type := T_FILE, major := 0,
      minor := 0, nlink := 1, size := 5000,
      addrs := fun i => if i = 0 then 40 else if i = 1 then 41 else 0 }

/-- The field `inum` of the directory entry at byte offset `off` of `dp`. -/
def Kernel.de_inum (s : Kernel) (dp off : Nat) : Nat :=
  s.fbyte dp off % 256 + 256 * (s.fbyte dp (off + 1) % 256)

/-- The directory entry at byte offset `off` of `dp` carries the name `name`
(as `namecmp` compares names). -/
def Kernel.de_named (s : Kernel) (dp off : Nat) (name : Mem) : Prop :=
  namecmp name (fun i => s.fbyte dp (off + 2 + i)) = 0

/-- Blocks of a directory that a scan from entry `e` to entry `e0` has not
started yet. -/
def dir_blocks_left (e e0 : Nat) : Nat :=
  (DIRENT_SIZE * e0) / BSIZE + 1 - (DIRENT_SIZE * e + BSIZE - 1) / BSIZE

/-- Budget of a scan of directory `dp` that is at entry `e` and reads entries
up to `e0`: either the cache is at a clean point, or the block of the current
entry is cached when the scan is inside it and the reserve covers the blocks
not started yet, plus `ki` for the indirect block. -/
def ScanRoom (s : Kernel) (T : Set Nat) (m dp ki e e0 : Nat) : Prop :=
  (Calm s T m ∧ 2 ≤ m) ∨
  (((s.inode dp).addrs NDIRECT ∈ T ∨ 1 ≤ ki) ∧
    ((DIRENT_SIZE * e) % BSIZE ≠ 0 → s.baddr dp (DIRENT_SIZE * e / BSIZE) ∈ T) ∧
    dir_blocks_left e e0 + ki ≤ m)

/-- The buffer `de` after `readi` has filled it with the entry at `off`. -/
def Kernel.de_at (s : Kernel) (dp off : Nat) (de : Mem) : Mem :=
  fun i => if i < DIRENT_SIZE then s.fbyte dp (off + i) else de i

/-- The entry at index `e` of directory `dp` is in use and carries `name`. -/
def Kernel.de_hit (s : Kernel) (dp : Nat) (name : Mem) (e : Nat) : Prop :=
  s.de_inum dp (DIRENT_SIZE * e) ≠ 0 ∧ s.de_named dp (DIRENT_SIZE * e) name

/-- A device whose block 37 holds the two entries `"."` and `".."` of a root
directory, as `fs_init` writes them. -/
def demo_dir_disk : Nat → Mem :=
  Function.update mkfs_disk 37 (root_dir_block zeroMem)

/-- A mounted volume with an empty cache whose inode slot 0 holds the root
directory: two entries in block 37. -/
def demo_dir : Kernel :=
  (cold demo_dir_disk 0).setInode 0
    { dev := ROOTDEV, inum := ROOTINO, ref := 1, locked := 1, valid := 1, type := T_DIR,
      major := 0, minor := 0, nlink := 1, size := 2 * DIRENT_SIZE,
      addrs := fun i => if i = 0 then 37 else 0 }

/-- The C string `"a"`. -/
def demo_name : Mem := fun i => if i = 0 then 97 else 0

/-- One staged write as the file system does it: `bread`, a store of `d`
into the buffer, `bwrite` (which calls `log_write`), `brelse`. -/
def stage (bno : Nat) (d : Mem) : K Unit := do
  let b ← bread ROOTDEV bno
  setData b d
  bwrite b
  brelse b

/-- Stages the listed blocks in order; block `b` is filled with the byte
`b % 256`, so that its payload is recognisable. -/
def stageAll : List Nat → K Unit
  | [] => pure ()
  | b :: bs => do stage b (fun _ => b % 256); stageAll bs

/-- Thirty distinct data blocks, 40 .. 69. -/
def blocks30 : List Nat := (List.range 30).map (fun i => i + 40)

/-- Observation of a run: the listed values of its final state. -/
def observe {α : Type} (r : Res α) (f : Kernel → List Nat) : Option (List Nat) :=
  match r with
  | Res.ok _ s => some (f s)
  | Res.fail _ => none

/-- The failure of a run, if it failed. -/
def failure {α : Type} (r : Res α) : Option Fault :=
  match r with
  | Res.ok _ _ => none
  | Res.fail e => some e

/-- The state after `bread(ROOTDEV, b)` on the empty cache of `cold disk o`:
buffer 0, the last of the list, is pinned to block `b`. -/
def warmed (disk : Nat → Mem) (o b : Nat) : Kernel :=
  (cold disk o).setBuf 0 ((cold disk o).missBuf 0 b)

/-- The state `warmed disk o b` after `bwrite` has set the `disk` flag of the
pinned buffer. -/
def flagged (disk : Nat → Mem) (o b : Nat) : Kernel :=
  (warmed disk o b).setBuf 0 { (warmed disk o b).buf 0 with disk := 1 }

/-- The header image that `write_head` stores. -/
def head_image (s : Kernel) : Mem :=
  write_head_loop s.log.lh s.log.lh.n (wr32 (s.view s.log.start) 0 s.log.lh.n)

/-- The state of the log and of the cache while `commit` runs, with entries
`0 .. i-1` installed: no buffer is pinned, every block outside the header
list reads as the device holds it, the listed blocks not yet installed read
as their log slots, the installed ones as their own device block. -/
structure Commit (s : Kernel) (T : Set Nat) (i : Nat) : Prop where
  dev : s.log.dev = ROOTDEV
  start : s.log.start = 2
  n_le : s.log.lh.n + 1 ≤ LOGSIZE
  blk_range : ∀ k, k < s.log.lh.n → FSSTART ≤ s.log.lh.block k ∧ s.log.lh.block k < FSSIZE
  blk_inj : ∀ k, k < s.log.lh.n → ∀ k', k' < s.log.lh.n →
    s.log.lh.block k = s.log.lh.block k' → k = k'
  blk_T : ∀ k, k < s.log.lh.n → s.log.lh.block k ∈ T
  slot_T : ∀ k, k < s.log.lh.n → s.slot k ∈ T
  free : ∀ x, s.unheld x
  clean : ∀ c, ¬ s.logged c → s.view c = s.ramdisk c
  pending : ∀ k, i ≤ k → k < s.log.lh.n → s.view (s.log.lh.block k) = s.ramdisk (s.slot k)
  installed : ∀ k, k < i → k < s.log.lh.n →
    s.view (s.log.lh.block k) = s.ramdisk (s.log.lh.block k)

/-- What `commit` leaves unchanged. -/
structure RestC (s t : Kernel) : Prop where
  sb : t.sb = s.sb
  inode : t.inode = s.inode
  file : t.file = s.file
  g_ofile : t.g_ofile = s.g_ofile
  dev : t.log.dev = s.log.dev
  start : t.log.start = s.log.start
  size : t.log.size = s.log.size
  outstanding : t.log.outstanding = s.log.outstanding
  committing : t.log.committing = s.log.committing

/-- The state in which `end_op` calls `commit`. -/
def Kernel.closing (s : Kernel) : Kernel :=
  { s with log := { s.log with outstanding := s.log.outstanding - 1, committing := 1 } }

/-- The state that `end_op` returns when it has called `commit`. -/
def Kernel.closed (s : Kernel) : Kernel :=
  { s with log := { s.log with committing := 0 } }

/-- The components of a path, scanning left to right: `acc` holds the bytes of
the component being read, last byte first. -/
def comps : List Nat → List Nat → List (List Nat)
  | [], acc => if acc.isEmpty then [] else [acc.reverse]
  | c :: cs, acc =>
    if c = SLASH then (if acc.isEmpty then comps cs [] else acc.reverse :: comps cs [])
    else comps cs (c :: acc)

/-- The sequence of components of a path: its maximal runs of bytes other than `'/'`. -/
def components (path : List Nat) : List (List Nat) := comps path []

/-- The component buffer after `skipelem` has copied the component `c` into it:
at most `DIRSIZ` bytes of `c`, then a NUL. -/
def elem_of (c : List Nat) (elem : Mem) : Mem :=
  fun i => if i < min c.length DIRSIZ then c.getD i 0
    else if i = min c.length DIRSIZ then 0 else elem i

/-- The descriptor `fd` is open on the file-table entry `f`, which is readable
and refers to the cached inode `ip`; the inode is referenced, has been read
from the device and is not locked. -/
structure OpenRead (s : Kernel) (fd : Int) (f ip : Nat) : Prop where
  fd_open : argfd s fd = some f
  readable : (s.file f).readable ≠ 0
  type : (s.file f).type = FD_INODE
  ip_eq : (s.file f).ip = some ip
  fref : 1 ≤ (s.file f).ref
  iref : 1 ≤ (s.inode ip).ref
  unlocked : (s.inode ip).locked = 0
  valid : (s.inode ip).valid ≠ 0

/-- A mounted volume with an empty cache on which descriptor 0 is open for
reading, at offset 0, on a file of 5000 bytes mapped to blocks 40 and 41. -/
def demo_open : Kernel :=
  { cold demo_file_disk 0 with
    inode := Function.update (cold demo_file_disk 0).inode 0
      { dev := ROOTDEV, inum := 2, ref := 1, locked := 0, valid := 1, type := T_FILE, major := 0,
        minor := 0, nlink := 1, size := 5000,
        addrs := fun i => if i = 0 then 40 else if i = 1 then 41 else 0 }
    file := Function.update (cold demo_file_disk 0).file 0
      { type := FD_INODE, ref := 1, readable := 1, writable := 0, ip := some 0, off := 0 }
    g_ofile := Function.update (cold demo_file_disk 0).g_ofile 0 (some 0) }

/-- The part of `bmap` that goes through the indirect block `addr`: entry
`bn1` of it, allocated first when it is zero and `alloc` is set. -/
def bmap_rest (ip bn1 : Nat) (alloc : Bool) (addr : Nat) : K Nat := do
  let t ← getK
  let b ← bread (t.inode ip).dev addr
  let t1 ← getK
  let a := (t1.buf b).data
  if rd32 a (4 * bn1) = 0 ∧ alloc then
    let fresh ← balloc (t1.inode ip).dev
    let t2 ← getK
    setData b (wr32 (t2.buf b).data (4 * bn1) fresh)
    bwrite b
    let t3 ← getK
    let result := rd32 (t3.buf b).data (4 * bn1)
    brelse b
    pure result
  else
    brelse b
    pure (rd32 a (4 * bn1))

/-- Block `a` is the one that `balloc` hands out next: the lowest block whose
bitmap bit is clear, and a data block. -/
structure FirstFree (bm : Mem) (a : Nat) : Prop where
  lo : DATASTART ≤ a
  hi : a < FSSIZE
  clear : bit_clear bm a = true
  least : ∀ b, b < a → bit_clear bm b = false

/-- An empty file in inode-cache slot 0 of the freshly formatted volume,
inside an operation. -/
def demo_empty : Kernel :=
  (cold mkfs_disk 1).setInode 0
    { dev := ROOTDEV, inum := 2, ref := 1, locked := 1, valid := 1, type := T_FILE, major := 0,
      minor := 0, nlink := 1, size := 0, addrs := fun _ => 0 }

/-- No two referenced slots of the inode cache are bound to the same
`(dev, inum)`. -/
def InodeUniq (s : Kernel) : Prop :=
  ∀ i j, i < NINODE → j < NINODE → i ≠ j → (s.inode i).ref > 0 → (s.inode j).ref > 0 →
    ¬ ((s.inode i).dev = (s.inode j).dev ∧ (s.inode i).inum = (s.inode j).inum)

/-- A table of fifty empty slots except slot 3, which is bound to inode 7 of
device 1 with two references. -/
def demo_icache : Kernel :=
  boot.setInode 3 { boot.inode 3 with dev := 1, inum := 7, ref := 2, valid := 1 }

/-- A call of the buffer-cache interface. -/
inductive BioCall where
  | bread (dev blockno : Nat)
  | brelse (b : Nat)

/-- A state of the kernel together with the release history of the buffers:
`stamp b` is the time of the last `brelse` that dropped `refcnt` of buffer `b`
to 0, if there was one since `binit`; `now` counts the calls made. -/
structure BioHist where
  s : Kernel
  stamp : Nat → Option Nat
  now : Nat

/-- One call; `none` when the call does not return. `brelse` takes a buffer of
the cache, that is an index below `NBUF`. -/
def bio_call (c : BioCall) (g : BioHist) : Option BioHist :=
  match c with
  | BioCall.bread dev blockno =>
    match bread dev blockno g.s with
    | Res.ok _ s1 => some { g with s := s1, now := g.now + 1 }
    | Res.fail _ => none
  | BioCall.brelse b =>
    if b < NBUF then
      match brelse b g.s with
      | Res.ok _ s1 =>
        some { s := s1,
               stamp := if (s1.buf b).refcnt = 0 then Function.update g.stamp b (some g.now)
                 else g.stamp,
               now := g.now + 1 }
      | Res.fail _ => none
    else none

/-- A sequence of calls. -/
def bio_run : List BioCall → BioHist → Option BioHist
  | [], g => some g
  | c :: cs, g =>
    match bio_call c g with
    | some g1 => bio_run cs g1
    | none => none

/-- The state after `binit()`, with no buffer released yet. -/
def bio_init (s0 : Kernel) : BioHist :=
  match binit s0 with
  | Res.ok _ s => { s := s, stamp := fun _ => none, now := 0 }
  | Res.fail _ => { s := s0, stamp := fun _ => none, now := 0 }

/-- The states reachable from `binit` through returning `bread` and `brelse` calls. -/
def BioReach (g : BioHist) : Prop := ∃ s0 cs, bio_run cs (bio_init s0) = some g

/-- Buffer `i` is labelled with `(dev, blockno)`. -/
def Kernel.labelled (s : Kernel) (dev blockno : Nat) (i : Nat) : Bool :=
  (s.buf i).dev == dev && (s.buf i).blockno == blockno

/-- The release of `x` is at least as recent as that of `y`; a buffer never
released is older than every released one. -/
def newer (x y : Option Nat) : Prop :=
  y = none ∨ ∃ tx ty, x = some tx ∧ y = some ty ∧ ty < tx

/-- What holds in every state reachable from `binit`. -/
structure BioInv (g : BioHist) : Prop where
  nodup : g.s.lru.Nodup
  lt : ∀ b ∈ g.s.lru, b < NBUF
  all : ∀ b, b < NBUF → b ∈ g.s.lru
  lock : ∀ b ∈ g.s.lru, ((g.s.buf b).refcnt = 0 ∧ (g.s.buf b).locked = 0) ∨
    ((g.s.buf b).refcnt = 1 ∧ (g.s.buf b).locked = 1)
  first : ∀ b ∈ g.s.lru, (g.s.buf b).refcnt ≠ 0 →
    g.s.lru.find? (g.s.labelled (g.s.buf b).dev (g.s.buf b).blockno) = some b
  sorted : g.s.lru.Pairwise (fun a b => newer (g.stamp a) (g.stamp b))
  bound : ∀ b t, g.stamp b = some t → t < g.now

/-- Summary of a file-system step on the cache and the log, for steps that
may also change the inode cache or the file table. -/
structure CStep (s : Kernel) (T : Set Nat) (m : Nat) (s1 : Kernel) (T1 : Set Nat) (m1 : Nat)
    (c ln : Nat) : Prop where
  inv : FSInv s1 T1 m1
  sub : T ⊆ T1
  bud : m ≤ m1 + c
  n_le : s1.log.lh.n ≤ s.log.lh.n + ln
  warm : ∀ x, s.warm T x → s1.warm T1 x
  heldEq : HeldEq s s1
  unheld : ∀ x, s.unheld x → s1.unheld x
  sb : s1.sb = s.sb
  outstanding : s1.log.outstanding = s.log.outstanding
  committing : s1.log.committing = s.log.committing
  mem : ∀ j, j ∈ s1.lru ↔ j ∈ s.lru

/-- The C types of the metadata of a cached inode: `short` fields below
`2^16`, `uint32` fields below `2^32`. -/
structure Inode.typed (x : Inode) : Prop where
  type : x.type < 65536
  major : x.major < 65536
  minor : x.minor < 65536
  nlink : x.nlink < 65536
  size : x.size < U32
  addrs : ∀ k, k < NDIRECT + 1 → x.addrs k < U32

/-- The record of inode `inum` in the block `d` carries the metadata of `x`. -/
structure RecordIs (d : Mem) (inum : Nat) (x : Inode) : Prop where
  type : rd16 d (dinodeOff inum) = x.type % 65536
  major : rd16 d (dinodeOff inum + 2) = x.major % 65536
  minor : rd16 d (dinodeOff inum + 4) = x.minor % 65536
  nlink : rd16 d (dinodeOff inum + 6) = x.nlink % 65536
  size : rd32 d (dinodeOff inum + 8) = x.size % U32
  addrs : ∀ k, k < NDIRECT + 1 → rd32 d (dinodeOff inum + 12 + 4 * k) = x.addrs k % U32

/-- Byte `i` of the on-disk record of inode `inum`, as `bread` delivers it. -/
def Kernel.dinode (s : Kernel) (inum i : Nat) : Nat :=
  s.view (IBLOCK inum s.sb) (dinodeOff inum + i)

/-- The cached metadata of `y` is that of `x` reduced to the widths of the
on-disk fields. -/
structure LoadedFrom (y x : Inode) : Prop where
  type : y.type = x.type % 65536
  major : y.major = x.major % 65536
  minor : y.minor = x.minor % 65536
  nlink : y.nlink = x.nlink % 65536
  size : y.size = x.size % U32
  addrs : ∀ k, k < NDIRECT + 1 → y.addrs k = x.addrs k % U32

/-- The metadata of `y` and `x` agree. -/
structure SameMeta (y x : Inode) : Prop where
  type : y.type = x.type
  major : y.major = x.major
  minor : y.minor = x.minor
  nlink : y.nlink = x.nlink
  size : y.size = x.size
  addrs : ∀ k, k < NDIRECT + 1 → y.addrs k = x.addrs k

/-- A freshly formatted volume inside an operation; inode-cache slot 0 is
bound to inode 2, carries the metadata of a new file and is not valid. -/
def demo_stale : Kernel :=
  (cold mkfs_disk 1).setInode 0
    { dev := ROOTDEV, inum := 2, ref := 1, locked := 0, valid := 0, type := T_FILE, major := 0,
      minor := 0, nlink := 1, size := 0, addrs := fun _ => 0 }

/-- The record that `ialloc` writes: all zero except the type and one link. -/
def ialloc_image (d : Mem) (o type : Nat) : Mem :=
  wr16 (wr16 (memset_local d o 0 DINODE_SIZE) o type) (o + 6) 1

/-- The metadata of a record fresh from `ialloc`. -/
def fresh_meta (type : Nat) : Inode :=
  { dev := 0, inum := 0, ref := 0, locked := 0, valid := 0, type := type, major := 0, minor := 0,
    nlink := 1, size := 0, addrs := fun _ => 0 }

/-- The buffers that the scan of `ialloc` may still need from inode `inum`
on: one per inode block not yet visited. -/
def ScanBudget (T : Set Nat) (m inum extra : Nat) : Prop :=
  (IBLOCK inum mkfs_sb ∈ T ∧ (3 - inum / IPB) + extra ≤ m) ∨ (4 - inum / IPB) + extra ≤ m

/-- The type field of the on-disk record of inode `inum`. -/
def Kernel.dtype (s : Kernel) (inum : Nat) : Nat :=
  rd16 (s.view (IBLOCK inum s.sb)) (dinodeOff inum)

/-- A freshly formatted device on which the record of inode 1 is a directory
with one link, as `fs_init` leaves it. -/
def demo_root_disk : Nat → Mem :=
  Function.update mkfs_disk 32
    (wr16 (wr16 (mkfs_disk 32) (dinodeOff ROOTINO) T_DIR) (dinodeOff ROOTINO + 6) 1)

/-- A path of one component of `DIRSIZ` characters. -/
def path_long : List Nat := List.replicate DIRSIZ 97

def KLOG_NENTRY : Nat := 256
def KLOG_MAXMSG : Nat := 160
def KLOG_MAXTAG : Nat := 16
def KLOG_DEBUG : Int := 0
def KLOG_FATAL : Int := 4
def U64 : Nat := 2 ^ 64

/-- The `struct klog_entry` of `include/klog.h`. -/
structure KlogEntry where
  ts : Nat
  level : Nat
  tag : Mem
  msg : Mem

/-- The static state `ks` of `kernel/klog.c`. -/
structure Klog where
  inited : Nat
  level_threshold : Int
  console_on : Nat
  ring : Nat → KlogEntry
  head : Nat
  count : Nat
  total_written : Nat
  overwritten : Nat
  filtered : Nat

/-- The `struct klog_stats` of `include/klog.h`. -/
structure KlogStats where
  total_written : Nat
  overwritten : Nat
  filtered : Nat
  count : Nat

/-- The function `klog_init()`: the state is cleared, then marked initialised
with threshold `KLOG_DEBUG` and console output on. -/
def klog_init (_ : Klog) : Klog :=
  { inited := 1, level_threshold := KLOG_DEBUG, console_on := 1,
    ring := fun _ => { ts := 0, level := 0, tag := zeroMem, msg := zeroMem },
    head := 0, count := 0, total_written := 0, overwritten := 0, filtered := 0 }

/-- The guard `if (!ks.inited) klog_init();` that opens every entry point. -/
def klog_inited (k : Klog) : Klog := if k.inited = 0 then klog_init k else k

/-- The function `klog_clear()`. -/
def klog_clear (k : Klog) : Klog := { klog_inited k with head := 0, count := 0 }

/-- The function `klog_get_stats()`. -/
def klog_get_stats (k : Klog) : KlogStats :=
  let k1 := klog_inited k
  { total_written := k1.total_written, overwritten := k1.overwritten, filtered := k1.filtered,
    count := k1.count }

/-- The loop of `strncpy0`: the index at which it stops. -/
def strncpy0_len (src : Mem) (max : Nat) : Nat → Nat → Nat
  | 0, i => i
  | fuel + 1, i => if i + 1 < max ∧ src i % 256 ≠ 0 then strncpy0_len src max fuel (i + 1) else i

/-- The function `strncpy0(dst, src, max)`; `none` is a null `src`. -/
def strncpy0 (dst : Mem) (src : Option Mem) (max : Nat) : Mem :=
  if max = 0 then dst
  else match src with
    | none => Function.update dst 0 0
    | some s =>
      let n := strncpy0_len s max max 0
      fun i => if i < n then s i % 256 else if i = n then 0 else dst i

/-- The C string `"-"`. -/
def dashTag : Mem := fun i => if i = 0 then 45 else 0

/-- The function `klogf(level, tag, fmt, ...)`. The value of `r_time()` and
the text that `kvsnprintf_local` leaves in `e->msg` are inputs; the console
output is not part of the state. -/
def klogf (level : Int) (tag : Option Mem) (ts : Nat) (msg : Mem) (k0 : Klog) : Klog :=
  let k := klog_inited k0
  if level < k.level_threshold then { k with filtered := (k.filtered + 1) % U64 }
  else
    let idx := k.head
    let k1 : Klog :=
      if k.count = KLOG_NENTRY then { k with overwritten := (k.overwritten + 1) % U64 }
      else { k with count := (k.count + 1) % U32 }
    let k2 : Klog := { k1 with head := (k1.head + 1) % KLOG_NENTRY }
    let e : KlogEntry :=
      { ts := ts % U64, level := (level % 256).toNat,
        tag := strncpy0 (k2.ring idx).tag (some (tag.getD dashTag)) KLOG_MAXTAG, msg := msg }
    { k2 with ring := Function.update k2.ring idx e,
              total_written := (k2.total_written + 1) % U64 }

/-- One call of `klogf` with its inputs. -/
structure KlogCall where
  level : Int
  tag : Option Mem
  ts : Nat
  msg : Mem

/-- A sequence of `klogf` calls. -/
def klog_run (cs : List KlogCall) (k : Klog) : Klog :=
  cs.foldl (fun st c => klogf c.level c.tag c.ts c.msg st) k

/-- The calls of a sequence that pass the level threshold `thr`. -/
def klog_kept (thr : Int) (cs : List KlogCall) : Nat :=
  (cs.filter (fun c => decide (¬ c.level < thr))).length

/-- Reads and releases the listed blocks in order. -/
def readAll : List Nat → K Unit
  | [] => pure ()
  | b :: bs => do
    let h ← bread ROOTDEV b
    brelse h
    readAll bs

/-- The value that a run returns, if it returns. -/
def value {α : Type} (r : Res α) : Option α :=
  match r with
  | Res.ok a _ => some a
  | Res.fail _ => none

/-- Byte 0 of block `bno` as `bread` delivers it; the buffer is released. -/
def peek (bno : Nat) : K Nat := do
  let h ← bread ROOTDEV bno
  let s ← getK
  brelse h
  pure ((s.buf h).data 0)

/-- The blocks `100 .. 100 + n - 1`. -/
def blocksFrom100 (n : Nat) : List Nat := (List.range n).map (fun i => i + 100)

/-- A transaction on the freshly mounted volume that stages block 40 with
payload byte 7, reads and releases `n` other blocks and then looks at byte 0
of block 40. -/
def stage_then_read (n : Nat) : K Nat := do
  fs_init ROOTDEV
  begin_op
  stage 40 (fun _ => 7)
  readAll (blocksFrom100 n)
  peek 40

/-- The same transaction, closed by `end_op`. -/
def stage_read_commit (n : Nat) : K Unit := do
  let _ ← stage_then_read n
  end_op

/-- The constant `FSCK_MAXBLOCKS` of `fsck_lite`. -/
def FSCK_MAXBLOCKS : Nat := 4096

/-- The function `bitmap_isset(dev, bno)`. -/
def bitmap_isset (dev bno : Nat) : K Nat := do
  let s ← getK
  let b ← bread dev (BBLOCK bno s.sb)
  let s1 ← getK
  let bi := bno % BPB
  let ret := if ((s1.buf b).data (bi / 8) % 256) &&& bitmask bi ≠ 0 then 1 else 0
  brelse b
  pure ret

/-- The function `calc_datastart()`, in `uint32` arithmetic. -/
def calc_datastart (sb : Superblock) : Nat :=
  (sb.bmapstart + ((sb.size + BPB) % U32 + U32 - 1) % U32 / BPB) % U32

/-- The locals of `fsck_lite` that the nested function `check_addr` updates:
the static array `used` and the error counter. -/
structure Fsck where
  used : Nat → Nat
  errors : Int

/-- The nested function `check_addr(addr, what)` of `fsck_lite`. -/
def check_addr (dev limit datastart addr : Nat) (st : Fsck) : K Fsck :=
  if addr = 0 then pure st
  else if addr ≥ limit then pure { st with errors := st.errors + 1 }
  else if addr < datastart then pure { st with errors := st.errors + 1 }
  else if st.used addr ≠ 0 then pure { st with errors := st.errors + 1 }
  else do
    let st1 : Fsck := { st with used := Function.update st.used addr 1 }
    let r ← bitmap_isset dev addr
    if r = 0 then pure { st1 with errors := st1.errors + 1 } else pure st1

/-- The loop over the direct pointers of the record at offset `o` of the
buffer `b`, from index `i`. -/
def fsck_direct (dev limit datastart b o : Nat) : Nat → Nat → Fsck → K Fsck
  | 0, _, st => pure st
  | fuel + 1, i, st => do
    if i < NDIRECT then
      let s ← getK
      let st1 ← check_addr dev limit datastart (rd32 (s.buf b).data (o + 12 + 4 * i)) st
      fsck_direct dev limit datastart b o fuel (i + 1) st1
    else pure st

/-- The loop over the entries of the indirect block held in buffer `ib`,
from index `j`. -/
def fsck_indirect (dev limit datastart ib : Nat) : Nat → Nat → Fsck → K Fsck
  | 0, _, st => pure st
  | fuel + 1, j, st => do
    if j < NINDIRECT then
      let s ← getK
      let a := rd32 (s.buf ib).data (4 * j)
      if a ≠ 0 then
        let st1 ← check_addr dev limit datastart a st
        fsck_indirect dev limit datastart ib fuel (j + 1) st1
      else fsck_indirect dev limit datastart ib fuel (j + 1) st
    else pure st

/-- The loop of `fsck_lite` over the on-disk inodes, from number `inum`. -/
def fsck_inodes (dev limit datastart : Nat) : Nat → Nat → Fsck → K Fsck
  | 0, _, st => pure st
  | fuel + 1, inum, st => do
    let s ← getK
    if inum < s.sb.ninodes then
      let b ← bread dev (IBLOCK inum s.sb)
      let s1 ← getK
      let o := dinodeOff inum
      if rd16 (s1.buf b).data o = T_UNUSED then
        brelse b
        fsck_inodes dev limit datastart fuel ((inum + 1) % U32) st
      else
        let st1 ← fsck_direct dev limit datastart b o NDIRECT 0 st
        let s2 ← getK
        let indirect := rd32 (s2.buf b).data (o + 12 + 4 * NDIRECT)
        let st3 ← (if indirect ≠ 0 then (do
            let st2 ← check_addr dev limit datastart indirect st1
            let ib ← bread dev indirect
            let st3 ← fsck_indirect dev limit datastart ib NINDIRECT 0 st2
            brelse ib
            pure st3 : K Fsck)
          else pure st1)
        brelse b
        fsck_inodes dev limit datastart fuel ((inum + 1) % U32) st3
    else pure st

/-- The function `fsck_lite()`; `used0` is the content of the static array
`used` left by earlier calls. -/
def fsck_lite (used0 : Nat → Nat) : K Int := do
  let s ← getK
  let datastart := calc_datastart s.sb
  let limit := if s.sb.size < FSCK_MAXBLOCKS then s.sb.size else FSCK_MAXBLOCKS
  let used : Nat → Nat := fun i => if i < limit then 0 else used0 i
  let st ← fsck_inodes ROOTDEV limit datastart s.sb.ninodes 1 { used := used, errors := 0 }
  if st.errors = 0 then pure 0 else pure (-1)

/-- Overwrites the pointer `addrs[k]` of the on-disk inode `inum` with `addr`,
outside any transaction (a forged volume). -/
def forge (inum k addr : Nat) : K Unit := do
  let s ← getK
  let b ← bread ROOTDEV (IBLOCK inum s.sb)
  let s1 ← getK
  setData b (wr32 (s1.buf b).data (dinodeOff inum + 12 + 4 * k) addr)
  bwrite b
  brelse b

/-- The check on the volume that `fs_init` mounts. -/
def fsck_fresh : K Int := do
  fs_init ROOTDEV
  fsck_lite (fun _ => 0)

/-- The check after the root inode got a second pointer to its block 37. -/
def fsck_duplicate : K Int := do
  fs_init ROOTDEV
  forge ROOTINO 1 37
  fsck_lite (fun _ => 0)

/-- The check after the root inode got the block address 2000 both as a
direct pointer and as its indirect-block pointer. -/
def fsck_far_indirect : K Int := do
  fs_init ROOTDEV
  forge ROOTINO 1 2000
  forge ROOTINO NDIRECT 2000
  fsck_lite (fun _ => 0)

/-- The check after the root inode got its own inode block 32 both as a
direct pointer and as its indirect-block pointer. -/
def fsck_self_indirect : K Int := do
  fs_init ROOTDEV
  forge ROOTINO 1 32
  forge ROOTINO NDIRECT 32
  fsck_lite (fun _ => 0)

/-- Block `a` is a data block of the volume that the bitmap marks allocated. -/
def InData (s : Kernel) (a : Nat) : Prop :=
  DATASTART ≤ a ∧ a < FSSIZE ∧ bit_clear (s.view BMAPBLOCK) a = false

/-- The cached inode `ip` describes a file that can be written: the bitmap
marks the metadata blocks, every mapped block and the indirect block are
allocated data blocks, and no block is mapped twice. -/
structure Writable (s : Kernel) (ip : Nat) : Prop where
  dev : (s.inode ip).dev = ROOTDEV
  metaSet : ∀ b, b < DATASTART → bit_clear (s.view BMAPBLOCK) b = false
  map : ∀ bn, bn < MAXFILE → s.baddr ip bn ≠ 0 → InData s (s.baddr ip bn)
  ind : (s.inode ip).addrs NDIRECT ≠ 0 → InData s ((s.inode ip).addrs NDIRECT)
  inj : ∀ bn bn', bn < MAXFILE → bn' < MAXFILE → s.baddr ip bn ≠ 0 →
    s.baddr ip bn = s.baddr ip bn' → bn = bn'
  ind_ne : ∀ bn, bn < MAXFILE → s.baddr ip bn ≠ 0 →
    s.baddr ip bn ≠ (s.inode ip).addrs NDIRECT

/-- The bitmap `bm` has at least `r` free data blocks. -/
def HasFree (bm : Mem) (r : Nat) : Prop :=
  ∃ L : List Nat, L.Nodup ∧ L.length = r ∧
    ∀ b ∈ L, DATASTART ≤ b ∧ b < FSSIZE ∧ bit_clear bm b = true

/-- The reserve for `R` more rounds of the loop of `writei`: one unit (two
buffers, one log entry) per round, one each for the bitmap block and the
indirect block unless they are warm, one buffer for reading the indirect
block unless it is cached, and `eb` buffers and `el` log entries on top. -/
def WBudget (s : Kernel) (T : Set Nat) (m ip R eb el : Nat) : Prop :=
  ∃ pb pi pr : Nat, (s.warm T BMAPBLOCK ∨ 1 ≤ pb) ∧
    ((s.inode ip).addrs NDIRECT ≠ 0 → s.warm T ((s.inode ip).addrs NDIRECT) ∨ 1 ≤ pi) ∧
    ((s.inode ip).addrs NDIRECT = 0 → 1 ≤ pi) ∧
    ((s.inode ip).addrs NDIRECT ≠ 0 → (s.inode ip).addrs NDIRECT ∈ T ∨ 1 ≤ pr) ∧
    2 * (pb + pi + R) + pr + eb ≤ m ∧ s.log.lh.n + (pb + pi + R) + el + 1 ≤ LOGSIZE

/-- The reserve after the `bmap` of a round of `writei`: as `WBudget` for the
`R` rounds that follow, with `u` units for the block `addr` that this round
still has to write. -/
def WBudgetU (s : Kernel) (T : Set Nat) (m ip R eb el addr : Nat) : Prop :=
  ∃ pb pi pr u : Nat, (s.warm T addr ∨ 1 ≤ u) ∧ (s.warm T BMAPBLOCK ∨ 1 ≤ pb) ∧
    ((s.inode ip).addrs NDIRECT ≠ 0 → s.warm T ((s.inode ip).addrs NDIRECT) ∨ 1 ≤ pi) ∧
    ((s.inode ip).addrs NDIRECT = 0 → 1 ≤ pi) ∧
    ((s.inode ip).addrs NDIRECT ≠ 0 → (s.inode ip).addrs NDIRECT ∈ T ∨ 1 ≤ pr) ∧
    2 * (pb + pi + R + u) + pr + eb ≤ m ∧ s.log.lh.n + (pb + pi + R + u) + el + 1 ≤ LOGSIZE

/-- What `bmap(ip, bn, 1)` establishes on a writable file. -/
structure BmapPost (s : Kernel) (ip bn : Nat) (s1 : Kernel) (addr : Nat) : Prop where
  unheld : ∀ x, s1.unheld x
  wr : Writable s1 ip
  here : s1.baddr ip bn = addr
  nz : addr ≠ 0
  others : ∀ bn', bn' < MAXFILE → bn' ≠ bn → s1.baddr ip bn' = s.baddr ip bn'
  kept : s.baddr ip bn ≠ 0 → addr = s.baddr ip bn ∧ s1.view addr = s.view addr
  fresh : s.baddr ip bn = 0 →
    bit_clear (s.view BMAPBLOCK) addr = true ∧ ∀ i, i < BSIZE → s1.view addr i = 0
  frame : ∀ x, FSSTART ≤ x → x ≠ BMAPBLOCK → bit_clear (s.view BMAPBLOCK) x = false →
    x ≠ (s.inode ip).addrs NDIRECT → s1.view x = s.view x
  bits : ∀ x, bit_clear (s.view BMAPBLOCK) x = false → bit_clear (s1.view BMAPBLOCK) x = false
  size : (s1.inode ip).size = (s.inode ip).size
  inum : (s1.inode ip).inum = (s.inode ip).inum
  type : (s1.inode ip).type = (s.inode ip).type
  major : (s1.inode ip).major = (s.inode ip).major
  minor : (s1.inode ip).minor = (s.inode ip).minor
  nlink : (s1.inode ip).nlink = (s.inode ip).nlink
  ref : (s1.inode ip).ref = (s.inode ip).ref
  locked : (s1.inode ip).locked = (s.inode ip).locked
  valid : (s1.inode ip).valid = (s.inode ip).valid
  inodes : ∀ j, j ≠ ip → s1.inode j = s.inode j
  file : s1.file = s.file
  ofile : s1.g_ofile = s.g_ofile
  indp : (s1.inode ip).addrs NDIRECT = (s.inode ip).addrs NDIRECT ∨
    ((s.inode ip).addrs NDIRECT = 0 ∧
      bit_clear (s.view BMAPBLOCK) ((s1.inode ip).addrs NDIRECT) = true)

/-- The state `s` in the loop of `writei(ip, src, o, n)` that started in
`s0`, when `tot` bytes are done. -/
structure WInv (s0 : Kernel) (ip : Nat) (src : Mem) (o tot : Nat) (s : Kernel) : Prop where
  unheld : ∀ x, s.unheld x
  wr : Writable s ip
  bits : ∀ x, bit_clear (s0.view BMAPBLOCK) x = false → bit_clear (s.view BMAPBLOCK) x = false
  kept : ∀ bn, bn < MAXFILE → s0.baddr ip bn ≠ 0 → s.baddr ip bn = s0.baddr ip bn
  fresh : ∀ bn, bn < MAXFILE → s0.baddr ip bn = 0 → s.baddr ip bn ≠ 0 →
    bit_clear (s0.view BMAPBLOCK) (s.baddr ip bn) = true
  indp : (s.inode ip).addrs NDIRECT = (s0.inode ip).addrs NDIRECT ∨
    ((s0.inode ip).addrs NDIRECT = 0 ∧
      bit_clear (s0.view BMAPBLOCK) ((s.inode ip).addrs NDIRECT) = true)
  mapped : ∀ p, o ≤ p → p < o + tot → s.baddr ip (p / BSIZE) ≠ 0
  data : ∀ p, o ≤ p → p < o + tot → s.fbyte ip p = src (p - o)
  old : ∀ p, (p < o ∨ o + tot ≤ p) → p < MAXFILE * BSIZE → s0.baddr ip (p / BSIZE) ≠ 0 →
    s.fbyte ip p = s0.fbyte ip p
  frame : ∀ x, FSSTART ≤ x → x ≠ BMAPBLOCK → bit_clear (s0.view BMAPBLOCK) x = false →
    x ≠ (s0.inode ip).addrs NDIRECT → (∀ bn, bn < MAXFILE → s0.baddr ip bn ≠ x) →
    s.view x = s0.view x
  size : (s.inode ip).size = (s0.inode ip).size
  inum : (s.inode ip).inum = (s0.inode ip).inum
  type : (s.inode ip).type = (s0.inode ip).type
  major : (s.inode ip).major = (s0.inode ip).major
  minor : (s.inode ip).minor = (s0.inode ip).minor
  nlink : (s.inode ip).nlink = (s0.inode ip).nlink
  ref : (s.inode ip).ref = (s0.inode ip).ref
  locked : (s.inode ip).locked = (s0.inode ip).locked
  valid : (s.inode ip).valid = (s0.inode ip).valid
  inodes : ∀ j, j ≠ ip → s.inode j = s0.inode j
  file : s.file = s0.file
  ofile : s.g_ofile = s0.g_ofile

/-- What a successful `writei(ip, src, o, n)` started in `s` leaves in `s3`:
the bytes of the range come from `src`, the other mapped bytes of the file
are kept, the size is the larger of the old size and `o + n`, the record of
the inode in its block is the image of the cached inode, and every other
allocated block that does not belong to the file is as before. -/
structure WritePost (s : Kernel) (ip : Nat) (src : Mem) (o n : Nat) (s3 : Kernel) : Prop where
  unheld : ∀ x, s3.unheld x
  wr : Writable s3 ip
  bits : ∀ x, bit_clear (s.view BMAPBLOCK) x = false → bit_clear (s3.view BMAPBLOCK) x = false
  kept : ∀ bn, bn < MAXFILE → s.baddr ip bn ≠ 0 → s3.baddr ip bn = s.baddr ip bn
  fresh : ∀ bn, bn < MAXFILE → s.baddr ip bn = 0 → s3.baddr ip bn ≠ 0 →
    bit_clear (s.view BMAPBLOCK) (s3.baddr ip bn) = true
  indp : (s3.inode ip).addrs NDIRECT = (s.inode ip).addrs NDIRECT ∨
    ((s.inode ip).addrs NDIRECT = 0 ∧
      bit_clear (s.view BMAPBLOCK) ((s3.inode ip).addrs NDIRECT) = true)
  mapped : ∀ p, o ≤ p → p < o + n → s3.baddr ip (p / BSIZE) ≠ 0
  data : ∀ p, o ≤ p → p < o + n → s3.fbyte ip p = src (p - o)
  old : ∀ p, (p < o ∨ o + n ≤ p) → p < MAXFILE * BSIZE → s.baddr ip (p / BSIZE) ≠ 0 →
    s3.fbyte ip p = s.fbyte ip p
  frame : ∀ x, FSSTART ≤ x → x ≠ BMAPBLOCK → bit_clear (s.view BMAPBLOCK) x = false →
    x ≠ (s.inode ip).addrs NDIRECT → (∀ bn, bn < MAXFILE → s.baddr ip bn ≠ x) →
    x ≠ IBLOCK (s.inode ip).inum mkfs_sb → s3.view x = s.view x
  record : s3.view (IBLOCK (s.inode ip).inum mkfs_sb) =
    dinode_image (s3.inode ip) (dinodeOff (s.inode ip).inum)
      (s.view (IBLOCK (s.inode ip).inum mkfs_sb))
  size : (s3.inode ip).size = max (s.inode ip).size (o + n)
  inum : (s3.inode ip).inum = (s.inode ip).inum
  type : (s3.inode ip).type = (s.inode ip).type
  major : (s3.inode ip).major = (s.inode ip).major
  minor : (s3.inode ip).minor = (s.inode ip).minor
  nlink : (s3.inode ip).nlink = (s.inode ip).nlink
  ref : (s3.inode ip).ref = (s.inode ip).ref
  locked : (s3.inode ip).locked = (s.inode ip).locked
  valid : (s3.inode ip).valid = (s.inode ip).valid
  inodes : ∀ j, j ≠ ip → s3.inode j = s.inode j
  file : s3.file = s.file
  ofile : s3.g_ofile = s.g_ofile

/-- The device of `demo_file_disk` with blocks 40 and 41 marked allocated in
the bitmap. -/
def demo_mapped_disk : Nat → Mem :=
  Function.update demo_file_disk BMAPBLOCK (set_bit (set_bit (mkfs_disk BMAPBLOCK) 40) 41)

/-- A mounted volume with an empty cache, inside an operation, whose inode
slot 0 holds a file of 5000 bytes mapped to the allocated blocks 40 and 41. -/
def demo_mapped : Kernel :=
  (cold demo_mapped_disk 1).setInode 0
    { dev := ROOTDEV, inum := 2, ref := 1, locked := 1, valid := 1, type := T_FILE, major := 0,
      minor := 0, nlink := 1, size := 5000,
      addrs := fun i => if i = 0 then 40 else if i = 1 then 41 else 0 }

@[simp] theorem bind_apply {α β : Type} (x : K α) (f : α → K β) (s : Kernel) :
    (x >>= f) s = match x s with
      | Res.ok a s1 => f a s1
      | Res.fail e => Res.fail e := rfl

@[simp] theorem pure_apply {α : Type} (a : α) (s : Kernel) : (pure a : K α) s = Res.ok a s := rfl

@[simp] theorem getK_apply (s : Kernel) : getK s = Res.ok s s := rfl

@[simp] theorem modifyK_apply (f : Kernel → Kernel) (s : Kernel) :
    modifyK f s = Res.ok () (f s) := rfl

@[simp] theorem kpanic_apply {α : Type} (p : PanicSite) (s : Kernel) :
    (kpanic p : K α) s = Res.fail (Fault.panic p) := rfl

@[simp] theorem kspin_apply {α : Type} (s : Kernel) : (kspin : K α) s = Res.fail Fault.spin := rfl

theorem bind_ok {α β : Type} {x : K α} {f : α → K β} {s s1 : Kernel} {a : α}
    (h : x s = Res.ok a s1) : (x >>= f) s = f a s1 := by
  simp [h]

theorem bind_fail {α β : Type} {x : K α} {f : α → K β} {s : Kernel} {e : Fault}
    (h : x s = Res.fail e) : (x >>= f) s = Res.fail e := by
  simp [h]

@[simp] theorem setBuf_buf (s : Kernel) (i : Nat) (b : Buf) (j : Nat) :
    (s.setBuf i b).buf j = if j = i then b else s.buf j := by
  simp [Kernel.setBuf, Function.update_apply]

@[simp] theorem setBuf_lru (s : Kernel) (i : Nat) (b : Buf) : (s.setBuf i b).lru = s.lru := rfl
@[simp] theorem setBuf_ramdisk (s : Kernel) (i : Nat) (b : Buf) :
    (s.setBuf i b).ramdisk = s.ramdisk := rfl
@[simp] theorem setBuf_sb (s : Kernel) (i : Nat) (b : Buf) : (s.setBuf i b).sb = s.sb := rfl
@[simp] theorem setBuf_log (s : Kernel) (i : Nat) (b : Buf) : (s.setBuf i b).log = s.log := rfl
@[simp] theorem setBuf_inode (s : Kernel) (i : Nat) (b : Buf) :
    (s.setBuf i b).inode = s.inode := rfl
@[simp] theorem setBuf_file (s : Kernel) (i : Nat) (b : Buf) : (s.setBuf i b).file = s.file := rfl
@[simp] theorem setBuf_g_ofile (s : Kernel) (i : Nat) (b : Buf) :
    (s.setBuf i b).g_ofile = s.g_ofile := rfl

theorem setBuf_setBuf (s : Kernel) (i : Nat) (b c : Buf) :
    (s.setBuf i b).setBuf i c = s.setBuf i c := by
  simp [Kernel.setBuf]

theorem setBuf_self (s : Kernel) (i : Nat) : s.setBuf i (s.buf i) = s := by
  simp [Kernel.setBuf]

/-! ### Lookup and view -/

theorem lookup_some_iff {s : Kernel} (hc : CacheOK s) {b i : Nat} :
    s.lookup b = some i ↔ i ∈ s.lru ∧ s.bound i b := by
  unfold Kernel.lookup Kernel.bound
  constructor
  · intro h
    have h1 := List.find?_some h
    have h2 := List.mem_of_find?_eq_some h
    simp at h1
    exact ⟨h2, h1⟩
  · rintro ⟨hi, hd, hb⟩
    cases hf : s.lru.find? (fun i => (s.buf i).dev == ROOTDEV && (s.buf i).blockno == b) with
    | none =>
      rw [List.find?_eq_none] at hf
      have := hf i hi
      simp [hd, hb] at this
    | some j =>
      have h1 := List.find?_some hf
      have h2 := List.mem_of_find?_eq_some hf
      simp at h1
      rw [hc.uniq j h2 i hi h1.1 hd (by rw [h1.2, hb])]

theorem lookup_none_iff {s : Kernel} {b : Nat} :
    s.lookup b = none ↔ ∀ i ∈ s.lru, ¬ s.bound i b := by
  unfold Kernel.lookup Kernel.bound
  rw [List.find?_eq_none]
  simp

theorem view_of_bound {s : Kernel} (hc : CacheOK s) {b i : Nat} (hi : i ∈ s.lru)
    (hb : s.bound i b) : s.view b = (s.buf i).data := by
  unfold Kernel.view
  rw [(lookup_some_iff hc).2 ⟨hi, hb⟩]

theorem view_of_unbound {s : Kernel} {b : Nat} (h : ∀ i ∈ s.lru, ¬ s.bound i b) :
    s.view b = s.ramdisk b := by
  unfold Kernel.view
  rw [lookup_none_iff.2 h]

/-! ### Raw behaviour of the buffer cache primitives -/

@[simp] theorem release_buf (s : Kernel) (h i : Nat) :
    (s.release h).buf i = if i = h then { s.buf h with locked := 0, refcnt := 0 } else s.buf i := by
  simp [Kernel.release, Kernel.setBuf, Function.update_apply]
@[simp] theorem release_lru (s : Kernel) (h : Nat) : (s.release h).lru = h :: s.lru.erase h := rfl
@[simp] theorem release_ramdisk (s : Kernel) (h : Nat) : (s.release h).ramdisk = s.ramdisk := rfl
@[simp] theorem release_sb (s : Kernel) (h : Nat) : (s.release h).sb = s.sb := rfl
@[simp] theorem release_log (s : Kernel) (h : Nat) : (s.release h).log = s.log := rfl
@[simp] theorem release_inode (s : Kernel) (h : Nat) : (s.release h).inode = s.inode := rfl
@[simp] theorem release_file (s : Kernel) (h : Nat) : (s.release h).file = s.file := rfl
@[simp] theorem release_g_ofile (s : Kernel) (h : Nat) : (s.release h).g_ofile = s.g_ofile := rfl
@[simp] theorem flush_buf (s : Kernel) (h : Nat) : (s.flush h).buf = s.buf := rfl
@[simp] theorem flush_lru (s : Kernel) (h : Nat) : (s.flush h).lru = s.lru := rfl
@[simp] theorem flush_ramdisk (s : Kernel) (h : Nat) :
    (s.flush h).ramdisk = Function.update s.ramdisk (s.buf h).blockno (s.buf h).data := rfl
@[simp] theorem flush_sb (s : Kernel) (h : Nat) : (s.flush h).sb = s.sb := rfl
@[simp] theorem flush_log (s : Kernel) (h : Nat) : (s.flush h).log = s.log := rfl
@[simp] theorem flush_inode (s : Kernel) (h : Nat) : (s.flush h).inode = s.inode := rfl
@[simp] theorem flush_file (s : Kernel) (h : Nat) : (s.flush h).file = s.file := rfl
@[simp] theorem flush_g_ofile (s : Kernel) (h : Nat) : (s.flush h).g_ofile = s.g_ofile := rfl

theorem mem_release {s : Kernel} {h : Nat} (hm : h ∈ s.lru) (i : Nat) :
    i ∈ (s.release h).lru ↔ i ∈ s.lru := by
  rw [release_lru]
  constructor
  · intro hi
    rcases List.mem_cons.1 hi with e | e
    · rw [e]; exact hm
    · exact List.mem_of_mem_erase e
  · intro hi
    by_cases e : i = h
    · rw [e]; exact List.mem_cons_self _ _
    · exact List.mem_cons_of_mem _ ((List.mem_erase_of_ne e).2 hi)

theorem bound_release (s : Kernel) (h i c : Nat) : (s.release h).bound i c ↔ s.bound i c := by
  unfold Kernel.bound; rw [release_buf]; split
  · next e => subst e; exact Iff.rfl
  · exact Iff.rfl


theorem Rest.refl_rest (s : Kernel) : Rest s s := ⟨rfl, rfl, rfl, rfl, rfl⟩

theorem Rest.trans_rest {s t u : Kernel} (h1 : Rest s t) (h2 : Rest t u) : Rest s u :=
  ⟨h2.sb.trans h1.sb, h2.log.trans h1.log, h2.inode.trans h1.inode, h2.file.trans h1.file,
    h2.g_ofile.trans h1.g_ofile⟩

theorem Rest.setBuf (s : Kernel) (i : Nat) (b : Buf) : Rest s (s.setBuf i b) :=
  ⟨rfl, rfl, rfl, rfl, rfl⟩

theorem victim_mem {s : Kernel} {v : Nat} (h : s.victim = some v) :
    v ∈ s.lru ∧ (s.buf v).refcnt = 0 := by
  unfold Kernel.victim at h
  have h1 := List.find?_some h
  have h2 := List.mem_of_find?_eq_some h
  simp at h1
  exact ⟨List.mem_reverse.1 h2, h1⟩

theorem bread_hit {s : Kernel} (hc : CacheOK s) {b i : Nat} (hi : i ∈ s.lru)
    (hb : s.bound i b) (hf : (s.buf i).refcnt = 0) :
    bread ROOTDEV b s = Res.ok i (s.setBuf i { s.buf i with refcnt := 1, locked := 1 }) := by
  have hl := (lookup_some_iff hc).2 ⟨hi, hb⟩
  unfold Kernel.lookup at hl
  have hlock : (s.buf i).locked = 0 := by rw [(hc.lock i hi).1, hf]
  have hv := hc.valid_of_bound i hi hb.1
  simp only [bread, bget, bind_apply, hl, acquiresleep_buf, setBuf_buf, if_true, hlock, hf,
    getK_apply, pure_apply, ne_eq, not_true_eq_false, if_false, setBuf_setBuf, hv]

theorem bread_miss {s : Kernel} (hc : CacheOK s) {b v : Nat}
    (hn : ∀ i ∈ s.lru, ¬ s.bound i b) (hv : s.victim = some v) (hb : b < FSSIZE) :
    bread ROOTDEV b s = Res.ok v (s.setBuf v (s.missBuf v b)) := by
  have hl := lookup_none_iff.2 hn
  unfold Kernel.lookup at hl
  obtain ⟨hvm, hvf⟩ := victim_mem hv
  unfold Kernel.victim at hv
  have hlock : (s.buf v).locked = 0 := by rw [(hc.lock v hvm).1, hvf]
  have hb' : ¬ FSSIZE ≤ b := by omega
  simp [bread, bget, hl, hv, acquiresleep_buf, hlock, virtio_disk_rw, hb', setBuf_setBuf,
    Kernel.setBuf, Kernel.missBuf, memmove_block]

theorem bread_hit_spin {s : Kernel} (hc : CacheOK s) {b i : Nat} (hi : i ∈ s.lru)
    (hb : s.bound i b) (hf : (s.buf i).refcnt ≠ 0) :
    bread ROOTDEV b s = Res.fail Fault.spin := by
  have hl := (lookup_some_iff hc).2 ⟨hi, hb⟩
  unfold Kernel.lookup at hl
  have hlock : (s.buf i).locked ≠ 0 := by rw [(hc.lock i hi).1]; exact hf
  simp [bread, bget, hl, acquiresleep_buf, hlock]

theorem brelse_ok {s : Kernel} {h : Nat} (hl : (s.buf h).locked ≠ 0) (hr : (s.buf h).refcnt = 1) :
    brelse h s = Res.ok () (s.release h) := by
  simp [brelse, hl, hr, setBuf_setBuf, Kernel.setBuf, Kernel.release]

theorem setData_ok (s : Kernel) (h : Nat) (d : Mem) :
    setData h d s = Res.ok () (s.store h d) := rfl

@[simp] theorem store_buf (s : Kernel) (h : Nat) (d : Mem) (j : Nat) :
    (s.store h d).buf j = if j = h then { s.buf h with data := d } else s.buf j := by
  simp [Kernel.store]
@[simp] theorem store_lru (s : Kernel) (h : Nat) (d : Mem) : (s.store h d).lru = s.lru := rfl
@[simp] theorem store_ramdisk (s : Kernel) (h : Nat) (d : Mem) :
    (s.store h d).ramdisk = s.ramdisk := rfl
@[simp] theorem store_sb (s : Kernel) (h : Nat) (d : Mem) : (s.store h d).sb = s.sb := rfl
@[simp] theorem store_log (s : Kernel) (h : Nat) (d : Mem) : (s.store h d).log = s.log := rfl
@[simp] theorem store_inode (s : Kernel) (h : Nat) (d : Mem) :
    (s.store h d).inode = s.inode := rfl
@[simp] theorem store_file (s : Kernel) (h : Nat) (d : Mem) : (s.store h d).file = s.file := rfl
@[simp] theorem store_g_ofile (s : Kernel) (h : Nat) (d : Mem) :
    (s.store h d).g_ofile = s.g_ofile := rfl

theorem disk_write_ok {s : Kernel} {h : Nat} (hr : (s.buf h).blockno < FSSIZE) :
    virtio_disk_rw h true s = Res.ok () (s.flush h) := by
  have : ¬ FSSIZE ≤ (s.buf h).blockno := by omega
  simp [virtio_disk_rw, this, Kernel.flush, memmove_block]

/-! ### Preservation of the cache invariant -/

/-- Changing fields of a buffer other than its binding, pin and lock keeps the
invariant. -/
theorem CacheOK.setBuf_same {s : Kernel} (hc : CacheOK s) {h : Nat} {bf : Buf}
    (hd : bf.dev = (s.buf h).dev) (hb : bf.blockno = (s.buf h).blockno)
    (hv : bf.valid = (s.buf h).valid) (hr : bf.refcnt = (s.buf h).refcnt)
    (hl : bf.locked = (s.buf h).locked) : CacheOK (s.setBuf h bf) := by
  refine ⟨hc.nodup, ?_, ?_, ?_, ?_, ?_⟩
  · intro i hi; simp only [setBuf_buf]; split
    · next e => subst e; rw [hd, hv]; exact hc.valid_of_bound i hi
    · exact hc.valid_of_bound i hi
  · intro i hi; simp only [setBuf_buf]; split
    · next e => subst e; rw [hd, hr]; exact hc.free_of_unbound i hi
    · exact hc.free_of_unbound i hi
  · intro i hi j hj
    have key : ∀ k, ((s.setBuf h bf).buf k).dev = (s.buf k).dev ∧
        ((s.setBuf h bf).buf k).blockno = (s.buf k).blockno := by
      intro k; simp only [setBuf_buf]; split
      · next e => subst e; exact ⟨hd, hb⟩
      · exact ⟨rfl, rfl⟩
    rw [(key i).1, (key i).2, (key j).1, (key j).2]
    exact hc.uniq i hi j hj
  · intro i hi; simp only [setBuf_buf]; split
    · next e => subst e; rw [hl, hr]; exact hc.lock i hi
    · exact hc.lock i hi
  · intro i hi; simp only [setBuf_buf]; split
    · next e => subst e; rw [hd, hb]; exact hc.range i hi
    · exact hc.range i hi

/-- Pinning or rebinding a free buffer `h` to a block `b` that no other
buffer is bound to keeps the invariant. -/
theorem CacheOK.setBuf_bind {s : Kernel} (hc : CacheOK s) {h b : Nat} {bf : Buf}
    (hd : bf.dev = ROOTDEV) (hb : bf.blockno = b) (hv : bf.valid ≠ 0) (hr : bf.refcnt = 1)
    (hl : bf.locked = 1) (hlt : b < FSSIZE)
    (hu : ∀ j ∈ s.lru, j ≠ h → ¬ s.bound j b) : CacheOK (s.setBuf h bf) := by
  refine ⟨hc.nodup, ?_, ?_, ?_, ?_, ?_⟩
  · intro i hi; simp only [setBuf_buf]; split
    · intro _; exact hv
    · exact hc.valid_of_bound i hi
  · intro i hi; simp only [setBuf_buf]; split
    · intro c; exact absurd hd c
    · exact hc.free_of_unbound i hi
  · intro i hi j hj
    simp only [setBuf_buf]
    by_cases e1 : i = h <;> by_cases e2 : j = h
    · intros; rw [e1, e2]
    · simp only [e1, e2, if_true, if_false]; intro _ hjd hbb
      exact absurd ⟨hjd, by rw [← hbb, hb]⟩ (hu j hj e2)
    · simp only [e1, e2, if_true, if_false]; intro hid _ hbb
      exact absurd ⟨hid, by rw [hbb, hb]⟩ (hu i hi e1)
    · simp only [e1, e2, if_false]; exact hc.uniq i hi j hj
  · intro i hi; simp only [setBuf_buf]; split
    · rw [hl, hr]; simp
    · exact hc.lock i hi
  · intro i hi; simp only [setBuf_buf]; split
    · intro _; rw [hb]; exact hlt
    · exact hc.range i hi

theorem CacheOK.release_cache {s : Kernel} (hc : CacheOK s) {h : Nat} (hm : h ∈ s.lru) :
    CacheOK (s.release h) := by
  have hmem := fun i => (mem_release hm i).1
  refine ⟨?_, ?_, ?_, ?_, ?_, ?_⟩
  · rw [release_lru]
    exact List.nodup_cons.2 ⟨fun c => (List.Nodup.mem_erase_iff hc.nodup).1 c |>.1 rfl,
      hc.nodup.erase h⟩
  · intro i hi; rw [release_buf]; split
    · next e => subst e; exact hc.valid_of_bound i hm
    · exact hc.valid_of_bound i (hmem i hi)
  · intro i hi; rw [release_buf]; split
    · intro _; rfl
    · exact hc.free_of_unbound i (hmem i hi)
  · intro i hi j hj hdi hdj hb
    exact hc.uniq i (hmem i hi) j (hmem j hj) ((bound_release s h i _).1 ⟨hdi, rfl⟩).1
      ((bound_release s h j _).1 ⟨hdj, rfl⟩).1
      (((bound_release s h i _).1 ⟨hdi, rfl⟩).2.trans
        (hb.trans ((bound_release s h j _).1 ⟨hdj, rfl⟩).2.symm))
  · intro i hi; rw [release_buf]; split
    · simp
    · exact hc.lock i (hmem i hi)
  · intro i hi hd
    have := (bound_release s h i _).1 ⟨hd, rfl⟩
    rw [← this.2]; exact hc.range i (hmem i hi) this.1

theorem CacheOK.flush_cache {s : Kernel} (hc : CacheOK s) (h : Nat) : CacheOK (s.flush h) :=
  ⟨hc.nodup, hc.valid_of_bound, hc.free_of_unbound, hc.uniq, hc.lock, hc.range⟩

/-! ### Effect of the primitives on the view -/

theorem view_setBuf_bind {s : Kernel} (hc : CacheOK s) {h b : Nat} {bf : Buf}
    (hm : h ∈ s.lru) (hc' : CacheOK (s.setBuf h bf))
    (hd : bf.dev = ROOTDEV) (hb : bf.blockno = b) :
    (s.setBuf h bf).view b = bf.data := by
  rw [view_of_bound hc' (i := h) hm ⟨by simp [hd], by simp [hb]⟩]
  simp

theorem view_setBuf_other {s : Kernel} (hc : CacheOK s) {h c : Nat} {bf : Buf}
    (hc' : CacheOK (s.setBuf h bf)) (hnew : ¬ (bf.dev = ROOTDEV ∧ bf.blockno = c))
    (hold : s.bound h c → h ∈ s.lru → (s.buf h).data = s.ramdisk c) :
    (s.setBuf h bf).view c = s.view c := by
  cases hl : s.lookup c with
  | none =>
    have hn := lookup_none_iff.1 hl
    rw [view_of_unbound hn, view_of_unbound]
    · rfl
    · intro i hi hbd
      unfold Kernel.bound at hbd
      simp only [setBuf_buf] at hbd
      split at hbd
      · exact hnew hbd
      · exact hn i hi hbd
  | some i =>
    obtain ⟨hi, hbd⟩ := (lookup_some_iff hc).1 hl
    by_cases e : i = h
    · subst e
      rw [view_of_bound hc hi hbd, hold hbd hi, view_of_unbound]
      · rfl
      · intro j hj hbj
        unfold Kernel.bound at hbj
        simp only [setBuf_buf] at hbj
        split at hbj
        · exact hnew hbj
        · next ne => exact ne (hc.uniq j hj i hi hbj.1 hbd.1 (by rw [hbj.2, hbd.2]))
    · rw [view_of_bound hc hi hbd, view_of_bound hc' (i := i) hi]
      · simp [e]
      · unfold Kernel.bound; simp only [setBuf_buf, if_neg e]; exact hbd

theorem view_release {s : Kernel} (hc : CacheOK s) {h : Nat} (hm : h ∈ s.lru) :
    (s.release h).view = s.view := by
  have hc' := hc.release_cache hm
  funext c
  cases hl : s.lookup c with
  | none =>
    have hn := lookup_none_iff.1 hl
    have hn' : ∀ i ∈ (s.release h).lru, ¬ (s.release h).bound i c := fun i hi hb =>
      hn i ((mem_release hm i).1 hi) ((bound_release s h i c).1 hb)
    rw [view_of_unbound hn, view_of_unbound hn']
    rfl
  | some i =>
    obtain ⟨hi, hb⟩ := (lookup_some_iff hc).1 hl
    rw [view_of_bound hc hi hb,
      view_of_bound hc' (i := i) ((mem_release hm i).2 hi) ((bound_release s h i c).2 hb),
      release_buf]
    split
    · next e => subst e; rfl
    · rfl

theorem view_flush {s : Kernel} (hc : CacheOK s) {h : Nat} (hm : h ∈ s.lru)
    (hb : (s.buf h).dev = ROOTDEV) : (s.flush h).view = s.view := by
  have hc' : CacheOK (s.flush h) := hc.flush_cache h
  funext c
  cases hl : s.lookup c with
  | none =>
    have hn := lookup_none_iff.1 hl
    have hn' : ∀ i ∈ (s.flush h).lru, ¬ (s.flush h).bound i c := hn
    rw [view_of_unbound hn, view_of_unbound hn', flush_ramdisk]
    have : c ≠ (s.buf h).blockno := fun e => hn h hm ⟨hb, e.symm⟩
    rw [Function.update_noteq this]
  | some i =>
    obtain ⟨hi, hbi⟩ := (lookup_some_iff hc).1 hl
    have hbi' : (s.flush h).bound i c := hbi
    rw [view_of_bound hc hi hbi, view_of_bound hc' (i := i) hi hbi']
    rfl

/-! ### The recency discipline -/

theorem Epoch.mono_epoch {s : Kernel} {T : Set Nat} {m k : Nat} (h : Epoch s T m) (hk : k ≤ m) :
    Epoch s T k := by
  obtain ⟨A, B, F, h1, h2, h3, h4, h5, h6⟩ := h.split
  exact ⟨h.cached, h.hot, A, B, F, h1, h2, h3, h4, le_trans hk h5, h6⟩

theorem CI.mono_ci {s : Kernel} {T : Set Nat} {m k : Nat} (h : CI s T m) (hk : k ≤ m) :
    CI s T k := ⟨h.ok, h.ep.mono_epoch hk⟩

/-- A buffer outside `T` is released and, when bound, equal to the device. -/
theorem Epoch.outside {s : Kernel} {T : Set Nat} {m : Nat} (hc : CacheOK s) (h : Epoch s T m)
    {i : Nat} (hi : i ∈ s.lru) (hn : ¬ s.inT T i) :
    (s.buf i).refcnt = 0 ∧
      ((s.buf i).dev = ROOTDEV → (s.buf i).data = s.ramdisk (s.buf i).blockno) := by
  by_cases hd : (s.buf i).dev = ROOTDEV
  · have hnT : (s.buf i).blockno ∉ T := fun c => hn ⟨hd, c⟩
    constructor
    · by_contra c; exact hnT (h.hot i hi hd (Or.inl c))
    · intro _; by_contra c; exact hnT (h.hot i hi hd (Or.inr c))
  · exact ⟨hc.free_of_unbound i hi hd, fun c => absurd c hd⟩

/-- Every buffer released and equal to the device: the discipline holds for
the empty set with the whole cache as reserve. -/
theorem Epoch.reset_epoch {s : Kernel} (hc : CacheOK s)
    (hq : ∀ i ∈ s.lru, (s.buf i).refcnt = 0 ∧
      ((s.buf i).dev = ROOTDEV → (s.buf i).data = s.ramdisk (s.buf i).blockno)) :
    Epoch s ∅ s.lru.length := by
  refine ⟨fun b hb => absurd hb (Set.not_mem_empty b), ?_, [], s.lru, s.lru, rfl, ?_, ?_, hc.nodup,
    le_refl _, ?_⟩
  · intro i hi hd hh
    rcases hh with hh | hh
    · exact absurd (hq i hi).1 hh
    · exact absurd ((hq i hi).2 hd) hh
  · intro i hi; exact absurd hi (List.not_mem_nil i)
  · intro i _ hT; exact absurd hT.2 (Set.not_mem_empty _)
  · intro i hi; exact ⟨hi, fun hT => absurd hT.2 (Set.not_mem_empty _)⟩

/-- On a miss with some reserve left, the recycled buffer lies outside `T`. -/
theorem Epoch.victim_outside {s : Kernel} {T : Set Nat} {m v : Nat} (hc : CacheOK s)
    (h : Epoch s T m) (hm : 1 ≤ m) (hv : s.victim = some v) : ¬ s.inT T v := by
  obtain ⟨A, B, F, h1, _, h3, _, h5, h6⟩ := h.split
  obtain ⟨f, hf⟩ : ∃ f, f ∈ F := by
    cases F with
    | nil => simp at h5; omega
    | cons a _ => exact ⟨a, List.mem_cons_self _ _⟩
  have hfB := (h6 f hf).1
  have hfl : f ∈ s.lru := by rw [h1]; exact List.mem_append_right _ hfB
  have hff := (h.outside hc hfl (h6 f hf).2).1
  unfold Kernel.victim at hv
  rw [h1, List.reverse_append, List.find?_append] at hv
  have hsome : (B.reverse.find? (fun i => (s.buf i).refcnt == 0)).isSome := by
    rw [List.find?_isSome]
    exact ⟨f, List.mem_reverse.2 hfB, by simp [hff]⟩
  obtain ⟨w, hw⟩ := Option.isSome_iff_exists.1 hsome
  rw [hw] at hv
  simp at hv
  subst hv
  have hwB : w ∈ B := List.mem_reverse.1 (List.mem_of_find?_eq_some hw)
  have hwf : (s.buf w).refcnt = 0 := by
    have := List.find?_some hw
    simpa using this
  intro hT
  exact h3 w hwB hT hwf


theorem Epoch.victim_exists {s : Kernel} {T : Set Nat} {m : Nat} (hc : CacheOK s)
    (h : Epoch s T m) (hm : 1 ≤ m) : ∃ v, s.victim = some v := by
  obtain ⟨A, B, F, h1, _, _, _, h5, h6⟩ := h.split
  obtain ⟨f, hf⟩ : ∃ f, f ∈ F := by
    cases F with
    | nil => simp at h5; omega
    | cons a _ => exact ⟨a, List.mem_cons_self _ _⟩
  have hfl : f ∈ s.lru := by rw [h1]; exact List.mem_append_right _ (h6 f hf).1
  have hff := (h.outside hc hfl (h6 f hf).2).1
  have : (s.lru.reverse.find? (fun i => (s.buf i).refcnt == 0)).isSome := by
    rw [List.find?_isSome]
    exact ⟨f, List.mem_reverse.2 hfl, by simp [hff]⟩
  exact Option.isSome_iff_exists.1 this

/-- Changing a buffer of `T` without touching its binding, while it stays
pinned, keeps the discipline. -/
theorem Epoch.setBuf_inT {s : Kernel} {T : Set Nat} {m i : Nat} {bf : Buf} (h : Epoch s T m)
    (hi : i ∈ s.lru) (hd : (s.buf i).dev = ROOTDEV) (hT : (s.buf i).blockno ∈ T)
    (hd' : bf.dev = (s.buf i).dev) (hb' : bf.blockno = (s.buf i).blockno)
    (hr : bf.refcnt ≠ 0) : Epoch (s.setBuf i bf) T m := by
  have hbd : ∀ j c, (s.setBuf i bf).bound j c ↔ s.bound j c := by
    intro j c; unfold Kernel.bound; simp only [setBuf_buf]; split
    · next e => subst e; rw [hd', hb']
    · exact Iff.rfl
  have hin : ∀ j, (s.setBuf i bf).inT T j ↔ s.inT T j := by
    intro j; unfold Kernel.inT; simp only [setBuf_buf]; split
    · next e => subst e; rw [hd', hb']
    · exact Iff.rfl
  obtain ⟨A, B, F, h1, h2, h3, h4, h5, h6⟩ := h.split
  refine ⟨?_, ?_, A, B, F, h1, fun j hj => (hin j).2 (h2 j hj), ?_, h4, h5,
    fun j hj => ⟨(h6 j hj).1, fun c => (h6 j hj).2 ((hin j).1 c)⟩⟩
  · intro b hb
    obtain ⟨j, hj, hjb⟩ := h.cached b hb
    exact ⟨j, hj, (hbd j b).2 hjb⟩
  · intro j hj
    simp only [setBuf_buf, setBuf_ramdisk]
    split
    · next e => subst e; intro _ _; rw [hb']; exact hT
    · exact h.hot j hj
  · intro j hj hjT
    simp only [setBuf_buf]
    split
    · exact hr
    · exact h3 j hj ((hin j).1 hjT)

/-- Pinning a buffer from outside `T` to block `b`, bound to no other buffer,
adds `b` to the set and uses one buffer of the reserve. -/
theorem Epoch.setBuf_new {s : Kernel} {T : Set Nat} {m v b : Nat} {bf : Buf} (h : Epoch s T m)
    (hv : v ∈ s.lru) (hn : ¬ s.inT T v) (hu : ∀ j ∈ s.lru, j ≠ v → ¬ s.bound j b)
    (hd : bf.dev = ROOTDEV) (hb : bf.blockno = b) (hr : bf.refcnt ≠ 0) :
    Epoch (s.setBuf v bf) (insert b T) (m - 1) := by
  obtain ⟨A, B, F, h1, h2, h3, h4, h5, h6⟩ := h.split
  have hvA : v ∉ A := fun c => hn (h2 v c)
  have key : ∀ j, j ∈ s.lru → j ≠ v → ((s.setBuf v bf).inT (insert b T) j ↔ s.inT T j) := by
    intro j hj hne
    unfold Kernel.inT
    simp only [setBuf_buf, if_neg hne]
    constructor
    · rintro ⟨hjd, hjb⟩
      rcases hjb with e | e
      · exact absurd ⟨hjd, e⟩ (hu j hj hne)
      · exact ⟨hjd, e⟩
    · rintro ⟨hjd, hjb⟩; exact ⟨hjd, Or.inr hjb⟩
  refine ⟨?_, ?_, A, B, F.erase v, h1, ?_, ?_, h4.erase v, ?_, ?_⟩
  · intro c hc
    rcases hc with e | e
    · exact ⟨v, hv, by unfold Kernel.bound; simp [hd, hb, e]⟩
    · obtain ⟨j, hj, hjb⟩ := h.cached c e
      have hne : j ≠ v := fun c' => hn (c' ▸ ⟨hjb.1, hjb.2 ▸ e⟩)
      exact ⟨j, hj, by unfold Kernel.bound; simp only [setBuf_buf, if_neg hne]; exact hjb⟩
  · intro j hj
    simp only [setBuf_buf, setBuf_ramdisk]
    split
    · intro _ _; rw [hb]; exact Or.inl rfl
    · intro hjd hh; exact Or.inr (h.hot j hj hjd hh)
  · intro j hj
    have hjl : j ∈ s.lru := by rw [h1]; exact List.mem_append_left _ hj
    have hne : j ≠ v := fun c => hvA (c ▸ hj)
    exact (key j hjl hne).2 (h2 j hj)
  · intro j hj hjT
    have hjl : j ∈ s.lru := by rw [h1]; exact List.mem_append_right _ hj
    simp only [setBuf_buf]
    split
    · exact hr
    · next hne => exact h3 j hj ((key j hjl hne).1 hjT)
  · have := List.length_erase_of_mem (a := v) (l := F)
    by_cases hvF : v ∈ F
    · rw [List.length_erase_of_mem hvF]; omega
    · rw [List.erase_of_not_mem hvF]; omega
  · intro j hj
    have hjF : j ∈ F := List.mem_of_mem_erase hj
    have hne : j ≠ v := ((List.Nodup.mem_erase_iff h4).1 hj).1
    have hjl : j ∈ s.lru := by rw [h1]; exact List.mem_append_right _ (h6 j hjF).1
    exact ⟨(h6 j hjF).1, fun c => (h6 j hjF).2 ((key j hjl hne).1 c)⟩

theorem Epoch.release_epoch {s : Kernel} {T : Set Nat} {m h : Nat} (hc : CacheOK s)
    (he : Epoch s T m) (hm : h ∈ s.lru) (hr : (s.buf h).refcnt ≠ 0) :
    Epoch (s.release h) T m := by
  have hd : (s.buf h).dev = ROOTDEV := by
    by_contra c; exact hr (hc.free_of_unbound h hm c)
  have hT : s.inT T h := ⟨hd, he.hot h hm hd (Or.inl hr)⟩
  have hin : ∀ j, (s.release h).inT T j ↔ s.inT T j := by
    intro j; unfold Kernel.inT; rw [release_buf]; split
    · next e => subst e; exact Iff.rfl
    · exact Iff.rfl
  obtain ⟨A, B, F, h1, h2, h3, h4, h5, h6⟩ := he.split
  have hnd : (A ++ B).Nodup := h1 ▸ hc.nodup
  have hlru : (s.release h).lru = (h :: A.erase h) ++ B.erase h := by
    rw [release_lru, h1]
    by_cases hA : h ∈ A
    · have hB : h ∉ B := fun c => (List.nodup_append.1 hnd).2.2 hA c
      rw [List.erase_append_left _ hA, List.erase_of_not_mem hB]; rfl
    · rw [List.erase_append_right _ hA, List.erase_of_not_mem hA]; rfl
  refine ⟨?_, ?_, h :: A.erase h, B.erase h, F, hlru, ?_, ?_, h4, h5, ?_⟩
  · intro b hb
    obtain ⟨j, hj, hjb⟩ := he.cached b hb
    exact ⟨j, (mem_release hm j).2 hj, (bound_release s h j b).2 hjb⟩
  · intro j hj
    have hjl := (mem_release hm j).1 hj
    rw [release_buf, release_ramdisk]
    split
    · next e => subst e; intro _ _; exact hT.2
    · exact he.hot j hjl
  · intro j hj
    rcases List.mem_cons.1 hj with e | e
    · rw [e]; exact (hin h).2 hT
    · exact (hin j).2 (h2 j (List.mem_of_mem_erase e))
  · intro j hj hjT
    have hjB := List.mem_of_mem_erase hj
    have hne : j ≠ h := ((List.Nodup.mem_erase_iff (List.nodup_append.1 hnd).2.1).1 hj).1
    rw [release_buf, if_neg hne]
    exact h3 j hjB ((hin j).1 hjT)
  · intro j hj
    have hne : j ≠ h := fun c => (h6 j hj).2 (c ▸ hT)
    exact ⟨(List.mem_erase_of_ne hne).2 (h6 j hj).1, fun c => (h6 j hj).2 ((hin j).1 c)⟩

theorem Epoch.flush_epoch {s : Kernel} {T : Set Nat} {m h : Nat} (hc : CacheOK s)
    (he : Epoch s T m) (hm : h ∈ s.lru) (hd : (s.buf h).dev = ROOTDEV) :
    Epoch (s.flush h) T m := by
  obtain ⟨A, B, F, h1, h2, h3, h4, h5, h6⟩ := he.split
  refine ⟨he.cached, ?_, A, B, F, h1, h2, h3, h4, h5, h6⟩
  intro j hj hjd hh
  simp only [flush_buf, flush_ramdisk] at hh
  by_cases e : j = h
  · subst e
    rcases hh with hh | hh
    · exact he.hot j hj hjd (Or.inl hh)
    · simp at hh
  · have hne : (s.buf j).blockno ≠ (s.buf h).blockno := fun c => e (hc.uniq j hj h hm hjd hd c)
    rw [Function.update_noteq hne] at hh
    exact he.hot j hj hjd hh

/-! ### Specification of the buffer cache primitives -/

theorem bread_spec {s : Kernel} {T : Set Nat} {m b : Nat} (h : CI s T m) (hb : b < FSSIZE)
    (hfree : ∀ i ∈ s.lru, s.bound i b → (s.buf i).refcnt = 0) (hbud : b ∈ T ∨ 1 ≤ m) :
    ∃ i s1, bread ROOTDEV b s = Res.ok i s1 ∧ BreadPost s T m b i s1 := by
  have hc := h.ok
  have he := h.ep
  cases hl : s.lookup b with
  | some i =>
    obtain ⟨hi, hbd⟩ := (lookup_some_iff hc).1 hl
    have hf := hfree i hi hbd
    refine ⟨i, _, bread_hit hc hi hbd hf, ?_⟩
    have hc1 : CacheOK (s.setBuf i { s.buf i with refcnt := 1, locked := 1 }) :=
      hc.setBuf_bind (b := b) hbd.1 hbd.2 (hc.valid_of_bound i hi hbd.1) rfl rfl hb
        (fun j hj hne hjb => hne (hc.uniq j hj i hi hjb.1 hbd.1 (by rw [hjb.2, hbd.2])))
    have hin : b ∈ T → Epoch (s.setBuf i { s.buf i with refcnt := 1, locked := 1 }) T m :=
      fun hT => he.setBuf_inT hi hbd.1 (hbd.2 ▸ hT) rfl rfl (by simp)
    refine ⟨⟨hc1, ?_⟩, fun hT => ⟨hc1, hin hT⟩, ⟨hi, ⟨by simp [hbd.1], by simp [hbd.2]⟩, by simp⟩,
      ?_, ?_, ?_, hf, hi, rfl, rfl, Rest.setBuf _ _ _, ?_, ?_⟩
    · by_cases hT : b ∈ T
      · rw [Set.insert_eq_of_mem hT]; exact (hin hT).mono_epoch (Nat.sub_le _ _)
      · exact he.setBuf_new hi (fun c => hT (hbd.2 ▸ c.2))
          (fun j hj hne hjb => hne (hc.uniq j hj i hi hjb.1 hbd.1 (by rw [hjb.2, hbd.2])))
          hbd.1 hbd.2 (by simp)
    · simp [view_of_bound hc hi hbd]
    · funext c
      by_cases e : c = b
      · subst e
        rw [view_setBuf_bind hc hi hc1 hbd.1 hbd.2, view_of_bound hc hi hbd]
      · exact view_setBuf_other hc hc1 (fun hh => e (hh.2.symm.trans hbd.2))
          (fun hh _ => absurd (hh.2.symm.trans hbd.2) e)
    · intro j hj; simp [hj]
    · intro j hj hjb
      have : j = i := hc.uniq j hj i hi hjb.1 hbd.1 (by rw [hjb.2, hbd.2])
      subst this; simp
    · intro hn; exact absurd hbd (hn i hi)
  | none =>
    have hn := lookup_none_iff.1 hl
    have hnT : b ∉ T := fun hT => by
      obtain ⟨j, hj, hjb⟩ := he.cached b hT
      exact hn j hj hjb
    have hm : 1 ≤ m := hbud.resolve_left hnT
    obtain ⟨v, hv⟩ := he.victim_exists hc hm
    obtain ⟨hvm, hvf⟩ := victim_mem hv
    have hvT := he.victim_outside hc hm hv
    refine ⟨v, _, bread_miss hc hn hv hb, ?_⟩
    have hc1 : CacheOK (s.setBuf v (s.missBuf v b)) :=
      hc.setBuf_bind (b := b) rfl rfl (by simp [Kernel.missBuf]) rfl rfl hb (fun j hj _ => hn j hj)
    refine ⟨⟨hc1, ?_⟩, fun hT => absurd hT hnT,
      ⟨hvm, ⟨by simp [Kernel.missBuf], by simp [Kernel.missBuf]⟩, by simp [Kernel.missBuf]⟩,
      ?_, ?_, ?_, hvf, hvm, rfl, rfl, Rest.setBuf _ _ _, ?_, ?_⟩
    · exact he.setBuf_new hvm hvT (fun j hj _ => hn j hj) rfl rfl (by simp [Kernel.missBuf])
    · simp [view_of_unbound hn, Kernel.missBuf]
    · funext c
      by_cases e : c = b
      · subst e
        rw [view_setBuf_bind (b := c) hc hvm hc1 rfl rfl, view_of_unbound hn]
        rfl
      · refine view_setBuf_other hc hc1 (fun hh => e hh.2.symm) ?_
        intro hh _
        have := (he.outside hc hvm hvT).2 hh.1
        rw [this, hh.2]
    · intro j hj; simp [hj]
    · intro j hj hjb; exact absurd hjb (hn j hj)
    · intro _; simp [Kernel.missBuf]

/-- Storing into the payload of a pinned buffer. -/
theorem CI.setData {s : Kernel} {T : Set Nat} {m h b : Nat} (hci : CI s T m) (hh : s.held h b)
    (d : Mem) : CI (s.store h d) T m := by
  obtain ⟨hm, hbd, hr⟩ := hh
  unfold Kernel.store
  refine ⟨hci.ok.setBuf_same rfl rfl rfl rfl rfl, ?_⟩
  exact hci.ep.setBuf_inT hm hbd.1 (hci.ep.hot h hm hbd.1 (Or.inl (by rw [hr]; simp))) rfl rfl
    (by show (s.buf h).refcnt ≠ 0; rw [hr]; simp)

theorem view_setData {s : Kernel} (hc : CacheOK s) {h b : Nat} (hh : s.held h b) (d : Mem) :
    (s.store h d).view = Function.update s.view b d := by
  obtain ⟨hm, hbd, _⟩ := hh
  unfold Kernel.store
  have hc1 : CacheOK (s.setBuf h { s.buf h with data := d }) := hc.setBuf_same rfl rfl rfl rfl rfl
  funext c
  by_cases e : c = b
  · subst e
    rw [view_setBuf_bind hc hm hc1 hbd.1 hbd.2, Function.update_same]
  · rw [Function.update_noteq e]
    exact view_setBuf_other hc hc1 (fun hh => e (hh.2.symm.trans hbd.2))
      (fun hh _ => absurd (hh.2.symm.trans hbd.2) e)

theorem CI.flush_ci {s : Kernel} {T : Set Nat} {m h b : Nat} (hci : CI s T m) (hh : s.held h b) :
    CI (s.flush h) T m :=
  ⟨hci.ok.flush_cache h, hci.ep.flush_epoch hci.ok hh.1 hh.2.1.1⟩

theorem CI.release_ci {s : Kernel} {T : Set Nat} {m h b : Nat} (hci : CI s T m) (hh : s.held h b) :
    CI (s.release h) T m :=
  ⟨hci.ok.release_cache hh.1, hci.ep.release_epoch hci.ok hh.1 (by rw [hh.2.2]; simp)⟩

theorem brelse_held {s : Kernel} (hc : CacheOK s) {h b : Nat} (hh : s.held h b) :
    brelse h s = Res.ok () (s.release h) :=
  brelse_ok (by rw [(hc.lock h hh.1).1, hh.2.2]; simp) hh.2.2

theorem flush_held {s : Kernel} (hc : CacheOK s) {h b : Nat} (hh : s.held h b) :
    virtio_disk_rw h true s = Res.ok () (s.flush h) :=
  disk_write_ok (hc.range h hh.1 hh.2.1.1)

theorem held_store {s : Kernel} {h b : Nat} (hh : s.held h b) (d : Mem) :
    (s.store h d).held h b := by
  obtain ⟨hm, hbd, hr⟩ := hh
  exact ⟨hm, ⟨by simp [hbd.1], by simp [hbd.2]⟩, by simp [hr]⟩

theorem held_flush {s : Kernel} {h b : Nat} (hh : s.held h b) (j : Nat) : (s.flush j).held h b := hh

/-- A pinned buffer is not a buffer that a later `bread` returns. -/
theorem held_ne_of_free {s : Kernel} {j h b : Nat} (hj : s.held j b)
    (hf : (s.buf h).refcnt = 0) : j ≠ h := by
  intro e; subst e; rw [hj.2.2] at hf; exact absurd hf (by simp)

/-! ### The log layer below the file system -/

theorem HeldEq.refl_held (s : Kernel) : HeldEq s s := fun _ _ h => ⟨h, rfl⟩

theorem HeldEq.trans_held {s t u : Kernel} (h1 : HeldEq s t) (h2 : HeldEq t u) : HeldEq s u :=
  fun j b h => ⟨(h2 j b (h1 j b h).1).1, (h2 j b (h1 j b h).1).2.trans (h1 j b h).2⟩

theorem RestL.refl_restL (s : Kernel) : RestL s s := ⟨rfl, rfl, rfl, rfl, rfl, rfl⟩

theorem RestL.trans_restL {s t u : Kernel} (h1 : RestL s t) (h2 : RestL t u) : RestL s u :=
  ⟨h2.sb.trans h1.sb, h2.inode.trans h1.inode, h2.file.trans h1.file,
    h2.g_ofile.trans h1.g_ofile, h2.outstanding.trans h1.outstanding,
    h2.committing.trans h1.committing⟩

theorem Rest.toRestL {s t : Kernel} (h : Rest s t) : RestL s t :=
  ⟨h.sb, h.inode, h.file, h.g_ofile, by rw [h.log], by rw [h.log]⟩

theorem logged_congr {s t : Kernel} (h : t.log = s.log) (c : Nat) : t.logged c ↔ s.logged c := by
  unfold Kernel.logged; rw [h]

theorem slot_congr {s t : Kernel} (h : t.log = s.log) (k : Nat) : t.slot k = s.slot k := by
  unfold Kernel.slot; rw [h]

theorem slot_lt {s : Kernel} {T : Set Nat} (hl : LogOK s T) {k : Nat} (hk : k < s.log.lh.n) :
    s.slot k < FSSTART := by
  have := hl.n_le
  unfold Kernel.slot FSSTART; rw [hl.start]; unfold LOGSIZE at this; omega

theorem not_logged_of_lt {s : Kernel} {T : Set Nat} (hl : LogOK s T) {c : Nat}
    (hc : c < FSSTART) : ¬ s.logged c := by
  rintro ⟨k, hk, e⟩
  have := (hl.blk_range k hk).1
  omega

theorem fs_bread {s : Kernel} {T : Set Nat} {m b : Nat} (hi : FSInv s T m)
    (hlo : FSSTART ≤ b) (hb : b < FSSIZE)
    (hfree : s.unheld b) (hbud : b ∈ T ∨ 1 ≤ m) :
    ∃ h s1, bread ROOTDEV b s = Res.ok h s1 ∧ FsBreadPost s T m b h s1 := by
  obtain ⟨h, s1, e, p⟩ := bread_spec hi.ci hb hfree hbud
  refine ⟨h, s1, e, ?_⟩
  have hlog : s1.log = s.log := p.rest.log
  have hbuf : ∀ j, j ≠ h → s1.buf j = s.buf j := p.others
  have hheld : HeldEq s s1 := by
    intro j c hj
    have hne := held_ne_of_free hj p.was_free
    refine ⟨⟨p.lru ▸ hj.1, ?_, ?_⟩, ?_⟩
    · unfold Kernel.bound; rw [hbuf j hne]; exact hj.2.1
    · rw [hbuf j hne]; exact hj.2.2
    · rw [hbuf j hne]
  have hh1 : (s1.buf h).refcnt ≠ 0 := by rw [p.held.2.2]; simp
  -- the log invariant survives for any set containing the old one
  have hlg : ∀ T1 : Set Nat, T ⊆ T1 → LogOK s1 T1 := by
    intro T1 hsub
    have l := hi.lg
    refine ⟨hlog ▸ l.dev, hlog ▸ l.start, hlog ▸ l.size, hlog ▸ l.n_le, hlog ▸ l.idle,
      hlog ▸ l.blk_range, hlog ▸ l.blk_inj, ?_, ?_, ?_, ?_, ?_⟩
    · intro k hk; rw [hlog] at hk ⊢; exact hsub (l.blk_T k hk)
    · intro k hk; rw [hlog] at hk; rw [slot_congr hlog]; exact hsub (l.slot_T k hk)
    · intro k hk j hj hjb hjf
      rw [hlog] at hk hjb
      rw [slot_congr hlog, p.disk]
      have hne : j ≠ h := fun c => hh1 (c ▸ hjf)
      rw [hbuf j hne]
      rw [p.lru] at hj
      unfold Kernel.bound at hjb
      rw [hbuf j hne] at hjb hjf
      exact l.logged_ok k hk j hj hjb hjf
    · intro j hj hjd hjf hnl
      have hne : j ≠ h := fun c => hh1 (c ▸ hjf)
      rw [p.lru] at hj
      rw [hbuf j hne] at hjd hjf hnl ⊢
      rw [p.disk]
      exact l.unlogged_clean j hj hjd hjf (fun c => hnl ((logged_congr hlog _).2 c))
    · intro j hj hjd hjlo
      by_cases hne : j = h
      · subst hne; rw [p.held.2.1.2] at hjlo; omega
      · rw [p.lru] at hj
        rw [hbuf j hne] at hjd hjlo ⊢
        exact l.low_free j hj hjd hjlo
  refine ⟨⟨p.ci, hlg _ (Set.subset_insert b T), p.rest.sb.trans hi.sb⟩,
    fun hT => ⟨p.ci_in hT, hlg T (le_refl T), p.rest.sb.trans hi.sb⟩,
    p.held, p.data, p.view, ?_, hheld, p.disk, p.rest, p.others, p.lru, p.was_free⟩
  -- the returned buffer is synced
  have l := hi.lg
  have hbn : (s1.buf h).blockno = b := p.held.2.1.2
  constructor
  · intro k hk hkb
    rw [hlog] at hk hkb
    rw [hbn] at hkb
    rw [slot_congr hlog, p.disk]
    obtain ⟨j, hj, hjb⟩ := hi.ci.ep.cached b (hkb ▸ l.blk_T k hk)
    obtain ⟨e1, e2⟩ := p.same j hj hjb
    subst e1
    rw [e2]
    exact l.logged_ok k hk j hj (hkb ▸ hjb) p.was_free
  · intro hnl
    rw [hbn] at hnl ⊢
    rw [p.disk]
    have hnl' : ¬ s.logged b := fun c => hnl ((logged_congr hlog b).2 c)
    by_cases hc : ∃ j ∈ s.lru, s.bound j b
    · obtain ⟨j, hj, hjb⟩ := hc
      obtain ⟨e1, e2⟩ := p.same j hj hjb
      subst e1
      rw [e2]
      have := l.unlogged_clean j hj hjb.1 p.was_free (by rw [hjb.2]; exact hnl')
      rw [this, hjb.2]
    · push_neg at hc
      exact p.fresh hc

theorem log_find_spec (block : Nat → Nat) (X n : Nat) :
    ∀ fuel i, n ≤ i + fuel → i ≤ n →
      i ≤ log_find block X n fuel i ∧ log_find block X n fuel i ≤ n ∧
      (log_find block X n fuel i < n → block (log_find block X n fuel i) % U32 = X) ∧
      (∀ k, i ≤ k → k < log_find block X n fuel i → block k % U32 ≠ X) := by
  intro fuel
  induction fuel with
  | zero =>
    intro i h1 h2
    have : i = n := by omega
    subst this
    simp [log_find]
    intro k h3 h4; omega
  | succ f ih =>
    intro i h1 h2
    unfold log_find
    by_cases hlt : i < n
    · rw [if_pos hlt]
      by_cases hx : block i % U32 = X
      · rw [if_pos hx]
        exact ⟨le_refl _, h2, fun _ => hx, fun k h3 h4 => by omega⟩
      · rw [if_neg hx]
        obtain ⟨a, b, c, d⟩ := ih (i + 1) (by omega) (by omega)
        refine ⟨by omega, b, c, ?_⟩
        intro k h3 h4
        by_cases e : k = i
        · subst e; exact hx
        · exact d k (by omega) h4
    · rw [if_neg hlt]
      have : i = n := by omega
      subst this
      exact ⟨le_refl _, le_refl _, fun c => absurd c (lt_irrefl _), fun k h3 h4 => by omega⟩

/-- Under the log invariant the search of `log_write` returns the index of
`X` in the header, or the count if `X` is not listed. -/
theorem log_find_logged {s : Kernel} {T : Set Nat} (hl : LogOK s T) (X : Nat) (hX : X < FSSIZE) :
    (∃ k, k < s.log.lh.n ∧ s.log.lh.block k = X ∧
      log_find s.log.lh.block X s.log.lh.n s.log.lh.n 0 = k) ∨
    (¬ s.logged X ∧ log_find s.log.lh.block X s.log.lh.n s.log.lh.n 0 = s.log.lh.n) := by
  obtain ⟨_, b, c, d⟩ := log_find_spec s.log.lh.block X s.log.lh.n s.log.lh.n 0 (by omega) (by omega)
  have hmod : ∀ k, k < s.log.lh.n → s.log.lh.block k % U32 = s.log.lh.block k := by
    intro k hk
    apply Nat.mod_eq_of_lt
    have := (hl.blk_range k hk).2
    unfold FSSIZE at this; unfold U32; omega
  by_cases hlt : log_find s.log.lh.block X s.log.lh.n s.log.lh.n 0 < s.log.lh.n
  · left
    exact ⟨_, hlt, by rw [← hmod _ hlt]; exact c hlt, rfl⟩
  · right
    have e : log_find s.log.lh.block X s.log.lh.n s.log.lh.n 0 = s.log.lh.n := by omega
    refine ⟨?_, e⟩
    rintro ⟨k, hk, hkx⟩
    exact d k (by omega) (by omega) (by rw [hmod k hk]; exact hkx)

theorem FsBreadPost.unheld {s s1 : Kernel} {T : Set Nat} {m b h : Nat}
    (p : FsBreadPost s T m b h s1) {c : Nat} (hc : c ≠ b) (hu : s.unheld c) : s1.unheld c := by
  intro i hi hib
  have hne : i ≠ h := fun e => hc (by subst e; exact hib.2.symm.trans p.held.2.1.2)
  unfold Kernel.bound at hib
  rw [p.others i hne] at hib ⊢
  exact hu i (p.lru ▸ hi) hib

/-! ### `bwrite`, stores and `brelse` under the file-system invariant -/

theorem slot_write {t : Kernel} {T : Set Nat} {m h X i : Nat} (hci : CI t T m)
    (hh : t.held h X) (hdev : t.log.dev = ROOTDEV) (hc : t.slot i < FSSIZE)
    (hfree : ∀ j ∈ t.lru, t.bound j (t.slot i) → (t.buf j).refcnt = 0)
    (hbud : t.slot i ∈ T ∨ 1 ≤ m) :
    ∃ lb t4, log_write_slot h i t = Res.ok () t4 ∧
      CI t4 (insert (t.slot i) T) (m - 1) ∧ (t.slot i ∈ T → CI t4 T m) ∧
      t4.view = Function.update t.view (t.slot i) (t.buf h).data ∧
      t4.ramdisk = Function.update t.ramdisk (t.slot i) (t.buf h).data ∧
      Rest t t4 ∧ lb ∈ t.lru ∧ (t.buf lb).refcnt = 0 ∧ t4.bound lb (t.slot i) ∧
      (t4.buf lb).refcnt = 0 ∧ (t4.buf lb).data = (t.buf h).data ∧
      (∀ j, j ≠ lb → t4.buf j = t.buf j) ∧ (∀ j, j ∈ t4.lru ↔ j ∈ t.lru) := by
  obtain ⟨lb, s1, e1, p⟩ := bread_spec hci hc hfree hbud
  have hne : h ≠ lb := held_ne_of_free hh p.was_free
  have hd1 : (s1.buf h).data = (t.buf h).data := by rw [p.others h hne]
  have hh2 := held_store p.held (t.buf h).data
  have hh3 := held_flush hh2 lb
  refine ⟨lb, ((s1.store lb (t.buf h).data).flush lb).release lb, ?_, ?_⟩
  · unfold log_write_slot
    have e1' : bread ROOTDEV (t.log.start + 1 + i) t = Res.ok lb s1 := e1
    simp only [bind_apply, getK_apply, hdev, e1', setData_ok, memmove_block, hd1,
      flush_held (p.ci.setData p.held _).ok hh2]
    exact brelse_held ((p.ci.setData p.held _).flush_ci hh2).ok hh3
  · have hv2 := view_setData p.ci.ok p.held (t.buf h).data
    refine ⟨((p.ci.setData p.held _).flush_ci hh2).release_ci hh3,
      fun hT => (((p.ci_in hT).setData p.held _).flush_ci hh2).release_ci hh3, ?_, ?_, ?_, p.mem,
      p.was_free, ?_, ?_, ?_, ?_, ?_⟩
    · rw [view_release ((p.ci.setData p.held _).flush_ci hh2).ok hh3.1,
        view_flush (p.ci.setData p.held _).ok hh2.1 hh2.2.1.1, hv2, p.view]
    · simp [p.disk, p.held.2.1.2]
    · exact ⟨p.rest.sb, p.rest.log, p.rest.inode, p.rest.file, p.rest.g_ofile⟩
    · exact (bound_release _ _ _ _).2 hh3.2.1
    · simp
    · simp
    · intro j hj
      simp [hj, p.others j hj]
    · intro j
      rw [mem_release hh3.1]
      show j ∈ s1.lru ↔ j ∈ t.lru
      rw [p.lru]


/-- The log invariant after the payload of the pinned buffer `h` of block
`X = block i` has been copied to its slot. -/
theorem LogOK.slot_write_logok {t t4 : Kernel} {T1 : Set Nat} {h X i lb : Nat} (hl : LogOK t T1)
    (hc : CacheOK t) (hc4 : CacheOK t4) (hh : t.held h X) (hi : i < t.log.lh.n)
    (hiX : t.log.lh.block i = X)
    (hdisk : t4.ramdisk = Function.update t.ramdisk (t.slot i) (t.buf h).data)
    (hlog : t4.log = t.log) (hlb4 : t4.bound lb (t.slot i)) (hlbr : (t4.buf lb).refcnt = 0)
    (hlbd : (t4.buf lb).data = (t.buf h).data) (hlbm : lb ∈ t.lru)
    (hoth : ∀ j, j ≠ lb → t4.buf j = t.buf j) (hmem : ∀ j, j ∈ t4.lru ↔ j ∈ t.lru) :
    LogOK t4 T1 := by
  have hslot : ∀ k, t4.slot k = t.slot k := slot_congr hlog
  refine ⟨hlog ▸ hl.dev, hlog ▸ hl.start, hlog ▸ hl.size, hlog ▸ hl.n_le, hlog ▸ hl.idle,
    hlog ▸ hl.blk_range, hlog ▸ hl.blk_inj, hlog ▸ hl.blk_T, ?_, ?_, ?_, ?_⟩
  · intro k hk; rw [hslot]; rw [hlog] at hk; exact hl.slot_T k hk
  · intro k hk j hj hjb hjf
    rw [hlog] at hk hjb
    rw [hslot, hdisk]
    have hne : j ≠ lb := by
      intro e; subst e
      have h1 := hjb.2.symm.trans hlb4.2
      have h2 := (hl.blk_range k hk).1
      have h3 := slot_lt hl hi
      omega
    have hjm := (hmem j).1 hj
    unfold Kernel.bound at hjb
    rw [hoth j hne] at hjb hjf ⊢
    by_cases e : k = i
    · subst e
      have : j = h := hc.uniq j hjm h hh.1 hjb.1 hh.2.1.1 (by rw [hjb.2, hh.2.1.2, hiX])
      subst this
      rw [hh.2.2] at hjf; exact absurd hjf (by simp)
    · have hsne : t.slot k ≠ t.slot i := by unfold Kernel.slot; omega
      rw [Function.update_noteq hsne]
      exact hl.logged_ok k hk j hjm hjb hjf
  · intro j hj hjd hjf hnl
    rw [hdisk]
    by_cases e : j = lb
    · subst e
      rw [hlb4.2, Function.update_same, hlbd]
    · have hjm := (hmem j).1 hj
      have hne : (t4.buf j).blockno ≠ t.slot i := by
        intro c
        exact e (hc4.uniq j hj lb ((hmem lb).2 hlbm) hjd hlb4.1 (by rw [c, hlb4.2]))
      rw [Function.update_noteq hne]
      rw [hoth j e] at hjd hjf hnl ⊢
      exact hl.unlogged_clean j hjm hjd hjf (fun c => hnl ((logged_congr hlog _).2 c))
  · intro j hj hjd hjlo
    by_cases e : j = lb
    · subst e; exact hlbr
    · rw [hoth j e] at hjd hjlo ⊢
      exact hl.low_free j ((hmem j).1 hj) hjd hjlo

theorem CacheOK.cache_of_eq {s t : Kernel} (hb : t.buf = s.buf) (hl : t.lru = s.lru)
    (h : CacheOK s) : CacheOK t := by
  obtain ⟨a, b, c, d, e, f⟩ := h
  constructor <;> simp only [hb, hl] <;> assumption

theorem Epoch.epoch_of_eq {s t : Kernel} {T : Set Nat} {m : Nat} (hb : t.buf = s.buf)
    (hl : t.lru = s.lru) (hd : t.ramdisk = s.ramdisk) (h : Epoch s T m) : Epoch t T m := by
  obtain ⟨a, b, c⟩ := h
  constructor
  · simpa only [Kernel.bound, hb, hl] using a
  · simpa only [hb, hl, hd] using b
  · simpa only [Kernel.inT, hb, hl] using c

theorem CI.ci_of_eq {s t : Kernel} {T : Set Nat} {m : Nat} (hb : t.buf = s.buf)
    (hl : t.lru = s.lru) (hd : t.ramdisk = s.ramdisk) (h : CI s T m) : CI t T m :=
  ⟨h.ok.cache_of_eq hb hl, h.ep.epoch_of_eq hb hl hd⟩

theorem view_of_cache_eq {s t : Kernel} (hb : t.buf = s.buf) (hl : t.lru = s.lru)
    (hd : t.ramdisk = s.ramdisk) : t.view = s.view := by
  funext c
  unfold Kernel.view Kernel.lookup
  rw [hb, hl, hd]

/-- The state after `b->disk = 1`. -/
theorem CI.setDisk_ci {s : Kernel} {T : Set Nat} {m h X : Nat} (hci : CI s T m) (hh : s.held h X) :
    CI (s.setBuf h { s.buf h with disk := 1 }) T m :=
  ⟨hci.ok.setBuf_same rfl rfl rfl rfl rfl,
   hci.ep.setBuf_inT hh.1 hh.2.1.1
     (hci.ep.hot h hh.1 hh.2.1.1 (Or.inl (by rw [hh.2.2]; simp))) rfl rfl
     (by show (s.buf h).refcnt ≠ 0; rw [hh.2.2]; simp)⟩

theorem view_setDisk {s : Kernel} {T : Set Nat} {m h X : Nat} (hci : CI s T m)
    (hh : s.held h X) : (s.setBuf h { s.buf h with disk := 1 }).view = s.view := by
  have hc1 := (hci.setDisk_ci hh).ok
  funext c
  by_cases e : c = X
  · subst e
    rw [view_setBuf_bind hci.ok hh.1 hc1 hh.2.1.1 hh.2.1.2, view_of_bound hci.ok hh.1 hh.2.1]
  · exact view_setBuf_other hci.ok hc1 (fun c' => e (c'.2.symm.trans hh.2.1.2))
      (fun c' _ => absurd (c'.2.symm.trans hh.2.1.2) e)

theorem setBuf_buf_ne (s : Kernel) {i j : Nat} (b : Buf) (h : j ≠ i) :
    (s.setBuf i b).buf j = s.buf j := by simp [h]

theorem LogOK.setDisk_logok {s : Kernel} {T : Set Nat} {h X : Nat} (hl : LogOK s T) (hh : s.held h X) :
    LogOK (s.setBuf h { s.buf h with disk := 1 }) T := by
  have hr : (s.buf h).refcnt ≠ 0 := by rw [hh.2.2]; simp
  have hself : ((s.setBuf h { s.buf h with disk := 1 }).buf h).refcnt ≠ 0 := by simpa using hr
  refine ⟨hl.dev, hl.start, hl.size, hl.n_le, hl.idle, hl.blk_range, hl.blk_inj, hl.blk_T,
    hl.slot_T, ?_, ?_, ?_⟩
  · intro k hk j hj hjb hjf
    by_cases e : j = h
    · subst e; exact absurd hjf hself
    · unfold Kernel.bound at hjb
      rw [setBuf_buf_ne s _ e] at hjb hjf ⊢
      exact hl.logged_ok k hk j hj hjb hjf
  · intro j hj hjd hjf hnl
    by_cases e : j = h
    · subst e; exact absurd hjf hself
    · rw [setBuf_buf_ne s _ e] at hjd hjf hnl ⊢
      exact hl.unlogged_clean j hj hjd hjf hnl
  · intro j hj hjd hjlo
    by_cases e : j = h
    · subst e
      have : (s.buf j).blockno < FSSTART := by simpa using hjlo
      have := hl.low_free j hj hh.2.1.1 this
      exact absurd this hr
    · rw [setBuf_buf_ne s _ e] at hjd hjlo ⊢
      exact hl.low_free j hj hjd hjlo

theorem LogOK.flush_idle {s : Kernel} {T : Set Nat} {h X : Nat} (hl : LogOK s T)
    (hc : CacheOK s) (hh : s.held h X) (hout : s.log.outstanding = 0) :
    LogOK (s.flush h) T := by
  have hn := hl.idle hout
  refine ⟨hl.dev, hl.start, hl.size, hl.n_le, hl.idle, hl.blk_range, hl.blk_inj, hl.blk_T,
    hl.slot_T, ?_, ?_, hl.low_free⟩
  · intro k hk; simp only [flush_log] at hk; omega
  · intro j hj hjd hjf hnl
    simp only [flush_buf, flush_ramdisk, flush_lru] at hj hjd hjf hnl ⊢
    have hne : j ≠ h := fun e => by subst e; rw [hh.2.2] at hjf; exact absurd hjf (by simp)
    have hbn : (s.buf j).blockno ≠ (s.buf h).blockno :=
      fun c => hne (hc.uniq j hj h hh.1 hjd hh.2.1.1 c)
    rw [Function.update_noteq hbn]
    exact hl.unlogged_clean j hj hjd hjf hnl

theorem LogOK.push {s : Kernel} {T : Set Nat} {h X : Nat} (hl : LogOK s T) (hc : CacheOK s)
    (hh : s.held h X) (hlo : FSSTART ≤ X) (hXT : X ∈ T) (hnl : ¬ s.logged X)
    (hn : s.log.lh.n + 2 ≤ LOGSIZE) (hout : s.log.outstanding ≠ 0) :
    LogOK (s.logPush X) (insert (s.slot s.log.lh.n) T) := by
  have hXr : X < FSSIZE := hh.2.1.2 ▸ hc.range h hh.1 hh.2.1.1
  have hblk : ∀ k, k < s.log.lh.n → (s.logPush X).log.lh.block k = s.log.lh.block k := by
    intro k hk
    show Function.update s.log.lh.block s.log.lh.n X k = _
    rw [Function.update_noteq (by omega)]
  have hblkn : (s.logPush X).log.lh.block s.log.lh.n = X := by
    show Function.update s.log.lh.block s.log.lh.n X _ = _
    rw [Function.update_same]
  have hnn : (s.logPush X).log.lh.n = s.log.lh.n + 1 := rfl
  have hcase : ∀ k, k < (s.logPush X).log.lh.n → k < s.log.lh.n ∨ k = s.log.lh.n := by
    intro k hk; rw [hnn] at hk; omega
  refine ⟨hl.dev, hl.start, hl.size, by rw [hnn]; omega, fun c => absurd c hout, ?_, ?_, ?_, ?_,
    ?_, ?_, hl.low_free⟩
  · intro k hk
    rcases hcase k hk with h1 | h1
    · rw [hblk k h1]; exact hl.blk_range k h1
    · subst h1; rw [hblkn]; exact ⟨hlo, hXr⟩
  · intro k hk k' hk' e
    rcases hcase k hk with h1 | h1 <;> rcases hcase k' hk' with h2 | h2
    · rw [hblk k h1, hblk k' h2] at e; exact hl.blk_inj k h1 k' h2 e
    · subst h2; rw [hblk k h1, hblkn] at e; exact absurd ⟨k, h1, e⟩ hnl
    · subst h1; rw [hblk k' h2, hblkn] at e; exact absurd ⟨k', h2, e.symm⟩ hnl
    · rw [h1, h2]
  · intro k hk
    rcases hcase k hk with h1 | h1
    · rw [hblk k h1]; exact Or.inr (hl.blk_T k h1)
    · subst h1; rw [hblkn]; exact Or.inr hXT
  · intro k hk
    rcases hcase k hk with h1 | h1
    · exact Or.inr (hl.slot_T k h1)
    · subst h1; exact Or.inl rfl
  · intro k hk j hj hjb hjf
    rcases hcase k hk with h1 | h1
    · rw [hblk k h1] at hjb; exact hl.logged_ok k h1 j hj hjb hjf
    · subst h1
      rw [hblkn] at hjb
      have hjb' : s.bound j X := hjb
      have : j = h := hc.uniq j hj h hh.1 hjb'.1 hh.2.1.1 (by rw [hjb'.2, hh.2.1.2])
      subst this
      have : (s.buf j).refcnt = 0 := hjf
      rw [hh.2.2] at this; exact absurd this (by simp)
  · intro j hj hjd hjf hnl'
    refine hl.unlogged_clean j hj hjd hjf ?_
    rintro ⟨k, hk, e⟩
    exact hnl' ⟨k, by rw [hnn]; omega, by rw [hblk k hk]; exact e⟩

theorem fs_bwrite {s : Kernel} {T : Set Nat} {m h X : Nat} (hi : FSInv s T m)
    (hh : s.held h X) (hlo : FSSTART ≤ X)
    (hbud : s.log.outstanding = 0 ∨ s.logged X ∨ (s.log.lh.n + 2 ≤ LOGSIZE ∧ 1 ≤ m)) :
    ∃ s1 T1 m1, bwrite h s = Res.ok () s1 ∧ BwritePost s T m h X s1 T1 m1 := by
  have hci0 : CI (s.setBuf h { s.buf h with disk := 1 }) T m := hi.ci.setDisk_ci hh
  have hl0 : LogOK (s.setBuf h { s.buf h with disk := 1 }) T := hi.lg.setDisk_logok hh
  have hv0 := view_setDisk hi.ci hh
  have hlocked : (s.buf h).locked ≠ 0 := by rw [(hi.ci.ok.lock h hh.1).1, hh.2.2]; simp
  have hbw : bwrite h s = log_write h (s.setBuf h { s.buf h with disk := 1 }) := by
    simp [bwrite, hlocked]
  have hXr : X < FSSIZE := hh.2.1.2 ▸ hi.ci.ok.range h hh.1 hh.2.1.1
  have hXT : X ∈ T := hh.2.1.2 ▸ hi.ci.ep.hot h hh.1 hh.2.1.1 (Or.inl (by rw [hh.2.2]; simp))
  generalize hs0 : s.setBuf h { s.buf h with disk := 1 } = s0 at hci0 hl0 hv0 hbw
  have hb0 : ∀ j, (s0.buf j).dev = (s.buf j).dev ∧ (s0.buf j).blockno = (s.buf j).blockno ∧
      (s0.buf j).refcnt = (s.buf j).refcnt ∧ (s0.buf j).data = (s.buf j).data := by
    intro j; subst hs0; simp only [setBuf_buf]; split
    · next e => subst e; exact ⟨rfl, rfl, rfl, rfl⟩
    · exact ⟨rfl, rfl, rfl, rfl⟩
  have hlru0 : s0.lru = s.lru := by subst hs0; rfl
  have hlog0 : s0.log = s.log := by subst hs0; rfl
  have hdisk0 : s0.ramdisk = s.ramdisk := by subst hs0; rfl
  have hrest0 : Rest s s0 := by subst hs0; exact Rest.setBuf _ _ _
  have hh0 : s0.held h X :=
    ⟨hlru0 ▸ hh.1, ⟨(hb0 h).1.trans hh.2.1.1, (hb0 h).2.1.trans hh.2.1.2⟩,
      (hb0 h).2.2.1.trans hh.2.2⟩
  have heq0 : HeldEq s s0 := fun j b hj =>
    ⟨⟨hlru0 ▸ hj.1, ⟨(hb0 j).1.trans hj.2.1.1, (hb0 j).2.1.trans hj.2.1.2⟩,
      (hb0 j).2.2.1.trans hj.2.2⟩, (hb0 j).2.2.2⟩
  have hsb0 : s0.sb = mkfs_sb := hrest0.sb.trans hi.sb
  have hun0 : ∀ c, s.unheld c → s0.unheld c := by
    intro c hu i hii hib
    rw [(hb0 i).2.2.1]
    exact hu i (hlru0 ▸ hii) ⟨(hb0 i).1.symm.trans hib.1, (hb0 i).2.1.symm.trans hib.2⟩
  have hun4 : ∀ (t t4 : Kernel) (lb : Nat), t.buf = s0.buf → t.lru = s0.lru →
      (t4.buf lb).refcnt = 0 → (∀ j, j ≠ lb → t4.buf j = t.buf j) →
      (∀ j, j ∈ t4.lru ↔ j ∈ t.lru) → ∀ c, s.unheld c → t4.unheld c := by
    intro t t4 lb hb hl hlbr hoth hmem c hu i hii hib
    by_cases e : i = lb
    · subst e; exact hlbr
    · unfold Kernel.bound at hib
      rw [hoth i e, hb] at hib ⊢
      exact hun0 c hu i (hl ▸ (hmem i).1 hii) hib
  rw [hbw]
  by_cases hout : s.log.outstanding = 0
  · -- outside a transaction: the block goes straight to the device
    have hout0 : s0.log.outstanding = 0 := by rw [hlog0]; exact hout
    refine ⟨s0.flush h, T, m, ?_, ?_⟩
    · unfold log_write; rw [if_pos (by omega)]; exact flush_held hci0.ok hh0
    · refine ⟨⟨hci0.flush_ci hh0, hl0.flush_idle hci0.ok hh0 hout0, hsb0⟩, le_refl T, by omega,
        fun _ => ⟨rfl, rfl, hlog0⟩, by simp [hlog0], fun c => absurd hout c,
        fun c hc => (logged_congr (s := s) (t := s0.flush h) hlog0 c).2 hc, ?_, ?_, ?_, ?_, ?_,
        fun j => by rw [show (s0.flush h).lru = s.lru from hlru0], fun c => absurd hout c,
        fun c => absurd hout c⟩
      · constructor
        · intro k hk
          have := hl0.idle hout0
          simp only [flush_log] at hk; omega
        · intro _; simp
      · intro c _; rw [view_flush hci0.ok hh0.1 hh0.2.1.1, hv0]
      · exact heq0
      · exact ⟨hrest0.sb, hrest0.inode, hrest0.file, hrest0.g_ofile, by simp [hlog0],
          by simp [hlog0]⟩
      · exact hun0
  · have hout0 : ¬ s0.log.outstanding < 1 := by rw [hlog0]; omega
    have hbn0 : (s0.buf h).blockno = X := hh0.2.1.2
    rcases log_find_logged hl0 X hXr with ⟨k, hk, hkX, hfind⟩ | ⟨hnl, hfind⟩
    · -- the block is already in the header: its slot is rewritten
      have hsl : s0.slot k < FSSIZE := by
        have := slot_lt hl0 hk; unfold FSSTART at this; unfold FSSIZE; omega
      obtain ⟨lb, t4, e4, c1, c2, hv4, hd4, hr4, hlbm, hlbf, hlb4, hlbr, hlbd, hoth, hmem⟩ :=
        slot_write (i := k) hci0 hh0 hl0.dev hsl
          (fun j hj hjb => hl0.low_free j hj hjb.1 (by rw [hjb.2]; exact slot_lt hl0 hk))
          (Or.inl (hl0.slot_T k hk))
      have hci4 := c2 (hl0.slot_T k hk)
      have hl4 := hl0.slot_write_logok hci0.ok hci4.ok hh0 hk hkX hd4 hr4.log hlb4 hlbr hlbd hlbm hoth hmem
      have hne : h ≠ lb := held_ne_of_free hh0 hlbf
      refine ⟨t4, T, m, ?_, ?_⟩
      · unfold log_write
        rw [if_neg hout0]
        simp only [hbn0, hfind]
        rw [if_neg (by omega)]
        exact e4
      · refine ⟨⟨hci4, hl4, hr4.sb.trans hsb0⟩, le_refl T, by omega,
          fun _ => ⟨rfl, rfl, hr4.log.trans hlog0⟩, by rw [hr4.log, hlog0]; omega,
          fun _ => ⟨k, by rw [hr4.log]; exact hk, by rw [hr4.log]; exact hkX⟩,
          fun c hc => (logged_congr (hr4.log.trans hlog0) c).2 hc, ?_, ?_, ?_, ?_, ?_,
          fun j => (hmem j).trans (by rw [hlru0]),
          fun _ c => absurd ⟨k, by rw [← hlog0]; exact hk, by rw [← hlog0]; exact hkX⟩ c,
          fun _ => ⟨k, by rw [hr4.log]; exact hk, by rw [hr4.log]; exact hkX,
            by rw [hd4, hdisk0, slot_congr hlog0, (hb0 h).2.2.2]⟩⟩
        · have hb4 : t4.buf h = s0.buf h := hoth h hne
          constructor
          · intro k' hk' hkb
            rw [hr4.log] at hk' hkb
            rw [hb4, hbn0] at hkb
            have : k' = k := hl0.blk_inj k' hk' k hk (hkb.trans hkX.symm)
            subst this
            rw [hb4, slot_congr hr4.log, hd4, Function.update_same]
          · intro hnl
            exfalso; apply hnl
            rw [hb4, hbn0]
            exact ⟨k, by rw [hr4.log]; exact hk, by rw [hr4.log]; exact hkX⟩
        · intro c hc
          rw [hv4, Function.update_noteq, hv0]
          have := slot_lt hl0 hk
          omega
        · refine heq0.trans_held ?_
          intro j b hj
          have hjne : j ≠ lb := held_ne_of_free hj hlbf
          exact ⟨⟨(hmem j).2 hj.1, by unfold Kernel.bound; rw [hoth j hjne]; exact hj.2.1,
            by rw [hoth j hjne]; exact hj.2.2⟩, by rw [hoth j hjne]⟩
        · exact hrest0.toRestL.trans_restL hr4.toRestL
        · exact hun4 s0 t4 lb rfl rfl hlbr hoth hmem
    · -- a new entry is added
      have hnl' : ¬ s.logged X := fun c => hnl ((logged_congr hlog0 X).2 c)
      have hcap : s.log.lh.n + 2 ≤ LOGSIZE ∧ 1 ≤ m := by
        rcases hbud with c | c | c
        · exact absurd c hout
        · exact absurd c hnl'
        · exact c
      have hcap0 : s0.log.lh.n + 2 ≤ LOGSIZE := by rw [hlog0]; exact hcap.1
      have hlp := hl0.push hci0.ok hh0 hlo hXT hnl hcap0 (by rw [hlog0]; exact hout)
      have hcip : CI (s0.logPush X) T m := CI.ci_of_eq (s := s0) rfl rfl rfl hci0
      have hhp : (s0.logPush X).held h X := hh0
      have hslp : (s0.logPush X).slot s0.log.lh.n = s0.slot s0.log.lh.n := rfl
      have hsl : (s0.logPush X).slot s0.log.lh.n < FSSIZE := by
        have := slot_lt hlp (k := s0.log.lh.n) (by show s0.log.lh.n < s0.log.lh.n + 1; omega)
        unfold FSSTART at this; unfold FSSIZE; omega
      obtain ⟨lb, t4, e4, c1, c2, hv4, hd4, hr4, hlbm, hlbf, hlb4, hlbr, hlbd, hoth, hmem⟩ :=
        slot_write (i := s0.log.lh.n) hcip hhp hlp.dev hsl
          (fun j hj hjb => hlp.low_free j hj hjb.1 (by
            rw [hjb.2]
            exact slot_lt hlp (k := s0.log.lh.n) (by show s0.log.lh.n < s0.log.lh.n + 1; omega)))
          (Or.inr hcap.2)
      have hkn : s0.log.lh.n < (s0.logPush X).log.lh.n := by
        show s0.log.lh.n < s0.log.lh.n + 1; omega
      have hbX : (s0.logPush X).log.lh.block s0.log.lh.n = X := by
        show Function.update s0.log.lh.block s0.log.lh.n X _ = _
        rw [Function.update_same]
      have hl4 := hlp.slot_write_logok hcip.ok c1.ok hhp hkn hbX hd4 hr4.log hlb4 hlbr hlbd hlbm hoth hmem
      have hne : h ≠ lb := held_ne_of_free hhp hlbf
      refine ⟨t4, insert (s0.slot s0.log.lh.n) T, m - 1, ?_, ?_⟩
      · unfold log_write
        rw [if_neg hout0]
        simp only [hbn0, hfind, ↓reduceIte]
        rw [if_neg (by rw [hl0.size]; omega)]
        exact e4
      · refine ⟨⟨c1, hl4, hr4.sb.trans hsb0⟩, Set.subset_insert _ _, by omega,
          fun c => ?_, ?_, fun _ => ⟨s0.log.lh.n, by rw [hr4.log]; exact hkn,
            by rw [hr4.log]; exact hbX⟩, ?_, ?_, ?_, ?_, ?_,
          hun4 (s0.logPush X) t4 lb rfl rfl hlbr hoth hmem,
          fun j => (hmem j).trans (by rw [show (s0.logPush X).lru = s.lru from hlru0]),
          fun _ _ => ⟨by rw [hr4.log]; show s0.log.lh.n + 1 = _; rw [hlog0],
            by rw [hr4.log]; show Function.update s0.log.lh.block s0.log.lh.n X = _; rw [hlog0]⟩,
          fun _ => ⟨s0.log.lh.n, by rw [hr4.log]; exact hkn, by rw [hr4.log]; exact hbX, by
            rw [hd4]
            show Function.update s0.ramdisk (s0.slot s0.log.lh.n) (s0.buf h).data = _
            rw [hdisk0, slot_congr hlog0, (hb0 h).2.2.2]⟩⟩
        · rcases c with c | c
          · exact absurd c hout
          · exact absurd c hnl'
        · rw [hr4.log]; show s0.log.lh.n + 1 ≤ _; rw [hlog0]
        · rintro c ⟨k, hk, e⟩
          refine ⟨k, ?_, ?_⟩
          · rw [hr4.log]; show k < s0.log.lh.n + 1; rw [hlog0]; omega
          · rw [hr4.log]
            show Function.update s0.log.lh.block s0.log.lh.n X k = c
            rw [Function.update_noteq (by rw [hlog0]; omega), hlog0]; exact e
        · have hb4 : t4.buf h = s0.buf h := hoth h hne
          constructor
          · intro k' hk' hkb
            rw [hr4.log] at hk' hkb
            rw [hb4, hbn0] at hkb
            have : k' = s0.log.lh.n := hlp.blk_inj k' hk' _ hkn (hkb.trans hbX.symm)
            subst this
            rw [hb4, slot_congr hr4.log, hd4, Function.update_same]
            rfl
          · intro hnl2
            exfalso; apply hnl2
            rw [hb4, hbn0]
            exact ⟨s0.log.lh.n, by rw [hr4.log]; exact hkn, by rw [hr4.log]; exact hbX⟩
        · intro c hc
          rw [hv4, Function.update_noteq]
          · show s0.view c = _; rw [hv0]
          · have := slot_lt hlp hkn
            omega
        · refine heq0.trans_held ?_
          intro j b hj
          have hj' : (s0.logPush X).held j b := hj
          have hjne : j ≠ lb := held_ne_of_free hj' hlbf
          exact ⟨⟨(hmem j).2 hj.1, by unfold Kernel.bound; rw [hoth j hjne]; exact hj.2.1,
            by rw [hoth j hjne]; exact hj.2.2⟩, by rw [hoth j hjne]; rfl⟩
        · refine hrest0.toRestL.trans_restL ?_
          exact ⟨hr4.sb, hr4.inode, hr4.file, hr4.g_ofile, by rw [hr4.log]; rfl,
            by rw [hr4.log]; rfl⟩

theorem store_buf_ne (s : Kernel) {i j : Nat} (d : Mem) (h : j ≠ i) :
    (s.store i d).buf j = s.buf j := by simp [h]

theorem release_buf_ne (s : Kernel) {i j : Nat} (h : j ≠ i) :
    (s.release i).buf j = s.buf j := by simp [h]

theorem LogOK.store {s : Kernel} {T : Set Nat} {h X : Nat} (hl : LogOK s T) (hh : s.held h X)
    (hlo : FSSTART ≤ X) (d : Mem) : LogOK (s.store h d) T := by
  have hr : (s.buf h).refcnt ≠ 0 := by rw [hh.2.2]; simp
  have hself : ((s.store h d).buf h).refcnt ≠ 0 := by simpa using hr
  refine ⟨hl.dev, hl.start, hl.size, hl.n_le, hl.idle, hl.blk_range, hl.blk_inj, hl.blk_T,
    hl.slot_T, ?_, ?_, ?_⟩
  · intro k hk j hj hjb hjf
    by_cases e : j = h
    · subst e; exact absurd hjf hself
    · unfold Kernel.bound at hjb
      rw [store_buf_ne s d e] at hjb hjf ⊢
      exact hl.logged_ok k hk j hj hjb hjf
  · intro j hj hjd hjf hnl
    by_cases e : j = h
    · subst e; exact absurd hjf hself
    · rw [store_buf_ne s d e] at hjd hjf hnl ⊢
      exact hl.unlogged_clean j hj hjd hjf hnl
  · intro j hj hjd hjlo
    by_cases e : j = h
    · subst e
      have : (s.buf j).blockno < FSSTART := by simpa using hjlo
      rw [hh.2.1.2] at this; omega
    · rw [store_buf_ne s d e] at hjd hjlo ⊢
      exact hl.low_free j hj hjd hjlo

/-- A store into the payload of a pinned buffer under the file-system
invariant. -/
theorem fs_store {s : Kernel} {T : Set Nat} {m h X : Nat} (hi : FSInv s T m) (hh : s.held h X)
    (hlo : FSSTART ≤ X) (d : Mem) :
    FSInv (s.store h d) T m ∧ (s.store h d).held h X ∧ ((s.store h d).buf h).data = d ∧
      (s.store h d).view = Function.update s.view X d ∧
      (∀ j b, j ≠ h → s.held j b →
        (s.store h d).held j b ∧ ((s.store h d).buf j).data = (s.buf j).data) := by
  refine ⟨⟨hi.ci.setData hh d, hi.lg.store hh hlo d, hi.sb⟩, held_store hh d, by simp,
    view_setData hi.ci.ok hh d, ?_⟩
  intro j b hne hj
  exact ⟨⟨hj.1, by unfold Kernel.bound; rw [store_buf_ne s d hne]; exact hj.2.1,
    by rw [store_buf_ne s d hne]; exact hj.2.2⟩, by rw [store_buf_ne s d hne]⟩

theorem LogOK.release_logok {s : Kernel} {T : Set Nat} {h X : Nat} (hl : LogOK s T) (hh : s.held h X)
    (hs : s.synced h) : LogOK (s.release h) T := by
  refine ⟨hl.dev, hl.start, hl.size, hl.n_le, hl.idle, hl.blk_range, hl.blk_inj, hl.blk_T,
    hl.slot_T, ?_, ?_, ?_⟩
  · intro k hk j hj hjb hjf
    have hjm := (mem_release hh.1 j).1 hj
    have hjb' := (bound_release s h j _).1 hjb
    by_cases e : j = h
    · subst e
      simp only [release_buf, if_true, release_ramdisk]
      exact hs.slot k hk hjb'.2.symm
    · rw [release_buf_ne s e] at hjf ⊢
      exact hl.logged_ok k hk j hjm hjb' hjf
  · intro j hj hjd hjf hnl
    have hjm := (mem_release hh.1 j).1 hj
    by_cases e : j = h
    · subst e
      simp only [release_buf, if_true, release_ramdisk] at hnl ⊢
      exact hs.dev hnl
    · rw [release_buf_ne s e] at hjd hjf hnl ⊢
      exact hl.unlogged_clean j hjm hjd hjf hnl
  · intro j hj hjd hjlo
    have hjm := (mem_release hh.1 j).1 hj
    by_cases e : j = h
    · subst e; simp
    · rw [release_buf_ne s e] at hjd hjlo ⊢
      exact hl.low_free j hjm hjd hjlo

/-- `brelse` of a pinned, synced buffer under the file-system invariant. -/
theorem fs_brelse {s : Kernel} {T : Set Nat} {m h X : Nat} (hi : FSInv s T m)
    (hh : s.held h X) (hs : s.synced h) :
    brelse h s = Res.ok () (s.release h) ∧ FSInv (s.release h) T m ∧
      (s.release h).view = s.view ∧ ((s.release h).buf h).refcnt = 0 ∧
      (∀ j b, j ≠ h → s.held j b →
        (s.release h).held j b ∧ ((s.release h).buf j).data = (s.buf j).data) ∧
      (∀ j, j ≠ h → (s.release h).buf j = s.buf j) ∧
      (∀ j, j ∈ (s.release h).lru ↔ j ∈ s.lru) := by
  refine ⟨brelse_held hi.ci.ok hh, ⟨hi.ci.release_ci hh, hi.lg.release_logok hh hs, hi.sb⟩,
    view_release hi.ci.ok hh.1, by simp, ?_, fun j hj => release_buf_ne s hj,
    mem_release hh.1⟩
  intro j b hne hj
  exact ⟨⟨(mem_release hh.1 j).2 hj.1, (bound_release s h j b).2 hj.2.1,
    by rw [release_buf_ne s hne]; exact hj.2.2⟩, by rw [release_buf_ne s hne]⟩

theorem unheld_store {s : Kernel} {h : Nat} (d : Mem) {c : Nat} (hu : s.unheld c) :
    (s.store h d).unheld c := by
  intro i hi hib
  by_cases e : i = h
  · subst e
    have hb : s.bound i c := by
      unfold Kernel.bound at hib ⊢; simpa using hib
    have := hu i hi hb
    simpa using this
  · unfold Kernel.bound at hib
    rw [store_buf_ne s d e] at hib ⊢
    exact hu i hi hib

theorem unheld_release {s : Kernel} {h X : Nat} (hh : s.held h X) (hc : CacheOK s) {c : Nat}
    (hu : c = X ∨ s.unheld c) : (s.release h).unheld c := by
  intro i hi hib
  by_cases e : i = h
  · subst e; simp
  · rw [release_buf_ne s e]
    have hib' := (bound_release s h i c).1 hib
    have him := (mem_release hh.1 i).1 hi
    rcases hu with hu | hu
    · subst hu
      exact absurd (hc.uniq i him h hh.1 hib'.1 hh.2.1.1 (by rw [hib'.2, hh.2.1.2])) e
    · exact hu i him hib'
theorem byte_set_bit : ∀ x, x < 256 → ∀ p, p < 8 → ∀ q, q < 8 →
    ((((x ||| (1 <<< p) % 256) % 256) &&& (1 <<< q) % 256) == 0) =
      (decide (p ≠ q) && ((x &&& (1 <<< q) % 256) == 0)) := by
  decide!

theorem byte_clear_bit : ∀ x, x < 256 → ∀ p, p < 8 → ∀ q, q < 8 →
    ((((x &&& (255 - (1 <<< p) % 256)) % 256) &&& (1 <<< q) % 256) == 0) =
      (decide (p = q) || ((x &&& (1 <<< q) % 256) == 0)) := by
  decide!

theorem bit_clear_set_bit (bits : Mem) (bi j : Nat) :
    bit_clear (set_bit bits bi) j = (decide (j ≠ bi) && bit_clear bits j) := by
  unfold bit_clear set_bit bitmask
  by_cases hb : j / 8 = bi / 8
  · rw [hb, Function.update_same]
    have h := byte_set_bit (bits (bi / 8) % 256) (Nat.mod_lt _ (by decide)) (bi % 8)
      (Nat.mod_lt _ (by decide)) (j % 8) (Nat.mod_lt _ (by decide))
    rw [h]
    have : (bi % 8 ≠ j % 8) ↔ (j ≠ bi) := by omega
    simp only [this]
  · rw [Function.update_noteq hb]
    have : j ≠ bi := fun e => hb (by rw [e])
    simp [this]

theorem bit_clear_clear_bit (bits : Mem) (bi j : Nat) :
    bit_clear (clear_bit bits bi) j = (decide (j = bi) || bit_clear bits j) := by
  unfold bit_clear clear_bit bitmask
  by_cases hb : j / 8 = bi / 8
  · rw [hb, Function.update_same]
    have h := byte_clear_bit (bits (bi / 8) % 256) (Nat.mod_lt _ (by decide)) (bi % 8)
      (Nat.mod_lt _ (by decide)) (j % 8) (Nat.mod_lt _ (by decide))
    rw [h]
    have : (bi % 8 = j % 8) ↔ (j = bi) := by omega
    simp only [this]
  · rw [Function.update_noteq hb]
    have : j ≠ bi := fun e => hb (by rw [e])
    simp [this]

theorem balloc_scan_some (bits : Mem) (bno size : Nat) :
    ∀ fuel bi r, balloc_scan bits bno size fuel bi = some r →
      bi ≤ r ∧ r < BPB ∧ bno + r < size ∧ bit_clear bits r = true ∧
      ∀ j, bi ≤ j → j < r → bit_clear bits j = false := by
  intro fuel
  induction fuel with
  | zero => intro bi r h; simp [balloc_scan] at h
  | succ f ih =>
    intro bi r h
    unfold balloc_scan at h
    by_cases hc : bi < BPB ∧ bno + bi < size
    · rw [if_pos hc] at h
      by_cases hb : bit_clear bits bi = true
      · rw [if_pos hb] at h
        injection h with h; subst h
        exact ⟨le_refl _, hc.1, hc.2, hb, fun j h1 h2 => by omega⟩
      · rw [if_neg hb] at h
        obtain ⟨a, b, c, d, e⟩ := ih (bi + 1) r h
        refine ⟨by omega, b, c, d, ?_⟩
        intro j h1 h2
        by_cases e' : j = bi
        · subst e'; simpa using hb
        · exact e j (by omega) h2
    · rw [if_neg hc] at h; exact absurd h (by simp)

theorem balloc_scan_none (bits : Mem) (bno size : Nat) :
    ∀ fuel bi, BPB ≤ bi + fuel → balloc_scan bits bno size fuel bi = none →
      ∀ j, bi ≤ j → j < BPB → bno + j < size → bit_clear bits j = false := by
  intro fuel
  induction fuel with
  | zero => intro bi h _ j h1 h2 _; omega
  | succ f ih =>
    intro bi hf h j h1 h2 h3
    unfold balloc_scan at h
    by_cases hc : bi < BPB ∧ bno + bi < size
    · rw [if_pos hc] at h
      by_cases hb : bit_clear bits bi = true
      · rw [if_pos hb] at h; exact absurd h (by simp)
      · rw [if_neg hb] at h
        by_cases e' : j = bi
        · subst e'; simpa using hb
        · exact ih (bi + 1) (by omega) h j (by omega) h2 h3
    · exfalso; apply hc; constructor <;> omega

/-- The scan finds the least clear bit in range. -/
theorem balloc_scan_least (bits : Mem) (size a : Nat) (ha : a < size) (hs : size ≤ BPB)
    (hc : bit_clear bits a = true) (hmin : ∀ b, b < a → bit_clear bits b = false) :
    balloc_scan bits 0 size BPB 0 = some a := by
  cases h : balloc_scan bits 0 size BPB 0 with
  | none =>
    have := balloc_scan_none bits 0 size BPB 0 (by omega) h a (by omega) (by omega) (by omega)
    rw [this] at hc; exact absurd hc (by simp)
  | some r =>
    obtain ⟨_, _, h3, h4, h5⟩ := balloc_scan_some bits 0 size BPB 0 r h
    rcases Nat.lt_trichotomy r a with c | c | c
    · rw [hmin r c] at h4; exact absurd h4 (by simp)
    · rw [c]
    · rw [h5 a (by omega) c] at hc; exact absurd hc (by simp)


theorem Step.refl_step {s : Kernel} {T : Set Nat} {m : Nat} (hi : FSInv s T m) :
    Step s T m s T m 0 0 :=
  ⟨hi, le_refl T, by omega, by omega, fun _ h => h, HeldEq.refl_held s, fun _ h => h, RestL.refl_restL s,
    fun _ => Iff.rfl⟩

theorem Step.trans_step {s s1 s2 : Kernel} {T T1 T2 : Set Nat} {m m1 m2 c c' l l' : Nat}
    (h1 : Step s T m s1 T1 m1 c l) (h2 : Step s1 T1 m1 s2 T2 m2 c' l') :
    Step s T m s2 T2 m2 (c + c') (l + l') :=
  ⟨h2.inv, h1.sub.trans h2.sub, by have := h1.bud; have := h2.bud; omega,
    by have := h1.n_le; have := h2.n_le; omega, fun x h => h2.warm x (h1.warm x h),
    h1.heldEq.trans_held h2.heldEq, fun x h => h2.unheld x (h1.unheld x h), h1.rest.trans_restL h2.rest,
    fun j => (h2.mem j).trans (h1.mem j)⟩

theorem Step.weaken {s s1 : Kernel} {T T1 : Set Nat} {m m1 c c' l l' : Nat}
    (h : Step s T m s1 T1 m1 c l) (hc : c ≤ c') (hl : l ≤ l') : Step s T m s1 T1 m1 c' l' :=
  ⟨h.inv, h.sub, by have := h.bud; omega, by have := h.n_le; omega, h.warm, h.heldEq, h.unheld,
    h.rest, h.mem⟩

/-- Reading block `c`, storing `d` into the buffer, `bwrite` and `brelse`:
the pattern by which the file system changes a block. -/
theorem update_block {s : Kernel} {T : Set Nat} {m c : Nat} (hi : FSInv s T m)
    (hlo : FSSTART ≤ c) (hc : c < FSSIZE) (hu : s.unheld c)
    (hbud : s.warm T c ∨ (2 ≤ m ∧ s.log.lh.n + 2 ≤ LOGSIZE)) :
    ∃ h s1, bread ROOTDEV c s = Res.ok h s1 ∧ (s1.buf h).data = s.view c ∧ Rest s s1 ∧
      ∀ d : Mem, ∃ s3 s4 T4 m4, bwrite h (s1.store h d) = Res.ok () s3 ∧
        brelse h s3 = Res.ok () s4 ∧ Step s T m s4 T4 m4 2 1 ∧ s4.warm T4 c ∧
        (s.warm T c → T4 = T ∧ m4 = m ∧ s4.log = s.log) ∧
        (∀ x, FSSTART ≤ x → s4.view x = Function.update s.view c d x) := by
  have hb1 : c ∈ T ∨ 1 ≤ m := by
    rcases hbud with h | h
    · exact Or.inl h.1
    · exact Or.inr (by omega)
  obtain ⟨h, s1, e1, p⟩ := fs_bread hi hlo hc hu hb1
  refine ⟨h, s1, e1, p.data, p.rest, ?_⟩
  intro d
  -- the invariant after the read, with the budget that is left
  obtain ⟨T1, m1, hi1, hsub1, hbud1, htight1, hcT1⟩ : ∃ T1 m1, FSInv s1 T1 m1 ∧ T ⊆ T1 ∧
      m ≤ m1 + 1 ∧ (s.warm T c → T1 = T ∧ m1 = m) ∧ c ∈ T1 := by
    by_cases hT : c ∈ T
    · exact ⟨T, m, p.inv_in hT, le_refl T, by omega, fun _ => ⟨rfl, rfl⟩, hT⟩
    · exact ⟨insert c T, m - 1, p.inv, Set.subset_insert _ _, by omega,
        fun w => absurd w.1 hT, Set.mem_insert _ _⟩
  obtain ⟨hi2, hh2, hd2, hv2, hoth2⟩ := fs_store hi1 p.held hlo d
  have hlog2 : (s1.store h d).log = s.log := p.rest.log
  have hb2 : (s1.store h d).log.outstanding = 0 ∨ (s1.store h d).logged c ∨
      ((s1.store h d).log.lh.n + 2 ≤ LOGSIZE ∧ 1 ≤ m1) := by
    rcases hbud with w | w
    · rcases w.2 with o | l
      · exact Or.inl (by rw [hlog2]; exact o)
      · exact Or.inr (Or.inl ((logged_congr hlog2 c).2 l))
    · exact Or.inr (Or.inr ⟨by rw [hlog2]; exact w.2, by omega⟩)
  obtain ⟨s3, T3, m3, e3, q⟩ := fs_bwrite hi2 hh2 hlo hb2
  have hh3 : s3.held h c := (q.heldEq h c hh2).1
  obtain ⟨e4, hi4, hv4, _, hoth4, _, hmem4⟩ := fs_brelse q.inv hh3 q.synced
  have hout : s3.log.outstanding = s.log.outstanding := by
    rw [q.rest.outstanding, hlog2]
  refine ⟨s3, s3.release h, T3, m3, e3, e4, ⟨hi4, hsub1.trans q.sub, ?_, ?_, ?_, ?_, ?_, ?_,
    fun j => (hmem4 j).trans ((q.mem j).trans (by rw [show (s1.store h d).lru = s.lru from p.lru]))⟩,
    ?_, ?_, ?_⟩
  · have := q.bud; omega
  · have := q.n_le; rw [hlog2] at this; exact this
  · intro x w
    refine ⟨q.sub (hsub1 w.1), ?_⟩
    rcases w.2 with o | l
    · exact Or.inl (by show s3.log.outstanding = 0; rw [hout]; exact o)
    · exact Or.inr ((logged_congr (s := s3) (t := s3.release h) rfl x).2
        (q.logged_mono x ((logged_congr hlog2 x).2 l)))
  · intro j b hj
    have h1 := p.heldEq j b hj
    have hne : j ≠ h := held_ne_of_free hj p.was_free
    have h2 := hoth2 j b hne h1.1
    have h3 := q.heldEq j b h2.1
    have h4 := hoth4 j b hne h3.1
    exact ⟨h4.1, h4.2.trans (h3.2.trans (h2.2.trans h1.2))⟩
  · intro x hx
    by_cases e : x = c
    · subst e; exact unheld_release hh3 q.inv.ci.ok (Or.inl rfl)
    · exact unheld_release hh3 q.inv.ci.ok
        (Or.inr (q.unheld x (unheld_store d (p.unheld e hx))))
  · exact p.rest.toRestL.trans_restL ((⟨rfl, rfl, rfl, rfl, rfl, rfl⟩ : RestL s1 (s1.store h d)).trans_restL
      (q.rest.trans_restL (⟨rfl, rfl, rfl, rfl, rfl, rfl⟩ : RestL s3 (s3.release h))))
  · refine ⟨q.sub hcT1, ?_⟩
    by_cases o : s.log.outstanding = 0
    · exact Or.inl (by show s3.log.outstanding = 0; rw [hout]; exact o)
    · exact Or.inr (q.logged (by rw [hlog2]; exact o))
  · intro w
    obtain ⟨e1, e2⟩ := htight1 w
    have hw2 : (s1.store h d).log.outstanding = 0 ∨ (s1.store h d).logged c := by
      rcases w.2 with o | l
      · exact Or.inl (by rw [hlog2]; exact o)
      · exact Or.inr ((logged_congr hlog2 c).2 l)
    obtain ⟨t1, t2, t3⟩ := q.tight hw2
    exact ⟨t1.trans e1, t2.trans e2, t3.trans hlog2⟩
  · intro x hx
    rw [hv4, q.view x hx, hv2, p.view]


/-- Reading block `c` and releasing it. -/
theorem read_block {s : Kernel} {T : Set Nat} {m c : Nat} (hi : FSInv s T m)
    (hlo : FSSTART ≤ c) (hc : c < FSSIZE) (hu : s.unheld c) (hbud : c ∈ T ∨ 1 ≤ m) :
    ∃ h s1, bread ROOTDEV c s = Res.ok h s1 ∧ (s1.buf h).data = s.view c ∧ Rest s s1 ∧
      ∃ s2 T2 m2, brelse h s1 = Res.ok () s2 ∧ Step s T m s2 T2 m2 1 0 ∧ c ∈ T2 ∧
        (c ∈ T → T2 = T ∧ m2 = m) ∧ s2.view = s.view ∧ s2.ramdisk = s.ramdisk ∧
        s2.log = s.log := by
  obtain ⟨h, s1, e1, p⟩ := fs_bread hi hlo hc hu hbud
  refine ⟨h, s1, e1, p.data, p.rest, ?_⟩
  obtain ⟨T1, m1, hi1, hsub1, hbud1, htight1, hcT1⟩ : ∃ T1 m1, FSInv s1 T1 m1 ∧ T ⊆ T1 ∧
      m ≤ m1 + 1 ∧ (c ∈ T → T1 = T ∧ m1 = m) ∧ c ∈ T1 := by
    by_cases hT : c ∈ T
    · exact ⟨T, m, p.inv_in hT, le_refl T, by omega, fun _ => ⟨rfl, rfl⟩, hT⟩
    · exact ⟨insert c T, m - 1, p.inv, Set.subset_insert _ _, by omega,
        fun w => absurd w hT, Set.mem_insert _ _⟩
  obtain ⟨e4, hi4, hv4, _, hoth4, _, hmem4⟩ := fs_brelse hi1 p.held p.synced
  refine ⟨s1.release h, T1, m1, e4, ⟨hi4, hsub1, hbud1, ?_, ?_, ?_, ?_, ?_,
    fun j => (hmem4 j).trans (by rw [p.lru])⟩, hcT1, htight1,
    hv4.trans p.view, p.disk, p.rest.log⟩
  · show s1.log.lh.n ≤ _; rw [p.rest.log]; omega
  · intro x w
    refine ⟨hsub1 w.1, ?_⟩
    rcases w.2 with o | l
    · exact Or.inl (by show s1.log.outstanding = 0; rw [p.rest.log]; exact o)
    · exact Or.inr ((logged_congr (s := s) (t := s1.release h) p.rest.log x).2 l)
  · intro j b hj
    have h1 := p.heldEq j b hj
    have hne : j ≠ h := held_ne_of_free hj p.was_free
    have h4 := hoth4 j b hne h1.1
    exact ⟨h4.1, h4.2.trans h1.2⟩
  · intro x hx
    by_cases e : x = c
    · subst e; exact unheld_release p.held hi1.ci.ok (Or.inl rfl)
    · exact unheld_release p.held hi1.ci.ok (Or.inr (p.unheld e hx))
  · exact p.rest.toRestL.trans_restL (⟨rfl, rfl, rfl, rfl, rfl, rfl⟩ : RestL s1 (s1.release h))

theorem mkfs_sb_size : mkfs_sb.size = FSSIZE := rfl
theorem mkfs_sb_bmapstart : mkfs_sb.bmapstart = BMAPBLOCK := by decide
theorem mkfs_sb_inodestart : mkfs_sb.inodestart = FSSTART := by decide
theorem mkfs_sb_ninodes : mkfs_sb.ninodes = 200 := rfl

theorem BBLOCK_mkfs {b : Nat} (hb : b < BPB) : BBLOCK b mkfs_sb = BMAPBLOCK := by
  unfold BBLOCK
  rw [mkfs_sb_bmapstart, Nat.div_eq_of_lt hb]
  decide

/-- The function `bzero` on a block of the file-system area. -/
theorem bzero_spec {s : Kernel} {T : Set Nat} {m a : Nat} (hi : FSInv s T m)
    (hlo : FSSTART ≤ a) (ha : a < FSSIZE) (hu : s.unheld a)
    (hbud : s.warm T a ∨ (2 ≤ m ∧ s.log.lh.n + 2 ≤ LOGSIZE)) :
    ∃ s4 T4 m4, bzero ROOTDEV a s = Res.ok () s4 ∧ Step s T m s4 T4 m4 2 1 ∧ s4.warm T4 a ∧
      (∀ x, FSSTART ≤ x →
        s4.view x = Function.update s.view a (memset_local (s.view a) 0 0 BSIZE) x) := by
  obtain ⟨h, s1, e1, hd1, _, hrest⟩ := update_block hi hlo ha hu hbud
  obtain ⟨s3, s4, T4, m4, e3, e4, st, hw, _, hv⟩ := hrest (memset_local (s.view a) 0 0 BSIZE)
  refine ⟨s4, T4, m4, ?_, st, hw, hv⟩
  unfold bzero
  simp only [bind_apply, e1, getK_apply, setData_ok, hd1, e3, e4]


theorem balloc_spec {s : Kernel} {T : Set Nat} {m a : Nat} (hi : FSInv s T m)
    (hub : s.unheld BMAPBLOCK) (hua : s.unheld a) (ha : a < FSSIZE) (hlo : DATASTART ≤ a)
    (hclear : bit_clear (s.view BMAPBLOCK) a = true)
    (hmin : ∀ b, b < a → bit_clear (s.view BMAPBLOCK) b = false)
    (hbud : (s.warm T BMAPBLOCK ∧ 2 ≤ m ∧ s.log.lh.n + 2 ≤ LOGSIZE) ∨
      (4 ≤ m ∧ s.log.lh.n + 3 ≤ LOGSIZE)) :
    ∃ s1 T1 m1, balloc ROOTDEV s = Res.ok a s1 ∧ Step s T m s1 T1 m1 4 2 ∧
      (s.warm T BMAPBLOCK → m ≤ m1 + 2 ∧ s1.log.lh.n ≤ s.log.lh.n + 1) ∧
      s1.warm T1 BMAPBLOCK ∧ s1.warm T1 a ∧
      s1.view BMAPBLOCK = set_bit (s.view BMAPBLOCK) a ∧
      s1.view a = memset_local (s.view a) 0 0 BSIZE ∧
      (∀ x, FSSTART ≤ x → x ≠ BMAPBLOCK → x ≠ a → s1.view x = s.view x) := by
  have hbm1 : FSSTART ≤ BMAPBLOCK := by decide
  have hbm2 : BMAPBLOCK < FSSIZE := by decide
  have hne : a ≠ BMAPBLOCK := by unfold DATASTART at hlo; unfold BMAPBLOCK; omega
  have hloa : FSSTART ≤ a := by unfold DATASTART at hlo; unfold FSSTART; omega
  have hb1 : s.warm T BMAPBLOCK ∨ (2 ≤ m ∧ s.log.lh.n + 2 ≤ LOGSIZE) := by
    rcases hbud with h | h
    · exact Or.inl h.1
    · exact Or.inr ⟨by omega, by omega⟩
  obtain ⟨h, s1, e1, hd1, hr1, hrest⟩ := update_block hi hbm1 hbm2 hub hb1
  obtain ⟨s3, s4, T4, m4, e3, e4, st, hw, htight, hv⟩ := hrest (set_bit (s.view BMAPBLOCK) a)
  have hb2 : s4.warm T4 a ∨ (2 ≤ m4 ∧ s4.log.lh.n + 2 ≤ LOGSIZE) := by
    right
    rcases hbud with h | h
    · obtain ⟨_, t2, t3⟩ := htight h.1
      rw [t2, t3]; exact h.2
    · have := st.bud; have := st.n_le; omega
  obtain ⟨s5, T5, m5, e5, st5, hw5, hv5⟩ := bzero_spec st.inv hloa ha (st.unheld a hua) hb2
  have hscan : balloc_scan (s.view BMAPBLOCK) 0 FSSIZE BPB 0 = some a :=
    balloc_scan_least _ _ _ ha (by decide) hclear hmin
  have h1 : s.sb.size / BPB + 2 = 2 := by rw [hi.sb]; decide
  have h2 : (0 : Nat) < s.sb.size := by rw [hi.sb]; decide
  have h3 : BBLOCK 0 s.sb = BMAPBLOCK := by rw [hi.sb]; exact BBLOCK_mkfs (by decide)
  have h4 : s.sb.size = FSSIZE := by rw [hi.sb]; rfl
  have h2' : (0 : Nat) < FSSIZE := by decide
  refine ⟨s5, T5, m5, ?_, st.trans_step st5, ?_, st5.warm _ hw, hw5, ?_, ?_, ?_⟩
  · unfold balloc
    simp only [bind_apply, getK_apply, h1]
    unfold balloc_loop
    simp only [bind_apply, getK_apply, h4, h2', ↓reduceIte, h3, e1, hd1, hscan, setData_ok]
    have e3' : bwrite h (s1.store h (Function.update (s.view BMAPBLOCK) (a / 8)
        (s.view BMAPBLOCK (a / 8) % 256 ||| bitmask a))) = Res.ok () s3 := e3
    simp only [e3', e4, Nat.zero_add, e5, pure_apply]
  · intro w
    obtain ⟨_, t2, t3⟩ := htight w
    have := st5.bud; have := st5.n_le
    rw [t3] at *
    omega
  · rw [hv5 _ hbm1, Function.update_noteq (Ne.symm hne), hv _ hbm1, Function.update_same]
  · rw [hv5 _ hloa, Function.update_same, hv _ hloa, Function.update_noteq hne]
  · intro x hx h1 h2
    rw [hv5 _ hx, Function.update_noteq h2, hv _ hx, Function.update_noteq h1]


theorem bfree_spec {s : Kernel} {T : Set Nat} {m bno : Nat} (hi : FSInv s T m)
    (hub : s.unheld BMAPBLOCK) (hb : bno < FSSIZE)
    (hbud : s.warm T BMAPBLOCK ∨ (2 ≤ m ∧ s.log.lh.n + 2 ≤ LOGSIZE)) :
    (bit_clear (s.view BMAPBLOCK) bno = true →
      bfree ROOTDEV bno s = Res.fail (Fault.panic PanicSite.bfree_not_allocated)) ∧
    (bit_clear (s.view BMAPBLOCK) bno = false →
      ∃ s1 T1 m1, bfree ROOTDEV bno s = Res.ok () s1 ∧ Step s T m s1 T1 m1 2 1 ∧
        s1.warm T1 BMAPBLOCK ∧
        (s.warm T BMAPBLOCK → T1 = T ∧ m1 = m ∧ s1.log = s.log) ∧
        s1.view BMAPBLOCK = clear_bit (s.view BMAPBLOCK) bno ∧
        (∀ x, FSSTART ≤ x → x ≠ BMAPBLOCK → s1.view x = s.view x)) := by
  have hbm1 : FSSTART ≤ BMAPBLOCK := by decide
  have hbm2 : BMAPBLOCK < FSSIZE := by decide
  have hlt : bno < BPB := by unfold FSSIZE at hb; unfold BPB BSIZE; omega
  have h3 : BBLOCK bno s.sb = BMAPBLOCK := by rw [hi.sb]; exact BBLOCK_mkfs hlt
  have h4 : bno % BPB = bno := Nat.mod_eq_of_lt hlt
  obtain ⟨h, s1, e1, hd1, hr1, hrest⟩ := update_block hi hbm1 hbm2 hub hbud
  constructor
  · intro hc
    unfold bfree
    simp only [bind_apply, getK_apply, h3, e1, hd1, h4, hc, ↓reduceIte, kpanic_apply]
  · intro hc
    obtain ⟨s3, s4, T4, m4, e3, e4, st, hw, htight, hv⟩ := hrest (clear_bit (s.view BMAPBLOCK) bno)
    refine ⟨s4, T4, m4, ?_, st, hw, htight, ?_, ?_⟩
    · unfold bfree
      simp only [bind_apply, getK_apply, h3, e1, hd1, h4, hc, Bool.false_eq_true, ↓reduceIte,
        setData_ok]
      have e3' : bwrite h (s1.store h (Function.update (s.view BMAPBLOCK) (bno / 8)
        (s.view BMAPBLOCK (bno / 8) % 256 &&& (255 - bitmask bno)))) = Res.ok () s3 := e3
      simp only [e3', e4]
    · rw [hv _ hbm1, Function.update_same]
    · intro x hx hne
      rw [hv _ hx, Function.update_noteq hne]


theorem FSInv.of_unbound {s : Kernel} (hn : s.lru.Nodup)
    (hu : ∀ i ∈ s.lru, (s.buf i).dev ≠ ROOTDEV ∧ (s.buf i).refcnt = 0 ∧ (s.buf i).locked = 0)
    (hsb : s.sb = mkfs_sb) (hdev : s.log.dev = ROOTDEV) (hstart : s.log.start = 2)
    (hsize : s.log.size = LOGSIZE) (hn0 : s.log.lh.n = 0) : FSInv s ∅ s.lru.length := by
  refine ⟨⟨⟨hn, ?_, ?_, ?_, ?_, ?_⟩, ⟨?_, ?_, ?_⟩⟩, ⟨hdev, hstart, hsize, ?_, ?_, ?_, ?_, ?_, ?_, ?_, ?_, ?_⟩, hsb⟩
  · intro i hi h; exact absurd h (hu i hi).1
  · intro i hi _; exact (hu i hi).2.1
  · intro i hi j _ h; exact absurd h (hu i hi).1
  · intro i hi; rw [(hu i hi).2.1, (hu i hi).2.2]; exact ⟨rfl, by omega⟩
  · intro i hi h; exact absurd h (hu i hi).1
  · intro b hb; exact absurd hb (Set.not_mem_empty b)
  · intro i hi h; exact absurd h (hu i hi).1
  · refine ⟨[], s.lru, s.lru, by simp, by simp, ?_, hn, le_refl _, ?_⟩
    · intro i hi h; exact absurd h.1 (hu i hi).1
    · intro i hi; exact ⟨hi, fun h => (hu i hi).1 h.1⟩
  · rw [hn0]; decide
  · intro _; exact hn0
  · intro k hk; omega
  · intro k hk; omega
  · intro k hk; omega
  · intro k hk; omega
  · intro k hk; omega
  · intro j hj h; exact absurd h (hu j hj).1
  · intro j hj h; exact absurd h (hu j hj).1

theorem cold_inv (disk : Nat → Mem) (o : Nat) : FSInv (cold disk o) ∅ NBUF := by
  have hne : ∀ i, ((cold disk o).buf i).dev ≠ ROOTDEV := fun _ => show (0 : Nat) ≠ 1 by decide
  exact FSInv.of_unbound (s := cold disk o) (List.nodup_reverse.2 (List.nodup_range NBUF))
    (fun i _ => ⟨hne i, rfl, rfl⟩) rfl rfl rfl rfl rfl

theorem cold_unheld (disk : Nat → Mem) (o c : Nat) : (cold disk o).unheld c :=
  fun _ _ _ => rfl

theorem cold_view (disk : Nat → Mem) (o c : Nat) : (cold disk o).view c = disk c := by
  apply view_of_unbound
  intro i _ h
  exact absurd h.1 (show (0 : Nat) ≠ 1 by decide)


theorem lru_length_of_mem {s s1 : Kernel} (h : CacheOK s) (h1 : CacheOK s1)
    (hm : ∀ j, j ∈ s1.lru ↔ j ∈ s.lru) : s1.lru.length = s.lru.length :=
  ((List.perm_ext_iff_of_nodup h1.nodup h.nodup).2 hm).length_eq

/-- With no operation open and no buffer pinned, every buffer equals the
device: a new epoch starts with the whole cache in reserve. -/
theorem FSInv.reset_fs {s : Kernel} {T : Set Nat} {m : Nat} (hi : FSInv s T m)
    (hout : s.log.outstanding = 0) (hfree : ∀ x, s.unheld x) : FSInv s ∅ s.lru.length := by
  have hn0 : s.log.lh.n = 0 := hi.lg.idle hout
  have hnl : ∀ c, ¬ s.logged c := by
    rintro c ⟨k, hk, _⟩; omega
  have hr : ∀ i ∈ s.lru, (s.buf i).refcnt = 0 := by
    intro i hii
    by_cases hd : (s.buf i).dev = ROOTDEV
    · exact hfree _ i hii ⟨hd, rfl⟩
    · exact hi.ci.ok.free_of_unbound i hii hd
  refine ⟨⟨hi.ci.ok, Epoch.reset_epoch hi.ci.ok ?_⟩, ⟨hi.lg.dev, hi.lg.start, hi.lg.size, hi.lg.n_le,
    hi.lg.idle, hi.lg.blk_range, hi.lg.blk_inj, ?_, ?_, hi.lg.logged_ok, hi.lg.unlogged_clean,
    hi.lg.low_free⟩, hi.sb⟩
  · intro i hii
    exact ⟨hr i hii, fun hd => hi.lg.unlogged_clean i hii hd (hr i hii) (hnl _)⟩
  · intro k hk; omega
  · intro k hk; omega

/-- At a clean point with no buffer pinned every step is free: afterwards the
cache is at a clean point again. -/
theorem Step.calm {s s1 : Kernel} {T T1 : Set Nat} {m m1 c l : Nat} (hi : FSInv s T m)
    (st : Step s T m s1 T1 m1 c l) (hq : Calm s T m) (hfree : ∀ x, s.unheld x) :
    Step s T m s1 ∅ s1.lru.length 0 0 ∧ Calm s1 ∅ s1.lru.length := by
  obtain ⟨hT, hm, hout⟩ := hq
  have hout1 : s1.log.outstanding = 0 := by rw [st.rest.outstanding]; exact hout
  have hfree1 : ∀ x, s1.unheld x := fun x => st.unheld x (hfree x)
  have hlen := lru_length_of_mem hi.ci.ok st.inv.ci.ok st.mem
  refine ⟨⟨st.inv.reset_fs hout1 hfree1, by rw [hT], by omega, ?_, ?_, st.heldEq, st.unheld,
    st.rest, st.mem⟩, rfl, rfl, hout1⟩
  · rw [st.inv.lg.idle hout1]; omega
  · intro x hx
    rw [hT] at hx
    exact absurd hx.1 (Set.not_mem_empty x)

/-- `bmap` without allocation: the mapped address, at the cost of reading the
indirect block. -/
theorem bmap_read {s : Kernel} {T : Set Nat} {m ip bn : Nat} (hi : FSInv s T m)
    (hdev : (s.inode ip).dev = ROOTDEV) (hbn : bn < MAXFILE)
    (hind : NDIRECT ≤ bn → FSSTART ≤ (s.inode ip).addrs NDIRECT ∧
      (s.inode ip).addrs NDIRECT < FSSIZE ∧ s.unheld ((s.inode ip).addrs NDIRECT) ∧
      ((s.inode ip).addrs NDIRECT ∈ T ∨ 1 ≤ m)) :
    ∃ s1 T1 m1, bmap ip bn false s = Res.ok (s.baddr ip bn) s1 ∧ Step s T m s1 T1 m1 1 0 ∧
      s1.view = s.view ∧ s1.ramdisk = s.ramdisk ∧ s1.log = s.log ∧
      (NDIRECT ≤ bn → (s.inode ip).addrs NDIRECT ∈ T1) ∧
      ((NDIRECT ≤ bn → (s.inode ip).addrs NDIRECT ∈ T) → T1 = T ∧ m1 = m) := by
  by_cases hd : bn < NDIRECT
  · refine ⟨s, T, m, ?_, (Step.refl_step hi).weaken (by omega) (le_refl 0), rfl, rfl, rfl,
      fun h => absurd hd (by omega), fun _ => ⟨rfl, rfl⟩⟩
    unfold bmap Kernel.baddr
    simp [hd]
  · have hge : NDIRECT ≤ bn := Nat.le_of_not_lt hd
    obtain ⟨h1, h2, h3, h4⟩ := hind hge
    have hne : (s.inode ip).addrs NDIRECT ≠ 0 := by unfold FSSTART at h1; omega
    have hlt : ¬ (bn - NDIRECT ≥ NINDIRECT) := by unfold MAXFILE at hbn; omega
    obtain ⟨h, s1, e1, hd1, hr1, s2, T2, m2, e2, st, hT2, htight, hv, hdisk, hlog⟩ :=
      read_block hi h1 h2 h3 h4
    refine ⟨s2, T2, m2, ?_, st, hv, hdisk, hlog, fun _ => hT2, fun hh => htight (hh hge)⟩
    unfold bmap Kernel.baddr
    simp only [bind_apply, getK_apply, hd, ↓reduceIte, hlt, hne, hdev, e1, hd1, Bool.false_eq_true,
      and_false, e2, pure_apply]

theorem Step.tighten {s s1 : Kernel} {T T1 : Set Nat} {m m1 c c' l : Nat}
    (st : Step s T m s1 T1 m1 c l) (h : m ≤ m1 + c') : Step s T m s1 T1 m1 c' l :=
  ⟨st.inv, st.sub, h, st.n_le, st.warm, st.heldEq, st.unheld, st.rest, st.mem⟩

/-- Reading and releasing block `c` when `k` buffers pay for it: nothing is
needed if `c` is cached in the current epoch. -/
theorem read_block_pay {s : Kernel} {T : Set Nat} {m c k : Nat} (hi : FSInv s T m)
    (hlo : FSSTART ≤ c) (hc : c < FSSIZE) (hu : s.unheld c) (hpay : c ∈ T ∨ 1 ≤ k)
    (hk : k ≤ m) :
    ∃ h s1, bread ROOTDEV c s = Res.ok h s1 ∧ (s1.buf h).data = s.view c ∧ Rest s s1 ∧
      ∃ s2 T2 m2, brelse h s1 = Res.ok () s2 ∧ Step s T m s2 T2 m2 k 0 ∧ c ∈ T2 ∧
        (c ∈ T → T2 = T ∧ m2 = m) ∧ s2.view = s.view ∧ s2.ramdisk = s.ramdisk ∧
        s2.log = s.log := by
  have hb : c ∈ T ∨ 1 ≤ m := by
    rcases hpay with h | h
    · exact Or.inl h
    · exact Or.inr (by omega)
  obtain ⟨h, s1, e1, hd1, hr1, s2, T2, m2, e2, st, hT2, htight, hv, hdisk, hlog⟩ :=
    read_block hi hlo hc hu hb
  refine ⟨h, s1, e1, hd1, hr1, s2, T2, m2, e2, st.tighten ?_, hT2, htight, hv, hdisk, hlog⟩
  rcases hpay with h | h
  · rw [(htight h).2]; omega
  · have := st.bud; omega

/-- One round of the loop of `readi`: `bmap` without allocation, `bread` of
the mapped block, `brelse`. -/
theorem readi_round {s : Kernel} {T : Set Nat} {m ip bn p q : Nat} (hi : FSInv s T m)
    (hfree : ∀ x, s.unheld x) (hr : Readable s ip) (hbn : bn * BSIZE < (s.inode ip).size)
    (h1 : NDIRECT ≤ bn → (s.inode ip).addrs NDIRECT ∈ T ∨ 1 ≤ p)
    (h2 : s.baddr ip bn ∈ T ∨ 1 ≤ q) (hk : p + q ≤ m) :
    ∃ s1 h s2 s3 T3 m3, bmap ip bn false s = Res.ok (s.baddr ip bn) s1 ∧
      s1.inode = s.inode ∧
      bread ROOTDEV (s.baddr ip bn) s1 = Res.ok h s2 ∧
      (s2.buf h).data = s.view (s.baddr ip bn) ∧
      brelse h s2 = Res.ok () s3 ∧ Step s T m s3 T3 m3 (p + q) 0 ∧
      s3.view = s.view ∧ s3.ramdisk = s.ramdisk ∧ s3.log = s.log ∧
      s.baddr ip bn ∈ T3 ∧ (NDIRECT ≤ bn → (s.inode ip).addrs NDIRECT ∈ T3) ∧
      ((NDIRECT ≤ bn → (s.inode ip).addrs NDIRECT ∈ T) → s.baddr ip bn ∈ T →
        T3 = T ∧ m3 = m) := by
  have hbnlt : bn < MAXFILE := by
    have := hr.size_le
    by_contra hge
    have : MAXFILE * BSIZE ≤ bn * BSIZE := Nat.mul_le_mul_right _ (Nat.le_of_not_lt hge)
    omega
  have hind : NDIRECT ≤ bn → FSSTART ≤ (s.inode ip).addrs NDIRECT ∧
      (s.inode ip).addrs NDIRECT < FSSIZE ∧ s.unheld ((s.inode ip).addrs NDIRECT) ∧
      ((s.inode ip).addrs NDIRECT ∈ T ∨ 1 ≤ m) := by
    intro hge
    have hsz : NDIRECT * BSIZE < (s.inode ip).size :=
      lt_of_le_of_lt (Nat.mul_le_mul_right _ hge) hbn
    obtain ⟨a, b⟩ := hr.ind hsz
    refine ⟨a, b, hfree _, ?_⟩
    rcases h1 hge with h | h
    · exact Or.inl h
    · exact Or.inr (by omega)
  obtain ⟨s1, T1, m1, e1, st1, hv1, hd1, hl1, hT1, htight1⟩ := bmap_read hi hr.dev hbnlt hind
  have hbud1 : m ≤ m1 + p := by
    by_cases hge : NDIRECT ≤ bn
    · rcases h1 hge with h | h
      · rw [(htight1 (fun _ => h)).2]; omega
      · have := st1.bud; omega
    · rw [(htight1 (fun h => absurd h hge)).2]; omega
  obtain ⟨a, b⟩ := hr.map bn hbn
  have hpay2 : s.baddr ip bn ∈ T1 ∨ 1 ≤ q := by
    rcases h2 with h | h
    · exact Or.inl (st1.sub h)
    · exact Or.inr h
  obtain ⟨h, s2, e2, hd2, hr2, s3, T3, m3, e3, st3, hT3, htight3, hv3, hdisk3, hl3⟩ :=
    read_block_pay st1.inv a b (st1.unheld _ (hfree _)) hpay2 (by omega)
  refine ⟨s1, h, s2, s3, T3, m3, e1, st1.rest.inode, e2, by rw [hd2, hv1], e3,
    ((st1.tighten hbud1).trans_step st3), hv3.trans hv1, hdisk3.trans hd1, hl3.trans hl1, hT3,
    fun hge => st3.sub (hT1 hge), ?_⟩
  intro ha hb
  obtain ⟨e, e'⟩ := htight1 ha
  subst e; subst e'
  exact htight3 hb

theorem readi_loop_done (ip n fuel tot off : Nat) (dst : Mem) (s : Kernel) (h : ¬ tot < n) :
    readi_loop ip n fuel tot off dst s = Res.ok dst s := by
  cases fuel with
  | zero => rfl
  | succ f => simp [readi_loop, h]

theorem fbyte_congr {s t : Kernel} (hv : t.view = s.view) (hn : t.inode = s.inode) (ip p : Nat) :
    t.fbyte ip p = s.fbyte ip p := by
  unfold Kernel.fbyte Kernel.baddr
  rw [hv, hn]

theorem baddr_congr {s t : Kernel} (hv : t.view = s.view) (hn : t.inode = s.inode) (ip bn : Nat) :
    t.baddr ip bn = s.baddr ip bn := by
  unfold Kernel.baddr
  rw [hv, hn]

theorem Readable.congr {s t : Kernel} {ip : Nat} (h : Readable s ip) (hv : t.view = s.view)
    (hn : t.inode = s.inode) : Readable t ip := by
  refine ⟨by rw [hn]; exact h.dev, by rw [hn]; exact h.size_le, by rw [hn]; exact h.ind, ?_⟩
  intro bn hbn
  rw [baddr_congr hv hn]
  rw [hn] at hbn
  exact h.map bn hbn

/-- The loop of `readi`. -/
theorem readi_loop_spec (ip o n : Nat) : ∀ (fuel ki tot : Nat) (dst : Mem) (s : Kernel)
    (T : Set Nat) (m : Nat), FSInv s T m → (∀ x, s.unheld x) → Readable s ip →
    o + n ≤ (s.inode ip).size → tot ≤ n → n - tot ≤ fuel →
    (tot < n → (Calm s T m ∧ 2 ≤ m) ∨
      (((s.inode ip).addrs NDIRECT ∈ T ∨ 1 ≤ ki) ∧ blocks_left o n tot + ki ≤ m)) →
    ∃ s1 T1 m1, readi_loop ip n fuel tot (o + tot) dst s =
        Res.ok (fun i => if tot ≤ i ∧ i < n then s.fbyte ip (o + i) else dst i) s1 ∧
      Step s T m s1 T1 m1 (blocks_left o n tot + ki) 0 ∧
      s1.view = s.view ∧ s1.ramdisk = s.ramdisk ∧ s1.log = s.log ∧
      (Calm s T m ∧ 2 ≤ m → Calm s1 T1 m1 ∧ 2 ≤ m1) := by
  intro fuel
  induction fuel with
  | zero =>
    intro ki tot dst s T m hi _ _ _ htot hfuel _
    have hn : ¬ tot < n := by omega
    refine ⟨s, T, m, ?_, (Step.refl_step hi).weaken (by omega) (le_refl 0), rfl, rfl, rfl,
      fun h => h⟩
    rw [readi_loop_done _ _ _ _ _ _ _ hn]
    congr 1
    funext i
    rw [if_neg (by omega)]
  | succ f ih =>
    intro ki tot dst s T m hi hfree hr hsz htot hfuel hb
    by_cases hlt : tot < n
    swap
    · refine ⟨s, T, m, ?_, (Step.refl_step hi).weaken (by omega) (le_refl 0), rfl, rfl, rfl,
        fun h => h⟩
      rw [readi_loop_done _ _ _ _ _ _ _ hlt]
      congr 1
      funext i
      rw [if_neg (by omega)]
    have hmax : (s.inode ip).size ≤ MAXFILE * BSIZE := hr.size_le
    have hM : MAXFILE * BSIZE = 4243456 := by decide
    have hB : BSIZE = 4096 := rfl
    have hU : U32 = 4294967296 := by unfold U32; norm_num
    have hbn : (o + tot) / BSIZE * BSIZE < (s.inode ip).size := by
      have := Nat.div_mul_le_self (o + tot) BSIZE
      omega
    obtain ⟨ha1, ha2⟩ := hr.map _ hbn
    have hne : s.baddr ip ((o + tot) / BSIZE) ≠ 0 := by unfold FSSTART at ha1; omega
    -- the bytes copied in this round
    generalize hmr : (if BSIZE - (o + tot) % BSIZE > n - tot then n - tot
      else BSIZE - (o + tot) % BSIZE) = mr
    have hmr1 : 1 ≤ mr := by
      rw [← hmr]; simp only [hB]; split <;> omega
    have hmr2 : tot + mr ≤ n := by rw [← hmr]; split <;> omega
    have hmr3 : (o + tot) % BSIZE + mr ≤ BSIZE := by
      rw [← hmr]; simp only [hB]; split <;> omega
    have hmr4 : tot + mr < n → (o + tot) % BSIZE + mr = BSIZE := by
      rw [← hmr]; simp only [hB]; split <;> omega
    have hoff : (o + tot + mr) % U32 = o + (tot + mr) := by
      rw [Nat.mod_eq_of_lt (by omega)]; omega
    have hbl : tot + mr < n → blocks_left o n (tot + mr) + 1 = blocks_left o n tot := by
      intro h
      have h4 := hmr4 h
      unfold blocks_left
      rw [if_pos h, if_pos hlt, hB] at *
      omega
    have hbl0 : 1 ≤ blocks_left o n tot := by
      unfold blocks_left
      rw [if_pos hlt, hB]
      omega
    have hbl1 : blocks_left o n (tot + mr) + 1 ≤ blocks_left o n tot := by
      by_cases h : tot + mr < n
      · rw [hbl h]
      · unfold blocks_left at hbl0 ⊢
        rw [if_neg h]; omega
    -- the result of the remaining rounds, in terms of the state before
    have hres : ∀ (s3 : Kernel) (hv : s3.view = s.view) (hn : s3.inode = s.inode),
        (fun i => if tot + mr ≤ i ∧ i < n then s3.fbyte ip (o + i)
          else memmove_local dst tot (s.view (s.baddr ip ((o + tot) / BSIZE)))
            ((o + tot) % BSIZE) mr i) =
        (fun i => if tot ≤ i ∧ i < n then s.fbyte ip (o + i) else dst i) := by
      intro s3 hv hn
      funext i
      rw [fbyte_congr hv hn]
      unfold memmove_local
      by_cases h1 : tot + mr ≤ i ∧ i < n
      · rw [if_pos h1, if_pos (by omega)]
      · rw [if_neg h1]
        by_cases h2 : tot ≤ i ∧ i < tot + mr
        · rw [if_pos h2, if_pos (by omega)]
          unfold Kernel.fbyte
          have e1 : (o + i) / BSIZE = (o + tot) / BSIZE := by rw [hB] at *; omega
          have e2 : (o + i) % BSIZE = (o + tot) % BSIZE + (i - tot) := by rw [hB] at *; omega
          rw [e1, e2]
        · rw [if_neg h2, if_neg (by omega)]
    by_cases hc : Calm s T m ∧ 2 ≤ m
    · -- at a clean point every round starts with the whole cache in reserve
      obtain ⟨s1, h, s2, s3, T3, m3, e1, hn1, e2, hd2, e3, st, hv3, hdk3, hl3, _, _, _⟩ :=
        readi_round (p := 1) (q := 1) hi hfree hr hbn (fun _ => Or.inr (le_refl 1))
          (Or.inr (le_refl 1)) hc.2
      obtain ⟨st', hc'⟩ := st.calm hi hc.1 hfree
      have hm3 : 2 ≤ s3.lru.length := by have := st'.bud; omega
      have hn3 : s3.inode = s.inode := st.rest.inode
      obtain ⟨s4, T4, m4, e4, st4, hv4, hdk4, hl4, hc4⟩ :=
        ih 0 (tot + mr) (memmove_local dst tot (s.view (s.baddr ip ((o + tot) / BSIZE)))
          ((o + tot) % BSIZE) mr) s3 ∅ s3.lru.length st'.inv
          (fun x => st.unheld x (hfree x)) (hr.congr hv3 hn3) (by rw [hn3]; exact hsz) hmr2
          (by omega) (fun _ => Or.inl ⟨hc', hm3⟩)
      refine ⟨s4, T4, m4, ?_, (st'.trans_step st4).weaken (by omega) (le_refl 0),
        hv4.trans hv3, hdk4.trans hdk3, hl4.trans hl3, fun _ => hc4 ⟨hc', hm3⟩⟩
      unfold readi_loop
      simp only [hlt, ↓reduceIte, bind_apply, e1, hne, getK_apply, hn1, hr.dev, e2, hd2, e3, hmr,
        hoff, e4, hres s3 hv3 hn3]
    · obtain ⟨hki, hbud⟩ := (hb hlt).resolve_left hc
      by_cases hge : NDIRECT ≤ (o + tot) / BSIZE
      · obtain ⟨s1, h, s2, s3, T3, m3, e1, hn1, e2, hd2, e3, st, hv3, hdk3, hl3, _, hT3, _⟩ :=
          readi_round (p := ki) (q := 1) hi hfree hr hbn (fun _ => hki)
            (Or.inr (le_refl 1)) (by omega)
        have hn3 : s3.inode = s.inode := st.rest.inode
        have := st.bud
        obtain ⟨s4, T4, m4, e4, st4, hv4, hdk4, hl4, hc4⟩ :=
          ih 0 (tot + mr) (memmove_local dst tot (s.view (s.baddr ip ((o + tot) / BSIZE)))
            ((o + tot) % BSIZE) mr) s3 T3 m3 st.inv
            (fun x => st.unheld x (hfree x)) (hr.congr hv3 hn3) (by rw [hn3]; exact hsz) hmr2
            (by omega) (fun _ => Or.inr ⟨Or.inl (by rw [hn3]; exact hT3 hge), by omega⟩)
        refine ⟨s4, T4, m4, ?_, (st.trans_step st4).tighten ?_,
          hv4.trans hv3, hdk4.trans hdk3, hl4.trans hl3, fun h => absurd h hc⟩
        · unfold readi_loop
          simp only [hlt, ↓reduceIte, bind_apply, e1, hne, getK_apply, hn1, hr.dev, e2, hd2, e3,
            hmr, hoff, e4, hres s3 hv3 hn3]
        · have := st4.bud; omega
      · obtain ⟨s1, h, s2, s3, T3, m3, e1, hn1, e2, hd2, e3, st, hv3, hdk3, hl3, _, _, _⟩ :=
          readi_round (p := 0) (q := 1) hi hfree hr hbn (fun h => absurd h hge)
            (Or.inr (le_refl 1)) (by omega)
        have hn3 : s3.inode = s.inode := st.rest.inode
        have := st.bud
        have hki3 : (s3.inode ip).addrs NDIRECT ∈ T3 ∨ 1 ≤ ki := by
          rw [hn3]
          rcases hki with h | h
          · exact Or.inl (st.sub h)
          · exact Or.inr h
        obtain ⟨s4, T4, m4, e4, st4, hv4, hdk4, hl4, hc4⟩ :=
          ih ki (tot + mr) (memmove_local dst tot (s.view (s.baddr ip ((o + tot) / BSIZE)))
            ((o + tot) % BSIZE) mr) s3 T3 m3 st.inv
            (fun x => st.unheld x (hfree x)) (hr.congr hv3 hn3) (by rw [hn3]; exact hsz) hmr2
            (by omega) (fun _ => Or.inr ⟨hki3, by omega⟩)
        refine ⟨s4, T4, m4, ?_, (st.trans_step st4).tighten ?_,
          hv4.trans hv3, hdk4.trans hdk3, hl4.trans hl3, fun h => absurd h hc⟩
        · unfold readi_loop
          simp only [hlt, ↓reduceIte, bind_apply, e1, hne, getK_apply, hn1, hr.dev, e2, hd2, e3,
            hmr, hoff, e4, hres s3 hv3 hn3]
        · have := st4.bud; omega

theorem toInt32_small {n : Nat} (h : n < 2 ^ 31) : toInt32 n = (n : Int) := by
  have hU : U32 = 4294967296 := by unfold U32; norm_num
  unfold toInt32
  have : n % U32 = n := Nat.mod_eq_of_lt (by omega)
  rw [this, if_pos h]

theorem demo_file_inv : FSInv demo_file ∅ NBUF := by
  have hne : ∀ i, (demo_file.buf i).dev ≠ ROOTDEV := fun _ => show (0 : Nat) ≠ 1 by decide
  exact FSInv.of_unbound (s := demo_file) (List.nodup_reverse.2 (List.nodup_range NBUF))
    (fun i _ => ⟨hne i, rfl, rfl⟩) rfl rfl rfl rfl rfl

theorem demo_file_unheld (c : Nat) : demo_file.unheld c := fun _ _ _ => rfl

theorem demo_file_readable : Readable demo_file 0 := by
  refine ⟨rfl, by decide, fun h => absurd h (by decide), ?_⟩
  intro bn hbn
  have hsz : (demo_file.inode 0).size = 5000 := rfl
  rw [hsz] at hbn
  have : bn = 0 ∨ bn = 1 := by unfold BSIZE at hbn; omega
  rcases this with h | h <;> subst h <;> decide

/-- A `readi` that stays inside one block: one round of the loop. -/
theorem readi_one {s : Kernel} {T : Set Nat} {m ip off n p q : Nat} (dst : Mem)
    (hi : FSInv s T m) (hfree : ∀ x, s.unheld x) (hr : Readable s ip) (hn : 1 ≤ n)
    (hsz : off + n ≤ (s.inode ip).size) (hblk : off % BSIZE + n ≤ BSIZE)
    (h1 : NDIRECT ≤ off / BSIZE → (s.inode ip).addrs NDIRECT ∈ T ∨ 1 ≤ p)
    (h2 : s.baddr ip (off / BSIZE) ∈ T ∨ 1 ≤ q) (hk : p + q ≤ m) :
    ∃ s1 T1 m1, readi ip dst off n s =
        Res.ok ((n : Int), fun i => if i < n then s.fbyte ip (off + i) else dst i) s1 ∧
      Step s T m s1 T1 m1 (p + q) 0 ∧
      s1.view = s.view ∧ s1.ramdisk = s.ramdisk ∧ s1.log = s.log ∧
      s.baddr ip (off / BSIZE) ∈ T1 ∧
      (NDIRECT ≤ off / BSIZE → (s.inode ip).addrs NDIRECT ∈ T1) ∧
      ((NDIRECT ≤ off / BSIZE → (s.inode ip).addrs NDIRECT ∈ T) →
        s.baddr ip (off / BSIZE) ∈ T → T1 = T ∧ m1 = m) := by
  have hmax : (s.inode ip).size ≤ MAXFILE * BSIZE := hr.size_le
  have hM : MAXFILE * BSIZE = 4243456 := by decide
  have hB : BSIZE = 4096 := rfl
  have hU : U32 = 4294967296 := by unfold U32; norm_num
  have hbn : off / BSIZE * BSIZE < (s.inode ip).size := by
    have := Nat.div_mul_le_self off BSIZE
    omega
  obtain ⟨ha1, ha2⟩ := hr.map _ hbn
  have hne : s.baddr ip (off / BSIZE) ≠ 0 := by unfold FSSTART at ha1; omega
  obtain ⟨s1, h, s2, s3, T3, m3, e1, hn1, e2, hd2, e3, st, hv3, hdk3, hl3, hT3, hTi, htight⟩ :=
    readi_round hi hfree hr hbn h1 h2 hk
  refine ⟨s3, T3, m3, ?_, st, hv3, hdk3, hl3, hT3, hTi, htight⟩
  have hc1 : ¬ (off > (s.inode ip).size ∨ (off + n) % U32 < off) := by
    rw [Nat.mod_eq_of_lt (by omega)]; omega
  have hc2 : ¬ ((off + n) % U32 > (s.inode ip).size) := by
    rw [Nat.mod_eq_of_lt (by omega)]; omega
  have hmr : (if BSIZE - off % BSIZE > n - 0 then n - 0 else BSIZE - off % BSIZE) = n := by
    simp only [hB] at hblk ⊢
    split <;> omega
  obtain ⟨f, hf⟩ : ∃ f, n = f + 1 := ⟨n - 1, by omega⟩
  unfold readi
  simp only [bind_apply, getK_apply, hc1, hc2, ↓reduceIte]
  rw [show readi_loop ip n n 0 off dst s = readi_loop ip n (f + 1) 0 off dst s by rw [← hf]]
  unfold readi_loop
  simp only [show 0 < n by omega, ↓reduceIte, bind_apply, e1, hne, getK_apply, hn1, hr.dev, e2,
    hd2, e3, hmr, Nat.zero_add]
  rw [readi_loop_done _ _ _ _ _ _ _ (by omega), toInt32_small (by omega)]
  simp only [pure_apply]
  congr 2
  funext i
  unfold memmove_local Kernel.fbyte
  by_cases hi' : i < n
  · rw [if_pos ⟨Nat.zero_le _, by omega⟩, if_pos hi']
    have e1 : (off + i) / BSIZE = off / BSIZE := by simp only [hB] at hblk ⊢; omega
    have e2 : (off + i) % BSIZE = off % BSIZE + (i - 0) := by simp only [hB] at hblk ⊢; omega
    rw [e1, e2]
  · rw [if_neg (by omega), if_neg hi']

theorem strncmp_local_congr (a t t' : Mem) : ∀ (n i : Nat),
    (∀ j, i ≤ j → j < i + n → t j = t' j) →
    strncmp_local a t n i = strncmp_local a t' n i := by
  intro n
  induction n with
  | zero => intro i _; rfl
  | succ k ih =>
    intro i h
    unfold strncmp_local
    rw [h i (le_refl _) (by omega), ih (i + 1) (fun j h1 h2 => h j (by omega) (by omega))]

theorem view_setInode (s : Kernel) (i : Nat) (x : Inode) : (s.setInode i x).view = s.view := rfl

/-- `iget` finds a slot when the inode is cached or some slot is unused; it
changes only the identity and the reference count of that slot. -/
theorem iget_ok {s : Kernel} {dev inum : Nat}
    (h : ∃ i, i < NINODE ∧ ((s.inode i).ref = 0 ∨
      ((s.inode i).ref > 0 ∧ (s.inode i).dev = dev ∧ (s.inode i).inum = inum))) :
    ∃ ip x, iget dev inum s = Res.ok ip (s.setInode ip x) ∧ ip < NINODE ∧
      x.size = (s.inode ip).size ∧ x.addrs = (s.inode ip).addrs ∧
      x.type = (s.inode ip).type ∧ x.nlink = (s.inode ip).nlink ∧
      x.dev = dev ∧ x.inum = inum ∧ 0 < x.ref := by
  unfold iget
  cases h1 : (List.range NINODE).find? (fun i => decide ((s.inode i).ref > 0) &&
      (s.inode i).dev == dev && (s.inode i).inum == inum) with
  | some ip =>
    have hm := List.mem_of_find?_eq_some h1
    have hp := List.find?_some h1
    simp only [Bool.and_eq_true, decide_eq_true_eq, beq_iff_eq] at hp
    exact ⟨ip, _, rfl, List.mem_range.1 hm, rfl, rfl, rfl, rfl, hp.1.2, hp.2,
      by show 0 < (s.inode ip).ref + 1; omega⟩
  | none =>
    cases h2 : (List.range NINODE).find? (fun i => (s.inode i).ref == 0) with
    | some ip =>
      have hm := List.mem_of_find?_eq_some h2
      exact ⟨ip, _, rfl, List.mem_range.1 hm, rfl, rfl, rfl, rfl, rfl, rfl,
        show (0 : Int) < 1 by decide⟩
    | none =>
      exfalso
      obtain ⟨i, hi, hc⟩ := h
      rw [List.find?_eq_none] at h1 h2
      have a1 := h1 i (List.mem_range.2 hi)
      have a2 := h2 i (List.mem_range.2 hi)
      rcases hc with hc | ⟨c1, c2, c3⟩
      · simp [hc] at a2
      · simp [c1, c2, c3] at a1

theorem rd16_de_at (s : Kernel) (dp off : Nat) (de : Mem) :
    rd16 (s.de_at dp off de) 0 = s.de_inum dp off := by
  unfold rd16 Kernel.de_at Kernel.de_inum
  simp [DIRENT_SIZE]

theorem namecmp_de_at (s : Kernel) (dp off : Nat) (de name : Mem) :
    (namecmp name (de_name (s.de_at dp off de)) = 0) ↔ s.de_named dp off name := by
  unfold Kernel.de_named namecmp
  rw [strncmp_local_congr name (de_name (s.de_at dp off de))
    (fun i => s.fbyte dp (off + 2 + i)) DIRSIZ 0]
  intro j _ hj
  unfold de_name Kernel.de_at
  have : 2 + j < DIRENT_SIZE := by unfold DIRSIZ at hj; unfold DIRENT_SIZE; omega
  rw [if_pos this]
  congr 1
  omega

theorem de_inum_congr {s t : Kernel} (hv : t.view = s.view) (hn : t.inode = s.inode)
    (dp off : Nat) : t.de_inum dp off = s.de_inum dp off := by
  unfold Kernel.de_inum
  rw [fbyte_congr hv hn, fbyte_congr hv hn]

theorem de_named_congr {s t : Kernel} (hv : t.view = s.view) (hn : t.inode = s.inode)
    (dp off : Nat) (name : Mem) : t.de_named dp off name ↔ s.de_named dp off name := by
  unfold Kernel.de_named
  have : (fun i => t.fbyte dp (off + 2 + i)) = (fun i => s.fbyte dp (off + 2 + i)) := by
    funext i; exact fbyte_congr hv hn dp _
  rw [this]

/-- Reading directory entry `e` in the course of a scan. -/
theorem dir_read {s : Kernel} {T : Set Nat} {m dp ki e e0 : Nat} (de : Mem)
    (hi : FSInv s T m) (hfree : ∀ x, s.unheld x) (hr : Readable s dp)
    (hsz : DIRENT_SIZE * e + DIRENT_SIZE ≤ (s.inode dp).size) (he : e ≤ e0)
    (hroom : ScanRoom s T m dp ki e e0) :
    ∃ c ki1 s1 T1 m1, readi dp de (DIRENT_SIZE * e) DIRENT_SIZE s =
        Res.ok ((DIRENT_SIZE : Int), s.de_at dp (DIRENT_SIZE * e) de) s1 ∧
      Step s T m s1 T1 m1 c 0 ∧
      c + dir_blocks_left (e + 1) e0 + ki1 ≤ dir_blocks_left e e0 + ki ∧
      ScanRoom s1 T1 m1 dp ki1 (e + 1) e0 ∧
      s1.view = s.view ∧ s1.ramdisk = s.ramdisk ∧ s1.log = s.log ∧ s1.inode = s.inode ∧
      (Calm s T m ∧ 2 ≤ m → Calm s1 T1 m1 ∧ 2 ≤ m1) := by
  have hB : BSIZE = 4096 := rfl
  have hD : DIRENT_SIZE = 16 := rfl
  have hblk : (DIRENT_SIZE * e) % BSIZE + DIRENT_SIZE ≤ BSIZE := by
    rw [hB, hD]; omega
  have hmono : dir_blocks_left (e + 1) e0 ≤ dir_blocks_left e e0 := by
    unfold dir_blocks_left; rw [hB, hD]; omega
  by_cases hc : Calm s T m ∧ 2 ≤ m
  · obtain ⟨s1, T1, m1, e1, st, hv, hdk, hl, _, _, _⟩ :=
      readi_one (p := 1) (q := 1) de hi hfree hr (by decide) hsz hblk
        (fun _ => Or.inr (le_refl 1)) (Or.inr (le_refl 1)) hc.2
    obtain ⟨st', hc'⟩ := st.calm hi hc.1 hfree
    have hm1 : 2 ≤ s1.lru.length := by have := st'.bud; omega
    exact ⟨0, ki, s1, ∅, s1.lru.length, e1, st', by omega, Or.inl ⟨hc', hm1⟩, hv, hdk, hl,
      st.rest.inode, fun _ => ⟨hc', hm1⟩⟩
  · obtain ⟨hki, hcur, hbud⟩ := hroom.resolve_left hc
    have hdl : (DIRENT_SIZE * e) % BSIZE = 0 → 1 ≤ dir_blocks_left e e0 := by
      intro h0
      unfold dir_blocks_left; rw [hB, hD] at *; omega
    have hdl1 : (DIRENT_SIZE * e) % BSIZE = 0 →
        dir_blocks_left (e + 1) e0 + 1 ≤ dir_blocks_left e e0 := by
      intro h0
      unfold dir_blocks_left; rw [hB, hD] at *; omega
    obtain ⟨k2, hk2, hk2'⟩ : ∃ k2, (s.baddr dp (DIRENT_SIZE * e / BSIZE) ∈ T ∨ 1 ≤ k2) ∧
        k2 + dir_blocks_left (e + 1) e0 ≤ dir_blocks_left e e0 := by
      by_cases h0 : (DIRENT_SIZE * e) % BSIZE = 0
      · exact ⟨1, Or.inr (le_refl 1), by have := hdl1 h0; omega⟩
      · exact ⟨0, Or.inl (hcur h0), by omega⟩
    obtain ⟨k1, ki1, hk1, hk1', hk1''⟩ : ∃ k1 ki1,
        (NDIRECT ≤ DIRENT_SIZE * e / BSIZE → (s.inode dp).addrs NDIRECT ∈ T ∨ 1 ≤ k1) ∧
        k1 + ki1 ≤ ki ∧ (NDIRECT ≤ DIRENT_SIZE * e / BSIZE ∨ ki1 = ki) := by
      by_cases hge : NDIRECT ≤ DIRENT_SIZE * e / BSIZE
      · exact ⟨ki, 0, fun _ => hki, by omega, Or.inl hge⟩
      · exact ⟨0, ki, fun h => absurd h hge, by omega, Or.inr rfl⟩
    obtain ⟨s1, T1, m1, e1, st, hv, hdk, hl, hT1, hTi, _⟩ :=
      readi_one (p := k1) (q := k2) de hi hfree hr (by decide) hsz hblk hk1 hk2 (by omega)
    have hn1 : s1.inode = s.inode := st.rest.inode
    refine ⟨k1 + k2, ki1, s1, T1, m1, e1, st, by omega, Or.inr ⟨?_, ?_, ?_⟩, hv, hdk, hl, hn1,
      fun h => absurd h hc⟩
    · rw [hn1]
      rcases hk1'' with hge | h
      · exact Or.inl (hTi hge)
      · rcases hki with h' | h'
        · exact Or.inl (st.sub h')
        · exact Or.inr (by omega)
    · intro hne
      rw [baddr_congr hv hn1]
      have : DIRENT_SIZE * (e + 1) / BSIZE = DIRENT_SIZE * e / BSIZE := by
        rw [hB, hD] at *; omega
      rw [this]; exact hT1
    · have := st.bud; omega

theorem de_hit_congr {s t : Kernel} (hv : t.view = s.view) (hn : t.inode = s.inode)
    (dp : Nat) (name : Mem) (e : Nat) : t.de_hit dp name e ↔ s.de_hit dp name e := by
  unfold Kernel.de_hit
  rw [de_inum_congr hv hn, de_named_congr hv hn]

/-- The loop of `dirlookup` over `k` entries none of which is a hit. -/
theorem dirlookup_skip (dp : Nat) (name : Mem) (e0 : Nat) : ∀ (k f ki e : Nat) (de : Mem)
    (s : Kernel) (T : Set Nat) (m : Nat), FSInv s T m → (∀ x, s.unheld x) → Readable s dp →
    DIRENT_SIZE * (e + k) ≤ (s.inode dp).size → e + k ≤ e0 + 1 →
    (∀ j, e ≤ j → j < e + k → ¬ s.de_hit dp name j) → ScanRoom s T m dp ki e e0 →
    ∃ c ki1 de1 s1 T1 m1, dirlookup_loop dp name (f + k) (DIRENT_SIZE * e) de s =
        dirlookup_loop dp name f (DIRENT_SIZE * (e + k)) de1 s1 ∧
      Step s T m s1 T1 m1 c 0 ∧
      c + dir_blocks_left (e + k) e0 + ki1 ≤ dir_blocks_left e e0 + ki ∧
      ScanRoom s1 T1 m1 dp ki1 (e + k) e0 ∧
      s1.view = s.view ∧ s1.ramdisk = s.ramdisk ∧ s1.log = s.log ∧ s1.inode = s.inode ∧
      (Calm s T m ∧ 2 ≤ m → Calm s1 T1 m1 ∧ 2 ≤ m1) := by
  intro k
  induction k with
  | zero =>
    intro f ki e de s T m hi _ _ _ _ _ hroom
    exact ⟨0, ki, de, s, T, m, rfl, Step.refl_step hi, by simp, hroom, rfl, rfl, rfl, rfl,
      fun h => h⟩
  | succ k ih =>
    intro f ki e de s T m hi hfree hr hsz he hmiss hroom
    have hD : DIRENT_SIZE = 16 := rfl
    have hM : MAXFILE * BSIZE = 4243456 := by decide
    have hU : U32 = 4294967296 := by unfold U32; norm_num
    have hmax := hr.size_le
    have hsz' : 16 * (e + (k + 1)) ≤ (s.inode dp).size := hsz
    have hsz1 : DIRENT_SIZE * e + DIRENT_SIZE ≤ (s.inode dp).size := by
      simp only [hD]; omega
    obtain ⟨c, ki1, s1, T1, m1, e1, st, hc, hroom1, hv, hdk, hl, hn, hcalm⟩ :=
      dir_read de hi hfree hr hsz1 (by omega) hroom
    have hlt : DIRENT_SIZE * e < (s.inode dp).size := by simp only [hD]; omega
    have hoff : (DIRENT_SIZE * e + DIRENT_SIZE) % U32 = DIRENT_SIZE * (e + 1) := by
      simp only [hD]
      rw [Nat.mod_eq_of_lt (by omega)]; omega
    have hmiss0 := hmiss e (le_refl _) (by omega)
    obtain ⟨c2, ki2, de2, s2, T2, m2, e2, st2, hc2, hroom2, hv2, hdk2, hl2, hn2, hcalm2⟩ :=
      ih f ki1 (e + 1) (s.de_at dp (DIRENT_SIZE * e) de) s1 T1 m1 st.inv
        (fun x => st.unheld x (hfree x)) (hr.congr hv hn)
        (by rw [hn]; simp only [hD]; omega) (by omega)
        (fun j h1 h2 => by rw [de_hit_congr hv hn]; exact hmiss j (by omega) (by omega)) hroom1
    have hidx : e + 1 + k = e + (k + 1) := by omega
    rw [hidx] at e2 hc2 hroom2
    refine ⟨c + c2, ki2, de2, s2, T2, m2, ?_, st.trans_step st2, by omega, hroom2,
      hv2.trans hv, hdk2.trans hdk, hl2.trans hl, hn2.trans hn, fun h => hcalm2 (hcalm h)⟩
    rw [show f + (k + 1) = (f + k) + 1 by omega]
    conv_lhs => unfold dirlookup_loop
    simp only [bind_apply, getK_apply, hlt, ↓reduceIte, e1, ne_eq, not_true_eq_false, rd16_de_at,
      hoff]
    by_cases h0 : s.de_inum dp (DIRENT_SIZE * e) = 0
    · rw [if_pos h0]; exact e2
    · rw [if_neg h0]
      have hnn : ¬ (namecmp name (de_name (s.de_at dp (DIRENT_SIZE * e) de)) = 0) := by
        rw [namecmp_de_at]
        exact fun h => hmiss0 ⟨h0, h⟩
      rw [if_neg hnn]; exact e2

theorem dirlookup_loop_end (dp : Nat) (name : Mem) (f off : Nat) (de : Mem) (s : Kernel)
    (h : ¬ off < (s.inode dp).size) : dirlookup_loop dp name f off de s = Res.ok none s := by
  cases f with
  | zero => rfl
  | succ f => simp [dirlookup_loop, h]

theorem scanRoom_start {s : Kernel} {T : Set Nat} {m dp e0 : Nat} (hi : FSInv s T m)
    (hfree : ∀ x, s.unheld x)
    (hroom : (s.log.outstanding = 0 ∧ 2 ≤ s.lru.length) ∨
      DIRENT_SIZE * e0 / BSIZE + 2 ≤ m) :
    ∃ T0 m0, FSInv s T0 m0 ∧ ScanRoom s T0 m0 dp 1 0 e0 := by
  rcases hroom with ⟨ho, hl⟩ | hm
  · exact ⟨∅, s.lru.length, hi.reset_fs ho hfree, Or.inl ⟨⟨rfl, rfl, ho⟩, hl⟩⟩
  · refine ⟨T, m, hi, Or.inr ⟨Or.inr (le_refl 1), fun h => absurd rfl h, ?_⟩⟩
    unfold dir_blocks_left
    have hB : BSIZE = 4096 := rfl
    simp only [hB] at hm ⊢
    omega

/-- `dirlookup` when entry `e0` is the first hit. -/
theorem dirlookup_found {s : Kernel} {T : Set Nat} {m dp e0 : Nat} (name : Mem)
    (hi : FSInv s T m) (hfree : ∀ x, s.unheld x) (hr : Readable s dp)
    (hdir : (s.inode dp).type = T_DIR)
    (hroom : (s.log.outstanding = 0 ∧ 2 ≤ s.lru.length) ∨
      DIRENT_SIZE * e0 / BSIZE + 2 ≤ m)
    (hsz : DIRENT_SIZE * e0 + DIRENT_SIZE ≤ (s.inode dp).size)
    (hhit : s.de_hit dp name e0) (hfirst : ∀ j, j < e0 → ¬ s.de_hit dp name j) :
    ∃ s1 T1 m1, FSInv s1 T1 m1 ∧ (∀ x, s1.unheld x) ∧
      s1.view = s.view ∧ s1.ramdisk = s.ramdisk ∧ s1.log = s.log ∧ s1.inode = s.inode ∧
      s1.sb = s.sb ∧ s1.file = s.file ∧ s1.g_ofile = s.g_ofile ∧
      (DIRENT_SIZE * e0 / BSIZE + 2 ≤ m → T ⊆ T1 ∧ m ≤ m1 + (DIRENT_SIZE * e0 / BSIZE + 2)) ∧
      dirlookup dp name s =
        (iget ROOTDEV (s.de_inum dp (DIRENT_SIZE * e0)) >>=
          fun ip => pure (some (ip, DIRENT_SIZE * e0))) s1 := by
  have hD : DIRENT_SIZE = 16 := rfl
  have hB : BSIZE = 4096 := rfl
  have hM : MAXFILE * BSIZE = 4243456 := by decide
  have hmax := hr.size_le
  have hsz16 : 16 * e0 + 16 ≤ (s.inode dp).size := hsz
  have hd0 : dir_blocks_left 0 e0 = 16 * e0 / 4096 + 1 := by
    unfold dir_blocks_left; simp only [hB, hD]; omega
  -- prefer the bounded epoch when it is affordable, so that the accounting is kept
  obtain ⟨T0, m0, hi0, hroom0, hacc0⟩ : ∃ T0 m0, FSInv s T0 m0 ∧ ScanRoom s T0 m0 dp 1 0 e0 ∧
      (DIRENT_SIZE * e0 / BSIZE + 2 ≤ m → T0 = T ∧ m0 = m ∧ ¬ (Calm s T m ∧ 2 ≤ m) ∨
        (Calm s T0 m0 ∧ 2 ≤ m0 ∧ T0 = T ∧ m0 = m)) := by
    by_cases hb : DIRENT_SIZE * e0 / BSIZE + 2 ≤ m
    · refine ⟨T, m, hi, ?_, fun _ => ?_⟩
      · by_cases hc : Calm s T m ∧ 2 ≤ m
        · exact Or.inl hc
        · refine Or.inr ⟨Or.inr (le_refl 1), fun h => absurd rfl h, ?_⟩
          unfold dir_blocks_left
          simp only [hB, hD] at hb ⊢
          omega
      · by_cases hc : Calm s T m ∧ 2 ≤ m
        · exact Or.inr ⟨hc.1, hc.2, rfl, rfl⟩
        · exact Or.inl ⟨rfl, rfl, hc⟩
    · obtain ⟨T0, m0, a, b⟩ := @scanRoom_start s T m dp e0 hi hfree
        (hroom.resolve_right hb |> Or.inl)
      exact ⟨T0, m0, a, b, fun h => absurd h hb⟩
  obtain ⟨c, ki1, de1, s1, T1, m1, e1, st, hc, hroom1, hv, hdk, hl, hn, hcalm⟩ :=
    dirlookup_skip dp name e0 e0 ((s.inode dp).size / DIRENT_SIZE + 1 - e0) 1 0 zeroMem s T0 m0
      hi0 hfree hr (by show 16 * (0 + e0) ≤ _; omega) (by omega)
      (fun j _ h2 => hfirst j (by omega)) hroom0
  have hfree1 : ∀ x, s1.unheld x := fun x => st.unheld x (hfree x)
  have hr1 := hr.congr hv hn
  obtain ⟨c2, ki2, s2, T2, m2, e2, st2, hc2, _, hv2, hdk2, hl2, hn2, _⟩ :=
    dir_read de1 st.inv hfree1 hr1 (by rw [hn]; simpa using hsz) (by simp only [Nat.zero_add]; exact le_refl e0)
      hroom1
  have hst := st.trans_step st2
  refine ⟨s2, T2, m2, st2.inv, fun x => st2.unheld x (hfree1 x), hv2.trans hv, hdk2.trans hdk,
    hl2.trans hl, hn2.trans hn, hst.rest.sb, hst.rest.file, hst.rest.g_ofile, ?_, ?_⟩
  · intro hb
    rcases hacc0 hb with ⟨eT, em, _⟩ | ⟨_, _, eT, em⟩
    · subst eT; subst em
      refine ⟨hst.sub, ?_⟩
      have h1 := hst.bud
      rw [hd0] at hc
      show m0 ≤ m2 + (16 * e0 / 4096 + 2)
      omega
    · subst eT; subst em
      refine ⟨hst.sub, ?_⟩
      have h1 := hst.bud
      rw [hd0] at hc
      show m0 ≤ m2 + (16 * e0 / 4096 + 2)
      omega
  · have hq : e0 + 1 ≤ (s.inode dp).size / 16 := by omega
    have hf1 : (s.inode dp).size / DIRENT_SIZE + 1 - e0 + e0 =
        (s.inode dp).size / DIRENT_SIZE + 1 := by
      simp only [hD]; omega
    have hf2 : (s.inode dp).size / DIRENT_SIZE + 1 - e0 =
        (s.inode dp).size / DIRENT_SIZE + 1 - e0 - 1 + 1 := by
      simp only [hD]; omega
    have hlt : DIRENT_SIZE * e0 < (s1.inode dp).size := by
      rw [hn]; show 16 * e0 < _; omega
    have hget : ∀ t : Kernel, t.inode = s.inode → (t.inode dp).dev = ROOTDEV :=
      fun t ht => by rw [ht]; exact hr.dev
    unfold dirlookup
    simp only [bind_apply, getK_apply, hdir, ne_eq, not_true_eq_false, ↓reduceIte]
    have e1' : dirlookup_loop dp name ((s.inode dp).size / DIRENT_SIZE + 1) 0 zeroMem s =
        dirlookup_loop dp name ((s.inode dp).size / DIRENT_SIZE + 1 - e0 - 1 + 1) (DIRENT_SIZE * e0)
          de1 s1 := by
      have h := e1
      simp only [Nat.zero_add, Nat.mul_zero] at h
      rw [hf1] at h
      rw [← hf2]
      exact h
    rw [e1']
    have e2' : readi dp de1 (DIRENT_SIZE * e0) DIRENT_SIZE s1 =
        Res.ok ((DIRENT_SIZE : Int), s1.de_at dp (DIRENT_SIZE * e0) de1) s2 := by
      have h := e2
      simp only [Nat.zero_add] at h
      exact h
    unfold dirlookup_loop
    simp only [bind_apply, getK_apply, hlt, ↓reduceIte, e2', ne_eq, not_true_eq_false, rd16_de_at,
      de_inum_congr hv hn, namecmp_de_at, de_named_congr hv hn, hhit.1, hhit.2,
      hget s2 (hn2.trans hn), pure_apply]

/-- `dirlookup` when no entry is a hit. -/
theorem dirlookup_none {s : Kernel} {T : Set Nat} {m dp : Nat} (name : Mem)
    (hi : FSInv s T m) (hfree : ∀ x, s.unheld x) (hr : Readable s dp)
    (hdir : (s.inode dp).type = T_DIR)
    (hroom : (s.log.outstanding = 0 ∧ 2 ≤ s.lru.length) ∨ (s.inode dp).size / BSIZE + 2 ≤ m)
    (hdvd : (s.inode dp).size % DIRENT_SIZE = 0)
    (hmiss : ∀ j, DIRENT_SIZE * j + DIRENT_SIZE ≤ (s.inode dp).size → ¬ s.de_hit dp name j) :
    ∃ s1 T1 m1, FSInv s1 T1 m1 ∧ (∀ x, s1.unheld x) ∧
      s1.view = s.view ∧ s1.ramdisk = s.ramdisk ∧ s1.log = s.log ∧ s1.inode = s.inode ∧
      s1.sb = s.sb ∧ s1.file = s.file ∧ s1.g_ofile = s.g_ofile ∧
      ((s.inode dp).size / BSIZE + 2 ≤ m → T ⊆ T1 ∧ m ≤ m1 + ((s.inode dp).size / BSIZE + 2)) ∧
      dirlookup dp name s = Res.ok none s1 := by
  have hD : DIRENT_SIZE = 16 := rfl
  have hB : BSIZE = 4096 := rfl
  have hM : MAXFILE * BSIZE = 4243456 := by decide
  have hmax := hr.size_le
  have hdvd16 : (s.inode dp).size % 16 = 0 := hdvd
  generalize hne : (s.inode dp).size / 16 = ne at *
  have hsize : (s.inode dp).size = 16 * ne := by omega
  have hd0 : dir_blocks_left 0 (ne - 1) ≤ (s.inode dp).size / 4096 + 1 := by
    unfold dir_blocks_left; simp only [hB, hD]; omega
  obtain ⟨T0, m0, hi0, hroom0, hacc0⟩ : ∃ T0 m0, FSInv s T0 m0 ∧
      ScanRoom s T0 m0 dp 1 0 (ne - 1) ∧
      ((s.inode dp).size / BSIZE + 2 ≤ m → T0 = T ∧ m0 = m) := by
    by_cases hb : (s.inode dp).size / BSIZE + 2 ≤ m
    · refine ⟨T, m, hi, ?_, fun _ => ⟨rfl, rfl⟩⟩
      by_cases hc : Calm s T m ∧ 2 ≤ m
      · exact Or.inl hc
      · refine Or.inr ⟨Or.inr (le_refl 1), fun h => absurd rfl h, ?_⟩
        have hb' : (s.inode dp).size / 4096 + 2 ≤ m := hb
        omega
    · obtain ⟨ho, hl⟩ := hroom.resolve_right hb
      exact ⟨∅, s.lru.length, hi.reset_fs ho hfree, Or.inl ⟨⟨rfl, rfl, ho⟩, hl⟩,
        fun h => absurd h hb⟩
  obtain ⟨c, ki1, de1, s1, T1, m1, e1, st, hc, hroom1, hv, hdk, hl, hn, hcalm⟩ :=
    dirlookup_skip dp name (ne - 1) ne 1 1 0 zeroMem s T0 m0
      hi0 hfree hr (by show 16 * (0 + ne) ≤ _; omega) (by omega)
      (fun j _ h2 => hmiss j (by show 16 * j + 16 ≤ _; omega)) hroom0
  refine ⟨s1, T1, m1, st.inv, fun x => st.unheld x (hfree x), hv, hdk, hl, hn, st.rest.sb,
    st.rest.file, st.rest.g_ofile, ?_, ?_⟩
  · intro hb
    obtain ⟨eT, em⟩ := hacc0 hb
    subst eT; subst em
    refine ⟨st.sub, ?_⟩
    have h1 := st.bud
    show m0 ≤ m1 + ((s.inode dp).size / 4096 + 2)
    omega
  · unfold dirlookup
    simp only [bind_apply, getK_apply, hdir, ne_eq, not_true_eq_false, ↓reduceIte]
    have h := e1
    simp only [Nat.zero_add, Nat.mul_zero] at h
    have hf : (s.inode dp).size / DIRENT_SIZE + 1 = 1 + ne := by
      show (s.inode dp).size / 16 + 1 = 1 + ne; omega
    rw [hf, h]
    exact dirlookup_loop_end dp name 1 _ de1 s1 (by rw [hn, hsize]; simp [hD])

theorem exists_first {P : Nat → Prop} (h : ∃ e, P e) : ∃ e0, P e0 ∧ ∀ j, j < e0 → ¬ P j := by
  classical
  exact ⟨Nat.find h, Nat.find_spec h, fun j hj => Nat.find_min h hj⟩

theorem fbyte_congr_addrs {s t : Kernel} (hv : t.view = s.view) {ip : Nat}
    (ha : (t.inode ip).addrs = (s.inode ip).addrs) (p : Nat) : t.fbyte ip p = s.fbyte ip p := by
  unfold Kernel.fbyte Kernel.baddr
  rw [hv, ha]

theorem setInode_inode (s : Kernel) (i : Nat) (x : Inode) (j : Nat) :
    (s.setInode i x).inode j = if j = i then x else s.inode j := by
  unfold Kernel.setInode
  simp only [Function.update_apply]

theorem demo_dir_inv : FSInv demo_dir ∅ NBUF := by
  have hne : ∀ i, (demo_dir.buf i).dev ≠ ROOTDEV := fun _ => show (0 : Nat) ≠ 1 by decide
  exact FSInv.of_unbound (s := demo_dir) (List.nodup_reverse.2 (List.nodup_range NBUF))
    (fun i _ => ⟨hne i, rfl, rfl⟩) rfl rfl rfl rfl rfl

theorem demo_dir_unheld (c : Nat) : demo_dir.unheld c := fun _ _ _ => rfl

theorem demo_dir_readable : Readable demo_dir 0 := by
  refine ⟨rfl, by decide, fun h => absurd h (by decide), ?_⟩
  intro bn hbn
  have hsz : (demo_dir.inode 0).size = 32 := rfl
  rw [hsz] at hbn
  have : bn = 0 := by unfold BSIZE at hbn; omega
  subst this; decide

set_option maxRecDepth 100000 in
theorem demo_dir_hits :
    ¬ demo_dir.de_hit 0 dotdotName 0 ∧ demo_dir.de_hit 0 dotdotName 1 ∧
    demo_dir.de_hit 0 dotName 0 ∧
    ¬ demo_dir.de_hit 0 demo_name 0 ∧ ¬ demo_dir.de_hit 0 demo_name 1 := by
  unfold Kernel.de_hit Kernel.de_named
  decide!

theorem demo_dir_small {j : Nat}
    (h : DIRENT_SIZE * j + DIRENT_SIZE ≤ (demo_dir.inode 0).size) : j = 0 ∨ j = 1 := by
  have h' : 16 * j + 16 ≤ 32 := h
  omega

theorem warmed_bread (disk : Nat → Mem) (o : Nat) {b : Nat} (hb : b < FSSIZE) :
    bread ROOTDEV b (cold disk o) = Res.ok 0 (warmed disk o b) := by
  refine bread_miss (cold_inv disk o).ci.ok ?_ rfl hb
  intro i _ h
  exact absurd h.1 (show (0 : Nat) ≠ 1 by decide)

theorem warmed_post (disk : Nat → Mem) (o : Nat) {b : Nat} (hlo : FSSTART ≤ b)
    (hb : b < FSSIZE) : FsBreadPost (cold disk o) ∅ NBUF b 0 (warmed disk o b) := by
  obtain ⟨h, s1, e, p⟩ := fs_bread (cold_inv disk o) hlo hb (cold_unheld disk o b)
    (Or.inr (by decide))
  rw [warmed_bread disk o hb] at e
  injection e with e1 e2
  subst e1; subst e2
  exact p

theorem flagged_inv (disk : Nat → Mem) (o : Nat) {b : Nat} (hlo : FSSTART ≤ b)
    (hb : b < FSSIZE) : FSInv (flagged disk o b) (insert b ∅) (NBUF - 1) :=
  have p := warmed_post disk o hlo hb
  ⟨p.inv.ci.setDisk_ci p.held, p.inv.lg.setDisk_logok p.held, p.inv.sb⟩

theorem flagged_held (disk : Nat → Mem) (o : Nat) {b : Nat} (hlo : FSSTART ≤ b)
    (hb : b < FSSIZE) : (flagged disk o b).held 0 b := by
  have p := (warmed_post disk o hlo hb).held
  refine ⟨p.1, ?_, ?_⟩
  · exact ⟨rfl, rfl⟩
  · rfl

/-- Reading block `c`, storing `d` into the buffer, writing the buffer to the
device and releasing it: the pattern of `write_head` and of the log slots. -/
theorem block_write {t : Kernel} {T : Set Nat} {m c : Nat} (hci : CI t T m) (hc : c < FSSIZE)
    (hfree : t.unheld c) (hbud : c ∈ T ∨ 1 ≤ m) :
    ∃ lb s1, bread ROOTDEV c t = Res.ok lb s1 ∧ (s1.buf lb).data = t.view c ∧ Rest t s1 ∧
      ∀ d : Mem, ∃ t4, virtio_disk_rw lb true (s1.store lb d) =
          Res.ok () ((s1.store lb d).flush lb) ∧
        brelse lb ((s1.store lb d).flush lb) = Res.ok () t4 ∧
        CI t4 (insert c T) (m - 1) ∧ (c ∈ T → CI t4 T m) ∧
        t4.view = Function.update t.view c d ∧
        t4.ramdisk = Function.update t.ramdisk c d ∧
        Rest t t4 ∧ (∀ x, t.unheld x → t4.unheld x) ∧ (∀ j, j ∈ t4.lru ↔ j ∈ t.lru) := by
  obtain ⟨lb, s1, e1, p⟩ := bread_spec hci hc hfree hbud
  refine ⟨lb, s1, e1, p.data, p.rest, ?_⟩
  intro d
  have hh2 := held_store p.held d
  have hh3 := held_flush hh2 lb
  have hv2 := view_setData p.ci.ok p.held d
  refine ⟨((s1.store lb d).flush lb).release lb, flush_held (p.ci.setData p.held _).ok hh2,
    brelse_held ((p.ci.setData p.held _).flush_ci hh2).ok hh3,
    ((p.ci.setData p.held _).flush_ci hh2).release_ci hh3,
    fun hT => (((p.ci_in hT).setData p.held _).flush_ci hh2).release_ci hh3, ?_, ?_, ?_, ?_, ?_⟩
  · rw [view_release ((p.ci.setData p.held _).flush_ci hh2).ok hh3.1,
      view_flush (p.ci.setData p.held _).ok hh2.1 hh2.2.1.1, hv2, p.view]
  · simp [p.disk, p.held.2.1.2]
  · exact ⟨p.rest.sb, p.rest.log, p.rest.inode, p.rest.file, p.rest.g_ofile⟩
  · intro x hx i hi hib
    have him : i ∈ t.lru := by
      have := (mem_release hh3.1 i).1 hi
      have h2 : i ∈ s1.lru := this
      rw [p.lru] at h2; exact h2
    by_cases e : i = lb
    · subst e; simp
    · have hb : ((((s1.store lb d).flush lb).release lb).buf i) = t.buf i := by
        simp [e, p.others i e]
      unfold Kernel.bound at hib
      rw [hb] at hib ⊢
      exact hx i him hib
  · intro j
    rw [mem_release hh3.1]
    show j ∈ s1.lru ↔ j ∈ t.lru
    rw [p.lru]

/-- The function `write_head`. -/
theorem write_head_spec {s : Kernel} {T : Set Nat} {m : Nat} (hci : CI s T m)
    (hdev : s.log.dev = ROOTDEV) (hstart : s.log.start = 2) (hfree : s.unheld 2)
    (hbud : 2 ∈ T ∨ 1 ≤ m) :
    ∃ s1 T1 m1, write_head s = Res.ok () s1 ∧ CI s1 T1 m1 ∧ T ⊆ T1 ∧ m ≤ m1 + 1 ∧ 2 ∈ T1 ∧
      (2 ∈ T → T1 = T ∧ m1 = m) ∧
      s1.view = Function.update s.view 2 (head_image s) ∧
      s1.ramdisk = Function.update s.ramdisk 2 (head_image s) ∧
      Rest s s1 ∧ (∀ x, s.unheld x → s1.unheld x) ∧ (∀ j, j ∈ s1.lru ↔ j ∈ s.lru) := by
  obtain ⟨lb, s1, e1, hd1, hr1, h⟩ := block_write hci (by decide) hfree hbud
  obtain ⟨t4, e2, e3, c1, c2, hv, hdk, hr, hu, hm⟩ := h (head_image s)
  have e1' : bread s.log.dev s.log.start s = Res.ok lb s1 := by rw [hdev, hstart]; exact e1
  have hrun : write_head s = Res.ok () t4 := by
    unfold write_head
    simp only [bind_apply, getK_apply, e1', setData_ok, hr1.log, hd1]
    have e2' : virtio_disk_rw lb true (s1.store lb (write_head_loop s.log.lh s.log.lh.n
        (wr32 (s.view 2) 0 s.log.lh.n))) = Res.ok () ((s1.store lb (head_image s)).flush lb) := by
      have := e2
      unfold head_image at this
      rw [hstart] at this
      unfold head_image
      rw [hstart]
      exact this
    rw [e2']
    exact e3
  by_cases hT : 2 ∈ T
  · exact ⟨t4, T, m, hrun, c2 hT, le_refl T, by omega, hT, fun _ => ⟨rfl, rfl⟩, hv, hdk, hr,
      hu, hm⟩
  · exact ⟨t4, insert 2 T, m - 1, hrun, c1, Set.subset_insert _ _, by omega,
      Set.mem_insert _ _, fun h => absurd h hT, hv, hdk, hr, hu, hm⟩

theorem Commit.slot_below {s : Kernel} {T : Set Nat} {i k : Nat} (h : Commit s T i)
    (hk : k < s.log.lh.n) : s.slot k < FSSTART := by
  have := h.n_le
  unfold Kernel.slot FSSTART
  rw [h.start]
  unfold LOGSIZE at this
  omega

theorem Commit.slot_not_logged {s : Kernel} {T : Set Nat} {i k : Nat} (h : Commit s T i)
    (hk : k < s.log.lh.n) : ¬ s.logged (s.slot k) := by
  rintro ⟨k', hk', e⟩
  have := (h.blk_range k' hk').1
  have := h.slot_below hk
  omega

/-- One round of `install_trans_from_log`. -/
theorem install_round {s : Kernel} {T : Set Nat} {m i : Nat} (hci : CI s T m)
    (hc : Commit s T i) (hi : i < s.log.lh.n) (fuel : Nat) :
    ∃ s6, install_loop (fuel + 1) i s = install_loop fuel (i + 1) s6 ∧ CI s6 T m ∧
      Commit s6 T (i + 1) ∧ s6.view = s.view ∧
      s6.ramdisk = Function.update s.ramdisk (s.log.lh.block i) (s.view (s.log.lh.block i)) ∧
      Rest s s6 ∧ (∀ j, j ∈ s6.lru ↔ j ∈ s.lru) := by
  have hU : U32 = 4294967296 := by unfold U32; norm_num
  obtain ⟨hb1, hb2⟩ := hc.blk_range i hi
  have hslot := hc.slot_below hi
  have hslotF : s.slot i < FSSIZE := by unfold FSSTART at hslot; unfold FSSIZE; omega
  have hne : s.slot i ≠ s.log.lh.block i := by omega
  -- the slot and the block are cached in the epoch
  obtain ⟨lb, s1, e1, p1⟩ := bread_spec hci hslotF (hc.free _) (Or.inl (hc.slot_T i hi))
  have hci1 : CI s1 T m := p1.ci_in (hc.slot_T i hi)
  have hfree1 : ∀ j ∈ s1.lru, s1.bound j (s.log.lh.block i) → (s1.buf j).refcnt = 0 := by
    intro j hj hjb
    have hjl : j ≠ lb := by
      intro e; subst e
      exact hne (p1.held.2.1.2.symm.trans hjb.2)
    unfold Kernel.bound at hjb
    rw [p1.others j hjl] at hjb ⊢
    exact hc.free _ j (p1.lru ▸ hj) hjb
  obtain ⟨db, s2, e2, p2⟩ := bread_spec hci1 hb2 hfree1 (Or.inl (hc.blk_T i hi))
  have hci2 : CI s2 T m := p2.ci_in (hc.blk_T i hi)
  have hlbdb : lb ≠ db := held_ne_of_free p1.held p2.was_free
  have hlb2 : s2.held lb (s.slot i) :=
    ⟨p2.lru ▸ p1.held.1, by unfold Kernel.bound; rw [p2.others lb hlbdb]; exact p1.held.2.1,
      by rw [p2.others lb hlbdb]; exact p1.held.2.2⟩
  have hd : (s2.buf lb).data = s.view (s.log.lh.block i) := by
    rw [p2.others lb hlbdb, p1.data, hc.clean _ (hc.slot_not_logged hi), hc.pending i (le_refl i) hi]
  have hdb3 := held_store p2.held (s.view (s.log.lh.block i))
  have hci3 := hci2.setData p2.held (s.view (s.log.lh.block i))
  have hci4 := hci3.flush_ci hdb3
  have hlb4 : ((s2.store db (s.view (s.log.lh.block i))).flush db).held lb (s.slot i) :=
    ⟨hlb2.1, by unfold Kernel.bound; simp [hlbdb, hlb2.2.1.1, hlb2.2.1.2],
      by simp [hlbdb, hlb2.2.2]⟩
  have hci5 := hci4.release_ci hlb4
  have hdb5 : (((s2.store db (s.view (s.log.lh.block i))).flush db).release lb).held db
      (s.log.lh.block i) :=
    ⟨(mem_release hlb4.1 db).2 hdb3.1, (bound_release _ _ _ _).2 hdb3.2.1,
      by rw [release_buf_ne _ (Ne.symm hlbdb)]; exact hdb3.2.2⟩
  have hci6 := hci5.release_ci hdb5
  generalize hs6 : ((((s2.store db (s.view (s.log.lh.block i))).flush db).release lb).release db)
    = s6 at hci6
  have hrest : Rest s s6 := by
    subst hs6
    exact ⟨p2.rest.sb.trans p1.rest.sb, p2.rest.log.trans p1.rest.log,
      p2.rest.inode.trans p1.rest.inode, p2.rest.file.trans p1.rest.file,
      p2.rest.g_ofile.trans p1.rest.g_ofile⟩
  have hview : s6.view = s.view := by
    subst hs6
    rw [view_release hci5.ok hdb5.1, view_release hci4.ok hlb4.1,
      view_flush hci3.ok hdb3.1 hdb3.2.1.1, view_setData hci2.ok p2.held, p2.view, p1.view]
    funext c
    by_cases e : c = s.log.lh.block i
    · rw [e, Function.update_same]
    · rw [Function.update_noteq e]
  have hdisk : s6.ramdisk =
      Function.update s.ramdisk (s.log.lh.block i) (s.view (s.log.lh.block i)) := by
    subst hs6
    simp [p2.disk, p1.disk, p2.held.2.1.2]
  have hmem : ∀ j, j ∈ s6.lru ↔ j ∈ s.lru := by
    intro j
    subst hs6
    rw [mem_release hdb5.1, mem_release hlb4.1]
    show j ∈ s2.lru ↔ j ∈ s.lru
    rw [p2.lru, p1.lru]
  have hbuf : ∀ j, j ≠ lb → j ≠ db → s6.buf j = s.buf j := by
    intro j h1 h2
    subst hs6
    simp [h1, h2, p2.others j h2, p1.others j h1]
  have hr6 : ∀ j, j = lb ∨ j = db → (s6.buf j).refcnt = 0 := by
    intro j hj
    subst hs6
    rcases hj with e | e
    · subst e; simp [hlbdb]
    · subst e; simp
  have hlog : s6.log = s.log := hrest.log
  refine ⟨s6, ?_, hci6, ?_, hview, hdisk, hrest, hmem⟩
  · have e1' : bread s.log.dev (s.log.start + 1 + i) s = Res.ok lb s1 := by
      rw [hc.dev]; exact e1
    have e2' : bread s.log.dev (s.log.lh.block i % U32) s1 = Res.ok db s2 := by
      rw [hc.dev, Nat.mod_eq_of_lt (by unfold FSSIZE at hb2; omega)]; exact e2
    conv_lhs => unfold install_loop
    simp only [bind_apply, getK_apply, hi, ↓reduceIte, e1', e2', setData_ok, memmove_block, hd,
      flush_held hci3.ok hdb3, brelse_held hci4.ok hlb4, brelse_held hci5.ok hdb5, hs6]
  · refine ⟨by rw [hlog]; exact hc.dev, by rw [hlog]; exact hc.start, by rw [hlog]; exact hc.n_le,
      by rw [hlog]; exact hc.blk_range, by rw [hlog]; exact hc.blk_inj,
      by rw [hlog]; exact hc.blk_T, ?_, ?_, ?_, ?_, ?_⟩
    · intro k hk
      rw [hlog] at hk
      rw [slot_congr hlog]; exact hc.slot_T k hk
    · intro x j hj hjb
      by_cases h1 : j = lb
      · exact hr6 j (Or.inl h1)
      · by_cases h2 : j = db
        · exact hr6 j (Or.inr h2)
        · unfold Kernel.bound at hjb
          rw [hbuf j h1 h2] at hjb ⊢
          exact hc.free x j ((hmem j).1 hj) hjb
    · intro c hnl
      have hnl' : ¬ s.logged c := fun h => hnl ((logged_congr hlog c).2 h)
      have hcb : c ≠ s.log.lh.block i := fun e => hnl' ⟨i, hi, e.symm⟩
      rw [hview, hdisk, Function.update_noteq hcb]
      exact hc.clean c hnl'
    · intro k hk1 hk2
      rw [hlog] at hk2 ⊢
      rw [slot_congr hlog, hview, hdisk, Function.update_noteq]
      · exact hc.pending k (by omega) hk2
      · have := hc.slot_below hk2
        omega
    · intro k hk1 hk2
      rw [hlog] at hk2 ⊢
      rw [hview, hdisk]
      by_cases e : k = i
      · subst e; rw [Function.update_same]
      · rw [Function.update_noteq]
        · exact hc.installed k (by omega) hk2
        · intro h
          exact e (hc.blk_inj k hk2 i hi h)

theorem install_loop_done (fuel i : Nat) (s : Kernel) (h : ¬ i < s.log.lh.n) :
    install_loop fuel i s = Res.ok () s := by
  cases fuel with
  | zero => rfl
  | succ f => simp [install_loop, h]

/-- The loop of `install_trans_from_log` from entry `i` to the end. -/
theorem install_all (T : Set Nat) (m : Nat) : ∀ (k fuel i : Nat) (s : Kernel), CI s T m →
    Commit s T i → i + k = s.log.lh.n → k ≤ fuel →
    ∃ s1, install_loop fuel i s = Res.ok () s1 ∧ CI s1 T m ∧ Commit s1 T s1.log.lh.n ∧
      s1.view = s.view ∧ Rest s s1 ∧ (∀ j, j ∈ s1.lru ↔ j ∈ s.lru) := by
  intro k
  induction k with
  | zero =>
    intro fuel i s hci hc hik _
    have hi : i = s.log.lh.n := by omega
    refine ⟨s, install_loop_done fuel i s (by omega), hci, by rw [← hi]; exact hc, rfl,
      Rest.refl_rest s, fun _ => Iff.rfl⟩
  | succ k ih =>
    intro fuel i s hci hc hik hf
    obtain ⟨f, hf'⟩ : ∃ f, fuel = f + 1 := ⟨fuel - 1, by omega⟩
    subst hf'
    obtain ⟨s6, e, hci6, hc6, hv6, _, hr6, hm6⟩ := install_round hci hc (by omega) f
    obtain ⟨s1, e1, hci1, hc1, hv1, hr1, hm1⟩ :=
      ih f (i + 1) s6 hci6 hc6 (by rw [hr6.log]; omega) (by omega)
    exact ⟨s1, e.trans e1, hci1, hc1, hv1.trans hv6, hr6.trans_rest hr1,
      fun j => (hm1 j).trans (hm6 j)⟩

/-- The function `commit`: afterwards the header is empty and every block
reads as the device holds it; no block other than the header block changes
its content as `bread` sees it. -/
theorem commit_spec {s : Kernel} {T : Set Nat} {m : Nat} (hci : CI s T m) (hc : Commit s T 0)
    (hbud : 2 ∈ T ∨ 1 ≤ m) :
    ∃ s1 T1 m1, commit s = Res.ok () s1 ∧ CI s1 T1 m1 ∧ T ⊆ T1 ∧ m ≤ m1 + 1 ∧
      s1.log.lh.n = 0 ∧ (∀ c, s1.view c = s1.ramdisk c) ∧ (∀ c, c ≠ 2 → s1.view c = s.view c) ∧
      (∀ x, s1.unheld x) ∧ RestC s s1 ∧ (∀ j, j ∈ s1.lru ↔ j ∈ s.lru) := by
  by_cases hn : s.log.lh.n > 0
  swap
  · refine ⟨s, T, m, ?_, hci, le_refl T, by omega, by omega, ?_, fun _ _ => rfl, hc.free,
      ⟨rfl, rfl, rfl, rfl, rfl, rfl, rfl, rfl, rfl⟩, fun _ => Iff.rfl⟩
    · unfold commit
      simp only [bind_apply, getK_apply, hn, ↓reduceIte, pure_apply]
    · intro c
      exact hc.clean c (by rintro ⟨k, hk, _⟩; omega)
  -- the header is written
  obtain ⟨s1, T1, m1, e1, hci1, hsub, hm1, h2T, _, hv1, hd1, hr1, hu1, hmem1⟩ :=
    write_head_spec hci hc.dev hc.start (hc.free 2) hbud
  have hlog1 : s1.log = s.log := hr1.log
  have hslot2 : ∀ k, k < s.log.lh.n → s.slot k ≠ 2 := by
    intro k _; unfold Kernel.slot; rw [hc.start]; omega
  have hblk2 : ∀ k, k < s.log.lh.n → s.log.lh.block k ≠ 2 := by
    intro k hk
    have := (hc.blk_range k hk).1
    unfold FSSTART at this; omega
  have hc1 : Commit s1 T1 0 := by
    refine ⟨by rw [hlog1]; exact hc.dev, by rw [hlog1]; exact hc.start,
      by rw [hlog1]; exact hc.n_le, by rw [hlog1]; exact hc.blk_range,
      by rw [hlog1]; exact hc.blk_inj, ?_, ?_, fun x => hu1 x (hc.free x), ?_, ?_, ?_⟩
    · intro k hk; rw [hlog1] at hk ⊢; exact hsub (hc.blk_T k hk)
    · intro k hk; rw [hlog1] at hk; rw [slot_congr hlog1]; exact hsub (hc.slot_T k hk)
    · intro c hnl
      have hnl' : ¬ s.logged c := fun h => hnl ((logged_congr hlog1 c).2 h)
      rw [hv1, hd1]
      by_cases e : c = 2
      · rw [e, Function.update_same, Function.update_same]
      · rw [Function.update_noteq e, Function.update_noteq e]; exact hc.clean c hnl'
    · intro k _ hk
      rw [hlog1] at hk ⊢
      rw [slot_congr hlog1, hv1, hd1, Function.update_noteq (hblk2 k hk),
        Function.update_noteq (hslot2 k hk)]
      exact hc.pending k (Nat.zero_le _) hk
    · intro k hk; omega
  -- the blocks are installed
  obtain ⟨s2, e2, hci2, hc2, hv2, hr2, hmem2⟩ :=
    install_all T1 m1 s1.log.lh.n s1.log.lh.n 0 s1 hci1 hc1 (by omega) (le_refl _)
  have hall2 : ∀ c, s2.view c = s2.ramdisk c := by
    intro c
    by_cases hl : s2.logged c
    · obtain ⟨k, hk, e⟩ := hl
      rw [← e]; exact hc2.installed k hk hk
    · exact hc2.clean c hl
  -- the header is retired
  generalize hs3 : ({ s2 with log := { s2.log with lh := { s2.log.lh with n := 0 } } } : Kernel)
    = s3
  have hci3 : CI s3 T1 m1 := by
    subst hs3; exact CI.ci_of_eq (s := s2) rfl rfl rfl hci2
  have hfree3 : ∀ x, s3.unheld x := by subst hs3; exact hc2.free
  have hv3 : s3.view = s2.view := by subst hs3; rfl
  have hd3 : s3.ramdisk = s2.ramdisk := by subst hs3; rfl
  obtain ⟨s4, T4, m4, e4, hci4, hsub4, hm4, _, htight4, hv4, hd4, hr4, hu4, hmem4⟩ :=
    write_head_spec hci3 (by subst hs3; exact hc2.dev) (by subst hs3; exact hc2.start)
      (hfree3 2) (Or.inl h2T)
  have hn3 : s3.log.lh.n = 0 := by subst hs3; rfl
  refine ⟨s4, T4, m4, ?_, hci4, hsub.trans hsub4, ?_, by rw [hr4.log]; exact hn3, ?_, ?_,
    fun x => hu4 x (hfree3 x), ?_, ?_⟩
  · unfold commit
    simp only [bind_apply, getK_apply, hn, ↓reduceIte, e1, modifyK_apply]
    unfold install_trans_from_log
    simp only [bind_apply, getK_apply, e2, hs3, e4]
  · -- the second header write finds block 2 cached
    have := (htight4 h2T).2
    omega
  · intro c
    rw [hv4, hd4, hv3, hd3]
    by_cases e : c = 2
    · rw [e, Function.update_same, Function.update_same]
    · rw [Function.update_noteq e, Function.update_noteq e]; exact hall2 c
  · intro c hc2'
    rw [hv4, Function.update_noteq hc2', hv3, hv2, hv1, Function.update_noteq hc2']
  · have hl3 : s3.log.dev = s2.log.dev ∧ s3.log.start = s2.log.start ∧
        s3.log.size = s2.log.size ∧ s3.log.outstanding = s2.log.outstanding ∧
        s3.log.committing = s2.log.committing ∧ s3.sb = s2.sb ∧ s3.inode = s2.inode ∧
        s3.file = s2.file ∧ s3.g_ofile = s2.g_ofile := by
      subst hs3; exact ⟨rfl, rfl, rfl, rfl, rfl, rfl, rfl, rfl, rfl⟩
    obtain ⟨a1, a2, a3, a4, a5, a6, a7, a8, a9⟩ := hl3
    exact ⟨by rw [hr4.sb, a6, hr2.sb, hr1.sb], by rw [hr4.inode, a7, hr2.inode, hr1.inode],
      by rw [hr4.file, a8, hr2.file, hr1.file], by rw [hr4.g_ofile, a9, hr2.g_ofile, hr1.g_ofile],
      by rw [hr4.log, a1, hr2.log, hr1.log], by rw [hr4.log, a2, hr2.log, hr1.log],
      by rw [hr4.log, a3, hr2.log, hr1.log], by rw [hr4.log, a4, hr2.log, hr1.log],
      by rw [hr4.log, a5, hr2.log, hr1.log]⟩
  · intro j
    rw [hmem4 j]
    have : s3.lru = s2.lru := by subst hs3; rfl
    rw [this, hmem2 j, hmem1 j]

/-- With no buffer pinned, every block outside the header list reads as the
device holds it (view formulation of the log invariant). -/
theorem FSInv.clean {s : Kernel} {T : Set Nat} {m : Nat} (hi : FSInv s T m)
    (hfree : ∀ x, s.unheld x) (c : Nat) (hnl : ¬ s.logged c) : s.view c = s.ramdisk c := by
  by_cases h : ∃ j ∈ s.lru, s.bound j c
  · obtain ⟨j, hj, hb⟩ := h
    rw [view_of_bound hi.ci.ok hj hb]
    have := hi.lg.unlogged_clean j hj hb.1 (hfree c j hj hb) (by rw [hb.2]; exact hnl)
    rw [this, hb.2]
  · exact view_of_unbound (fun i hi' hb => h ⟨i, hi', hb⟩)

theorem Commit.of_inv {s : Kernel} {T : Set Nat} {m : Nat} (hi : FSInv s T m)
    (hfree : ∀ x, s.unheld x) : Commit s T 0 := by
  refine ⟨hi.lg.dev, hi.lg.start, hi.lg.n_le, hi.lg.blk_range, hi.lg.blk_inj, hi.lg.blk_T,
    hi.lg.slot_T, hfree, hi.clean hfree, ?_, fun k hk => absurd hk (Nat.not_lt_zero k)⟩
  intro k _ hk
  obtain ⟨j, hj, hb⟩ := hi.ci.ep.cached _ (hi.lg.blk_T k hk)
  rw [view_of_bound hi.ci.ok hj hb]
  exact hi.lg.logged_ok k hk j hj hb (hfree _ j hj hb)

theorem end_op_commits {s : Kernel} (h : s.log.outstanding = 1) :
    end_op s = (commit >>= fun _ => modifyK Kernel.closed) s.closing := by
  unfold end_op
  have h1 : ¬ s.log.outstanding < 1 := by omega
  rw [if_neg h1]
  exact (if_pos (show s.log.outstanding - 1 = 0 by omega)).trans rfl

/-- The last `end_op` of a transaction: the staged blocks are installed and
the volume is at rest. -/
theorem end_op_spec {s : Kernel} {T : Set Nat} {m : Nat} (hi : FSInv s T m)
    (hfree : ∀ x, s.unheld x) (hbud : 2 ∈ T ∨ 1 ≤ m) (ho : s.log.outstanding = 1) :
    ∃ s1 T1 m1, end_op s = Res.ok () s1 ∧ FSInv s1 T1 m1 ∧ T ⊆ T1 ∧ m ≤ m1 + 1 ∧
      s1.log.outstanding = 0 ∧ s1.log.committing = 0 ∧ s1.log.lh.n = 0 ∧
      (∀ c, s1.view c = s1.ramdisk c) ∧ (∀ c, c ≠ 2 → s1.view c = s.view c) ∧
      (∀ x, s1.unheld x) ∧ s1.inode = s.inode ∧ s1.file = s.file ∧ s1.g_ofile = s.g_ofile ∧
      s1.sb = s.sb ∧ (∀ j, j ∈ s1.lru ↔ j ∈ s.lru) := by
  have hci0 : CI s.closing T m := CI.ci_of_eq (s := s) rfl rfl rfl hi.ci
  have hc := Commit.of_inv hi hfree
  have hc0 : Commit s.closing T 0 :=
    ⟨hc.dev, hc.start, hc.n_le, hc.blk_range, hc.blk_inj, hc.blk_T, hc.slot_T, hc.free, hc.clean,
      hc.pending, hc.installed⟩
  obtain ⟨s1, T1, m1, e, hci1, hsub, hm, hn, hall, hv, hu, hr, hmem⟩ := commit_spec hci0 hc0 hbud
  have hci2 : CI s1.closed T1 m1 := CI.ci_of_eq (s := s1) rfl rfl rfl hci1
  have hn2 : s1.closed.log.lh.n = 0 := hn
  have hall2 : ∀ c, s1.closed.view c = s1.closed.ramdisk c := hall
  have hu2 : ∀ x, s1.closed.unheld x := hu
  refine ⟨s1.closed, T1, m1, ?_, ⟨hci2, ⟨?_, ?_, ?_, ?_, fun _ => hn2, ?_, ?_, ?_, ?_, ?_, ?_, ?_⟩,
    ?_⟩, hsub, hm, ?_, rfl, hn2, hall2, hv, hu2, hr.inode, hr.file, hr.g_ofile, hr.sb, hmem⟩
  · rw [end_op_commits ho]
    simp only [bind_apply, e, modifyK_apply]
  · show s1.log.dev = ROOTDEV; rw [hr.dev]; exact hi.lg.dev
  · show s1.log.start = 2; rw [hr.start]; exact hi.lg.start
  · show s1.log.size = LOGSIZE; rw [hr.size]; exact hi.lg.size
  · rw [hn2]; decide
  · intro k hk; rw [hn2] at hk; omega
  · intro k hk; rw [hn2] at hk; omega
  · intro k hk; rw [hn2] at hk; omega
  · intro k hk; rw [hn2] at hk; omega
  · intro k hk; rw [hn2] at hk; omega
  · intro j hj hd _ _
    have hb : s1.closed.bound j (s1.closed.buf j).blockno := ⟨hd, rfl⟩
    rw [← view_of_bound hci2.ok hj hb]
    exact hall2 _
  · intro j hj hd _
    exact hu2 _ j hj ⟨hd, rfl⟩
  · show s1.sb = mkfs_sb; rw [hr.sb]; exact hi.sb
  · show s1.log.outstanding = 0
    rw [hr.outstanding]
    show s.log.outstanding - 1 = 0
    omega

theorem comps_slash (p acc : List Nat) :
    comps (SLASH :: p) acc = if acc.isEmpty then comps p [] else acc.reverse :: comps p [] := by
  simp [comps]

theorem components_slash (p : List Nat) : components (SLASH :: p) = components p := by
  simp [components, comps]

theorem components_strip (p : List Nat) :
    components (p.dropWhile (fun c => c == SLASH)) = components p := by
  induction p with
  | nil => rfl
  | cons c cs ih =>
    by_cases h : c = SLASH
    · subst h
      rw [List.dropWhile_cons_of_pos (by simp), ih, components_slash]
    · rw [List.dropWhile_cons_of_neg (by simpa using h)]

theorem comps_run (p acc : List Nat)
    (h : acc ≠ [] ∨ ∃ c cs, p = c :: cs ∧ c ≠ SLASH) :
    comps p acc = (acc.reverse ++ p.takeWhile (fun c => c != SLASH)) ::
      comps (p.dropWhile (fun c => c != SLASH)) [] := by
  induction p generalizing acc with
  | nil =>
    rcases h with h | ⟨c, cs, h, _⟩
    · simp [comps, h]
    · cases h
  | cons c cs ih =>
    by_cases hc : c = SLASH
    · subst hc
      rcases h with h | ⟨c, cs1, h, h1⟩
      · simp [comps, h]
      · cases h; exact absurd rfl h1
    · have e1 : (c :: cs).takeWhile (fun c => c != SLASH) = c :: cs.takeWhile (fun c => c != SLASH) :=
        List.takeWhile_cons_of_pos (by simpa using hc)
      have e2 : (c :: cs).dropWhile (fun c => c != SLASH) = cs.dropWhile (fun c => c != SLASH) :=
        List.dropWhile_cons_of_pos (by simpa using hc)
      rw [e1, e2]
      simp only [comps, if_neg hc]
      rw [ih (c :: acc) (Or.inl (by simp))]
      simp

theorem strip_head (p : List Nat) :
    p.dropWhile (fun c => c == SLASH) = [] ∨
      ∃ c cs, p.dropWhile (fun c => c == SLASH) = c :: cs ∧ c ≠ SLASH := by
  induction p with
  | nil => left; rfl
  | cons c cs ih =>
    by_cases h : c = SLASH
    · subst h
      rw [List.dropWhile_cons_of_pos (by simp)]
      exact ih
    · rw [List.dropWhile_cons_of_neg (by simpa using h)]
      exact Or.inr ⟨c, cs, rfl, h⟩

theorem strip_idem (p : List Nat) :
    (p.dropWhile (fun c => c == SLASH)).dropWhile (fun c => c == SLASH) =
      p.dropWhile (fun c => c == SLASH) := by
  rcases strip_head p with h | ⟨c, cs, h, hc⟩
  · rw [h]; rfl
  · rw [h, List.dropWhile_cons_of_neg (by simpa using hc)]

theorem components_nil_iff (p : List Nat) :
    components p = [] ↔ p.dropWhile (fun c => c == SLASH) = [] := by
  rw [← components_strip]
  rcases strip_head p with h | ⟨c, cs, h, hc⟩
  · rw [h]; simp [components, comps]
  · rw [h]
    unfold components
    rw [comps_run _ _ (Or.inr ⟨c, cs, rfl, hc⟩)]
    simp

/-- What `skipelem` does on a path with first component `c`. -/
theorem skipelem_cons {path : List Nat} {c : List Nat} {cs : List (List Nat)}
    (h : components path = c :: cs) (elem : Mem) :
    ∃ path1, skipelem path elem = (some path1, elem_of c elem) ∧ components path1 = cs ∧
      path1.length < path.length ∧ (path1.isEmpty = true ↔ cs = []) := by
  rcases strip_head path with h0 | ⟨a, as, h0, ha⟩
  · rw [(components_nil_iff path).2 h0] at h; cases h
  · have h1 : components (path.dropWhile (fun c => c == SLASH)) = c :: cs := by
      rw [components_strip]; exact h
    rw [h0] at h1
    unfold components at h1
    rw [comps_run _ _ (Or.inr ⟨a, as, rfl, ha⟩)] at h1
    simp only [List.reverse_nil, List.nil_append, List.cons.injEq] at h1
    obtain ⟨hc, hcs⟩ := h1
    refine ⟨((a :: as).dropWhile (fun c => c != SLASH)).dropWhile (fun c => c == SLASH), ?_, ?_, ?_, ?_⟩
    · unfold skipelem
      simp only [h0, List.isEmpty_cons, Bool.false_eq_true, ↓reduceIte]
      rw [hc]
      rfl
    · rw [components_strip]; exact hcs
    · have l1 := (List.dropWhile_sublist (fun c => c == SLASH)
        (l := (a :: as).dropWhile (fun c => c != SLASH))).length_le
      have l2 : ((a :: as).dropWhile (fun c => c != SLASH)).length < (a :: as).length := by
        rw [List.dropWhile_cons_of_pos (by simpa using ha)]
        exact Nat.lt_succ_of_le (List.dropWhile_sublist _).length_le
      have l3 := (List.dropWhile_sublist (fun c => c == SLASH) (l := path)).length_le
      rw [h0] at l3
      omega
    · rw [List.isEmpty_iff, ← hcs]
      exact ((components_nil_iff _).symm)

/-- What a successful `iget` does to the inode cache: one slot changes, its
reference count goes up by one, and a slot whose count became 1 is not valid. -/
theorem iget_ref {s s1 : Kernel} {dev inum ip : Nat} (h : iget dev inum s = Res.ok ip s1) :
    (s1.inode ip).ref = (s.inode ip).ref + 1 ∧ (∀ j, j ≠ ip → s1.inode j = s.inode j) ∧
      ((s1.inode ip).ref ≠ 1 ∨ (s1.inode ip).valid = 0) ∧
      (s1.inode ip).dev = dev ∧ (s1.inode ip).inum = inum := by
  unfold iget at h
  cases h1 : (List.range NINODE).find? (fun i => decide ((s.inode i).ref > 0) &&
      (s.inode i).dev == dev && (s.inode i).inum == inum) with
  | some i =>
    rw [h1] at h
    have hp := List.find?_some h1
    simp only [Bool.and_eq_true, decide_eq_true_eq, beq_iff_eq] at hp
    injection h with h2 h3
    subst h2; subst h3
    refine ⟨by simp [Kernel.setInode], fun j hj => by simp [Kernel.setInode, hj], ?_,
      by simp [Kernel.setInode, hp.1.2], by simp [Kernel.setInode, hp.2]⟩
    left
    simp only [Kernel.setInode, Function.update_same]
    omega
  | none =>
    rw [h1] at h
    cases h2 : (List.range NINODE).find? (fun i => (s.inode i).ref == 0) with
    | some i =>
      rw [h2] at h
      have hp := List.find?_some h2
      simp only [beq_iff_eq] at hp
      injection h with h3 h4
      subst h3; subst h4
      exact ⟨by simp [Kernel.setInode, hp], fun j hj => by simp [Kernel.setInode, hj],
        Or.inr (by simp [Kernel.setInode]), by simp [Kernel.setInode], by simp [Kernel.setInode]⟩
    | none =>
      rw [h2] at h
      cases h

theorem FSInv.of_cache_eq {s t : Kernel} {T : Set Nat} {m : Nat} (h : FSInv s T m)
    (hb : t.buf = s.buf) (hl : t.lru = s.lru) (hd : t.ramdisk = s.ramdisk) (hg : t.log = s.log)
    (hs : t.sb = s.sb) : FSInv t T m := by
  obtain ⟨r, b, l, sb, lg, i, f, g⟩ := s
  obtain ⟨r1, b1, l1, sb1, lg1, i1, f1, g1⟩ := t
  simp only at hb hl hd hg hs
  subst hb hl hd hg hs
  exact ⟨@CI.ci_of_eq ⟨r1, b1, l1, sb1, lg1, i, f, g⟩ _ T m rfl rfl rfl h.ci, ⟨h.lg.dev, h.lg.start, h.lg.size, h.lg.n_le, h.lg.idle,
    h.lg.blk_range, h.lg.blk_inj, h.lg.blk_T, h.lg.slot_T, h.lg.logged_ok, h.lg.unlogged_clean,
    h.lg.low_free⟩, h.sb⟩

theorem unheld_of_cache_eq {s t : Kernel} {c : Nat} (h : s.unheld c) (hb : t.buf = s.buf)
    (hl : t.lru = s.lru) : t.unheld c := by
  intro i hi hbd
  unfold Kernel.bound at hbd
  rw [hb]
  rw [hb] at hbd
  rw [hl] at hi
  exact h i hi hbd

theorem Readable.of_fields {s t : Kernel} {ip : Nat} (h : Readable s ip) (hv : t.view = s.view)
    (hdev : (t.inode ip).dev = (s.inode ip).dev) (hsz : (t.inode ip).size = (s.inode ip).size)
    (ha : (t.inode ip).addrs = (s.inode ip).addrs) : Readable t ip := by
  have hba : ∀ bn, t.baddr ip bn = s.baddr ip bn := by
    intro bn
    unfold Kernel.baddr
    rw [hv, ha]
  refine ⟨hdev.trans h.dev, by rw [hsz]; exact h.size_le, ?_, ?_⟩
  · rw [hsz, ha]; exact h.ind
  · intro bn hbn
    rw [hsz] at hbn
    rw [hba]
    exact h.map bn hbn

/-- Locking an inode that is already valid only sets the lock. -/
theorem ilock_valid {s : Kernel} {ip : Nat} (hr : 1 ≤ (s.inode ip).ref)
    (hl : (s.inode ip).locked = 0) (hv : (s.inode ip).valid ≠ 0) :
    ilock ip s = Res.ok () (s.setInode ip { s.inode ip with locked := 1 }) := by
  unfold ilock
  simp only [bind_apply, getK_apply]
  rw [if_neg (by omega), if_neg (by simp [hl])]
  simp only [bind_apply, modifyK_apply]
  rw [if_neg hv]
  rfl

/-- The function `readi` with no operation open: the bytes read, and the
cache at a clean point again. -/
theorem readi_calm {s : Kernel} {T : Set Nat} {m ip : Nat} (dst : Mem) (off n : Nat)
    (hi : FSInv s T m) (hfree : ∀ x, s.unheld x) (hr : Readable s ip)
    (ho : s.log.outstanding = 0) (hl : 2 ≤ s.lru.length)
    (hsz : off + n ≤ (s.inode ip).size) :
    ∃ s1, readi ip dst off n s =
        Res.ok ((n : Int), fun i => if i < n then s.fbyte ip (off + i) else dst i) s1 ∧
      FSInv s1 ∅ s1.lru.length ∧ (∀ x, s1.unheld x) ∧ s1.lru.length = s.lru.length ∧
      s1.view = s.view ∧ s1.ramdisk = s.ramdisk ∧ s1.log = s.log ∧ RestL s s1 := by
  have hU : U32 = 4294967296 := by unfold U32; norm_num
  have hM : MAXFILE * BSIZE = 4243456 := by decide
  have hmax := hr.size_le
  have hi0 : FSInv s ∅ s.lru.length := hi.reset_fs ho hfree
  have hc0 : Calm s ∅ s.lru.length := ⟨rfl, rfl, ho⟩
  obtain ⟨s1, T1, m1, e, st, hv, hd, hlog, hcalm⟩ :=
    readi_loop_spec ip off n n 1 0 dst s ∅ s.lru.length hi0 hfree hr hsz (Nat.zero_le _)
      (by omega) (fun _ => Or.inl ⟨hc0, hl⟩)
  obtain ⟨st0, hc1⟩ := Step.calm hi0 st hc0 hfree
  have hlen := lru_length_of_mem hi0.ci.ok st.inv.ci.ok st.mem
  refine ⟨s1, ?_, st0.inv, fun x => st.unheld x (hfree x), hlen, hv, hd, hlog, st.rest⟩
  unfold readi
  have h1 : ¬ (off > (s.inode ip).size ∨ (off + n) % U32 < off) := by
    rw [Nat.mod_eq_of_lt (by omega)]
    omega
  have h2 : ¬ ((off + n) % U32 > (s.inode ip).size) := by
    rw [Nat.mod_eq_of_lt (by omega)]
    omega
  simp only [bind_apply, getK_apply, h1, h2, ↓reduceIte, pure_apply]
  have e' : readi_loop ip n n 0 off dst s =
      Res.ok (fun i => if 0 ≤ i ∧ i < n then s.fbyte ip (off + i) else dst i) s1 := e
  rw [e', toInt32_small (by omega)]
  simp only [Nat.zero_le, true_and]

theorem toU32_small {n : Nat} (h : n < U32) : toU32 (n : Int) = n := by
  unfold toU32
  have : ((n : Int) % (U32 : Int)) = (n : Int) := by
    rw [← Int.natCast_mod, Nat.mod_eq_of_lt h]
  rw [this]
  exact Int.toNat_natCast n

/-- The function `fileread` on an open inode with no operation open: `n`
bytes from the offset of the open file, which advances by `n`. -/
theorem fileread_calm {s : Kernel} {T : Set Nat} {m f ip : Nat} (dst : Mem) (n : Nat)
    (hi : FSInv s T m) (hfree : ∀ x, s.unheld x) (ho : s.log.outstanding = 0)
    (hl : 2 ≤ s.lru.length) (hrd : (s.file f).readable ≠ 0) (hty : (s.file f).type = FD_INODE)
    (hip : (s.file f).ip = some ip) (hiref : 1 ≤ (s.inode ip).ref)
    (hunl : (s.inode ip).locked = 0) (hval : (s.inode ip).valid ≠ 0) (hr : Readable s ip)
    (hn : 0 < n) (hsz : (s.file f).off + n ≤ (s.inode ip).size) :
    ∃ s1, fileread f dst (n : Int) s =
        Res.ok ((n : Int), fun i => if i < n then s.fbyte ip ((s.file f).off + i) else dst i) s1 ∧
      FSInv s1 ∅ s1.lru.length ∧ (∀ x, s1.unheld x) ∧ s1.lru.length = s.lru.length ∧
      s1.view = s.view ∧ s1.ramdisk = s.ramdisk ∧ s1.log = s.log ∧ s1.inode = s.inode ∧
      s1.g_ofile = s.g_ofile ∧ s1.sb = s.sb ∧
      s1.file = Function.update s.file f { s.file f with off := (s.file f).off + n } := by
  have hU : U32 = 4294967296 := by unfold U32; norm_num
  have hM : MAXFILE * BSIZE = 4243456 := by decide
  have hmax := hr.size_le
  -- the state after `ilock`
  generalize hs0 : s.setInode ip { s.inode ip with locked := 1 } = s0
  have hlock : ilock ip s = Res.ok () s0 := by rw [← hs0]; exact ilock_valid hiref hunl hval
  have hb0 : s0.buf = s.buf := by rw [← hs0]; rfl
  have hl0 : s0.lru = s.lru := by rw [← hs0]; rfl
  have hd0 : s0.ramdisk = s.ramdisk := by rw [← hs0]; rfl
  have hg0 : s0.log = s.log := by rw [← hs0]; rfl
  have hsb0 : s0.sb = s.sb := by rw [← hs0]; rfl
  have hf0 : s0.file = s.file := by rw [← hs0]; rfl
  have hgo0 : s0.g_ofile = s.g_ofile := by rw [← hs0]; rfl
  have hv0 : s0.view = s.view := by rw [← hs0]; rfl
  have hin0 : s0.inode ip = { s.inode ip with locked := 1 } := by
    rw [← hs0]; simp [Kernel.setInode]
  have hi0 : FSInv s0 T m := hi.of_cache_eq hb0 hl0 hd0 hg0 hsb0
  have hfree0 : ∀ x, s0.unheld x := fun x => unheld_of_cache_eq (hfree x) hb0 hl0
  have hr0 : Readable s0 ip := hr.of_fields hv0 (by rw [hin0]) (by rw [hin0]) (by rw [hin0])
  obtain ⟨s1, e1, hi1, hfree1, hlen1, hv1, hd1, hlog1, rest1⟩ :=
    readi_calm dst (s.file f).off n hi0 hfree0 hr0 (by rw [hg0]; exact ho) (by rw [hl0]; exact hl)
      (by rw [hin0]; exact hsz)
  have hfb : ∀ p, s0.fbyte ip p = s.fbyte ip p := fun p =>
    fbyte_congr_addrs hv0 (by rw [hin0]) p
  simp only [hfb] at e1
  -- the state after the offset update and `iunlock`
  generalize hs2 : s1.setFile f { s1.file f with off := ((s1.file f).off + n) % U32 } = s2
  have hin2 : s2.inode = s0.inode := by rw [← hs2]; exact rest1.inode
  have hun : iunlock ip s2 = Res.ok () (s2.setInode ip { s2.inode ip with locked := 0 }) := by
    unfold iunlock
    rw [if_neg]
    rw [hin2, hin0]
    rintro (h | h)
    · simp at h
    · simp at h; omega
  refine ⟨s2.setInode ip { s2.inode ip with locked := 0 }, ?_, ?_, ?_, ?_, ?_, ?_, ?_, ?_, ?_, ?_, ?_⟩
  · unfold fileread
    have hpos : ((n : Nat) : Int) > 0 := by exact_mod_cast hn
    simp only [bind_apply, getK_apply, hrd, ↓reduceIte, hty, true_or, hip, hlock,
      toU32_small (show n < U32 by omega), e1, hpos, modifyK_apply, Int.toNat_natCast, hs2, hun,
      pure_apply]
  · subst hs2
    exact hi1.of_cache_eq rfl rfl rfl rfl rfl
  · subst hs2
    intro x
    exact unheld_of_cache_eq (hfree1 x) rfl rfl
  · subst hs2
    exact hlen1.trans (by rw [hl0])
  · subst hs2
    exact hv1.trans hv0
  · subst hs2
    exact hd1.trans hd0
  · subst hs2
    exact hlog1.trans hg0
  · show Function.update s2.inode ip _ = s.inode
    rw [hin2]
    funext j
    by_cases hj : j = ip
    · subst hj
      rw [Function.update_same, hin0]
      show ({ s.inode j with locked := 0 } : Inode) = s.inode j
      rw [← hunl]
    · rw [Function.update_noteq hj, ← hs0]
      simp [Kernel.setInode, Function.update_noteq hj]
  · subst hs2
    exact rest1.g_ofile.trans hgo0
  · subst hs2
    exact rest1.sb.trans hsb0
  · subst hs2
    show Function.update s1.file f _ = _
    rw [rest1.file, hf0, Nat.mod_eq_of_lt (by omega)]

/-- The function `sys_dup` on an open descriptor, with a free descriptor
left: the lowest free descriptor is bound to the same file-table entry,
whose reference count goes up by one. -/
theorem sys_dup_spec {s : Kernel} {fd : Int} {f : Nat} (hfd : argfd s fd = some f)
    (href : 1 ≤ (s.file f).ref) (hslot : ∃ k, k < NOFILE ∧ s.g_ofile k = none) :
    ∃ k, k < NOFILE ∧ s.g_ofile k = none ∧ (∀ j, j < k → s.g_ofile j ≠ none) ∧
      sys_dup fd s = Res.ok (k : Int)
        (Kernel.setFile { s with g_ofile := Function.update s.g_ofile k (some f) } f
          { s.file f with ref := (s.file f).ref + 1 }) := by
  cases hfind : (List.range NOFILE).find? (fun fd => (s.g_ofile fd).isNone) with
  | none =>
    exfalso
    obtain ⟨k, hk, hk1⟩ := hslot
    rw [List.find?_eq_none] at hfind
    have := hfind k (List.mem_range.2 hk)
    simp [hk1] at this
  | some k =>
    have hm := List.mem_range.1 (List.mem_of_find?_eq_some hfind)
    have hp := List.find?_some hfind
    have hk1 : s.g_ofile k = none := by simpa using hp
    refine ⟨k, hm, hk1, ?_, ?_⟩
    · intro j hj hjn
      rw [List.find?_range_eq_some] at hfind
      have := hfind.2.2 j hj
      simp [hjn] at this
    · unfold sys_dup
      have hfa : fdalloc f s =
          Res.ok (k : Int) { s with g_ofile := Function.update s.g_ofile k (some f) } := by
        unfold fdalloc
        rw [hfind]
      have hnn : ¬ ((k : Int) < 0) := by omega
      simp only [bind_apply, getK_apply, hfd, hfa, hnn, ↓reduceIte]
      unfold filedup
      rw [if_neg (by show ¬ (s.file f).ref < 1; omega)]
      rfl

theorem demo_open_inv : FSInv demo_open ∅ NBUF := by
  have hne : ∀ i, (demo_open.buf i).dev ≠ ROOTDEV := fun _ => show (0 : Nat) ≠ 1 by decide
  exact FSInv.of_unbound (s := demo_open) (List.nodup_reverse.2 (List.nodup_range NBUF))
    (fun i _ => ⟨hne i, rfl, rfl⟩) rfl rfl rfl rfl rfl

theorem demo_open_readable : Readable demo_open 0 := by
  refine ⟨rfl, by decide, fun h => absurd h (by decide), ?_⟩
  intro bn hbn
  have hsz : (demo_open.inode 0).size = 5000 := rfl
  rw [hsz] at hbn
  have : bn = 0 ∨ bn = 1 := by unfold BSIZE at hbn; omega
  rcases this with h | h <;> subst h <;> decide

theorem demo_open_open : OpenRead demo_open 0 0 0 :=
  ⟨rfl, by decide, rfl, rfl, by decide, by decide, rfl, by decide⟩

/-- The function `bmap` through its three cases. -/
theorem bmap_eq (ip bn : Nat) (alloc : Bool) :
    bmap ip bn alloc = (do
      let s ← getK
      if bn < NDIRECT then
        let addr := (s.inode ip).addrs bn
        if addr = 0 ∧ alloc then
          let a ← balloc (s.inode ip).dev
          setAddr ip bn a
          pure a
        else pure addr
      else
        if bn - NDIRECT ≥ NINDIRECT then kpanic PanicSite.bmap_out_of_range
        else
          if (s.inode ip).addrs NDIRECT = 0 then
            if alloc then do
              let a ← balloc (s.inode ip).dev
              setAddr ip NDIRECT a
              bmap_rest ip (bn - NDIRECT) alloc a
            else pure 0
          else bmap_rest ip (bn - NDIRECT) alloc ((s.inode ip).addrs NDIRECT)) := rfl

theorem rd32_wr32 (d : Mem) (off v : Nat) (hv : v < U32) : rd32 (wr32 d off v) off = v := by
  have hU : U32 = 4294967296 := by unfold U32; norm_num
  have e1 : wr32 d off v off = v % 256 := by simp [wr32]
  have e2 : wr32 d off v (off + 1) = v / 256 % 256 := by simp [wr32]
  have e3 : wr32 d off v (off + 2) = v / 65536 % 256 := by simp [wr32]
  have e4 : wr32 d off v (off + 3) = v / 16777216 % 256 := by simp [wr32]
  unfold rd32
  rw [e1, e2, e3, e4]
  omega

theorem rd32_zero (d : Mem) (k : Nat) (hk : 4 * k + 3 < BSIZE) :
    rd32 (memset_local d 0 0 BSIZE) (4 * k) = 0 := by
  unfold rd32 memset_local
  have h0 : (0 ≤ 4 * k ∧ 4 * k < 0 + BSIZE) := ⟨Nat.zero_le _, by omega⟩
  have h1 : (0 ≤ 4 * k + 1 ∧ 4 * k + 1 < 0 + BSIZE) := ⟨Nat.zero_le _, by omega⟩
  have h2 : (0 ≤ 4 * k + 2 ∧ 4 * k + 2 < 0 + BSIZE) := ⟨Nat.zero_le _, by omega⟩
  have h3 : (0 ≤ 4 * k + 3 ∧ 4 * k + 3 < 0 + BSIZE) := ⟨Nat.zero_le _, by omega⟩
  rw [if_pos h0, if_pos h1, if_pos h2, if_pos h3]

/-- Entry `k` of the indirect block `ind` when nothing is allocated: the entry
is not zero, or `alloc` is not set. -/
theorem bmap_rest_read {s : Kernel} {T : Set Nat} {m ip ind k : Nat} {alloc : Bool}
    (hi : FSInv s T m) (hdev : (s.inode ip).dev = ROOTDEV) (hlo : FSSTART ≤ ind)
    (hc : ind < FSSIZE) (hu : s.unheld ind) (hbud : ind ∈ T ∨ 1 ≤ m)
    (hnz : rd32 (s.view ind) (4 * k) ≠ 0 ∨ alloc = false) :
    ∃ s1 T1 m1, bmap_rest ip k alloc ind s = Res.ok (rd32 (s.view ind) (4 * k)) s1 ∧
      Step s T m s1 T1 m1 1 0 ∧ s1.view = s.view ∧ s1.ramdisk = s.ramdisk ∧ s1.log = s.log ∧
      ind ∈ T1 ∧ (ind ∈ T → T1 = T ∧ m1 = m) := by
  obtain ⟨h, s1, e1, hd1, hr1, s2, T2, m2, e2, st, hT2, htight, hv, hdisk, hlog⟩ :=
    read_block hi hlo hc hu hbud
  refine ⟨s2, T2, m2, ?_, st, hv, hdisk, hlog, hT2, htight⟩
  have hcond : ¬ (rd32 (s.view ind) (4 * k) = 0 ∧ alloc = true) := by
    rintro ⟨a, b⟩
    rcases hnz with h | h
    · exact h a
    · rw [h] at b; cases b
  unfold bmap_rest
  simp only [bind_apply, getK_apply, hdev, e1, hd1, hcond, ↓reduceIte, e2, pure_apply]

/-- Entry `k` of the indirect block `ind` when it is zero and `alloc` is set:
the next free block `a` is allocated and stored in the entry. The cost is one
unit (two buffers, one log entry) for `a`, and one each for the bitmap block
and for `ind` unless they are warm. -/
theorem bmap_rest_alloc {s : Kernel} {T : Set Nat} {m ip ind k a pb pi : Nat}
    (hi : FSInv s T m) (hfree : ∀ x, s.unheld x) (hdev : (s.inode ip).dev = ROOTDEV)
    (hlo : DATASTART ≤ ind) (hc : ind < FSSIZE)
    (hset : bit_clear (s.view BMAPBLOCK) ind = false)
    (hz : rd32 (s.view ind) (4 * k) = 0) (hff : FirstFree (s.view BMAPBLOCK) a)
    (hpb : s.warm T BMAPBLOCK ∨ 1 ≤ pb) (hpi : s.warm T ind ∨ 1 ≤ pi)
    (hm : 2 * (pb + pi + 1) ≤ m) (hn : s.log.lh.n + (pb + pi + 1) + 1 ≤ LOGSIZE) :
    ∃ s1 T1 m1, bmap_rest ip k true ind s = Res.ok a s1 ∧
      Step s T m s1 T1 m1 (2 * (pb + pi + 1)) (pb + pi + 1) ∧ (∀ x, s1.unheld x) ∧
      s1.warm T1 BMAPBLOCK ∧ s1.warm T1 a ∧ s1.warm T1 ind ∧
      s1.view BMAPBLOCK = set_bit (s.view BMAPBLOCK) a ∧
      s1.view a = memset_local (s.view a) 0 0 BSIZE ∧
      s1.view ind = wr32 (s.view ind) (4 * k) a ∧
      (∀ x, FSSTART ≤ x → x ≠ BMAPBLOCK → x ≠ a → x ≠ ind → s1.view x = s.view x) := by
  have hU : U32 = 4294967296 := by unfold U32; norm_num
  have hlo' : FSSTART ≤ ind := le_trans (by decide) hlo
  have hneB : BMAPBLOCK ≠ ind := by
    intro e; rw [← e] at hlo; exact absurd hlo (by decide)
  have hnea : a ≠ ind := by
    intro e
    have := hff.clear
    rw [e, hset] at this
    cases this
  have haB : a ≠ BMAPBLOCK := by
    intro e; have := hff.lo; rw [e] at this; exact absurd this (by decide)
  have hloa : FSSTART ≤ a := le_trans (by decide) hff.lo
  have hb1 : ind ∈ T ∨ 1 ≤ m := by
    rcases hpi with h | h
    · exact Or.inl h.1
    · exact Or.inr (by omega)
  obtain ⟨h, s1, e1, p⟩ := fs_bread hi hlo' hc (hfree ind) hb1
  have hlog1 : s1.log = s.log := p.rest.log
  obtain ⟨T1, m1, hi1, hsub1, hbud1, htight1, hcT1⟩ : ∃ T1 m1, FSInv s1 T1 m1 ∧ T ⊆ T1 ∧
      m ≤ m1 + 1 ∧ (ind ∈ T → T1 = T ∧ m1 = m) ∧ ind ∈ T1 := by
    by_cases hT : ind ∈ T
    · exact ⟨T, m, p.inv_in hT, le_refl T, by omega, fun _ => ⟨rfl, rfl⟩, hT⟩
    · exact ⟨insert ind T, m - 1, p.inv, Set.subset_insert _ _, by omega,
        fun w => absurd w hT, Set.mem_insert _ _⟩
  have hwarm1 : ∀ x, s.warm T x → s1.warm T1 x := by
    intro x w
    refine ⟨hsub1 w.1, ?_⟩
    rcases w.2 with o | l
    · exact Or.inl (by rw [hlog1]; exact o)
    · exact Or.inr ((logged_congr hlog1 x).2 l)
  -- the allocation, with the indirect block pinned
  have hbudB : (s1.warm T1 BMAPBLOCK ∧ 2 ≤ m1 ∧ s1.log.lh.n + 2 ≤ LOGSIZE) ∨
      (4 ≤ m1 ∧ s1.log.lh.n + 3 ≤ LOGSIZE) := by
    rw [hlog1]
    rcases hpb with w | w
    · left
      refine ⟨hwarm1 _ w, ?_, by omega⟩
      rcases hpi with w2 | w2
      · rw [(htight1 w2.1).2]; omega
      · omega
    · right
      refine ⟨?_, by omega⟩
      by_cases hT : ind ∈ T
      · rw [(htight1 hT).2]; omega
      · have : 1 ≤ pi := by
          rcases hpi with w2 | w2
          · exact absurd w2.1 hT
          · exact w2
        omega
  obtain ⟨s2, T2, m2, e2, st2, htight2, hwB, hwa, hvB, hva, hvo⟩ :=
    balloc_spec hi1 (p.unheld hneB (hfree _)) (p.unheld hnea (hfree _)) hff.hi hff.lo
      (by rw [p.view]; exact hff.clear) (by rw [p.view]; exact hff.least) hbudB
  have hh2 : s2.held h ind := (st2.heldEq h ind p.held).1
  have hdata2 : (s2.buf h).data = s.view ind := (st2.heldEq h ind p.held).2.trans p.data
  -- the store into the entry and the write
  obtain ⟨hi3, hh3, hd3, hv3, -⟩ := fs_store st2.inv hh2 hlo' (wr32 (s.view ind) (4 * k) a)
  have hb3 : (s2.store h (wr32 (s.view ind) (4 * k) a)).log.outstanding = 0 ∨
      (s2.store h (wr32 (s.view ind) (4 * k) a)).logged ind ∨
      ((s2.store h (wr32 (s.view ind) (4 * k) a)).log.lh.n + 2 ≤ LOGSIZE ∧ 1 ≤ m2) := by
    rcases hpi with w | w
    · have w2 := st2.warm _ (hwarm1 _ w)
      rcases w2.2 with o | l
      · exact Or.inl o
      · exact Or.inr (Or.inl l)
    · right; right
      have hn2 := st2.n_le
      have hm2 := st2.bud
      rw [hlog1] at hn2
      constructor
      · show s2.log.lh.n + 2 ≤ LOGSIZE
        rcases hpb with w2 | w2
        · have := (htight2 (hwarm1 _ w2)).2
          rw [hlog1] at this
          omega
        · omega
      · rcases hpb with w2 | w2
        · have := (htight2 (hwarm1 _ w2)).1
          omega
        · omega
  obtain ⟨s3, T3, m3, e3, q⟩ := fs_bwrite hi3 hh3 hlo' hb3
  have hh4 : s3.held h ind := (q.heldEq h ind hh3).1
  have hdata4 : (s3.buf h).data = wr32 (s.view ind) (4 * k) a :=
    (q.heldEq h ind hh3).2.trans hd3
  obtain ⟨e4, hi4, hv4, _, _, _, hmem4⟩ := fs_brelse q.inv hh4 q.synced
  have hout3 : s3.log.outstanding = s.log.outstanding := by
    rw [q.rest.outstanding]
    show s2.log.outstanding = _
    rw [st2.rest.outstanding, hlog1]
  have hwarm3 : ∀ x, s2.warm T2 x → (s3.release h).warm T3 x := by
    intro x w
    refine ⟨q.sub w.1, ?_⟩
    rcases w.2 with o | l
    · exact Or.inl (by show s3.log.outstanding = 0; rw [q.rest.outstanding]; exact o)
    · exact Or.inr ((logged_congr (s := s3) (t := s3.release h) rfl x).2 (q.logged_mono x l))
  have hunheld : ∀ x, (s3.release h).unheld x := by
    intro x
    by_cases e : x = ind
    · subst e; exact unheld_release hh4 q.inv.ci.ok (Or.inl rfl)
    · exact unheld_release hh4 q.inv.ci.ok
        (Or.inr (q.unheld x (unheld_store _ (st2.unheld x (p.unheld e (hfree x))))))
  have hview : ∀ x, FSSTART ≤ x →
      (s3.release h).view x = Function.update s2.view ind (wr32 (s.view ind) (4 * k) a) x := by
    intro x hx
    rw [hv4, q.view x hx, hv3]
  refine ⟨s3.release h, T3, m3, ?_, ⟨hi4, (hsub1.trans st2.sub).trans q.sub, ?_, ?_, ?_, ?_, ?_, ?_,
    ?_⟩, hunheld, hwarm3 _ hwB, hwarm3 _ hwa, ?_, ?_, ?_, ?_, ?_⟩
  · unfold bmap_rest
    have hdev1 : (s1.inode ip).dev = ROOTDEV := by rw [p.rest.inode]; exact hdev
    have hz1 : rd32 (s1.buf h).data (4 * k) = 0 := by rw [p.data]; exact hz
    simp only [bind_apply, getK_apply, hdev, e1, hz1, and_self, ↓reduceIte, hdev1, e2,
      setData_ok, hdata2, e3, hdata4, e4, pure_apply]
    rw [rd32_wr32 _ _ _ (by have := hff.hi; unfold FSSIZE at this; omega)]
  · -- buffers
    have b2 := st2.bud
    have b3 := q.bud
    rcases hpi with w | w
    · have t1 := (htight1 w.1).2
      have w2 := st2.warm _ (hwarm1 _ w)
      have t3 := (q.tight (by
        rcases w2.2 with o | l
        · exact Or.inl o
        · exact Or.inr l)).2.1
      rcases hpb with wb | wb
      · have := (htight2 (hwarm1 _ wb)).1
        omega
      · omega
    · rcases hpb with wb | wb
      · have := (htight2 (hwarm1 _ wb)).1
        omega
      · omega
  · -- log entries
    have n2 := st2.n_le
    have n3 := q.n_le
    rw [hlog1] at n2
    have n3' : s3.log.lh.n ≤ s2.log.lh.n + 1 := n3
    show s3.log.lh.n ≤ _
    rcases hpi with w | w
    · have w2 := st2.warm _ (hwarm1 _ w)
      have t3 := (q.tight (by
        rcases w2.2 with o | l
        · exact Or.inl o
        · exact Or.inr l)).2.2
      have t3' : s3.log.lh.n = s2.log.lh.n := by rw [t3]; rfl
      rcases hpb with wb | wb
      · have := (htight2 (hwarm1 _ wb)).2
        rw [hlog1] at this
        omega
      · omega
    · rcases hpb with wb | wb
      · have := (htight2 (hwarm1 _ wb)).2
        rw [hlog1] at this
        omega
      · omega
  · intro x w
    exact hwarm3 x (st2.warm x (hwarm1 x w))
  · intro j b hj
    exact absurd (hfree b j hj.1 hj.2.1) (by rw [hj.2.2]; simp)
  · intro x _
    exact hunheld x
  · exact p.rest.toRestL.trans_restL (st2.rest.trans_restL
      ((⟨rfl, rfl, rfl, rfl, rfl, rfl⟩ : RestL s2 (s2.store h _)).trans_restL
        (q.rest.trans_restL (⟨rfl, rfl, rfl, rfl, rfl, rfl⟩ : RestL s3 (s3.release h)))))
  · intro j
    exact (hmem4 j).trans ((q.mem j).trans ((st2.mem j).trans (by rw [p.lru])))
  · refine ⟨q.sub (st2.sub hcT1), ?_⟩
    by_cases o : s.log.outstanding = 0
    · exact Or.inl (by show s3.log.outstanding = 0; rw [hout3]; exact o)
    · refine Or.inr ((logged_congr (s := s3) (t := s3.release h) rfl ind).2 (q.logged ?_))
      show s2.log.outstanding ≠ 0
      rw [st2.rest.outstanding, hlog1]
      exact o
  · rw [hview _ (by decide), Function.update_noteq hneB, hvB, p.view]
  · rw [hview _ hloa, Function.update_noteq hnea, hva, p.view]
  · rw [hview _ hlo', Function.update_same]
  · intro x hx h1 h2 h3
    rw [hview _ hx, Function.update_noteq h3, hvo x hx h1 h2, p.view]

theorem demo_empty_inv : FSInv demo_empty ∅ NBUF := by
  have hne : ∀ i, (demo_empty.buf i).dev ≠ ROOTDEV := fun _ => show (0 : Nat) ≠ 1 by decide
  exact FSInv.of_unbound (s := demo_empty) (List.nodup_reverse.2 (List.nodup_range NBUF))
    (fun i _ => ⟨hne i, rfl, rfl⟩) rfl rfl rfl rfl rfl

theorem demo_empty_unheld (c : Nat) : demo_empty.unheld c := fun _ _ _ => rfl

set_option maxRecDepth 100000 in
theorem demo_empty_first_free : FirstFree (demo_empty.view BMAPBLOCK) 37 := by
  have hv : demo_empty.view BMAPBLOCK = mkfs_disk BMAPBLOCK := cold_view mkfs_disk 1 BMAPBLOCK
  rw [hv]
  exact ⟨by decide, by decide, by decide!, by decide!⟩

/-- `bmap` with allocation on an unmapped direct block, or on the pointer to
the indirect block: the next free block is allocated and stored in
`addrs[i]`. -/
theorem balloc_into_addr {s : Kernel} {T : Set Nat} {m ip i a pb : Nat}
    (hi : FSInv s T m) (hfree : ∀ x, s.unheld x) (hdev : (s.inode ip).dev = ROOTDEV)
    (hff : FirstFree (s.view BMAPBLOCK) a) (hpb : s.warm T BMAPBLOCK ∨ 1 ≤ pb)
    (hm : 2 * (pb + 1) ≤ m) (hn : s.log.lh.n + (pb + 1) + 1 ≤ LOGSIZE) :
    ∃ s1 T1 m1, (balloc (s.inode ip).dev >>= fun a => setAddr ip i a >>= fun _ => pure a) s =
        Res.ok a (s1.setInode ip { s1.inode ip with
          addrs := Function.update (s1.inode ip).addrs i a }) ∧
      Step s T m s1 T1 m1 (2 * (pb + 1)) (pb + 1) ∧ (∀ x, s1.unheld x) ∧
      s1.warm T1 BMAPBLOCK ∧ s1.warm T1 a ∧
      s1.view BMAPBLOCK = set_bit (s.view BMAPBLOCK) a ∧
      s1.view a = memset_local (s.view a) 0 0 BSIZE ∧
      (∀ x, FSSTART ≤ x → x ≠ BMAPBLOCK → x ≠ a → s1.view x = s.view x) := by
  have hbud : (s.warm T BMAPBLOCK ∧ 2 ≤ m ∧ s.log.lh.n + 2 ≤ LOGSIZE) ∨
      (4 ≤ m ∧ s.log.lh.n + 3 ≤ LOGSIZE) := by
    rcases hpb with w | w
    · exact Or.inl ⟨w, by omega, by omega⟩
    · exact Or.inr ⟨by omega, by omega⟩
  obtain ⟨s1, T1, m1, e1, st, htight, hwB, hwa, hvB, hva, hvo⟩ :=
    balloc_spec hi (hfree _) (hfree _) hff.hi hff.lo hff.clear hff.least hbud
  refine ⟨s1, T1, m1, ?_, ⟨st.inv, st.sub, ?_, ?_, st.warm, st.heldEq, st.unheld, st.rest,
    st.mem⟩, fun x => st.unheld x (hfree x), hwB, hwa, hvB, hva, hvo⟩
  · simp only [bind_apply, hdev, e1, setAddr, modifyK_apply, pure_apply]
  · rcases hpb with w | w
    · have := (htight w).1; omega
    · have := st.bud; omega
  · rcases hpb with w | w
    · have := (htight w).2; omega
    · have := st.n_le; omega

/-- `bmap` with allocation when the pointer to the indirect block is zero:
the indirect block `a` is allocated and stored in `addrs[NDIRECT]`, then the
block `a2` for entry `k`. -/
theorem bmap_new_indirect {s : Kernel} {T : Set Nat} {m ip k a a2 pb : Nat}
    (hi : FSInv s T m) (hfree : ∀ x, s.unheld x) (hdev : (s.inode ip).dev = ROOTDEV)
    (hk : k < NINDIRECT) (hff : FirstFree (s.view BMAPBLOCK) a)
    (hff2 : FirstFree (set_bit (s.view BMAPBLOCK) a) a2)
    (hpb : s.warm T BMAPBLOCK ∨ 1 ≤ pb)
    (hm : 2 * (pb + 2) ≤ m) (hn : s.log.lh.n + (pb + 2) + 1 ≤ LOGSIZE) :
    ∃ s1 T1 m1, (balloc (s.inode ip).dev >>= fun a => setAddr ip NDIRECT a >>= fun _ =>
          bmap_rest ip k true a) s = Res.ok a2 s1 ∧
      FSInv s1 T1 m1 ∧ T ⊆ T1 ∧ m ≤ m1 + 2 * (pb + 2) ∧ s1.log.lh.n ≤ s.log.lh.n + (pb + 2) ∧
      (∀ x, s1.unheld x) ∧
      s1.inode = Function.update s.inode ip { s.inode ip with
        addrs := Function.update (s.inode ip).addrs NDIRECT a } ∧
      s1.sb = s.sb ∧ s1.file = s.file ∧ s1.g_ofile = s.g_ofile ∧
      s1.log.outstanding = s.log.outstanding ∧ (∀ j, j ∈ s1.lru ↔ j ∈ s.lru) ∧
      (∀ x, s.warm T x → s1.warm T1 x) ∧
      s1.warm T1 BMAPBLOCK ∧ s1.warm T1 a ∧ s1.warm T1 a2 ∧
      s1.view BMAPBLOCK = set_bit (set_bit (s.view BMAPBLOCK) a) a2 ∧
      s1.view a = wr32 (memset_local (s.view a) 0 0 BSIZE) (4 * k) a2 ∧
      s1.view a2 = memset_local (s.view a2) 0 0 BSIZE ∧
      (∀ x, FSSTART ≤ x → x ≠ BMAPBLOCK → x ≠ a → x ≠ a2 → s1.view x = s.view x) := by
  have hB : BSIZE = 4096 := rfl
  have hNI : NINDIRECT = 1024 := rfl
  obtain ⟨s1, T1, m1, e1, st1, hu1, hwB1, hwa1, hvB1, hva1, hvo1⟩ :=
    balloc_into_addr (i := NDIRECT) hi hfree hdev hff hpb (by omega) (by omega)
  generalize hs1 : s1.setInode ip { s1.inode ip with
    addrs := Function.update (s1.inode ip).addrs NDIRECT a } = t at e1
  have hview : t.view = s1.view := by rw [← hs1]; rfl
  have hlog : t.log = s1.log := by rw [← hs1]; rfl
  have hit : FSInv t T1 m1 := by
    rw [← hs1]; exact st1.inv.of_cache_eq rfl rfl rfl rfl rfl
  have hut : ∀ x, t.unheld x := fun x => by
    rw [← hs1]; exact unheld_of_cache_eq (hu1 x) rfl rfl
  have hwt : ∀ x, s1.warm T1 x → t.warm T1 x := by
    intro x w
    rw [← hs1]; exact w
  have hdevt : (t.inode ip).dev = ROOTDEV := by
    rw [← hs1]
    simp only [Kernel.setInode, Function.update_same]
    rw [st1.rest.inode]; exact hdev
  have hne : a2 ≠ a := by
    intro e
    have := hff2.clear
    rw [bit_clear_set_bit, e] at this
    simp at this
  have hn1 := st1.n_le
  have hm1 := st1.bud
  obtain ⟨s2, T2, m2, e2, st2, hu2, hwB2, hwa2, hwi2, hvB2, hva2, hvi2, hvo2⟩ :=
    @bmap_rest_alloc t T1 m1 ip a k a2 0 0 hit hut hdevt
      hff.lo hff.hi
      (by rw [hview, hvB1, bit_clear_set_bit]; simp)
      (by rw [hview, hva1]; exact rd32_zero _ _ (by omega))
      (by rw [hview, hvB1]; exact hff2)
      (Or.inl (hwt _ hwB1)) (Or.inl (hwt _ hwa1)) (by omega) (by rw [hlog]; omega)
  have hin : t.inode = Function.update s.inode ip { s.inode ip with
      addrs := Function.update (s.inode ip).addrs NDIRECT a } := by
    rw [← hs1]
    show Function.update s1.inode ip _ = _
    rw [st1.rest.inode]
  refine ⟨s2, T2, m2, ?_, st2.inv, st1.sub.trans st2.sub, ?_, ?_, hu2, ?_, ?_, ?_, ?_, ?_, ?_, ?_,
    hwB2, hwi2, hwa2, ?_, ?_, ?_, ?_⟩
  · simp only [bind_apply] at e1 ⊢
    revert e1
    cases hb : balloc (s.inode ip).dev s with
    | fail e => intro h; cases h
    | ok x sx =>
      simp only [setAddr, modifyK_apply, pure_apply]
      intro h
      injection h with h1 h2
      subst h1
      rw [h2]
      exact e2
  · have := st2.bud; omega
  · have := st2.n_le; rw [hlog] at this; omega
  · rw [st2.rest.inode, hin]
  · rw [st2.rest.sb]; show t.sb = _; rw [← hs1]; exact st1.rest.sb
  · rw [st2.rest.file]; show t.file = _; rw [← hs1]; exact st1.rest.file
  · rw [st2.rest.g_ofile]; show t.g_ofile = _; rw [← hs1]; exact st1.rest.g_ofile
  · rw [st2.rest.outstanding, hlog]; exact st1.rest.outstanding
  · intro j
    refine (st2.mem j).trans ?_
    rw [← hs1]
    exact st1.mem j
  · intro x w
    exact st2.warm x (hwt x (st1.warm x w))
  · rw [hvB2, hview, hvB1]
  · rw [hvi2, hview, hva1]
  · rw [hva2, hview, hvo1 a2 (le_trans (by decide) hff2.lo)
      (by intro e; have := hff2.lo; rw [e] at this; exact absurd this (by decide)) hne]
  · intro x hx h1 h2 h3
    rw [hvo2 x hx h1 h3 h2, hview, hvo1 x hx h1 h2]

/-- The bitmap loop of `virtio_disk_init` leaves the bytes beyond the marked
bits alone. -/
theorem mkfs_bits_far (ds : Nat) (hds : ds ≤ BPB) : ∀ (fuel bno : Nat) (bits : Mem) (j : Nat),
    ds ≤ 8 * j → mkfs_bits ds fuel bno bits j = bits j := by
  intro fuel
  induction fuel with
  | zero => intro bno bits j _; rfl
  | succ fuel ih =>
    intro bno bits j hj
    unfold mkfs_bits
    split
    · rename_i hlt
      dsimp only
      rw [ih _ _ j hj, Function.update_noteq]
      rw [Nat.mod_eq_of_lt (lt_of_lt_of_le hlt hds)]
      omega
    · rfl

theorem mkfs_disk_eq : mkfs_disk =
    Function.update (Function.update (fun _ => zeroMem) 1 (sb_image mkfs_sb zeroMem))
      mkfs_sb.bmapstart
      (mkfs_bits (mkfs_sb.bmapstart + (mkfs_sb.size + BPB - 1) / BPB)
        (mkfs_sb.bmapstart + (mkfs_sb.size + BPB - 1) / BPB) 0
        (Function.update (fun _ => zeroMem) 1 (sb_image mkfs_sb zeroMem) mkfs_sb.bmapstart)) := rfl

theorem bget_def (dev blockno : Nat) (s : Kernel) :
    bget dev blockno s =
      match s.lru.find? (s.labelled dev blockno) with
      | some b =>
        (do acquiresleep_buf b; pure b : K Nat)
          (s.setBuf b { s.buf b with refcnt := (s.buf b).refcnt + 1 })
      | none =>
        match s.lru.reverse.find? (fun i => (s.buf i).refcnt == 0) with
        | some b =>
          (do acquiresleep_buf b; pure b : K Nat) (s.setBuf b
            { s.buf b with dev := dev, blockno := blockno, valid := 0, disk := 0, refcnt := 1 })
        | none => Res.fail (Fault.panic PanicSite.bget_no_free_buffer) := rfl

/-- The effect of a returning `bget`. -/
theorem bget_effect {dev blockno b : Nat} {s s1 : Kernel} (h : bget dev blockno s = Res.ok b s1) :
    s1.lru = s.lru ∧ (∀ j, j ≠ b → s1.buf j = s.buf j) ∧ b ∈ s.lru ∧ (s.buf b).locked = 0 ∧
      (s1.buf b).locked = 1 ∧ (s1.buf b).dev = dev ∧ (s1.buf b).blockno = blockno ∧
      ((s.lru.find? (s.labelled dev blockno) = some b ∧
          (s1.buf b).refcnt = (s.buf b).refcnt + 1) ∨
        (s.lru.find? (s.labelled dev blockno) = none ∧
          s.lru.reverse.find? (fun i => (s.buf i).refcnt == 0) = some b ∧
          (s1.buf b).refcnt = 1)) := by
  rw [bget_def] at h
  cases hf : s.lru.find? (s.labelled dev blockno) with
  | some i =>
    rw [hf] at h
    have hm := List.mem_of_find?_eq_some hf
    have hp := List.find?_some hf
    simp only [Kernel.labelled, Bool.and_eq_true, beq_iff_eq] at hp
    simp only [bind_apply, acquiresleep_buf, setBuf_buf, if_true] at h
    by_cases hl : (s.buf i).locked = 0
    · simp only [hl, ne_eq, not_true_eq_false, ↓reduceIte, pure_apply, setBuf_setBuf] at h
      injection h with h1 h2
      subst h1; subst h2
      exact ⟨rfl, fun j hj => by simp [hj], hm, hl, by simp, by simp [hp.1], by simp [hp.2],
        Or.inl ⟨rfl, by simp⟩⟩
    · simp only [hl, ne_eq, not_false_eq_true, ↓reduceIte] at h
      cases h
  | none =>
    rw [hf] at h
    cases hv : s.lru.reverse.find? (fun i => (s.buf i).refcnt == 0) with
    | some i =>
      rw [hv] at h
      have hm := List.mem_reverse.1 (List.mem_of_find?_eq_some hv)
      simp only [bind_apply, acquiresleep_buf, setBuf_buf, if_true] at h
      by_cases hl : (s.buf i).locked = 0
      · simp only [hl, ne_eq, not_true_eq_false, ↓reduceIte, pure_apply, setBuf_setBuf] at h
        injection h with h1 h2
        subst h1; subst h2
        exact ⟨rfl, fun j hj => by simp [hj], hm, hl, by simp, by simp, by simp,
          Or.inr ⟨rfl, rfl, by simp⟩⟩
      · simp only [hl, ne_eq, not_false_eq_true, ↓reduceIte] at h
        cases h
    | none =>
      rw [hv] at h
      cases h

/-- A returning `bread` is a returning `bget` followed by a change of the
payload and the `valid` flag of the buffer. -/
theorem bread_of_bget {dev blockno b : Nat} {s s1 : Kernel}
    (h : bread dev blockno s = Res.ok b s1) :
    ∃ s2, bget dev blockno s = Res.ok b s2 ∧ s1.lru = s2.lru ∧
      (∀ j, j ≠ b → s1.buf j = s2.buf j) ∧ (s1.buf b).locked = (s2.buf b).locked ∧
      (s1.buf b).dev = (s2.buf b).dev ∧ (s1.buf b).blockno = (s2.buf b).blockno ∧
      (s1.buf b).refcnt = (s2.buf b).refcnt := by
  unfold bread at h
  rw [bind_apply] at h
  cases hb : bget dev blockno s with
  | fail e => rw [hb] at h; cases h
  | ok i s2 =>
    rw [hb] at h
    simp only [bind_apply, getK_apply] at h
    by_cases hv : (s2.buf i).valid = 0
    · rw [if_pos hv] at h
      simp only [bind_apply, virtio_disk_rw] at h
      by_cases hr : (s2.buf i).blockno ≥ FSSIZE
      · rw [if_pos hr] at h
        cases h
      · rw [if_neg hr] at h
        simp only [Bool.false_eq_true, ↓reduceIte, modifyK_apply, pure_apply] at h
        injection h with h1 h2
        subst h1; subst h2
        exact ⟨s2, rfl, rfl, fun j hj => by simp [hj], by simp, by simp, by simp, by simp⟩
    · rw [if_neg hv] at h
      injection h with h1 h2
      subst h1; subst h2
      exact ⟨s2, rfl, rfl, fun j _ => rfl, rfl, rfl, rfl, rfl⟩

/-- The effect of a returning `bread` on the fields that the cache discipline
is about. -/
theorem bread_effect {dev blockno b : Nat} {s s1 : Kernel} (h : bread dev blockno s = Res.ok b s1) :
    s1.lru = s.lru ∧ (∀ j, j ≠ b → s1.buf j = s.buf j) ∧ b ∈ s.lru ∧ (s.buf b).locked = 0 ∧
      (s1.buf b).locked = 1 ∧ (s1.buf b).dev = dev ∧ (s1.buf b).blockno = blockno ∧
      ((s.lru.find? (s.labelled dev blockno) = some b ∧
          (s1.buf b).refcnt = (s.buf b).refcnt + 1) ∨
        (s.lru.find? (s.labelled dev blockno) = none ∧
          s.lru.reverse.find? (fun i => (s.buf i).refcnt == 0) = some b ∧
          (s1.buf b).refcnt = 1)) := by
  obtain ⟨s2, hb, e1, e2, e3, e4, e5, e6⟩ := bread_of_bget h
  obtain ⟨f1, f2, f3, f4, f5, f6, f7, f8⟩ := bget_effect hb
  refine ⟨e1.trans f1, fun j hj => (e2 j hj).trans (f2 j hj), f3, f4, e3.trans f5, e4.trans f6,
    e5.trans f7, ?_⟩
  rw [e6]
  exact f8

theorem find_erase_of_not {p : Nat → Bool} {b : Nat} (hb : p b = false) :
    ∀ l : List Nat, (l.erase b).find? p = l.find? p := by
  intro l
  induction l with
  | nil => rfl
  | cons a as ih =>
    by_cases hab : a = b
    · subst hab
      rw [List.erase_cons_head, List.find?_cons_of_neg _ (by simp [hb])]
    · rw [List.erase_cons_tail (by simpa using hab)]
      by_cases hp : p a = true
      · rw [List.find?_cons_of_pos _ hp, List.find?_cons_of_pos _ hp]
      · rw [List.find?_cons_of_neg _ hp, List.find?_cons_of_neg _ hp, ih]

theorem find_congr_mem {p q : Nat → Bool} : ∀ l : List Nat, (∀ a ∈ l, p a = q a) →
    l.find? p = l.find? q := by
  intro l
  induction l with
  | nil => intro _; rfl
  | cons a as ih =>
    intro h
    have ha := h a (List.mem_cons_self _ _)
    have hr := ih (fun x hx => h x (List.mem_cons_of_mem _ hx))
    by_cases hp : p a = true
    · rw [List.find?_cons_of_pos _ hp, List.find?_cons_of_pos _ (ha ▸ hp)]
    · rw [List.find?_cons_of_neg _ hp, List.find?_cons_of_neg _ (ha ▸ hp), hr]

/-- In a list sorted by release time, the last element taken by a test is
older than every other element that passes the test. -/
theorem oldest_of_reverse_find {R : Nat → Nat → Prop} {p : Nat → Bool} {l : List Nat} {v : Nat}
    (hs : l.Pairwise R) (hv : l.reverse.find? p = some v) :
    ∀ c ∈ l, p c = true → c ≠ v → R c v := by
  rw [List.find?_eq_some] at hv
  obtain ⟨_, as, bs, hl, hno⟩ := hv
  have hl2 : l = bs.reverse ++ v :: as.reverse := by
    have := congrArg List.reverse hl
    simpa using this
  intro c hc hp hcv
  rw [hl2] at hc hs
  rw [List.pairwise_append] at hs
  rcases List.mem_append.1 hc with h | h
  · exact hs.2.2 c h v (List.mem_cons_self _ _)
  · rcases List.mem_cons.1 h with h | h
    · exact absurd h hcv
    · have := hno c (List.mem_reverse.1 h)
      rw [hp] at this
      cases this

theorem binit_ok (s0 : Kernel) : ∃ s, binit s0 = Res.ok () s ∧ s.lru = (List.range NBUF).reverse ∧
    ∀ i, i < NBUF → (s.buf i).refcnt = 0 ∧ (s.buf i).locked = 0 ∧ (s.buf i).dev = 0 ∧
      (s.buf i).blockno = 0 := by
  refine ⟨_, rfl, rfl, ?_⟩
  intro i hi
  simp [hi]

theorem bio_init_inv (s0 : Kernel) : BioInv (bio_init s0) := by
  obtain ⟨s, e, hl, hb⟩ := binit_ok s0
  have hg : bio_init s0 = { s := s, stamp := fun _ => none, now := 0 } := by
    unfold bio_init; rw [e]
  rw [hg]
  have hlt : ∀ b ∈ s.lru, b < NBUF := by
    intro b hm
    rw [hl] at hm
    exact List.mem_range.1 (List.mem_reverse.1 hm)
  refine ⟨?_, hlt, ?_, ?_, ?_, ?_, ?_⟩
  · show s.lru.Nodup
    rw [hl]; exact List.nodup_reverse.2 (List.nodup_range NBUF)
  · intro b hb2
    show b ∈ s.lru
    rw [hl]; exact List.mem_reverse.2 (List.mem_range.2 hb2)
  · intro b hm
    exact Or.inl ⟨(hb b (hlt b hm)).1, (hb b (hlt b hm)).2.1⟩
  · intro b hm hr
    exact absurd (hb b (hlt b hm)).1 hr
  · exact List.pairwise_of_forall (fun _ _ => Or.inl rfl)
  · intro b t h
    cases h

theorem labelled_self (s : Kernel) (b : Nat) :
    s.labelled (s.buf b).dev (s.buf b).blockno b = true := by
  simp [Kernel.labelled]

theorem labelled_iff (s : Kernel) (dev blockno i : Nat) :
    s.labelled dev blockno i = true ↔ (s.buf i).dev = dev ∧ (s.buf i).blockno = blockno := by
  simp [Kernel.labelled]

theorem find_first_stable {l : List Nat} {p q : Nat → Bool} {c : Nat} (hf : l.find? p = some c)
    (hq : q c = true) (hle : ∀ a ∈ l, q a = true → p a = true) : l.find? q = some c := by
  rw [List.find?_eq_some] at hf ⊢
  obtain ⟨_, as, bs, hsplit, hno⟩ := hf
  refine ⟨hq, as, bs, hsplit, ?_⟩
  intro a ha
  have h1 := hno a ha
  cases hqa : q a with
  | false => rfl
  | true =>
    have := hle a (by rw [hsplit]; exact List.mem_append_left _ ha) hqa
    rw [this] at h1
    cases h1

/-- A returning `bread` keeps the invariant. -/
theorem BioInv.after_bread {g : BioHist} (hi : BioInv g) {dev blockno b : Nat} {s1 : Kernel}
    (h : bread dev blockno g.s = Res.ok b s1) :
    BioInv { g with s := s1, now := g.now + 1 } := by
  obtain ⟨e1, e2, hm, hl0, hl1, hd, hbn, hcase⟩ := bread_effect h
  have hr0 : (g.s.buf b).refcnt = 0 := by
    rcases hi.lock b hm with h | h
    · exact h.1
    · rw [h.2] at hl0; cases hl0
  have hr1 : (s1.buf b).refcnt = 1 := by
    rcases hcase with h | h
    · rw [h.2, hr0]
    · exact h.2.2
  refine ⟨?_, ?_, ?_, ?_, ?_, ?_, ?_⟩
  · show s1.lru.Nodup
    rw [e1]; exact hi.nodup
  · intro c hc
    exact hi.lt c (e1 ▸ hc)
  · intro c hc
    show c ∈ s1.lru
    rw [e1]; exact hi.all c hc
  · intro c hc
    show ((s1.buf c).refcnt = 0 ∧ (s1.buf c).locked = 0) ∨ ((s1.buf c).refcnt = 1 ∧ (s1.buf c).locked = 1)
    by_cases hcb : c = b
    · subst hcb; exact Or.inr ⟨hr1, hl1⟩
    · rw [e2 c hcb]; exact hi.lock c (e1 ▸ hc)
  · intro c hc hrc
    show s1.lru.find? (s1.labelled (s1.buf c).dev (s1.buf c).blockno) = some c
    have hc' : c ∈ g.s.lru := e1 ▸ hc
    rw [e1]
    rcases hcase with ⟨hfind, _⟩ | ⟨hnone, hvic, _⟩
    · -- hit: no label changes
      have hp := List.find?_some hfind
      rw [labelled_iff] at hp
      have hkey : ∀ x, (s1.buf x).dev = (g.s.buf x).dev ∧ (s1.buf x).blockno = (g.s.buf x).blockno := by
        intro x
        by_cases hx : x = b
        · subst hx; exact ⟨hd.trans hp.1.symm, hbn.trans hp.2.symm⟩
        · rw [e2 x hx]; exact ⟨rfl, rfl⟩
      have hlab : ∀ d n x, s1.labelled d n x = g.s.labelled d n x := by
        intro d n x
        unfold Kernel.labelled
        rw [(hkey x).1, (hkey x).2]
      rw [find_congr_mem _ (fun a _ => hlab _ _ a), (hkey c).1, (hkey c).2]
      by_cases hcb : c = b
      · subst hcb
        rw [← hp.1, ← hp.2] at hfind
        exact hfind
      · exact hi.first c hc' (by rw [← e2 c hcb]; exact hrc)
    · -- miss: `b` is relabelled
      rw [List.find?_eq_none] at hnone
      by_cases hcb : c = b
      · subst hcb
        rw [hd, hbn, List.find?_eq_some]
        refine ⟨by rw [labelled_iff]; exact ⟨hd, hbn⟩, ?_⟩
        obtain ⟨as, bs, hsplit⟩ := List.append_of_mem hm
        refine ⟨as, bs, hsplit, ?_⟩
        intro a ha
        have ham : a ∈ g.s.lru := by rw [hsplit]; exact List.mem_append_left _ ha
        have hnd := hi.nodup
        rw [hsplit] at hnd
        have hdis := (List.nodup_append.1 hnd).2.2
        have hac : a ≠ c := fun e => hdis ha (e ▸ List.mem_cons_self c bs)
        have hfa : g.s.labelled dev blockno a = false := by simpa using hnone a ham
        have : s1.labelled dev blockno a = g.s.labelled dev blockno a := by
          unfold Kernel.labelled
          rw [e2 a hac]
        rw [this, hfa]
        rfl
      · have hrc' : (g.s.buf c).refcnt ≠ 0 := by rw [← e2 c hcb]; exact hrc
        have hf := hi.first c hc' hrc'
        rw [e2 c hcb]
        have hne : ¬ ((g.s.buf c).dev = dev ∧ (g.s.buf c).blockno = blockno) := by
          have := hnone c hc'
          rw [← labelled_iff]
          simpa using this
        refine find_first_stable hf ?_ ?_
        · unfold Kernel.labelled
          rw [e2 c hcb]
          simp
        · intro a _ hq
          by_cases hab : a = b
          · subst hab
            rw [labelled_iff, hd, hbn] at hq
            exact absurd ⟨hq.1.symm, hq.2.symm⟩ hne
          · unfold Kernel.labelled at hq ⊢
            rw [e2 a hab] at hq
            exact hq
  · exact hi.sorted |> (e1 ▸ ·)
  · intro c t hs
    have := hi.bound c t hs
    show t < g.now + 1
    omega

/-- A returning `brelse` under the invariant: the buffer was held, and is now
free, unlocked and at the head of the list. -/
theorem brelse_effect {g : BioHist} (hi : BioInv g) {b : Nat} (hb : b < NBUF) {s1 : Kernel}
    (h : brelse b g.s = Res.ok () s1) :
    (g.s.buf b).refcnt = 1 ∧ s1 = g.s.release b := by
  have hm := hi.all b hb
  rcases hi.lock b hm with ⟨h1, h2⟩ | ⟨h1, h2⟩
  · unfold brelse at h
    rw [if_pos h2] at h
    cases h
  · have := brelse_ok (s := g.s) (h := b) (by rw [h2]; decide) h1
    rw [this] at h
    injection h with _ h3
    exact ⟨h1, h3.symm⟩

/-- A returning `brelse` keeps the invariant. -/
theorem BioInv.after_brelse {g : BioHist} (hi : BioInv g) {b : Nat} (hb : b < NBUF) {s1 : Kernel}
    (h : brelse b g.s = Res.ok () s1) :
    BioInv { s := s1,
             stamp := if (s1.buf b).refcnt = 0 then Function.update g.stamp b (some g.now)
               else g.stamp,
             now := g.now + 1 } := by
  obtain ⟨hr1, hs1⟩ := brelse_effect hi hb h
  subst hs1
  have hm := hi.all b hb
  have hrb : ((g.s.release b).buf b).refcnt = 0 := by simp
  rw [if_pos hrb]
  have hbuf : ∀ c, c ≠ b → (g.s.release b).buf c = g.s.buf c := fun c hc => release_buf_ne g.s hc
  have hmem : ∀ c, c ∈ (g.s.release b).lru ↔ c ∈ g.s.lru := mem_release hm
  refine ⟨?_, ?_, ?_, ?_, ?_, ?_, ?_⟩
  · show (b :: g.s.lru.erase b).Nodup
    exact List.nodup_cons.2 ⟨fun hc => (List.Nodup.mem_erase_iff hi.nodup).1 hc |>.1 rfl,
      hi.nodup.erase b⟩
  · intro c hc
    exact hi.lt c ((hmem c).1 hc)
  · intro c hc
    exact (hmem c).2 (hi.all c hc)
  · intro c hc
    show (((g.s.release b).buf c).refcnt = 0 ∧ ((g.s.release b).buf c).locked = 0) ∨ _
    by_cases hcb : c = b
    · subst hcb
      left
      simp
    · rw [hbuf c hcb]
      exact hi.lock c ((hmem c).1 hc)
  · intro c hc hrc
    show (b :: g.s.lru.erase b).find? ((g.s.release b).labelled ((g.s.release b).buf c).dev
      ((g.s.release b).buf c).blockno) = some c
    have hcb : c ≠ b := by
      intro e
      subst e
      exact hrc hrb
    have hc' : c ∈ g.s.lru := (hmem c).1 hc
    have hrc2 : ((g.s.release b).buf c).refcnt ≠ 0 := hrc
    have hrc' : (g.s.buf c).refcnt ≠ 0 := by
      rw [hbuf c hcb] at hrc2
      exact hrc2
    rw [hbuf c hcb]
    have hlab : ∀ x, (g.s.release b).labelled (g.s.buf c).dev (g.s.buf c).blockno x =
        g.s.labelled (g.s.buf c).dev (g.s.buf c).blockno x := by
      intro x
      unfold Kernel.labelled
      by_cases hx : x = b
      · subst hx; simp
      · rw [hbuf x hx]
    have hfc := hi.first c hc' hrc'
    have hfb := hi.first b hm (by rw [hr1]; decide)
    have hnb : g.s.labelled (g.s.buf c).dev (g.s.buf c).blockno b = false := by
      rw [← Bool.not_eq_true, labelled_iff]
      intro e
      rw [e.1, e.2, hfc] at hfb
      injection hfb with hfb
      exact hcb hfb
    rw [find_congr_mem _ (fun a _ => hlab a), List.find?_cons_of_neg _ (by simp [hnb]),
      find_erase_of_not hnb]
    exact hfc
  · show (b :: g.s.lru.erase b).Pairwise _
    rw [List.pairwise_cons]
    constructor
    · intro c hc
      have hcb : c ≠ b := fun e => ((List.Nodup.mem_erase_iff hi.nodup).1 hc).1 e
      show newer (Function.update g.stamp b (some g.now) b) (Function.update g.stamp b (some g.now) c)
      rw [Function.update_same, Function.update_noteq hcb]
      cases hsc : g.stamp c with
      | none => exact Or.inl rfl
      | some t => exact Or.inr ⟨g.now, t, rfl, rfl, hi.bound c t hsc⟩
    · have hsub : (g.s.lru.erase b).Pairwise (fun a c => newer (g.stamp a) (g.stamp c)) :=
        hi.sorted.sublist (List.erase_sublist b g.s.lru)
      refine hsub.imp_of_mem ?_
      intro a c ha hc hn
      have hab : a ≠ b := fun e => ((List.Nodup.mem_erase_iff hi.nodup).1 ha).1 e
      have hcb : c ≠ b := fun e => ((List.Nodup.mem_erase_iff hi.nodup).1 hc).1 e
      show newer (Function.update g.stamp b (some g.now) a) (Function.update g.stamp b (some g.now) c)
      rw [Function.update_noteq hab, Function.update_noteq hcb]
      exact hn
  · intro c t hs
    show t < g.now + 1
    by_cases hcb : c = b
    · subst hcb
      have : Function.update g.stamp c (some g.now) c = some t := hs
      rw [Function.update_same] at this
      injection this with this
      omega
    · have : Function.update g.stamp b (some g.now) c = some t := hs
      rw [Function.update_noteq hcb] at this
      have := hi.bound c t this
      omega

theorem BioInv.after_call {g g1 : BioHist} (hi : BioInv g) {c : BioCall}
    (h : bio_call c g = some g1) : BioInv g1 := by
  cases c with
  | bread dev blockno =>
    unfold bio_call at h
    simp only at h
    cases hb : bread dev blockno g.s with
    | fail e => rw [hb] at h; cases h
    | ok b s1 =>
      rw [hb] at h
      injection h with h
      subst h
      exact hi.after_bread hb
  | brelse b =>
    unfold bio_call at h
    simp only at h
    by_cases hlt : b < NBUF
    · rw [if_pos hlt] at h
      cases hb : brelse b g.s with
      | fail e => rw [hb] at h; cases h
      | ok u s1 =>
        rw [hb] at h
        injection h with h
        subst h
        exact hi.after_brelse hlt hb
    · rw [if_neg hlt] at h
      cases h

theorem BioInv.after_run : ∀ (cs : List BioCall) {g g1 : BioHist}, BioInv g →
    bio_run cs g = some g1 → BioInv g1 := by
  intro cs
  induction cs with
  | nil =>
    intro g g1 hi h
    injection h with h
    exact h ▸ hi
  | cons c cs ih =>
    intro g g1 hi h
    unfold bio_run at h
    cases hc : bio_call c g with
    | none => rw [hc] at h; cases h
    | some g2 =>
      rw [hc] at h
      exact ih (hi.after_call hc) h

theorem bio_reach_inv {g : BioHist} (h : BioReach g) : BioInv g := by
  obtain ⟨s0, cs, hr⟩ := h
  exact BioInv.after_run cs (bio_init_inv s0) hr

theorem bio_run_append : ∀ (cs : List BioCall) (c : BioCall) (g g1 g2 : BioHist),
    bio_run cs g = some g1 → bio_call c g1 = some g2 → bio_run (cs ++ [c]) g = some g2 := by
  intro cs
  induction cs with
  | nil =>
    intro c g g1 g2 h1 h2
    injection h1 with h1
    subst h1
    show bio_run [c] g = some g2
    unfold bio_run
    rw [h2]
    rfl
  | cons d ds ih =>
    intro c g g1 g2 h1 h2
    unfold bio_run at h1
    show bio_run (d :: (ds ++ [c])) g = some g2
    unfold bio_run
    cases hd : bio_call d g with
    | none => rw [hd] at h1; cases h1
    | some g3 =>
      rw [hd] at h1
      exact ih c g3 g1 g2 h1 h2

theorem BioReach.extend {g g1 : BioHist} (h : BioReach g) {c : BioCall}
    (hc : bio_call c g = some g1) : BioReach g1 := by
  obtain ⟨s0, cs, hr⟩ := h
  exact ⟨s0, cs ++ [c], bio_run_append cs c _ _ _ hr hc⟩

theorem bio_init_reach (s0 : Kernel) : BioReach (bio_init s0) := ⟨s0, [], rfl⟩

/-- On a miss under the invariant `bget` takes the last free buffer of the
list, which no other free buffer is older than. -/
theorem bget_miss {g : BioHist} (hi : BioInv g) (dev blockno : Nat)
    (hmiss : ∀ b, b < NBUF → ¬ ((g.s.buf b).dev = dev ∧ (g.s.buf b).blockno = blockno)) :
    ((∀ b, b < NBUF → (g.s.buf b).refcnt ≠ 0) →
      bget dev blockno g.s = Res.fail (Fault.panic PanicSite.bget_no_free_buffer)) ∧
    ((∃ c, c < NBUF ∧ (g.s.buf c).refcnt = 0) →
      ∃ v, v < NBUF ∧ (g.s.buf v).refcnt = 0 ∧
        bget dev blockno g.s = Res.ok v (g.s.setBuf v { g.s.buf v with
          dev := dev, blockno := blockno, valid := 0, disk := 0, refcnt := 1, locked := 1 }) ∧
        (∀ c, c < NBUF → c ≠ v → (g.s.buf c).refcnt = 0 → newer (g.stamp c) (g.stamp v))) := by
  have hnone : g.s.lru.find? (g.s.labelled dev blockno) = none := by
    rw [List.find?_eq_none]
    intro x hx
    rw [labelled_iff]
    exact hmiss x (hi.lt x hx)
  constructor
  · intro hfull
    have : g.s.lru.reverse.find? (fun i => (g.s.buf i).refcnt == 0) = none := by
      rw [List.find?_eq_none]
      intro x hx
      simpa using hfull x (hi.lt x (List.mem_reverse.1 hx))
    rw [bget_def, hnone, this]
  · rintro ⟨c, hc, hc0⟩
    cases hv : g.s.lru.reverse.find? (fun i => (g.s.buf i).refcnt == 0) with
    | none =>
      rw [List.find?_eq_none] at hv
      have := hv c (List.mem_reverse.2 (hi.all c hc))
      simp [hc0] at this
    | some v =>
      have hvm := List.mem_reverse.1 (List.mem_of_find?_eq_some hv)
      have hv0 : (g.s.buf v).refcnt = 0 := by simpa using List.find?_some hv
      have hlk : (g.s.buf v).locked = 0 := by
        rcases hi.lock v hvm with h | h
        · exact h.2
        · rw [h.1] at hv0; cases hv0
      refine ⟨v, hi.lt v hvm, hv0, ?_, ?_⟩
      · rw [bget_def, hnone, hv]
        simp only [bind_apply, acquiresleep_buf, setBuf_buf, if_true, hlk, ne_eq,
          not_true_eq_false, ↓reduceIte, pure_apply, setBuf_setBuf]
      · intro x hx hxv hx0
        exact oldest_of_reverse_find hi.sorted hv x (hi.all x hx) (by simp [hx0]) hxv

/-- `bread` of a block whose first labelled buffer is free returns that buffer. -/
theorem bread_hit_free {s : Kernel} {dev blockno f : Nat}
    (hf : s.lru.find? (s.labelled dev blockno) = some f) (hl : (s.buf f).locked = 0)
    (hv : (s.buf f).valid ≠ 0 ∨ blockno < FSSIZE) :
    ∃ s1, bread dev blockno s = Res.ok f s1 := by
  have hp := List.find?_some hf
  rw [labelled_iff] at hp
  have hb : bget dev blockno s = Res.ok f ((s.setBuf f { s.buf f with
      refcnt := (s.buf f).refcnt + 1 }).setBuf f { s.buf f with
      refcnt := (s.buf f).refcnt + 1, locked := 1 }) := by
    rw [bget_def, hf]
    simp only [bind_apply, acquiresleep_buf, setBuf_buf, if_true, hl, ne_eq, not_true_eq_false,
      ↓reduceIte, pure_apply]
  unfold bread
  rw [bind_apply, hb]
  simp only [bind_apply, getK_apply, setBuf_buf, if_true]
  by_cases hv0 : (s.buf f).valid = 0
  · have hlt : blockno < FSSIZE := by
      rcases hv with h | h
      · exact absurd hv0 h
      · exact h
    rw [if_pos hv0]
    simp only [bind_apply, virtio_disk_rw, setBuf_buf, if_true, hp.2, ge_iff_le,
      Nat.not_le.2 hlt, ↓reduceIte, Bool.false_eq_true, modifyK_apply, pure_apply]
    exact ⟨_, rfl⟩
  · rw [if_neg hv0]
    exact ⟨_, rfl⟩

/-- `bread` of a block whose first labelled buffer is locked never returns. -/
theorem bread_hit_locked {s : Kernel} {dev blockno f : Nat}
    (hf : s.lru.find? (s.labelled dev blockno) = some f) (hl : (s.buf f).locked ≠ 0) :
    bread dev blockno s = Res.fail Fault.spin := by
  unfold bread
  rw [bind_apply, bget_def, hf]
  simp only [bind_apply, acquiresleep_buf, setBuf_buf, if_true, hl, ne_eq, not_false_eq_true,
    ↓reduceIte]

/-- After `binit`, reading block 5 twice without a release in between: the second
`bread` finds the buffer locked by the first one and waits for ever. -/
theorem bread_of_held_block_spins :
    ∃ b s1, bread 1 5 (bio_init boot).s = Res.ok b s1 ∧
      BioReach { s := s1, stamp := (bio_init boot).stamp, now := 1 } ∧
      (s1.buf b).refcnt = 1 ∧ (s1.buf b).dev = 1 ∧ (s1.buf b).blockno = 5 ∧
      bread 1 5 s1 = Res.fail Fault.spin := by
  have hi := bio_init_inv boot
  have hmiss : ∀ b, b < NBUF →
      ¬ (((bio_init boot).s.buf b).dev = 1 ∧ ((bio_init boot).s.buf b).blockno = 5) := by
    intro b hb h
    have : ((bio_init boot).s.buf b).dev = 0 := by
      show (if b < NBUF then _ else _ : Buf).dev = 0
      rw [if_pos hb]
    rw [this] at h
    exact absurd h.1 (by decide)
  obtain ⟨v, hv, hv0, e, -⟩ := (bget_miss hi 1 5 hmiss).2 ⟨0, by decide, rfl⟩
  have hbr : ∃ s1, bread 1 5 (bio_init boot).s = Res.ok v s1 := by
    unfold bread
    rw [bind_apply, e]
    simp only [bind_apply, getK_apply, setBuf_buf, if_true, virtio_disk_rw]
    rw [if_neg (by decide)]
    exact ⟨_, rfl⟩
  obtain ⟨s1, hs1⟩ := hbr
  have hcall : bio_call (BioCall.bread 1 5) (bio_init boot) =
      some { s := s1, stamp := (bio_init boot).stamp, now := 1 } := by
    unfold bio_call
    simp only
    rw [hs1]
    rfl
  have hr1 : BioReach { s := s1, stamp := (bio_init boot).stamp, now := 1 } :=
    (bio_init_reach boot).extend hcall
  have hi1 := bio_reach_inv hr1
  obtain ⟨e1, e2, hm, hl0, hl1, hd, hbn, hcase⟩ := bread_effect hs1
  have hm1 : v ∈ s1.lru := by rw [e1]; exact hm
  have hr : (s1.buf v).refcnt = 1 := by
    rcases hi1.lock v hm1 with h | h
    · rw [hl1] at h; cases h.2
    · exact h.1
  have hfirst := hi1.first v hm1 (by show (s1.buf v).refcnt ≠ 0; rw [hr]; decide)
  have hfirst' : s1.lru.find? (s1.labelled 1 5) = some v := by
    have := hfirst
    rw [← hd, ← hbn]
    exact this
  exact ⟨v, s1, hs1, hr1, hr, hd, hbn,
    bread_hit_locked hfirst' (by rw [hl1]; decide)⟩

theorem Step.toCStep {s s1 : Kernel} {T T1 : Set Nat} {m m1 c l : Nat}
    (h : Step s T m s1 T1 m1 c l) : CStep s T m s1 T1 m1 c l :=
  ⟨h.inv, h.sub, h.bud, h.n_le, h.warm, h.heldEq, h.unheld, h.rest.sb, h.rest.outstanding,
    h.rest.committing, h.mem⟩

theorem CStep.refl_cstep {s : Kernel} {T : Set Nat} {m : Nat} (hi : FSInv s T m) :
    CStep s T m s T m 0 0 := (Step.refl_step hi).toCStep

theorem CStep.trans_cstep {s s1 s2 : Kernel} {T T1 T2 : Set Nat} {m m1 m2 c c' l l' : Nat}
    (h1 : CStep s T m s1 T1 m1 c l) (h2 : CStep s1 T1 m1 s2 T2 m2 c' l') :
    CStep s T m s2 T2 m2 (c + c') (l + l') :=
  ⟨h2.inv, h1.sub.trans h2.sub, by have := h1.bud; have := h2.bud; omega,
    by have := h1.n_le; have := h2.n_le; omega, fun x h => h2.warm x (h1.warm x h),
    h1.heldEq.trans_held h2.heldEq, fun x h => h2.unheld x (h1.unheld x h), h2.sb.trans h1.sb,
    h2.outstanding.trans h1.outstanding, h2.committing.trans h1.committing,
    fun j => (h2.mem j).trans (h1.mem j)⟩

theorem CStep.relax {s s1 : Kernel} {T T1 : Set Nat} {m m1 c c' l l' : Nat}
    (h : CStep s T m s1 T1 m1 c l) (hc : c ≤ c') (hl : l ≤ l') : CStep s T m s1 T1 m1 c' l' :=
  ⟨h.inv, h.sub, by have := h.bud; omega, by have := h.n_le; omega, h.warm, h.heldEq, h.unheld,
    h.sb, h.outstanding, h.committing, h.mem⟩

/-- A change of the state outside cache, device, log and superblock is a step
at no cost. -/
theorem CStep.of_frame {s t : Kernel} {T : Set Nat} {m : Nat} (hi : FSInv s T m)
    (hb : t.buf = s.buf) (hl : t.lru = s.lru) (hd : t.ramdisk = s.ramdisk) (hg : t.log = s.log)
    (hs : t.sb = s.sb) : CStep s T m t T m 0 0 := by
  refine ⟨hi.of_cache_eq hb hl hd hg hs, le_refl T, by omega, by rw [hg]; omega, ?_, ?_, ?_, hs,
    by rw [hg], by rw [hg], fun j => by rw [hl]⟩
  · intro x w
    exact ⟨w.1, by
      rcases w.2 with o | l
      · exact Or.inl (by rw [hg]; exact o)
      · exact Or.inr ((logged_congr hg x).2 l)⟩
  · intro j b hj
    refine ⟨⟨hl ▸ hj.1, ?_, ?_⟩, ?_⟩
    · unfold Kernel.bound; rw [hb]; exact hj.2.1
    · rw [hb]; exact hj.2.2
    · rw [hb]
  · intro x hx
    exact unheld_of_cache_eq hx hb hl

theorem view_of_eq {s t : Kernel} (hb : t.buf = s.buf) (hl : t.lru = s.lru)
    (hd : t.ramdisk = s.ramdisk) : t.view = s.view := view_of_cache_eq hb hl hd

theorem rd32_wr32_mod (d : Mem) (off v : Nat) : rd32 (wr32 d off v) off = v % U32 := by
  have hU : U32 = 4294967296 := by unfold U32; norm_num
  have e1 : wr32 d off v off = v % 256 := by simp [wr32]
  have e2 : wr32 d off v (off + 1) = v / 256 % 256 := by simp [wr32]
  have e3 : wr32 d off v (off + 2) = v / 65536 % 256 := by simp [wr32]
  have e4 : wr32 d off v (off + 3) = v / 16777216 % 256 := by simp [wr32]
  have h2 : v / 65536 = v / 256 / 256 := by rw [Nat.div_div_eq_div_mul]
  have h3 : v / 16777216 = v / 256 / 256 / 256 := by
    rw [Nat.div_div_eq_div_mul, Nat.div_div_eq_div_mul]
  unfold rd32
  have h4 : v / 4294967296 = v / 256 / 256 / 256 / 256 := by
    rw [Nat.div_div_eq_div_mul, Nat.div_div_eq_div_mul, Nat.div_div_eq_div_mul]
  have h5 : v % 4294967296 = v - 4294967296 * (v / 4294967296) := by omega
  rw [e1, e2, e3, e4, hU, h5, h4, h2, h3]
  clear e1 e2 e3 e4 h2 h3 hU h4 h5
  simp only [Nat.mod_mod]
  omega

theorem rd16_wr16_mod (d : Mem) (off v : Nat) : rd16 (wr16 d off v) off = v % 65536 := by
  have e1 : wr16 d off v off = v % 256 := by simp [wr16]
  have e2 : wr16 d off v (off + 1) = v / 256 % 256 := by simp [wr16]
  unfold rd16
  rw [e1, e2]
  omega

theorem wr16_outside (d : Mem) (off v i : Nat) (h : i < off ∨ off + 2 ≤ i) :
    wr16 d off v i = d i := by
  unfold wr16
  rw [if_neg (by omega), if_neg (by omega)]

theorem wr32_outside (d : Mem) (off v i : Nat) (h : i < off ∨ off + 4 ≤ i) :
    wr32 d off v i = d i := by
  unfold wr32
  rw [if_neg (by omega), if_neg (by omega), if_neg (by omega), if_neg (by omega)]

theorem rd16_congr {d e : Mem} {off : Nat} (h : ∀ i, off ≤ i → i < off + 2 → d i = e i) :
    rd16 d off = rd16 e off := by
  unfold rd16
  rw [h off (le_refl _) (by omega), h (off + 1) (by omega) (by omega)]

theorem rd32_congr {d e : Mem} {off : Nat} (h : ∀ i, off ≤ i → i < off + 4 → d i = e i) :
    rd32 d off = rd32 e off := by
  unfold rd32
  rw [h off (le_refl _) (by omega), h (off + 1) (by omega) (by omega),
    h (off + 2) (by omega) (by omega), h (off + 3) (by omega) (by omega)]

theorem wr_addrs_outside (a : Nat → Nat) (o : Nat) : ∀ (n : Nat) (m : Mem) (i : Nat),
    i < o + 12 ∨ o + 12 + 4 * n ≤ i → wr_addrs a o n m i = m i := by
  intro n
  induction n with
  | zero => intro m i _; rfl
  | succ n ih =>
    intro m i h
    unfold wr_addrs
    rw [wr32_outside _ _ _ _ (by omega), ih m i (by omega)]

theorem wr_addrs_rd (a : Nat → Nat) (o : Nat) : ∀ (n : Nat) (m : Mem) (k : Nat), k < n →
    rd32 (wr_addrs a o n m) (o + 12 + 4 * k) = a k % U32 := by
  intro n
  induction n with
  | zero => intro m k h; omega
  | succ n ih =>
    intro m k hk
    unfold wr_addrs
    by_cases hkn : k = n
    · subst hkn
      exact rd32_wr32_mod _ _ _
    · rw [rd32_congr (e := wr_addrs a o n m) (fun i h1 h2 => wr32_outside _ _ _ _ (by omega))]
      exact ih m k (by omega)

/-- The bytes outside the record are not touched by `iupdate`. -/
theorem dinode_image_outside (x : Inode) (o : Nat) (d : Mem) (i : Nat)
    (h : i < o ∨ o + DINODE_SIZE ≤ i) : dinode_image x o d i = d i := by
  have hD : DINODE_SIZE = 64 := rfl
  have hN : NDIRECT + 1 = 13 := rfl
  unfold dinode_image
  rw [wr_addrs_outside _ _ _ _ _ (by omega), wr32_outside _ _ _ _ (by omega),
    wr16_outside _ _ _ _ (by omega), wr16_outside _ _ _ _ (by omega),
    wr16_outside _ _ _ _ (by omega), wr16_outside _ _ _ _ (by omega)]

/-- The record that `iupdate` stores reads back as the fields of the inode. -/
theorem dinode_image_fields (x : Inode) (o : Nat) (d : Mem) :
    rd16 (dinode_image x o d) o = x.type % 65536 ∧
    rd16 (dinode_image x o d) (o + 2) = x.major % 65536 ∧
    rd16 (dinode_image x o d) (o + 4) = x.minor % 65536 ∧
    rd16 (dinode_image x o d) (o + 6) = x.nlink % 65536 ∧
    rd32 (dinode_image x o d) (o + 8) = x.size % U32 ∧
    ∀ k, k < NDIRECT + 1 → rd32 (dinode_image x o d) (o + 12 + 4 * k) = x.addrs k % U32 := by
  have hN : NDIRECT + 1 = 13 := rfl
  unfold dinode_image
  refine ⟨?_, ?_, ?_, ?_, ?_, ?_⟩
  · rw [rd16_congr (e := wr16 d o x.type) (fun i h1 h2 => by
      rw [wr_addrs_outside _ _ _ _ _ (by omega), wr32_outside _ _ _ _ (by omega),
        wr16_outside _ _ _ _ (by omega), wr16_outside _ _ _ _ (by omega),
        wr16_outside _ _ _ _ (by omega)])]
    exact rd16_wr16_mod _ _ _
  · rw [rd16_congr (e := wr16 (wr16 d o x.type) (o + 2) x.major) (fun i h1 h2 => by
      rw [wr_addrs_outside _ _ _ _ _ (by omega), wr32_outside _ _ _ _ (by omega),
        wr16_outside _ _ _ _ (by omega), wr16_outside _ _ _ _ (by omega)])]
    exact rd16_wr16_mod _ _ _
  · rw [rd16_congr (e := wr16 (wr16 (wr16 d o x.type) (o + 2) x.major) (o + 4) x.minor)
      (fun i h1 h2 => by
      rw [wr_addrs_outside _ _ _ _ _ (by omega), wr32_outside _ _ _ _ (by omega),
        wr16_outside _ _ _ _ (by omega)])]
    exact rd16_wr16_mod _ _ _
  · rw [rd16_congr (e := wr16 (wr16 (wr16 (wr16 d o x.type) (o + 2) x.major) (o + 4) x.minor)
      (o + 6) x.nlink) (fun i h1 h2 => by
      rw [wr_addrs_outside _ _ _ _ _ (by omega), wr32_outside _ _ _ _ (by omega)])]
    exact rd16_wr16_mod _ _ _
  · rw [rd32_congr (e := wr32 (wr16 (wr16 (wr16 (wr16 d o x.type) (o + 2) x.major) (o + 4)
      x.minor) (o + 6) x.nlink) (o + 8) x.size) (fun i h1 h2 => by
      rw [wr_addrs_outside _ _ _ _ _ (by omega)])]
    exact rd32_wr32_mod _ _ _
  · intro k hk
    exact wr_addrs_rd _ _ _ _ k hk

theorem IBLOCK_mkfs {inum : Nat} (h : inum < 200) : IBLOCK inum mkfs_sb = FSSTART + inum / IPB := by
  unfold IBLOCK
  have e : IPB = 64 := rfl
  have hU : U32 = 4294967296 := by unfold U32; norm_num
  have hF : FSSTART = 32 := rfl
  rw [mkfs_sb_inodestart, e, hU, hF]
  omega

theorem IBLOCK_range {inum : Nat} (h : inum < 200) :
    FSSTART ≤ IBLOCK inum mkfs_sb ∧ IBLOCK inum mkfs_sb < BMAPBLOCK := by
  rw [IBLOCK_mkfs h]
  have e : IPB = 64 := rfl
  have hF : FSSTART = 32 := rfl
  have hB : BMAPBLOCK = 36 := rfl
  rw [e, hF, hB]
  omega

theorem brelse_setInode (b : Nat) (s : Kernel) (i : Nat) (x : Inode) :
    brelse b (s.setInode i x) =
      match brelse b s with
      | Res.ok u t => Res.ok u (t.setInode i x)
      | Res.fail e => Res.fail e := by
  unfold brelse
  by_cases h1 : (s.buf b).locked = 0
  · have h1' : ((s.setInode i x).buf b).locked = 0 := h1
    rw [if_pos h1', if_pos h1]
  · have h1' : ¬ ((s.setInode i x).buf b).locked = 0 := h1
    rw [if_neg h1', if_neg h1]
    dsimp only
    by_cases h2 : ((s.setBuf b { s.buf b with locked := 0 }).buf b).refcnt < 1
    · have h2' : (((s.setInode i x).setBuf b { (s.setInode i x).buf b with locked := 0 }).buf b).refcnt < 1 := h2
      rw [if_pos h2', if_pos h2]
    · have h2' : ¬ (((s.setInode i x).setBuf b { (s.setInode i x).buf b with locked := 0 }).buf b).refcnt < 1 := h2
      rw [if_neg h2', if_neg h2]
      split
      · rename_i h3
        have h3' : (((s.setBuf b { s.buf b with locked := 0 }).setBuf b
          { (s.setBuf b { s.buf b with locked := 0 }).buf b with
            refcnt := ((s.setBuf b { s.buf b with locked := 0 }).buf b).refcnt - 1 }).buf b).refcnt = 0 := h3
        rw [if_pos h3']
        rfl
      · rename_i h3
        have h3' : ¬ (((s.setBuf b { s.buf b with locked := 0 }).setBuf b
          { (s.setBuf b { s.buf b with locked := 0 }).buf b with
            refcnt := ((s.setBuf b { s.buf b with locked := 0 }).buf b).refcnt - 1 }).buf b).refcnt = 0 := h3
        rw [if_neg h3']
        rfl

/-- The function `iupdate` under the file-system invariant: the record of the
inode in its block becomes the image of the cached fields, nothing else
changes in the file-system area. -/
theorem iupdate_spec {s : Kernel} {T : Set Nat} {m ip : Nat} (hi : FSInv s T m)
    (hdev : (s.inode ip).dev = ROOTDEV) (hin : (s.inode ip).inum < 200)
    (hu : s.unheld (IBLOCK (s.inode ip).inum mkfs_sb))
    (hbud : s.warm T (IBLOCK (s.inode ip).inum mkfs_sb) ∨ (2 ≤ m ∧ s.log.lh.n + 2 ≤ LOGSIZE)) :
    ∃ s1 T1 m1, iupdate ip s = Res.ok () s1 ∧ Step s T m s1 T1 m1 2 1 ∧
      s1.warm T1 (IBLOCK (s.inode ip).inum mkfs_sb) ∧
      (s.warm T (IBLOCK (s.inode ip).inum mkfs_sb) → T1 = T ∧ m1 = m ∧ s1.log = s.log) ∧
      s1.view (IBLOCK (s.inode ip).inum mkfs_sb) =
        dinode_image (s.inode ip) (dinodeOff (s.inode ip).inum)
          (s.view (IBLOCK (s.inode ip).inum mkfs_sb)) ∧
      (∀ x, FSSTART ≤ x → x ≠ IBLOCK (s.inode ip).inum mkfs_sb → s1.view x = s.view x) := by
  obtain ⟨hlo, hhi⟩ := IBLOCK_range hin
  have hc : IBLOCK (s.inode ip).inum mkfs_sb < FSSIZE :=
    lt_trans hhi (by decide)
  obtain ⟨h, s1, e1, hd1, hr1, hrest⟩ := update_block hi hlo hc hu hbud
  obtain ⟨s3, s4, T4, m4, e3, e4, st, hw, htight, hv⟩ :=
    hrest (dinode_image (s.inode ip) (dinodeOff (s.inode ip).inum)
      (s.view (IBLOCK (s.inode ip).inum mkfs_sb)))
  refine ⟨s4, T4, m4, ?_, st, hw, htight, ?_, ?_⟩
  · unfold iupdate
    simp only [bind_apply, getK_apply, hdev, hi.sb, e1, setData_ok, hr1.inode, hd1]
    simp only [e3, e4]
  · rw [hv _ hlo, Function.update_same]
  · intro x hx hne
    rw [hv _ hx, Function.update_noteq hne]

/-- The function `ilock` on an unlocked cache entry that is not valid: the
record is read from its block; a record of type `T_UNUSED` is fatal. -/
theorem ilock_load {s : Kernel} {T : Set Nat} {m ip : Nat} (hi : FSInv s T m)
    (hr : 1 ≤ (s.inode ip).ref) (hl : (s.inode ip).locked = 0) (hv : (s.inode ip).valid = 0)
    (hdev : (s.inode ip).dev = ROOTDEV) (hin : (s.inode ip).inum < 200)
    (hu : s.unheld (IBLOCK (s.inode ip).inum mkfs_sb))
    (hbud : IBLOCK (s.inode ip).inum mkfs_sb ∈ T ∨ 1 ≤ m) :
    (rd16 (s.view (IBLOCK (s.inode ip).inum mkfs_sb)) (dinodeOff (s.inode ip).inum) = T_UNUSED →
      ilock ip s = Res.fail (Fault.panic PanicSite.ilock_no_type)) ∧
    (rd16 (s.view (IBLOCK (s.inode ip).inum mkfs_sb)) (dinodeOff (s.inode ip).inum) ≠ T_UNUSED →
      ∃ s1 T1 m1, ilock ip s = Res.ok () s1 ∧ CStep s T m s1 T1 m1 1 0 ∧ s1.view = s.view ∧
        (IBLOCK (s.inode ip).inum mkfs_sb ∈ T → T1 = T ∧ m1 = m) ∧ s1.log = s.log ∧
        s1.file = s.file ∧ s1.g_ofile = s.g_ofile ∧
        (∀ j, j ≠ ip → s1.inode j = s.inode j) ∧
        s1.inode ip = { s.inode ip with
          locked := 1, valid := 1,
          type := rd16 (s.view (IBLOCK (s.inode ip).inum mkfs_sb)) (dinodeOff (s.inode ip).inum),
          major := rd16 (s.view (IBLOCK (s.inode ip).inum mkfs_sb)) (dinodeOff (s.inode ip).inum + 2),
          minor := rd16 (s.view (IBLOCK (s.inode ip).inum mkfs_sb)) (dinodeOff (s.inode ip).inum + 4),
          nlink := rd16 (s.view (IBLOCK (s.inode ip).inum mkfs_sb)) (dinodeOff (s.inode ip).inum + 6),
          size := rd32 (s.view (IBLOCK (s.inode ip).inum mkfs_sb)) (dinodeOff (s.inode ip).inum + 8),
          addrs := fun i => if i < NDIRECT + 1 then
            rd32 (s.view (IBLOCK (s.inode ip).inum mkfs_sb)) (dinodeOff (s.inode ip).inum + 12 + 4 * i)
            else (s.inode ip).addrs i }) := by
  obtain ⟨hlo, hhi⟩ := IBLOCK_range hin
  have hc : IBLOCK (s.inode ip).inum mkfs_sb < FSSIZE := lt_trans hhi (by decide)
  generalize hA : s.setInode ip { s.inode ip with locked := 1 } = sA
  have hAb : sA.buf = s.buf := by rw [← hA]; rfl
  have hAl : sA.lru = s.lru := by rw [← hA]; rfl
  have hAd : sA.ramdisk = s.ramdisk := by rw [← hA]; rfl
  have hAg : sA.log = s.log := by rw [← hA]; rfl
  have hAs : sA.sb = s.sb := by rw [← hA]; rfl
  have hAv : sA.view = s.view := view_of_eq hAb hAl hAd
  have cA := CStep.of_frame hi hAb hAl hAd hAg hAs
  obtain ⟨h, s1, e1, hd1, hr1, s2, T2, m2, e2, st, hT2, htight, hv2, hdisk2, hlog2⟩ :=
    read_block cA.inv hlo hc (unheld_of_cache_eq hu hAb hAl) hbud
  rw [hAv] at hd1
  have hino1 : s1.inode ip = { s.inode ip with locked := 1 } := by
    rw [hr1.inode, ← hA]; simp [Kernel.setInode]
  have hpre : ilock ip s =
      (match brelse h (s1.setInode ip { s1.inode ip with
          type := rd16 (s1.buf h).data (dinodeOff (s.inode ip).inum),
          major := rd16 (s1.buf h).data (dinodeOff (s.inode ip).inum + 2),
          minor := rd16 (s1.buf h).data (dinodeOff (s.inode ip).inum + 4),
          nlink := rd16 (s1.buf h).data (dinodeOff (s.inode ip).inum + 6),
          size := rd32 (s1.buf h).data (dinodeOff (s.inode ip).inum + 8),
          addrs := fun i => if i < NDIRECT + 1 then
            rd32 (s1.buf h).data (dinodeOff (s.inode ip).inum + 12 + 4 * i)
            else (s1.inode ip).addrs i }) with
        | Res.ok _ t =>
          if ((t.setInode ip { t.inode ip with valid := 1 }).inode ip).type = T_UNUSED then
            Res.fail (Fault.panic PanicSite.ilock_no_type)
          else Res.ok () (t.setInode ip { t.inode ip with valid := 1 })
        | Res.fail e => Res.fail e) := by
    unfold ilock
    simp only [bind_apply, getK_apply]
    rw [if_neg (by omega), if_neg (by simp [hl])]
    simp only [bind_apply, modifyK_apply, hA, if_pos hv, getK_apply]
    simp only [hdev, hi.sb, e1]
    simp only [Kernel.setInode, Function.update_same]
    cases brelse h _ with
    | fail e => rfl
    | ok u t =>
      dsimp only
      split <;> rfl
  rw [brelse_setInode, e2] at hpre
  dsimp only at hpre
  have hino2 : s2.inode = sA.inode := st.rest.inode
  have hsA : sA.inode ip = { s.inode ip with locked := 1 } := by
    rw [← hA]; simp [Kernel.setInode]
  simp only [Kernel.setInode, Function.update_same, Function.update_idem, hino1, hd1] at hpre
  constructor
  · intro h0
    rw [hpre, if_pos h0]
  · intro h0
    rw [hpre, if_neg h0]
    refine ⟨_, T2, m2, rfl, ?_, ?_, htight, ?_, ?_, ?_, ?_, ?_⟩
    · exact CStep.relax ((cA.trans_cstep st.toCStep).trans_cstep
        (CStep.of_frame st.inv rfl rfl rfl rfl rfl)) (Nat.le_refl 1) (Nat.le_refl 0)
    · exact hv2.trans hAv
    · exact hlog2.trans hAg
    · show s2.file = s.file
      rw [st.rest.file, ← hA]; rfl
    · show s2.g_ofile = s.g_ofile
      rw [st.rest.g_ofile, ← hA]; rfl
    · intro j hj
      simp only [Function.update_noteq hj]
      rw [hino2, ← hA]
      simp [Kernel.setInode, Function.update_noteq hj]
    · simp only [Function.update_same]

theorem LoadedFrom.same {y x : Inode} (h : LoadedFrom y x) (t : x.typed) : SameMeta y x :=
  ⟨h.type.trans (Nat.mod_eq_of_lt t.type), h.major.trans (Nat.mod_eq_of_lt t.major),
    h.minor.trans (Nat.mod_eq_of_lt t.minor), h.nlink.trans (Nat.mod_eq_of_lt t.nlink),
    h.size.trans (Nat.mod_eq_of_lt t.size),
    fun k hk => (h.addrs k hk).trans (Nat.mod_eq_of_lt (t.addrs k hk))⟩

theorem recordIs_image (x : Inode) (inum : Nat) (d : Mem) :
    RecordIs (dinode_image x (dinodeOff inum) d) inum x := by
  obtain ⟨h1, h2, h3, h4, h5, h6⟩ := dinode_image_fields x (dinodeOff inum) d
  exact ⟨h1, h2, h3, h4, h5, h6⟩

theorem demo_stale_inv : FSInv demo_stale ∅ NBUF := by
  have hne : ∀ i, (demo_stale.buf i).dev ≠ ROOTDEV := fun _ => show (0 : Nat) ≠ 1 by decide
  exact FSInv.of_unbound (s := demo_stale) (List.nodup_reverse.2 (List.nodup_range NBUF))
    (fun i _ => ⟨hne i, rfl, rfl⟩) rfl rfl rfl rfl rfl

theorem demo_stale_unheld (c : Nat) : demo_stale.unheld c := fun _ _ _ => rfl

theorem memset_local_in (d : Mem) (off c n i : Nat) (h : off ≤ i ∧ i < off + n) :
    memset_local d off c n i = c % 256 := by
  unfold memset_local
  rw [if_pos h]

theorem memset_local_out (d : Mem) (off c n i : Nat) (h : i < off ∨ off + n ≤ i) :
    memset_local d off c n i = d i := by
  unfold memset_local
  rw [if_neg (by omega)]

theorem ialloc_image_outside (d : Mem) (o type i : Nat) (h : i < o ∨ o + DINODE_SIZE ≤ i) :
    ialloc_image d o type i = d i := by
  have hD : DINODE_SIZE = 64 := rfl
  unfold ialloc_image
  rw [wr16_outside _ _ _ _ (by omega), wr16_outside _ _ _ _ (by omega),
    memset_local_out _ _ _ _ _ (by omega)]

theorem rd16_zero_of {d : Mem} {off : Nat} (h : ∀ i, off ≤ i → i < off + 2 → d i = 0) :
    rd16 d off = 0 := by
  unfold rd16
  rw [h off (le_refl _) (by omega), h (off + 1) (by omega) (by omega)]

theorem rd32_zero_of {d : Mem} {off : Nat} (h : ∀ i, off ≤ i → i < off + 4 → d i = 0) :
    rd32 d off = 0 := by
  unfold rd32
  rw [h off (le_refl _) (by omega), h (off + 1) (by omega) (by omega),
    h (off + 2) (by omega) (by omega), h (off + 3) (by omega) (by omega)]

/-- The bytes of the record between the type and the link count, and after
the link count, are zero. -/
theorem ialloc_image_zero (d : Mem) (o type i : Nat)
    (h : (o + 2 ≤ i ∧ i < o + 6) ∨ (o + 8 ≤ i ∧ i < o + DINODE_SIZE)) :
    ialloc_image d o type i = 0 := by
  have hD : DINODE_SIZE = 64 := rfl
  unfold ialloc_image
  rw [wr16_outside _ _ _ _ (by omega), wr16_outside _ _ _ _ (by omega),
    memset_local_in _ _ _ _ _ (by omega)]

theorem ialloc_image_record (d : Mem) (inum type : Nat) :
    RecordIs (ialloc_image d (dinodeOff inum) type) inum (fresh_meta type) := by
  have hD : DINODE_SIZE = 64 := rfl
  have hN : NDIRECT + 1 = 13 := rfl
  refine ⟨?_, ?_, ?_, ?_, ?_, ?_⟩
  · unfold ialloc_image
    rw [rd16_congr (e := wr16 (memset_local d (dinodeOff inum) 0 DINODE_SIZE) (dinodeOff inum) type)
      (fun i h1 h2 => wr16_outside _ _ _ _ (by omega))]
    exact rd16_wr16_mod _ _ _
  · exact rd16_zero_of (fun i h1 h2 => ialloc_image_zero _ _ _ _ (by omega))
  · exact rd16_zero_of (fun i h1 h2 => ialloc_image_zero _ _ _ _ (by omega))
  · unfold ialloc_image
    exact rd16_wr16_mod _ _ _
  · exact rd32_zero_of (fun i h1 h2 => ialloc_image_zero _ _ _ _ (by omega))
  · intro k hk
    exact rd32_zero_of (fun i h1 h2 => ialloc_image_zero _ _ _ _ (by omega))

/-- One round of the scan of `ialloc` over a record that is in use. -/
theorem ialloc_skip {s : Kernel} {T : Set Nat} {m type fuel inum : Nat} (hi : FSInv s T m)
    (hin : inum < 200) (hu : s.unheld (IBLOCK inum mkfs_sb))
    (hbud : IBLOCK inum mkfs_sb ∈ T ∨ 1 ≤ m)
    (hused : rd16 (s.view (IBLOCK inum mkfs_sb)) (dinodeOff inum) ≠ T_UNUSED) :
    ∃ s2 T2 m2, ialloc_loop ROOTDEV type (fuel + 1) inum s =
        ialloc_loop ROOTDEV type fuel (inum + 1) s2 ∧
      Step s T m s2 T2 m2 1 0 ∧ IBLOCK inum mkfs_sb ∈ T2 ∧
      (IBLOCK inum mkfs_sb ∈ T → T2 = T ∧ m2 = m) ∧ s2.view = s.view := by
  obtain ⟨hlo, hhi⟩ := IBLOCK_range hin
  have hc : IBLOCK inum mkfs_sb < FSSIZE := lt_trans hhi (by decide)
  obtain ⟨h, s1, e1, hd1, hr1, s2, T2, m2, e2, st, hT2, htight, hv2, _, _⟩ :=
    read_block hi hlo hc hu hbud
  refine ⟨s2, T2, m2, ?_, st, hT2, htight, hv2⟩
  conv_lhs => unfold ialloc_loop
  simp only [bind_apply, getK_apply, hi.sb, mkfs_sb_ninodes, if_pos hin, e1, hd1, if_neg hused, e2]

/-- The round of `ialloc` that finds a free record. -/
theorem ialloc_take {s : Kernel} {T : Set Nat} {m type fuel inum : Nat} (hi : FSInv s T m)
    (hin : inum < 200) (hu : s.unheld (IBLOCK inum mkfs_sb))
    (hbud : s.warm T (IBLOCK inum mkfs_sb) ∨ (2 ≤ m ∧ s.log.lh.n + 2 ≤ LOGSIZE))
    (hfree : rd16 (s.view (IBLOCK inum mkfs_sb)) (dinodeOff inum) = T_UNUSED)
    (hslot : ∃ i, i < NINODE ∧ ((s.inode i).ref = 0 ∨
      ((s.inode i).ref > 0 ∧ (s.inode i).dev = ROOTDEV ∧ (s.inode i).inum = inum))) :
    ∃ ip s4 T4 m4 x, ialloc_loop ROOTDEV type (fuel + 1) inum s =
        Res.ok ip ((s4.setInode ip x).setInode ip { x with type := type % 65536, nlink := 1 }) ∧
      Step s T m s4 T4 m4 2 1 ∧ ip < NINODE ∧ x.dev = ROOTDEV ∧ x.inum = inum ∧ 0 < x.ref ∧
      s4.view (IBLOCK inum mkfs_sb) =
        ialloc_image (s.view (IBLOCK inum mkfs_sb)) (dinodeOff inum) type ∧
      (∀ y, FSSTART ≤ y → y ≠ IBLOCK inum mkfs_sb → s4.view y = s.view y) := by
  obtain ⟨hlo, hhi⟩ := IBLOCK_range hin
  have hc : IBLOCK inum mkfs_sb < FSSIZE := lt_trans hhi (by decide)
  obtain ⟨h, s1, e1, hd1, hr1, hrest⟩ := update_block hi hlo hc hu hbud
  obtain ⟨s3, s4, T4, m4, e3, e4, st, hw, htight, hv⟩ :=
    hrest (ialloc_image (s.view (IBLOCK inum mkfs_sb)) (dinodeOff inum) type)
  have hslot4 : ∃ i, i < NINODE ∧ ((s4.inode i).ref = 0 ∨
      ((s4.inode i).ref > 0 ∧ (s4.inode i).dev = ROOTDEV ∧ (s4.inode i).inum = inum)) := by
    rw [st.rest.inode]; exact hslot
  obtain ⟨ip, x, e5, hip, _, _, _, _, hxd, hxi, hxr⟩ := iget_ok hslot4
  refine ⟨ip, s4, T4, m4, x, ?_, st, hip, hxd, hxi, hxr, ?_, ?_⟩
  · conv_lhs => unfold ialloc_loop
    simp only [bind_apply, getK_apply, hi.sb, mkfs_sb_ninodes, if_pos hin, e1, hd1, if_pos hfree,
      setData_ok]
    have e3' : bwrite h (s1.store h (wr16 (wr16 (memset_local (s.view (IBLOCK inum mkfs_sb))
        (dinodeOff inum) 0 DINODE_SIZE) (dinodeOff inum) type) (dinodeOff inum + 6) 1)) =
        Res.ok () s3 := e3
    simp only [e3', e4, e5, modifyK_apply, pure_apply]
    simp only [Kernel.setInode, Function.update_same]
  · rw [hv _ hlo, Function.update_same]
  · intro y hy hne
    rw [hv _ hy, Function.update_noteq hne]

theorem scanBudget_next {T T2 : Set Nat} {m m2 inum extra : Nat} (hin : inum < 200)
    (hb : ScanBudget T m inum extra) (hT2 : IBLOCK inum mkfs_sb ∈ T2) (hm : m ≤ m2 + 1)
    (htight : IBLOCK inum mkfs_sb ∈ T → T2 = T ∧ m2 = m) (hnext : inum + 1 < 200) :
    ScanBudget T2 m2 (inum + 1) extra := by
  have hIPB : IPB = 64 := rfl
  unfold ScanBudget at hb ⊢
  rw [hIPB] at hb ⊢
  by_cases hq : (inum + 1) / 64 = inum / 64
  · left
    constructor
    · rw [IBLOCK_mkfs hnext, hIPB, hq, ← hIPB, ← IBLOCK_mkfs hin]; exact hT2
    · rcases hb with ⟨hT, hb⟩ | hb
      · rw [(htight hT).2]; omega
      · omega
  · right
    rcases hb with ⟨hT, hb⟩ | hb
    · rw [(htight hT).2]; omega
    · omega

theorem scanBudget_read {T : Set Nat} {m inum extra : Nat} (hin : inum < 200)
    (hb : ScanBudget T m inum (extra + 1)) : IBLOCK inum mkfs_sb ∈ T ∨ 1 ≤ m := by
  have hIPB : IPB = 64 := rfl
  unfold ScanBudget at hb
  rw [hIPB] at hb
  rcases hb with ⟨hT, _⟩ | hb
  · exact Or.inl hT
  · exact Or.inr (by omega)

/-- The scan of `ialloc` from inode `inum` when `k` is the first free record
from there on. -/
theorem ialloc_scan {type k : Nat} (hk : k < 200) : ∀ (d : Nat) {s : Kernel} {T : Set Nat}
    {m fuel inum : Nat}, k - inum = d → inum ≤ k → d < fuel → FSInv s T m →
    (∀ x, s.unheld x) → ScanBudget T m inum 2 → s.log.lh.n + 2 ≤ LOGSIZE →
    (∀ j, inum ≤ j → j < k → rd16 (s.view (IBLOCK j mkfs_sb)) (dinodeOff j) ≠ T_UNUSED) →
    rd16 (s.view (IBLOCK k mkfs_sb)) (dinodeOff k) = T_UNUSED →
    (∃ i, i < NINODE ∧ ((s.inode i).ref = 0 ∨
      ((s.inode i).ref > 0 ∧ (s.inode i).dev = ROOTDEV ∧ (s.inode i).inum = k))) →
    ∃ ip s4 T4 m4 x, ialloc_loop ROOTDEV type fuel inum s =
        Res.ok ip ((s4.setInode ip x).setInode ip { x with type := type % 65536, nlink := 1 }) ∧
      Step s T m s4 T4 m4 ((4 - inum / IPB) + 2) 1 ∧
      (IBLOCK inum mkfs_sb ∈ T → m ≤ m4 + ((3 - inum / IPB) + 2)) ∧
      ip < NINODE ∧ x.dev = ROOTDEV ∧ x.inum = k ∧ 0 < x.ref ∧
      s4.view (IBLOCK k mkfs_sb) =
        ialloc_image (s.view (IBLOCK k mkfs_sb)) (dinodeOff k) type ∧
      (∀ y, FSSTART ≤ y → y ≠ IBLOCK k mkfs_sb → s4.view y = s.view y) := by
  have hIPB : IPB = 64 := rfl
  intro d
  induction d with
  | zero =>
    intro s T m fuel inum hd hle hf hi hu hb hn _ hfree hslot
    have e : inum = k := by omega
    subst e
    obtain ⟨f, rfl⟩ : ∃ f, fuel = f + 1 := ⟨fuel - 1, by omega⟩
    have hm : 2 ≤ m := by
      unfold ScanBudget at hb
      rw [hIPB] at hb
      rcases hb with ⟨_, hb⟩ | hb <;> omega
    obtain ⟨ip, s4, T4, m4, x, e, st, hip, hxd, hxi, hxr, hv, hoth⟩ :=
      @ialloc_take s T m type f inum hi hk (hu _) (Or.inr ⟨hm, hn⟩) hfree hslot
    refine ⟨ip, s4, T4, m4, x, e, st.weaken (by omega) (le_refl _), ?_, hip, hxd, hxi, hxr,
      hv, hoth⟩
    intro _
    have := st.bud
    omega
  | succ d ih =>
    intro s T m fuel inum hd hle hf hi hu hb hn hused hfree hslot
    obtain ⟨f, rfl⟩ : ∃ f, fuel = f + 1 := ⟨fuel - 1, by omega⟩
    have hin : inum < 200 := by omega
    have hnext : inum + 1 < 200 := by omega
    obtain ⟨s2, T2, m2, e, st, hT2, htight, hv2⟩ :=
      @ialloc_skip s T m type f inum hi hin (hu _) (scanBudget_read hin hb)
        (hused inum (le_refl _) (by omega))
    have hb2 := scanBudget_next hin hb hT2 st.bud htight hnext
    have hslot2 : ∃ i, i < NINODE ∧ ((s2.inode i).ref = 0 ∨
        ((s2.inode i).ref > 0 ∧ (s2.inode i).dev = ROOTDEV ∧ (s2.inode i).inum = k)) := by
      rw [st.rest.inode]; exact hslot
    obtain ⟨ip, s4, T4, m4, x, e4, st4, hc4, hip, hxd, hxi, hxr, hv, hoth⟩ :=
      @ih s2 T2 m2 f (inum + 1) (by omega) (by omega) (by omega) st.inv
        (fun y => st.unheld y (hu y)) hb2 (by have := st.n_le; omega)
        (fun j h1 h2 => by rw [hv2]; exact hused j (by omega) h2) (by rw [hv2]; exact hfree)
        hslot2
    rw [hv2] at hv
    have hq : (inum + 1) / 64 = inum / 64 ∨ (inum + 1) / 64 = inum / 64 + 1 := by omega
    have hq3 : inum / 64 ≤ 3 := by omega
    have hnextT : (inum + 1) / 64 = inum / 64 → IBLOCK (inum + 1) mkfs_sb ∈ T2 := by
      intro h
      rw [IBLOCK_mkfs hnext, hIPB, h, ← hIPB, ← IBLOCK_mkfs hin]; exact hT2
    have hbud4 := st4.bud
    have hbud2 := st.bud
    rw [hIPB] at hbud4 hc4
    have hA : m ≤ m4 + ((4 - inum / 64) + 2) := by
      rcases hq with h | h
      · have := hc4 (hnextT h)
        rw [h] at this
        omega
      · rw [h] at hbud4
        omega
    have hB : IBLOCK inum mkfs_sb ∈ T → m ≤ m4 + ((3 - inum / 64) + 2) := by
      intro hT
      have hm2 := (htight hT).2
      rcases hq with h | h
      · have := hc4 (hnextT h)
        rw [h] at this
        omega
      · rw [h] at hbud4
        omega
    refine ⟨ip, s4, T4, m4, x, e.trans e4, ?_, ?_, hip, hxd, hxi, hxr, hv, ?_⟩
    · exact ((st.trans_step st4).tighten (by rw [hIPB]; exact hA)).weaken (le_refl _)
        (by omega)
    · rw [hIPB]; exact hB
    · intro y hy hne
      rw [hoth y hy hne, hv2]

/-- The scan of `ialloc` when no record from `inum` on is free. -/
theorem ialloc_scan_none {type : Nat} : ∀ (fuel : Nat) {s : Kernel} {T : Set Nat} {m inum : Nat},
    FSInv s T m → (∀ x, s.unheld x) → ScanBudget T m inum 0 →
    (∀ j, inum ≤ j → j < 200 → rd16 (s.view (IBLOCK j mkfs_sb)) (dinodeOff j) ≠ T_UNUSED) →
    ialloc_loop ROOTDEV type fuel inum s = Res.fail (Fault.panic PanicSite.ialloc_no_inodes) := by
  have hIPB : IPB = 64 := rfl
  intro fuel
  induction fuel with
  | zero => intro s T m inum _ _ _ _; rfl
  | succ f ih =>
    intro s T m inum hi hu hb hused
    by_cases hin : inum < 200
    · have hrd : IBLOCK inum mkfs_sb ∈ T ∨ 1 ≤ m := by
        unfold ScanBudget at hb
        rw [hIPB] at hb
        rcases hb with ⟨hT, _⟩ | hb
        · exact Or.inl hT
        · exact Or.inr (by omega)
      obtain ⟨s2, T2, m2, e, st, hT2, htight, hv2⟩ :=
        @ialloc_skip s T m type f inum hi hin (hu _) hrd (hused inum (le_refl _) hin)
      rw [e]
      by_cases hnext : inum + 1 < 200
      · exact ih st.inv (fun y => st.unheld y (hu y))
          (scanBudget_next hin hb hT2 st.bud htight hnext)
          (fun j h1 h2 => by rw [hv2]; exact hused j (by omega) h2)
      · cases f with
        | zero => rfl
        | succ g =>
          conv_lhs => unfold ialloc_loop
          simp only [bind_apply, getK_apply, st.inv.sb, mkfs_sb_ninodes, if_neg hnext,
            kpanic_apply]
    · conv_lhs => unfold ialloc_loop
      simp only [bind_apply, getK_apply, hi.sb, mkfs_sb_ninodes, if_neg hin, kpanic_apply]

/-- Outside an operation `bwrite` sends the buffer straight to the device. -/
theorem bwrite_idle {s : Kernel} {T : Set Nat} {m h X : Nat} (hi : FSInv s T m)
    (hh : s.held h X) (hout : s.log.outstanding = 0) :
    bwrite h s = Res.ok () ((s.setBuf h { s.buf h with disk := 1 }).flush h) := by
  have hci0 : CI (s.setBuf h { s.buf h with disk := 1 }) T m := hi.ci.setDisk_ci hh
  have hlocked : (s.buf h).locked ≠ 0 := by rw [(hi.ci.ok.lock h hh.1).1, hh.2.2]; simp
  have hbw : bwrite h s = log_write h (s.setBuf h { s.buf h with disk := 1 }) := by
    simp [bwrite, hlocked]
  have hh0 : (s.setBuf h { s.buf h with disk := 1 }).held h X :=
    ⟨hh.1, ⟨by simp [hh.2.1.1], by simp [hh.2.1.2]⟩, by simp [hh.2.2]⟩
  rw [hbw]
  unfold log_write
  have ho : (s.setBuf h { s.buf h with disk := 1 }).log.outstanding < 1 := by
    show s.log.outstanding < 1
    omega
  rw [if_pos ho]
  exact flush_held hci0.ok hh0

/-- A pinned buffer of another block stays in step with the log and the
device across `bwrite`. -/
theorem bwrite_keeps_synced {s s1 : Kernel} {T T1 : Set Nat} {m m1 h X j b : Nat}
    (hi : FSInv s T m) (hh : s.held h X) (e : bwrite h s = Res.ok () s1)
    (q : BwritePost s T m h X s1 T1 m1) (hj : s.held j b) (hne : b ≠ X) (hsy : s.synced j) :
    s1.synced j := by
  have hj1 := q.heldEq j b hj
  have hbn : (s.buf j).blockno = b := hj.2.1.2
  have hbn1 : (s1.buf j).blockno = b := hj1.1.2.1.2
  have hblo : FSSTART ≤ b := by
    by_contra hc
    have := hi.lg.low_free j hj.1 hj.2.1.1 (by rw [hbn]; omega)
    rw [hj.2.2] at this
    exact absurd this (by decide)
  by_cases hout : s.log.outstanding = 0
  · have e' := bwrite_idle hi hh hout
    rw [e] at e'
    injection e' with _ es
    have hjh : j ≠ h := by
      intro c; subst c
      exact hne (hj.2.1.2.symm.trans hh.2.1.2)
    have hlog : s1.log = s.log := by rw [es]; rfl
    have hbj : s1.buf j = s.buf j := by rw [es]; simp [hjh]
    have hrd : s1.ramdisk = Function.update s.ramdisk X (s.buf h).data := by
      rw [es]; simp [hh.2.1.2]
    have hn0 := hi.lg.idle hout
    constructor
    · intro k hk
      rw [hlog] at hk
      omega
    · intro _
      rw [hbj, hrd, hbn, Function.update_noteq hne, ← hbn]
      apply hsy.dev
      rintro ⟨k, hk, _⟩
      omega
  · obtain ⟨k, hk, hkX, hd⟩ := q.disk hout
    have hslot : ∀ i, s1.slot i = s.slot i := by
      intro i; unfold Kernel.slot; rw [q.inv.lg.start, hi.lg.start]
    have hlogrel : (s1.log.lh.n = s.log.lh.n ∧ s1.log.lh.block = s.log.lh.block) ∨
        (s1.log.lh.n = s.log.lh.n + 1 ∧
          s1.log.lh.block = Function.update s.log.lh.block s.log.lh.n X) := by
      by_cases hl : s.logged X
      · left
        have := (q.tight (Or.inr hl)).2.2
        rw [this]; exact ⟨rfl, rfl⟩
      · right
        exact q.fresh hout hl
    constructor
    · intro k2 hk2 hkb
      rw [hbn1] at hkb
      rw [hj1.2, hslot, hd]
      have hk2k : k2 ≠ k := by
        intro c; subst c
        exact hne (hkb.symm.trans hkX)
      have hsl : s.slot k2 ≠ s.slot k := by unfold Kernel.slot; omega
      rw [Function.update_noteq hsl]
      rcases hlogrel with ⟨hn, hb⟩ | ⟨hn, hb⟩
      · exact hsy.slot k2 (by omega) (by rw [hbn, ← hb]; exact hkb)
      · have hk2n : k2 ≠ s.log.lh.n := by
          intro c
          rw [hb, c, Function.update_same] at hkb
          exact hne hkb.symm
        rw [hb, Function.update_noteq hk2n] at hkb
        exact hsy.slot k2 (by omega) (by rw [hbn]; exact hkb)
    · intro hnl
      rw [hj1.2, hbn1, hd]
      have hksl : s.slot k < FSSTART := by rw [← hslot]; exact slot_lt q.inv.lg hk
      have hsl : b ≠ s.slot k := by omega
      rw [Function.update_noteq hsl, ← hbn]
      apply hsy.dev
      intro c
      apply hnl
      rw [hbn1, ← hbn]
      exact q.logged_mono _ c

/-- A pinned buffer of another block stays in step with the log and the
device across the read, change, `bwrite` and `brelse` of block `c`. -/
theorem update_block_synced {s : Kernel} {T : Set Nat} {m c j b : Nat} (hi : FSInv s T m)
    (hlo : FSSTART ≤ c) (hc : c < FSSIZE) (hu : s.unheld c)
    (hbud : s.warm T c ∨ (2 ≤ m ∧ s.log.lh.n + 2 ≤ LOGSIZE))
    (hj : s.held j b) (hne : b ≠ c) (hsy : s.synced j)
    {h : Nat} {s1 s3 s4 : Kernel} {d : Mem} (e1 : bread ROOTDEV c s = Res.ok h s1)
    (e3 : bwrite h (s1.store h d) = Res.ok () s3) (e4 : brelse h s3 = Res.ok () s4) :
    s4.synced j := by
  have hb1 : c ∈ T ∨ 1 ≤ m := by
    rcases hbud with h | h
    · exact Or.inl h.1
    · exact Or.inr (by omega)
  obtain ⟨h', s1', e1', p⟩ := fs_bread hi hlo hc hu hb1
  rw [e1] at e1'
  injection e1' with eh es
  subst eh es
  obtain ⟨T1, m1, hi1, hsub1, hbud1, htight1, hcT1⟩ : ∃ T1 m1, FSInv s1 T1 m1 ∧ T ⊆ T1 ∧
      m ≤ m1 + 1 ∧ (s.warm T c → T1 = T ∧ m1 = m) ∧ c ∈ T1 := by
    by_cases hT : c ∈ T
    · exact ⟨T, m, p.inv_in hT, le_refl T, by omega, fun _ => ⟨rfl, rfl⟩, hT⟩
    · exact ⟨insert c T, m - 1, p.inv, Set.subset_insert _ _, by omega,
        fun w => absurd w.1 hT, Set.mem_insert _ _⟩
  obtain ⟨hi2, hh2, hd2, hv2, hoth2⟩ := fs_store hi1 p.held hlo d
  have hlog2 : (s1.store h d).log = s.log := p.rest.log
  have hb2 : (s1.store h d).log.outstanding = 0 ∨ (s1.store h d).logged c ∨
      ((s1.store h d).log.lh.n + 2 ≤ LOGSIZE ∧ 1 ≤ m1) := by
    rcases hbud with w | w
    · rcases w.2 with o | l
      · exact Or.inl (by rw [hlog2]; exact o)
      · exact Or.inr (Or.inl ((logged_congr hlog2 c).2 l))
    · exact Or.inr (Or.inr ⟨by rw [hlog2]; exact w.2, by omega⟩)
  obtain ⟨s3', T3, m3, e3', q⟩ := fs_bwrite hi2 hh2 hlo hb2
  rw [e3] at e3'
  injection e3' with _ es3
  subst es3
  have hh3 : s3.held h c := (q.heldEq h c hh2).1
  obtain ⟨e4', _⟩ := fs_brelse q.inv hh3 q.synced
  rw [e4] at e4'
  injection e4' with _ es4
  subst es4
  have hjh : j ≠ h := held_ne_of_free hj p.was_free
  have hj1 := p.heldEq j b hj
  have hj2 := hoth2 j b hjh hj1.1
  -- after the read
  have hsy1 : s1.synced j := by
    constructor
    · intro k hk hkb
      rw [p.rest.log] at hk hkb
      rw [p.others j hjh] at hkb ⊢
      rw [slot_congr p.rest.log, p.disk]
      exact hsy.slot k hk hkb
    · intro hnl
      rw [p.others j hjh] at hnl ⊢
      rw [p.disk]
      exact hsy.dev (fun c => hnl ((logged_congr p.rest.log _).2 c))
  have hsy2 : (s1.store h d).synced j := by
    constructor
    · intro k hk hkb
      rw [store_buf_ne s1 d hjh] at hkb ⊢
      exact hsy1.slot k hk hkb
    · intro hnl
      rw [store_buf_ne s1 d hjh] at hnl ⊢
      exact hsy1.dev hnl
  have hsy3 := bwrite_keeps_synced hi2 hh2 e3 q hj2.1 hne hsy2
  constructor
  · intro k hk hkb
    rw [release_buf_ne s3 hjh] at hkb ⊢
    exact hsy3.slot k hk hkb
  · intro hnl
    rw [release_buf_ne s3 hjh] at hnl ⊢
    exact hsy3.dev hnl

/-- A pinned buffer of a block other than the bitmap block stays in step with
the log and the device across `bfree`. -/
theorem bfree_synced {s s1 : Kernel} {T : Set Nat} {m bno j b : Nat} (hi : FSInv s T m)
    (hub : s.unheld BMAPBLOCK) (hb : bno < FSSIZE)
    (hbud : s.warm T BMAPBLOCK ∨ (2 ≤ m ∧ s.log.lh.n + 2 ≤ LOGSIZE))
    (e : bfree ROOTDEV bno s = Res.ok () s1)
    (hj : s.held j b) (hne : b ≠ BMAPBLOCK) (hsy : s.synced j) : s1.synced j := by
  have hbm1 : FSSTART ≤ BMAPBLOCK := by decide
  have hbm2 : BMAPBLOCK < FSSIZE := by decide
  have hlt : bno < BPB := by unfold FSSIZE at hb; unfold BPB BSIZE; omega
  have h3 : BBLOCK bno s.sb = BMAPBLOCK := by rw [hi.sb]; exact BBLOCK_mkfs hlt
  have h4 : bno % BPB = bno := Nat.mod_eq_of_lt hlt
  obtain ⟨h, t1, e1, hd1, hr1, hrest⟩ := update_block hi hbm1 hbm2 hub hbud
  obtain ⟨s3, s4, T4, m4, e3, e4, _⟩ := hrest (clear_bit (s.view BMAPBLOCK) bno)
  cases hc : bit_clear (s.view BMAPBLOCK) bno with
  | true =>
    rw [(bfree_spec hi hub hb hbud).1 hc] at e
    cases e
  | false =>
    have e' : bfree ROOTDEV bno s = Res.ok () s4 := by
      unfold bfree
      simp only [bind_apply, getK_apply, h3, e1, hd1, h4, hc, Bool.false_eq_true, ↓reduceIte,
        setData_ok]
      have e3' : bwrite h (t1.store h (Function.update (s.view BMAPBLOCK) (bno / 8)
        (s.view BMAPBLOCK (bno / 8) % 256 &&& (255 - bitmask bno)))) = Res.ok () s3 := e3
      simp only [e3', e4]
    rw [e] at e'
    injection e' with _ es
    subst es
    exact update_block_synced hi hbm1 hbm2 hub hbud hj hne hsy e1 e3 e4

/-- The function `bfree` when `pb` units pay for the bitmap block: nothing is
needed once the bitmap block is current in the operation. -/
theorem bfree_pay {s : Kernel} {T : Set Nat} {m bno pb : Nat} (hi : FSInv s T m)
    (hub : s.unheld BMAPBLOCK) (hb : bno < FSSIZE)
    (hpay : s.warm T BMAPBLOCK ∨ 1 ≤ pb) (hm : 2 * pb ≤ m)
    (hn : s.log.lh.n + pb + 1 ≤ LOGSIZE)
    (hset : bit_clear (s.view BMAPBLOCK) bno = false) :
    ∃ s1 T1 m1, bfree ROOTDEV bno s = Res.ok () s1 ∧ Step s T m s1 T1 m1 (2 * pb) pb ∧
      s1.warm T1 BMAPBLOCK ∧
      s1.view BMAPBLOCK = clear_bit (s.view BMAPBLOCK) bno ∧
      (∀ x, FSSTART ≤ x → x ≠ BMAPBLOCK → s1.view x = s.view x) ∧
      (∀ j b, s.held j b → b ≠ BMAPBLOCK → s.synced j → s1.synced j) := by
  have hbud : s.warm T BMAPBLOCK ∨ (2 ≤ m ∧ s.log.lh.n + 2 ≤ LOGSIZE) := by
    rcases hpay with h | h
    · exact Or.inl h
    · exact Or.inr ⟨by omega, by omega⟩
  obtain ⟨s1, T1, m1, e, st, hw, htight, hv, hoth⟩ := (bfree_spec hi hub hb hbud).2 hset
  refine ⟨s1, T1, m1, e, ?_, hw, hv, hoth, fun j b hj hne hsy =>
    bfree_synced hi hub hb hbud e hj hne hsy⟩
  refine ⟨st.inv, st.sub, ?_, ?_, st.warm, st.heldEq, st.unheld, st.rest, st.mem⟩
  · rcases hpay with h | h
    · rw [(htight h).2.1]; omega
    · have := st.bud; omega
  · rcases hpay with h | h
    · rw [(htight h).2.2]; omega
    · have := st.n_le; omega

theorem klog_inited_of {k : Klog} (h : k.inited ≠ 0) : klog_inited k = k := by
  unfold klog_inited
  rw [if_neg h]

theorem klogf_filtered {k : Klog} (c : KlogCall) (h : k.inited ≠ 0)
    (hl : c.level < k.level_threshold) :
    klogf c.level c.tag c.ts c.msg k = { k with filtered := (k.filtered + 1) % U64 } := by
  unfold klogf
  rw [klog_inited_of h]
  simp only [if_pos hl]

theorem klogf_kept {k : Klog} (c : KlogCall) (h : k.inited ≠ 0)
    (hl : ¬ c.level < k.level_threshold) :
    (klogf c.level c.tag c.ts c.msg k).inited = k.inited ∧
    (klogf c.level c.tag c.ts c.msg k).level_threshold = k.level_threshold ∧
    (klogf c.level c.tag c.ts c.msg k).filtered = k.filtered ∧
    (klogf c.level c.tag c.ts c.msg k).head = (k.head + 1) % KLOG_NENTRY ∧
    (klogf c.level c.tag c.ts c.msg k).total_written = (k.total_written + 1) % U64 ∧
    (k.count = KLOG_NENTRY →
      (klogf c.level c.tag c.ts c.msg k).count = k.count ∧
      (klogf c.level c.tag c.ts c.msg k).overwritten = (k.overwritten + 1) % U64) ∧
    (k.count ≠ KLOG_NENTRY →
      (klogf c.level c.tag c.ts c.msg k).count = (k.count + 1) % U32 ∧
      (klogf c.level c.tag c.ts c.msg k).overwritten = k.overwritten) := by
  unfold klogf
  rw [klog_inited_of h]
  simp only [if_neg hl]
  by_cases hc : k.count = KLOG_NENTRY
  · simp [hc]
  · simp [hc]

/-- The counters after a sequence of `klogf` calls from an initialised state
whose count does not exceed the ring size. -/
theorem klog_run_counts : ∀ (cs : List KlogCall) (k : Klog), k.inited ≠ 0 →
    k.count ≤ KLOG_NENTRY →
    (klog_run cs k).inited = k.inited ∧
    (klog_run cs k).level_threshold = k.level_threshold ∧
    (klog_run cs k).count = min (k.count + klog_kept k.level_threshold cs) KLOG_NENTRY ∧
    (klog_run cs k).overwritten % U64 =
      (k.overwritten + (k.count + klog_kept k.level_threshold cs - KLOG_NENTRY)) % U64 ∧
    (klog_run cs k).filtered % U64 =
      (k.filtered + (cs.length - klog_kept k.level_threshold cs)) % U64 ∧
    klog_kept k.level_threshold cs ≤ cs.length := by
  have hN : KLOG_NENTRY = 256 := rfl
  have hU : U64 = 18446744073709551616 := by unfold U64; norm_num
  have hU32 : U32 = 4294967296 := by unfold U32; norm_num
  intro cs
  induction cs with
  | nil =>
    intro k _ hc
    refine ⟨rfl, rfl, ?_, ?_, ?_, le_refl _⟩
    · show k.count = min (k.count + 0) KLOG_NENTRY
      omega
    · show k.overwritten % U64 = (k.overwritten + (k.count + 0 - KLOG_NENTRY)) % U64
      rw [show k.count + 0 - KLOG_NENTRY = 0 by omega]
      rfl
    · rfl
  | cons c cs ih =>
    intro k hin hc
    have hrun : klog_run (c :: cs) k = klog_run cs (klogf c.level c.tag c.ts c.msg k) := rfl
    rw [hrun]
    by_cases hl : c.level < k.level_threshold
    · have hk : klog_kept k.level_threshold (c :: cs) = klog_kept k.level_threshold cs := by
        unfold klog_kept
        rw [List.filter_cons_of_neg (by simpa using hl)]
      rw [klogf_filtered c hin hl, hk]
      obtain ⟨h1, h2, h3, h4, h5, h6⟩ :=
        ih { k with filtered := (k.filtered + 1) % U64 } hin hc
      have h6' : klog_kept k.level_threshold cs ≤ cs.length := h6
      refine ⟨h1, h2, h3, h4, ?_, Nat.le_succ_of_le h6'⟩
      rw [h5]
      show ((k.filtered + 1) % U64 + (cs.length - klog_kept k.level_threshold cs)) % U64 =
        (k.filtered + ((c :: cs).length - klog_kept k.level_threshold cs)) % U64
      clear h1 h2 h3 h4 h5 h6
      simp only [List.length_cons]
      rw [hU]
      omega
    · have hk : klog_kept k.level_threshold (c :: cs) = klog_kept k.level_threshold cs + 1 := by
        unfold klog_kept
        rw [List.filter_cons_of_pos (by simpa using hl)]
        rfl
      obtain ⟨g1, g2, g3, g4, g5, g6, g7⟩ := klogf_kept c hin hl
      have hin1 : (klogf c.level c.tag c.ts c.msg k).inited ≠ 0 := by rw [g1]; exact hin
      have hc1 : (klogf c.level c.tag c.ts c.msg k).count ≤ KLOG_NENTRY := by
        by_cases e : k.count = KLOG_NENTRY
        · rw [(g6 e).1]; exact hc
        · rw [(g7 e).1, hU32]; omega
      obtain ⟨h1, h2, h3, h4, h5, h6⟩ := ih _ hin1 hc1
      rw [g2] at h3 h4 h5 h6
      rw [hk]
      refine ⟨h1.trans g1, h2.trans g2, ?_, ?_, ?_, Nat.succ_le_succ h6⟩
      · rw [h3]
        by_cases e : k.count = KLOG_NENTRY
        · rw [(g6 e).1]; omega
        · rw [(g7 e).1, hU32]; omega
      · rw [h4]
        by_cases e : k.count = KLOG_NENTRY
        · rw [(g6 e).1, (g6 e).2, hU]; omega
        · rw [(g7 e).1, (g7 e).2, hU32, hU]
          have : (k.count + 1) % 4294967296 = k.count + 1 := by omega
          rw [this]
          have : k.count + 1 + klog_kept k.level_threshold cs - KLOG_NENTRY =
              k.count + (klog_kept k.level_threshold cs + 1) - KLOG_NENTRY := by omega
          rw [this]
      · rw [h5, g3]
        simp only [List.length_cons]
        have : cs.length + 1 - (klog_kept k.level_threshold cs + 1) =
            cs.length - klog_kept k.level_threshold cs := by omega
        rw [this]

theorem klogf_typed (c : KlogCall) (k : Klog) (ho : k.overwritten < U64) (hf : k.filtered < U64)
    (hin : k.inited ≠ 0) :
    (klogf c.level c.tag c.ts c.msg k).overwritten < U64 ∧
    (klogf c.level c.tag c.ts c.msg k).filtered < U64 := by
  have hpos : 0 < U64 := by unfold U64; norm_num
  by_cases hl : c.level < k.level_threshold
  · rw [klogf_filtered c hin hl]
    exact ⟨ho, Nat.mod_lt _ hpos⟩
  · obtain ⟨_, _, g3, _, _, g6, g7⟩ := klogf_kept c hin hl
    rw [g3]
    refine ⟨?_, hf⟩
    by_cases e : k.count = KLOG_NENTRY
    · rw [(g6 e).2]; exact Nat.mod_lt _ hpos
    · rw [(g7 e).2]; exact ho

theorem klog_run_typed : ∀ (cs : List KlogCall) (k : Klog), k.inited ≠ 0 →
    k.overwritten < U64 → k.filtered < U64 →
    (klog_run cs k).overwritten < U64 ∧ (klog_run cs k).filtered < U64 := by
  intro cs
  induction cs with
  | nil => intro k _ ho hf; exact ⟨ho, hf⟩
  | cons c cs ih =>
    intro k hin ho hf
    have hrun : klog_run (c :: cs) k = klog_run cs (klogf c.level c.tag c.ts c.msg k) := rfl
    rw [hrun]
    obtain ⟨t1, t2⟩ := klogf_typed c k ho hf hin
    have hin1 : (klogf c.level c.tag c.ts c.msg k).inited ≠ 0 := by
      by_cases hl : c.level < k.level_threshold
      · rw [klogf_filtered c hin hl]; exact hin
      · rw [(klogf_kept c hin hl).1]; exact hin
    exact ih _ hin1 t1 t2

/-! ## Consistency check (`kernel/fs_debug.c`) -/

theorem HasFree.fewer {bm : Mem} {r r' : Nat} (h : HasFree bm r) (hr : r' ≤ r) : HasFree bm r' := by
  obtain ⟨L, hn, hl, hb⟩ := h
  refine ⟨L.take r', hn.sublist (List.take_sublist _ _), ?_, ?_⟩
  · rw [List.length_take, hl]; omega
  · intro b hbm
    exact hb b (List.mem_of_mem_take hbm)

/-- With a free data block in the bitmap there is a first one, and taking it
leaves one free block less. -/
theorem first_free_of {bm : Mem} {r : Nat}
    (hmeta : ∀ b, b < DATASTART → bit_clear bm b = false) (h : HasFree bm (r + 1)) :
    ∃ a, FirstFree bm a ∧ HasFree (set_bit bm a) r := by
  obtain ⟨L, hn, hl, hb⟩ := h
  obtain ⟨b0, L0, rfl⟩ : ∃ b0 L0, L = b0 :: L0 := by
    cases L with
    | nil => simp at hl
    | cons b0 L0 => exact ⟨b0, L0, rfl⟩
  have hex : ∃ b, bit_clear bm b = true := ⟨b0, (hb b0 (List.mem_cons_self _ _)).2.2⟩
  have ha := Nat.find_spec hex
  have hmin : ∀ b, b < Nat.find hex → bit_clear bm b = false := by
    intro b hlt
    have := Nat.find_min hex hlt
    simpa using this
  have hle : Nat.find hex ≤ b0 := Nat.find_min' hex (hb b0 (List.mem_cons_self _ _)).2.2
  have hlo : DATASTART ≤ Nat.find hex := by
    by_contra hc
    have := hmeta _ (Nat.lt_of_not_le hc)
    rw [ha] at this
    cases this
  refine ⟨Nat.find hex, ⟨hlo, lt_of_le_of_lt hle (hb b0 (List.mem_cons_self _ _)).2.1, ha, hmin⟩, ?_⟩
  by_cases hm : Nat.find hex ∈ b0 :: L0
  · refine ⟨(b0 :: L0).erase (Nat.find hex), hn.erase _, ?_, ?_⟩
    · rw [List.length_erase_of_mem hm, hl]; rfl
    · intro b hbm
      have hb' := (List.Nodup.mem_erase_iff hn).1 hbm
      obtain ⟨h1, h2, h3⟩ := hb b hb'.2
      refine ⟨h1, h2, ?_⟩
      rw [bit_clear_set_bit, h3]
      simp [hb'.1]
  · refine ⟨L0, (List.nodup_cons.1 hn).2, by simpa using hl, ?_⟩
    intro b hbm
    obtain ⟨h1, h2, h3⟩ := hb b (List.mem_cons_of_mem _ hbm)
    refine ⟨h1, h2, ?_⟩
    rw [bit_clear_set_bit, h3]
    have : b ≠ Nat.find hex := fun e => hm (e ▸ List.mem_cons_of_mem _ hbm)
    simp [this]

/-- At a clean point with no buffer pinned every step is free, also one that
changes the inode cache. -/
theorem CStep.calm_cstep {s s1 : Kernel} {T T1 : Set Nat} {m m1 c l : Nat} (hi : FSInv s T m)
    (st : CStep s T m s1 T1 m1 c l) (hq : Calm s T m) (hfree : ∀ x, s.unheld x) :
    CStep s T m s1 ∅ s1.lru.length 0 0 ∧ Calm s1 ∅ s1.lru.length := by
  obtain ⟨hT, hm, hout⟩ := hq
  have hout1 : s1.log.outstanding = 0 := by rw [st.outstanding]; exact hout
  have hfree1 : ∀ x, s1.unheld x := fun x => st.unheld x (hfree x)
  have hlen := lru_length_of_mem hi.ci.ok st.inv.ci.ok st.mem
  refine ⟨⟨st.inv.reset_fs hout1 hfree1, by rw [hT], by omega, ?_, ?_, st.heldEq, st.unheld,
    st.sb, st.outstanding, st.committing, st.mem⟩, rfl, rfl, hout1⟩
  · rw [st.inv.lg.idle hout1]; omega
  · intro x hx
    rw [hT] at hx
    exact absurd hx.1 (Set.not_mem_empty x)

/-- Reading block `c`, changing it, `bwrite` and `brelse` when `u` units pay
for it: nothing is needed if `c` is warm. -/
theorem update_block_pay {s : Kernel} {T : Set Nat} {m c u : Nat} (hi : FSInv s T m)
    (hlo : FSSTART ≤ c) (hc : c < FSSIZE) (hu : s.unheld c)
    (hpay : s.warm T c ∨ 1 ≤ u) (hm : 2 * u ≤ m) (hn : s.log.lh.n + u + 1 ≤ LOGSIZE) :
    ∃ h s1, bread ROOTDEV c s = Res.ok h s1 ∧ (s1.buf h).data = s.view c ∧ Rest s s1 ∧
      ∀ d : Mem, ∃ s3 s4 T4 m4, bwrite h (s1.store h d) = Res.ok () s3 ∧
        brelse h s3 = Res.ok () s4 ∧ Step s T m s4 T4 m4 (2 * u) u ∧ s4.warm T4 c ∧
        (∀ x, FSSTART ≤ x → s4.view x = Function.update s.view c d x) := by
  have hbud : s.warm T c ∨ (2 ≤ m ∧ s.log.lh.n + 2 ≤ LOGSIZE) := by
    rcases hpay with h | h
    · exact Or.inl h
    · exact Or.inr ⟨by omega, by omega⟩
  obtain ⟨h, s1, e1, hd1, hr1, hrest⟩ := update_block hi hlo hc hu hbud
  refine ⟨h, s1, e1, hd1, hr1, ?_⟩
  intro d
  obtain ⟨s3, s4, T4, m4, e3, e4, st, hw, htight, hv⟩ := hrest d
  refine ⟨s3, s4, T4, m4, e3, e4, ?_, hw, hv⟩
  refine ⟨st.inv, st.sub, ?_, ?_, st.warm, st.heldEq, st.unheld, st.rest, st.mem⟩
  · rcases hpay with h | h
    · rw [(htight h).2.1]; omega
    · have := st.bud; omega
  · rcases hpay with h | h
    · rw [(htight h).2.2]; omega
    · have := st.n_le; omega

theorem baddr_direct (s : Kernel) (ip : Nat) {bn : Nat} (h : bn < NDIRECT) :
    s.baddr ip bn = (s.inode ip).addrs bn := by
  unfold Kernel.baddr
  rw [if_pos h]

theorem baddr_indirect (s : Kernel) (ip : Nat) {bn : Nat} (h : ¬ bn < NDIRECT)
    (hind : (s.inode ip).addrs NDIRECT ≠ 0) :
    s.baddr ip bn = rd32 (s.view ((s.inode ip).addrs NDIRECT)) (4 * (bn - NDIRECT)) := by
  unfold Kernel.baddr
  rw [if_neg h, if_neg hind]

theorem baddr_no_indirect (s : Kernel) (ip : Nat) {bn : Nat} (h : ¬ bn < NDIRECT)
    (hind : (s.inode ip).addrs NDIRECT = 0) : s.baddr ip bn = 0 := by
  unfold Kernel.baddr
  rw [if_neg h, if_pos hind]

theorem InData.pos {s : Kernel} {a : Nat} (h : InData s a) : a ≠ 0 := by
  have := h.1
  unfold DATASTART at this
  omega

theorem InData.of_bits {s s1 : Kernel} {a : Nat} (h : InData s a)
    (hb : ∀ x, bit_clear (s.view BMAPBLOCK) x = false → bit_clear (s1.view BMAPBLOCK) x = false) :
    InData s1 a := ⟨h.1, h.2.1, hb a h.2.2⟩

theorem Writable.of_eq {s t : Kernel} {ip : Nat} (h : Writable s ip) (hv : t.view = s.view)
    (hn : t.inode = s.inode) : Writable t ip := by
  have hb : ∀ bn, t.baddr ip bn = s.baddr ip bn := fun bn => baddr_congr hv hn ip bn
  refine ⟨by rw [hn]; exact h.dev, by rw [hv]; exact h.metaSet, ?_, ?_, ?_, ?_⟩
  · intro bn hbn hnz
    rw [hb] at hnz ⊢
    have := h.map bn hbn hnz
    exact ⟨this.1, this.2.1, by rw [hv]; exact this.2.2⟩
  · intro hnz
    rw [hn] at hnz ⊢
    have := h.ind hnz
    exact ⟨this.1, this.2.1, by rw [hv]; exact this.2.2⟩
  · intro bn bn' h1 h2 hnz he
    rw [hb] at hnz
    rw [hb, hb] at he
    exact h.inj bn bn' h1 h2 hnz he
  · intro bn h1 hnz
    rw [hb] at hnz ⊢
    rw [hn]
    exact h.ind_ne bn h1 hnz

/-- A writable file stays writable when block `bn`, unmapped so far, is
mapped to a block `a` that was free, the other mappings are kept, the bitmap
only gains bits, and the indirect pointer is kept or is a block that was
free, other than `a`. -/
theorem Writable.add {s s1 : Kernel} {ip bn a : Nat} (h : Writable s ip)
    (hdev : (s1.inode ip).dev = ROOTDEV)
    (hbits : ∀ x, bit_clear (s.view BMAPBLOCK) x = false →
      bit_clear (s1.view BMAPBLOCK) x = false)
    (hfresh : bit_clear (s.view BMAPBLOCK) a = true) (ha : InData s1 a)
    (hhere : s1.baddr ip bn = a)
    (hoth : ∀ bn', bn' < MAXFILE → bn' ≠ bn → s1.baddr ip bn' = s.baddr ip bn')
    (hind : (s1.inode ip).addrs NDIRECT ≠ 0 → InData s1 ((s1.inode ip).addrs NDIRECT) ∧
      ((s1.inode ip).addrs NDIRECT = (s.inode ip).addrs NDIRECT ∨
        bit_clear (s.view BMAPBLOCK) ((s1.inode ip).addrs NDIRECT) = true))
    (hne : a ≠ (s1.inode ip).addrs NDIRECT) : Writable s1 ip := by
  have hold : ∀ bn', bn' < MAXFILE → bn' ≠ bn → s1.baddr ip bn' ≠ 0 →
      InData s (s1.baddr ip bn') := by
    intro bn' h1 h2 hnz
    rw [hoth bn' h1 h2] at hnz ⊢
    exact h.map bn' h1 hnz
  have hdiff : ∀ x, InData s x → x ≠ a := by
    intro x hx e
    have h3 := hx.2.2
    rw [e, hfresh] at h3
    exact absurd h3 (by decide)
  refine ⟨hdev, fun b hb => hbits b (h.metaSet b hb), ?_, fun hnz => (hind hnz).1, ?_, ?_⟩
  · intro bn' h1 hnz
    by_cases e : bn' = bn
    · rw [e, hhere]; exact ha
    · exact (hold bn' h1 e hnz).of_bits hbits
  · intro b1 b2 h1 h2 hnz he
    by_cases e1 : b1 = bn
    · by_cases e2 : b2 = bn
      · rw [e1, e2]
      · exfalso
        rw [e1, hhere] at he
        have hnz2 : s1.baddr ip b2 ≠ 0 := by rw [← he]; exact ha.pos
        exact hdiff _ (hold b2 h2 e2 hnz2) he.symm
    · by_cases e2 : b2 = bn
      · exfalso
        rw [e2, hhere] at he
        exact hdiff _ (hold b1 h1 e1 hnz) he
      · rw [hoth b1 h1 e1] at hnz he
        rw [hoth b2 h2 e2] at he
        exact h.inj b1 b2 h1 h2 hnz he
  · intro b1 h1 hnz
    by_cases e1 : b1 = bn
    · rw [e1, hhere]; exact hne
    · have hin := hold b1 h1 e1 hnz
      intro e
      have hnz1 : (s1.inode ip).addrs NDIRECT ≠ 0 := by rw [← e]; exact hnz
      rcases (hind hnz1).2 with h2 | h2
      · rw [hoth b1 h1 e1] at hnz e
        rw [h2] at e
        exact h.ind_ne b1 h1 hnz e
      · rw [← e] at h2
        have h3 := hin.2.2
        rw [h2] at h3
        exact absurd h3 (by decide)

theorem bit_set_of_set_bit (bm : Mem) (a x : Nat) (h : bit_clear bm x = false) :
    bit_clear (set_bit bm a) x = false := by
  rw [bit_clear_set_bit, h]
  simp

theorem bit_set_self (bm : Mem) (a : Nat) : bit_clear (set_bit bm a) a = false := by
  rw [bit_clear_set_bit]
  simp

theorem zero_block (d : Mem) (i : Nat) (h : i < BSIZE) : memset_local d 0 0 BSIZE i = 0 := by
  unfold memset_local
  rw [if_pos ⟨Nat.zero_le _, by omega⟩]

/-- `bmap(ip, bn, 1)` on a direct block that is mapped. -/
theorem bmap_alloc_direct_kept {s : Kernel} {T : Set Nat} {m ip bn R eb el r : Nat}
    (hi : FSInv s T m) (hfree : ∀ x, s.unheld x) (hw : Writable s ip) (hd : bn < NDIRECT)
    (hnz : (s.inode ip).addrs bn ≠ 0)
    (hfr : HasFree (s.view BMAPBLOCK) (r + 2)) (hb : WBudget s T m ip (R + 1) eb el) :
    ∃ s1 T1 m1 addr c l, bmap ip bn true s = Res.ok addr s1 ∧ CStep s T m s1 T1 m1 c l ∧
      BmapPost s ip bn s1 addr ∧ HasFree (s1.view BMAPBLOCK) r ∧
      WBudgetU s1 T1 m1 ip R eb el addr := by
  have hba := baddr_direct s ip hd
  refine ⟨s, T, m, (s.inode ip).addrs bn, 0, 0, ?_, CStep.refl_cstep hi, ?_, hfr.fewer (by omega), ?_⟩
  · rw [bmap_eq]
    simp only [bind_apply, getK_apply, if_pos hd]
    rw [if_neg (by simp [hnz])]
    rfl
  · exact ⟨hfree, hw, hba, hnz, fun _ _ _ => rfl, fun _ => ⟨hba.symm, rfl⟩,
      fun h0 => absurd (hba ▸ h0) hnz, fun _ _ _ _ _ => rfl, fun _ h => h, rfl, rfl, rfl, rfl,
      rfl, rfl, rfl, rfl, rfl, fun _ _ => rfl, rfl, rfl, Or.inl rfl⟩
  · obtain ⟨pb, pi, pr, h1, h2, h3, h4, h5, h6⟩ := hb
    exact ⟨pb, pi, pr, 1, Or.inr (le_refl 1), h1, h2, h3, h4, by omega, by omega⟩

/-- `bmap(ip, bn, 1)` on a direct block that is not mapped. -/
theorem bmap_alloc_direct_fresh {s : Kernel} {T : Set Nat} {m ip bn R eb el r : Nat}
    (hi : FSInv s T m) (hfree : ∀ x, s.unheld x) (hw : Writable s ip) (hd : bn < NDIRECT)
    (hz : (s.inode ip).addrs bn = 0)
    (hfr : HasFree (s.view BMAPBLOCK) (r + 2)) (hb : WBudget s T m ip (R + 1) eb el) :
    ∃ s1 T1 m1 addr c l, bmap ip bn true s = Res.ok addr s1 ∧ CStep s T m s1 T1 m1 c l ∧
      BmapPost s ip bn s1 addr ∧ HasFree (s1.view BMAPBLOCK) r ∧
      WBudgetU s1 T1 m1 ip R eb el addr := by
  have hba := baddr_direct s ip hd
  have hN : NDIRECT = 12 := rfl
  have hMF : MAXFILE = 1036 := rfl
  obtain ⟨pb, pi, pr, h1, h2, h3, h4, h5, h6⟩ := hb
  obtain ⟨a, hff, hfr1⟩ := first_free_of hw.metaSet (hfr.fewer (show r + 1 ≤ r + 2 by omega))
  obtain ⟨s1, T1, m1, e, st, hu1, hwb, hwa, hvb, hva, hvo⟩ :=
    @balloc_into_addr s T m ip bn a pb hi hfree hw.dev hff h1 (by omega) (by omega)
  have hino : s1.inode = s.inode := st.rest.inode
  have hne_bm : a ≠ BMAPBLOCK := by
    have := hff.lo
    unfold DATASTART at this
    unfold BMAPBLOCK
    omega
  have hbits : ∀ x, bit_clear (s.view BMAPBLOCK) x = false →
      bit_clear (s1.view BMAPBLOCK) x = false := by
    intro x hx
    rw [hvb]
    exact bit_set_of_set_bit _ _ _ hx
  generalize hS : s1.setInode ip { s1.inode ip with
      addrs := Function.update (s1.inode ip).addrs bn a } = s2 at e
  have hv2 : s2.view = s1.view := by rw [← hS]; rfl
  have hi2 : s2.inode ip = { s.inode ip with addrs := Function.update (s.inode ip).addrs bn a } := by
    rw [← hS, ← hino]; simp [Kernel.setInode]
  have hj2 : ∀ j, j ≠ ip → s2.inode j = s.inode j := by
    intro j hj
    rw [← hS, ← hino]; simp [Kernel.setInode, hj]
  have hind2 : (s2.inode ip).addrs NDIRECT = (s.inode ip).addrs NDIRECT := by
    rw [hi2]
    show Function.update (s.inode ip).addrs bn a NDIRECT = _
    rw [Function.update_noteq (by omega)]
  have hvind : (s.inode ip).addrs NDIRECT ≠ 0 →
      s2.view ((s.inode ip).addrs NDIRECT) = s.view ((s.inode ip).addrs NDIRECT) := by
    intro hnz
    have hin := hw.ind hnz
    rw [hv2]
    refine hvo _ ?_ ?_ ?_
    · have := hin.1; unfold DATASTART at this; unfold FSSTART; omega
    · have := hin.1; unfold DATASTART at this; unfold BMAPBLOCK; omega
    · intro e'
      have h3' := hin.2.2
      rw [e', hff.clear] at h3'
      exact absurd h3' (by decide)
  have hhere : s2.baddr ip bn = a := by
    rw [baddr_direct s2 ip hd, hi2]
    show Function.update (s.inode ip).addrs bn a bn = a
    rw [Function.update_same]
  have hoth : ∀ bn', bn' < MAXFILE → bn' ≠ bn → s2.baddr ip bn' = s.baddr ip bn' := by
    intro bn' _ hne
    by_cases hd' : bn' < NDIRECT
    · rw [baddr_direct s2 ip hd', baddr_direct s ip hd', hi2]
      show Function.update (s.inode ip).addrs bn a bn' = _
      rw [Function.update_noteq hne]
    · by_cases hnz : (s.inode ip).addrs NDIRECT = 0
      · rw [baddr_no_indirect s2 ip hd' (hind2.trans hnz), baddr_no_indirect s ip hd' hnz]
      · rw [baddr_indirect s2 ip hd' (by rw [hind2]; exact hnz), baddr_indirect s ip hd' hnz,
          hind2, hvind hnz]
  have ha2 : InData s2 a := ⟨hff.lo, hff.hi, by rw [hv2, hvb]; exact bit_set_self _ _⟩
  have hbits2 : ∀ x, bit_clear (s.view BMAPBLOCK) x = false →
      bit_clear (s2.view BMAPBLOCK) x = false := by
    intro x hx; rw [hv2]; exact hbits x hx
  have hdev2 : (s2.inode ip).dev = ROOTDEV := by rw [hi2]; exact hw.dev
  have hw2 : Writable s2 ip := by
    refine hw.add hdev2 hbits2 hff.clear ha2 hhere hoth ?_ ?_
    · intro hnz
      rw [hind2] at hnz ⊢
      exact ⟨(hw.ind hnz).of_bits hbits2, Or.inl rfl⟩
    · rw [hind2]
      intro e'
      by_cases hnz : (s.inode ip).addrs NDIRECT = 0
      · rw [hnz] at e'
        exact ha2.pos e'
      · have h3' := (hw.ind hnz).2.2
        rw [← e', hff.clear] at h3'
        exact absurd h3' (by decide)
  have cst : CStep s T m s2 T1 m1 (2 * (pb + 1) + 0) (pb + 1 + 0) :=
    st.toCStep.trans_cstep (hS ▸ CStep.of_frame st.inv rfl rfl rfl rfl rfl)
  have hwarm2 : ∀ x, s1.warm T1 x → s2.warm T1 x := by
    intro x hx
    exact (hS ▸ CStep.of_frame st.inv rfl rfl rfl rfl rfl :
      CStep s1 T1 m1 s2 T1 m1 0 0).warm x hx
  refine ⟨s2, T1, m1, a, _, _, ?_, cst, ?_, ?_, ?_⟩
  · rw [bmap_eq]
    simp only [bind_apply, getK_apply, if_pos hd]
    rw [if_pos ⟨hz, trivial⟩]
    exact e
  · refine ⟨fun x => unheld_of_cache_eq (hu1 x) (by rw [← hS]; rfl) (by rw [← hS]; rfl), hw2,
      hhere, ha2.pos, hoth, fun hnz => absurd (hba.trans hz) hnz, fun _ => ⟨hff.clear, ?_⟩,
      ?_, hbits2, by rw [hi2], by rw [hi2], by rw [hi2], by rw [hi2], by rw [hi2], by rw [hi2],
      by rw [hi2], by rw [hi2], by rw [hi2], hj2, by rw [← hS]; exact st.rest.file,
      by rw [← hS]; exact st.rest.g_ofile, Or.inl hind2⟩
    · intro i hi'
      rw [hv2, hva]
      exact zero_block _ _ hi'
    · intro x hx hxb hxs _
      rw [hv2]
      refine hvo x hx hxb ?_
      intro e'
      rw [e', hff.clear] at hxs
      exact absurd hxs (by decide)
  · rw [hv2, hvb]; exact hfr1
  · refine ⟨0, pi, pr, 0, Or.inl (hwarm2 _ hwa), Or.inl (hwarm2 _ hwb), ?_, ?_, ?_, ?_, ?_⟩
    · intro hnz
      rw [hind2] at hnz ⊢
      rcases h2 hnz with w | w
      · exact Or.inl (cst.warm _ w)
      · exact Or.inr w
    · intro hnz
      rw [hind2] at hnz
      exact h3 hnz
    · intro hnz
      rw [hind2] at hnz ⊢
      rcases h4 hnz with w | w
      · exact Or.inl (cst.sub w)
      · exact Or.inr w
    · have := cst.bud
      omega
    · have := cst.n_le
      omega

theorem rd32_wr32_other (d : Mem) (k k' v : Nat) (h : k' ≠ k) :
    rd32 (wr32 d (4 * k) v) (4 * k') = rd32 d (4 * k') :=
  rd32_congr (fun i h1 h2 => wr32_outside _ _ _ _ (by omega))

/-- `bmap(ip, bn, 1)` on an indirect block number whose entry is set. -/
theorem bmap_alloc_entry_kept {s : Kernel} {T : Set Nat} {m ip bn R eb el r : Nat}
    (hi : FSInv s T m) (hfree : ∀ x, s.unheld x) (hw : Writable s ip) (hd : ¬ bn < NDIRECT)
    (hbn : bn < MAXFILE) (hind : (s.inode ip).addrs NDIRECT ≠ 0)
    (hnz : rd32 (s.view ((s.inode ip).addrs NDIRECT)) (4 * (bn - NDIRECT)) ≠ 0)
    (hfr : HasFree (s.view BMAPBLOCK) r) (hb : WBudget s T m ip (R + 1) eb el) :
    ∃ s1 T1 m1 addr c l, bmap ip bn true s = Res.ok addr s1 ∧ CStep s T m s1 T1 m1 c l ∧
      BmapPost s ip bn s1 addr ∧ HasFree (s1.view BMAPBLOCK) r ∧
      WBudgetU s1 T1 m1 ip R eb el addr := by
  have hN : NDIRECT = 12 := rfl
  have hNI : NINDIRECT = 1024 := rfl
  have hMF : MAXFILE = 1036 := rfl
  have hba := baddr_indirect s ip hd hind
  have hin := hw.ind hind
  have hlo : FSSTART ≤ (s.inode ip).addrs NDIRECT := by
    have := hin.1; unfold DATASTART at this; unfold FSSTART; omega
  obtain ⟨pb, pi, pr, h1, h2, h3, h4, h5, h6⟩ := hb
  have hrd : (s.inode ip).addrs NDIRECT ∈ T ∨ 1 ≤ m := by
    rcases h4 hind with w | w
    · exact Or.inl w
    · exact Or.inr (by omega)
  obtain ⟨s1, T1, m1, e, st, hv, _, hlog, hT1, htight⟩ :=
    @bmap_rest_read s T m ip ((s.inode ip).addrs NDIRECT) (bn - NDIRECT) true hi hw.dev hlo
      hin.2.1 (hfree _) hrd (Or.inl hnz)
  have hino : s1.inode = s.inode := st.rest.inode
  refine ⟨s1, T1, m1, rd32 (s.view ((s.inode ip).addrs NDIRECT)) (4 * (bn - NDIRECT)), 1, 0, ?_,
    st.toCStep, ?_, by rw [hv]; exact hfr, ?_⟩
  · rw [bmap_eq]
    simp only [bind_apply, getK_apply, if_neg hd]
    rw [if_neg (by omega), if_neg hind]
    exact e
  · have hb1 : ∀ bn', s1.baddr ip bn' = s.baddr ip bn' := fun bn' => baddr_congr hv hino ip bn'
    exact ⟨fun x => st.unheld x (hfree x), hw.of_eq hv hino, (hb1 bn).trans hba,
      hnz, fun bn' _ _ => hb1 bn', fun _ => ⟨hba.symm, by rw [hv]⟩,
      fun h0 => absurd (hba ▸ h0) hnz, fun x _ _ _ _ => by rw [hv], fun x h => by rw [hv]; exact h,
      by rw [hino], by rw [hino], by rw [hino], by rw [hino], by rw [hino], by rw [hino],
      by rw [hino], by rw [hino], by rw [hino], fun j _ => by rw [hino], st.rest.file,
      st.rest.g_ofile, Or.inl (by rw [hino])⟩
  · refine ⟨pb, pi, 0, 1, Or.inr (le_refl 1), ?_, ?_, ?_, ?_, ?_, ?_⟩
    · rcases h1 with w | w
      · exact Or.inl (st.warm _ w)
      · exact Or.inr w
    · intro hnz'
      rw [hino] at hnz' ⊢
      rcases h2 hnz' with w | w
      · exact Or.inl (st.warm _ w)
      · exact Or.inr w
    · intro hz'
      rw [hino] at hz'
      exact h3 hz'
    · intro _
      rw [hino]
      exact Or.inl hT1
    · rcases h4 hind with w | w
      · rw [(htight w).2]; omega
      · have := st.bud; omega
    · rw [hlog]; omega

/-- `bmap(ip, bn, 1)` on an indirect block number whose entry is zero, the
indirect block being there. -/
theorem bmap_alloc_entry_fresh {s : Kernel} {T : Set Nat} {m ip bn R eb el r : Nat}
    (hi : FSInv s T m) (hfree : ∀ x, s.unheld x) (hw : Writable s ip) (hd : ¬ bn < NDIRECT)
    (hbn : bn < MAXFILE) (hind : (s.inode ip).addrs NDIRECT ≠ 0)
    (hz : rd32 (s.view ((s.inode ip).addrs NDIRECT)) (4 * (bn - NDIRECT)) = 0)
    (hfr : HasFree (s.view BMAPBLOCK) (r + 1)) (hb : WBudget s T m ip (R + 1) eb el) :
    ∃ s1 T1 m1 addr c l, bmap ip bn true s = Res.ok addr s1 ∧ CStep s T m s1 T1 m1 c l ∧
      BmapPost s ip bn s1 addr ∧ HasFree (s1.view BMAPBLOCK) r ∧
      WBudgetU s1 T1 m1 ip R eb el addr := by
  have hN : NDIRECT = 12 := rfl
  have hNI : NINDIRECT = 1024 := rfl
  have hMF : MAXFILE = 1036 := rfl
  have hba := baddr_indirect s ip hd hind
  have hin := hw.ind hind
  obtain ⟨pb, pi, pr, h1, h2, h3, h4, h5, h6⟩ := hb
  obtain ⟨a, hff, hfr1⟩ := first_free_of hw.metaSet hfr
  obtain ⟨s1, T1, m1, e, st, hu1, hwb, hwa, hwi, hvb, hva, hvi, hvo⟩ :=
    @bmap_rest_alloc s T m ip ((s.inode ip).addrs NDIRECT) (bn - NDIRECT) a pb pi hi hfree hw.dev
      hin.1 hin.2.1 hin.2.2 hz hff h1 (h2 hind) (by omega) (by omega)
  have hino : s1.inode = s.inode := st.rest.inode
  have haU : a < U32 := by
    have := hff.hi
    unfold FSSIZE at this
    unfold U32
    omega
  have hbits : ∀ x, bit_clear (s.view BMAPBLOCK) x = false →
      bit_clear (s1.view BMAPBLOCK) x = false := by
    intro x hx
    rw [hvb]
    exact bit_set_of_set_bit _ _ _ hx
  have hane : a ≠ (s.inode ip).addrs NDIRECT := by
    intro e'
    have h3' := hin.2.2
    rw [← e', hff.clear] at h3'
    exact absurd h3' (by decide)
  have hhere : s1.baddr ip bn = a := by
    rw [baddr_indirect s1 ip hd (by rw [hino]; exact hind), hino, hvi]
    exact rd32_wr32 _ _ _ haU
  have hoth : ∀ bn', bn' < MAXFILE → bn' ≠ bn → s1.baddr ip bn' = s.baddr ip bn' := by
    intro bn' _ hne
    by_cases hd' : bn' < NDIRECT
    · rw [baddr_direct s1 ip hd', baddr_direct s ip hd', hino]
    · rw [baddr_indirect s1 ip hd' (by rw [hino]; exact hind), baddr_indirect s ip hd' hind,
        hino, hvi]
      exact rd32_wr32_other _ _ _ _ (by omega)
  have ha1 : InData s1 a := ⟨hff.lo, hff.hi, by rw [hvb]; exact bit_set_self _ _⟩
  have hw1 : Writable s1 ip := by
    refine hw.add (by rw [hino]; exact hw.dev) hbits hff.clear ha1 hhere hoth ?_ ?_
    · intro hnz
      rw [hino] at hnz ⊢
      exact ⟨(hw.ind hnz).of_bits hbits, Or.inl rfl⟩
    · rw [hino]; exact hane
  refine ⟨s1, T1, m1, a, _, _, ?_, st.toCStep, ?_, by rw [hvb]; exact hfr1, ?_⟩
  · rw [bmap_eq]
    simp only [bind_apply, getK_apply, if_neg hd]
    rw [if_neg (by omega), if_neg hind]
    exact e
  · refine ⟨hu1, hw1, hhere, ha1.pos, hoth, fun hnz => absurd (hba.trans hz) hnz,
      fun _ => ⟨hff.clear, fun i hi' => by rw [hva]; exact zero_block _ _ hi'⟩, ?_, hbits,
      by rw [hino], by rw [hino], by rw [hino], by rw [hino], by rw [hino], by rw [hino],
      by rw [hino], by rw [hino], by rw [hino], fun j _ => by rw [hino], st.rest.file,
      st.rest.g_ofile, Or.inl (by rw [hino])⟩
    intro x hx hxb hxs hxi
    refine hvo x hx hxb ?_ hxi
    intro e'
    rw [e', hff.clear] at hxs
    exact absurd hxs (by decide)
  · refine ⟨0, 0, 0, 0, Or.inl hwa, Or.inl hwb, ?_, ?_, ?_, ?_, ?_⟩
    · intro _
      rw [hino]
      exact Or.inl hwi
    · intro hz'
      rw [hino] at hz'
      exact absurd hz' hind
    · intro _
      rw [hino]
      exact Or.inl hwi.1
    · have := st.bud
      omega
    · have := st.n_le
      omega

theorem bit_clear_of_set_bit (bm : Mem) (a x : Nat) (h : bit_clear (set_bit bm a) x = true) :
    bit_clear bm x = true := by
  cases hx : bit_clear bm x with
  | true => rfl
  | false =>
    rw [bit_set_of_set_bit bm a x hx] at h
    exact absurd h (by decide)

/-- `bmap(ip, bn, 1)` on an indirect block number when the file has no
indirect block yet: the indirect block is allocated and zeroed, then the
block of the entry. -/
theorem bmap_alloc_new_indirect {s : Kernel} {T : Set Nat} {m ip bn R eb el r : Nat}
    (hi : FSInv s T m) (hfree : ∀ x, s.unheld x) (hw : Writable s ip) (hd : ¬ bn < NDIRECT)
    (hbn : bn < MAXFILE) (hind : (s.inode ip).addrs NDIRECT = 0)
    (hfr : HasFree (s.view BMAPBLOCK) (r + 2)) (hb : WBudget s T m ip (R + 1) eb el) :
    ∃ s1 T1 m1 addr c l, bmap ip bn true s = Res.ok addr s1 ∧ CStep s T m s1 T1 m1 c l ∧
      BmapPost s ip bn s1 addr ∧ HasFree (s1.view BMAPBLOCK) r ∧
      WBudgetU s1 T1 m1 ip R eb el addr := by
  have hN : NDIRECT = 12 := rfl
  have hNI : NINDIRECT = 1024 := rfl
  have hMF : MAXFILE = 1036 := rfl
  have hBS : BSIZE = 4096 := rfl
  obtain ⟨pb, pi, pr, h1, h2, h3, h4, h5, h6⟩ := hb
  have hpi := h3 hind
  obtain ⟨a, hff, hfr1⟩ := first_free_of hw.metaSet hfr
  obtain ⟨s1, T1, m1, e, st, hu1, hwb, hwa, hvb, hva, hvo⟩ :=
    @balloc_into_addr s T m ip NDIRECT a pb hi hfree hw.dev hff h1 (by omega) (by omega)
  have hino : s1.inode = s.inode := st.rest.inode
  have hbits : ∀ x, bit_clear (s.view BMAPBLOCK) x = false →
      bit_clear (s1.view BMAPBLOCK) x = false := by
    intro x hx
    rw [hvb]
    exact bit_set_of_set_bit _ _ _ hx
  generalize hS : s1.setInode ip { s1.inode ip with
      addrs := Function.update (s1.inode ip).addrs NDIRECT a } = s2 at e
  have hv2 : s2.view = s1.view := by rw [← hS]; rfl
  have hi2 : s2.inode ip =
      { s.inode ip with addrs := Function.update (s.inode ip).addrs NDIRECT a } := by
    rw [← hS, ← hino]; simp [Kernel.setInode]
  have hj2 : ∀ j, j ≠ ip → s2.inode j = s.inode j := by
    intro j hj
    rw [← hS, ← hino]; simp [Kernel.setInode, hj]
  have hind2 : (s2.inode ip).addrs NDIRECT = a := by
    rw [hi2]
    show Function.update (s.inode ip).addrs NDIRECT a NDIRECT = _
    rw [Function.update_same]
  have ha2 : InData s2 a := ⟨hff.lo, hff.hi, by rw [hv2, hvb]; exact bit_set_self _ _⟩
  have hzero2 : ∀ i, i < BSIZE → s2.view a i = 0 := by
    intro i hi'
    rw [hv2, hva]
    exact zero_block _ _ hi'
  have hb2 : ∀ bn', bn' < MAXFILE → s2.baddr ip bn' = s.baddr ip bn' := by
    intro bn' hbn'
    by_cases hd' : bn' < NDIRECT
    · rw [baddr_direct s2 ip hd', baddr_direct s ip hd', hi2]
      show Function.update (s.inode ip).addrs NDIRECT a bn' = _
      rw [Function.update_noteq (by omega)]
    · rw [baddr_indirect s2 ip hd' (by rw [hind2]; exact ha2.pos), baddr_no_indirect s ip hd' hind,
        hind2]
      exact rd32_zero_of (fun i _ _ => hzero2 i (by omega))
  have hbits2 : ∀ x, bit_clear (s.view BMAPBLOCK) x = false →
      bit_clear (s2.view BMAPBLOCK) x = false := by
    intro x hx; rw [hv2]; exact hbits x hx
  have hdev2 : (s2.inode ip).dev = ROOTDEV := by rw [hi2]; exact hw.dev
  have hw2 : Writable s2 ip := by
    refine ⟨hdev2, fun b hb' => hbits2 b (hw.metaSet b hb'), ?_, fun _ => by rw [hind2]; exact ha2,
      ?_, ?_⟩
    · intro bn' hbn' hnz
      rw [hb2 bn' hbn'] at hnz ⊢
      exact (hw.map bn' hbn' hnz).of_bits hbits2
    · intro b1 b2 hb1 hb2' hnz he
      rw [hb2 b1 hb1] at hnz he
      rw [hb2 b2 hb2'] at he
      exact hw.inj b1 b2 hb1 hb2' hnz he
    · intro bn' hbn' hnz
      rw [hb2 bn' hbn'] at hnz ⊢
      rw [hind2]
      intro e'
      have h3' := (hw.map bn' hbn' hnz).2.2
      rw [e', hff.clear] at h3'
      exact absurd h3' (by decide)
  have cst : CStep s T m s2 T1 m1 (2 * (pb + 1) + 0) (pb + 1 + 0) :=
    st.toCStep.trans_cstep (hS ▸ CStep.of_frame st.inv rfl rfl rfl rfl rfl)
  have hwarm2 : ∀ x, s1.warm T1 x → s2.warm T1 x := by
    intro x hx
    exact (hS ▸ CStep.of_frame st.inv rfl rfl rfl rfl rfl :
      CStep s1 T1 m1 s2 T1 m1 0 0).warm x hx
  have hu2 : ∀ x, s2.unheld x :=
    fun x => unheld_of_cache_eq (hu1 x) (by rw [← hS]; rfl) (by rw [← hS]; rfl)
  have hz2 : rd32 (s2.view ((s2.inode ip).addrs NDIRECT)) (4 * (bn - NDIRECT)) = 0 := by
    rw [hind2]
    exact rd32_zero_of (fun i _ _ => hzero2 i (by omega))
  have hfr2 : HasFree (s2.view BMAPBLOCK) (r + 1) := by rw [hv2, hvb]; exact hfr1
  have hn2 : s2.log = s1.log := by rw [← hS]; rfl
  have hbud2 : WBudget s2 T1 m1 ip (R + 1) eb el := by
    refine ⟨0, 0, 0, Or.inl (hwarm2 _ hwb), fun _ => Or.inl (by rw [hind2]; exact hwarm2 _ hwa),
      fun hz' => absurd (hind2 ▸ hz') ha2.pos,
      fun _ => Or.inl (by rw [hind2]; exact (hwarm2 _ hwa).1), ?_, ?_⟩
    · have := st.bud; omega
    · have := st.n_le; rw [hn2]; omega
  obtain ⟨s3, T3, m3, addr, c, l, e3, cst3, post, hfr3, hbu3⟩ :=
    @bmap_alloc_entry_fresh s2 T1 m1 ip bn R eb el r cst.inv hu2 hw2 hd hbn
      (by rw [hind2]; exact ha2.pos) hz2 hfr2 hbud2
  have hbs : s.baddr ip bn = 0 := baddr_no_indirect s ip hd hind
  refine ⟨s3, T3, m3, addr, _, _, ?_, cst.trans_cstep cst3, ?_, hfr3, hbu3⟩
  · rw [← e3]
    rw [bmap_eq]
    simp only [bind_apply, getK_apply, if_neg hd]
    rw [if_neg (show ¬ bn - NDIRECT ≥ NINDIRECT by omega), if_pos hind,
      if_neg (show ¬ (s2.inode ip).addrs NDIRECT = 0 by rw [hind2]; exact ha2.pos), hind2]
    simp only [if_true, bind_apply] at e ⊢
    revert e
    cases balloc (s.inode ip).dev s with
    | fail f => intro e; simp at e
    | ok a' s' =>
      simp only []
      cases setAddr ip NDIRECT a' s' with
      | fail f => intro e; simp at e
      | ok u s'' =>
        simp only [pure_apply]
        intro e
        injection e with e1 e2
        subst e1
        subst e2
        rw [if_neg (show ¬ bn - NDIRECT ≥ NINDIRECT by omega)]
  · refine ⟨post.unheld, post.wr, post.here, post.nz, ?_, fun hnz => absurd hbs hnz, ?_, ?_, ?_,
      ?_, ?_, ?_, ?_, ?_, ?_, ?_, ?_, ?_, ?_, ?_, ?_, ?_⟩
    · intro bn' hbn' hne
      rw [post.others bn' hbn' hne, hb2 bn' hbn']
    · intro _
      have hf := post.fresh ((hb2 bn hbn).trans hbs)
      refine ⟨?_, hf.2⟩
      have := hf.1
      rw [hv2, hvb] at this
      exact bit_clear_of_set_bit _ _ _ this
    · intro x hx hxb hxs _
      have hxa : x ≠ a := by
        intro e'
        rw [e', hff.clear] at hxs
        exact absurd hxs (by decide)
      rw [post.frame x hx hxb (hbits2 x hxs) (by rw [hind2]; exact hxa), hv2]
      exact hvo x hx hxb hxa
    · intro x hx
      exact post.bits x (hbits2 x hx)
    · rw [post.size, hi2]
    · rw [post.inum, hi2]
    · rw [post.type, hi2]
    · rw [post.major, hi2]
    · rw [post.minor, hi2]
    · rw [post.nlink, hi2]
    · rw [post.ref, hi2]
    · rw [post.locked, hi2]
    · rw [post.valid, hi2]
    · intro j hj
      rw [post.inodes j hj, hj2 j hj]
    · rw [post.file, ← hS]; exact st.rest.file
    · rw [post.ofile, ← hS]; exact st.rest.g_ofile
    · refine Or.inr ⟨hind, ?_⟩
      rcases post.indp with h | h
      · rw [h, hind2]; exact hff.clear
      · exact absurd (hind2 ▸ h.1) ha2.pos

/-- `bmap(ip, bn, 1)` on a writable file, with two free blocks and the
reserve of one round: it returns the block of `bn`, allocated and zeroed when
it was not mapped, and leaves the reserve of the rounds that follow. -/
theorem bmap_alloc_spec {s : Kernel} {T : Set Nat} {m ip bn R eb el r : Nat}
    (hi : FSInv s T m) (hfree : ∀ x, s.unheld x) (hw : Writable s ip)
    (hbn : bn < MAXFILE)
    (hfr : HasFree (s.view BMAPBLOCK) (r + 2)) (hb : WBudget s T m ip (R + 1) eb el) :
    ∃ s1 T1 m1 addr c l, bmap ip bn true s = Res.ok addr s1 ∧ CStep s T m s1 T1 m1 c l ∧
      BmapPost s ip bn s1 addr ∧ HasFree (s1.view BMAPBLOCK) r ∧
      WBudgetU s1 T1 m1 ip R eb el addr := by
  by_cases hd : bn < NDIRECT
  · by_cases hz : (s.inode ip).addrs bn = 0
    · exact bmap_alloc_direct_fresh hi hfree hw hd hz hfr hb
    · exact bmap_alloc_direct_kept hi hfree hw hd hz hfr hb
  · by_cases hind : (s.inode ip).addrs NDIRECT = 0
    · exact bmap_alloc_new_indirect hi hfree hw hd hbn hind hfr hb
    · by_cases hz : rd32 (s.view ((s.inode ip).addrs NDIRECT)) (4 * (bn - NDIRECT)) = 0
      · exact bmap_alloc_entry_fresh hi hfree hw hd hbn hind hz
          (hfr.fewer (show r + 1 ≤ r + 2 by omega)) hb
      · exact bmap_alloc_entry_kept hi hfree hw hd hbn hind hz
          (hfr.fewer (show r ≤ r + 2 by omega)) hb

theorem WInv.start {s : Kernel} {ip : Nat} (src : Mem) (o : Nat) (hu : ∀ x, s.unheld x)
    (hw : Writable s ip) : WInv s ip src o 0 s :=
  ⟨hu, hw, fun _ h => h, fun _ _ _ => rfl, fun _ _ h0 h1 => absurd h0 h1, Or.inl rfl,
    fun p h1 h2 => absurd h2 (by omega), fun p h1 h2 => absurd h2 (by omega),
    fun _ _ _ _ => rfl, fun _ _ _ _ _ _ => rfl, rfl, rfl, rfl, rfl, rfl, rfl, rfl, rfl, rfl,
    fun _ _ => rfl, rfl, rfl⟩

theorem bit_clear_true_of_mono {bm bm1 : Mem}
    (h : ∀ x, bit_clear bm x = false → bit_clear bm1 x = false) {x : Nat}
    (hx : bit_clear bm1 x = true) : bit_clear bm x = true := by
  cases hb : bit_clear bm x with
  | true => rfl
  | false =>
    rw [h x hb] at hx
    exact absurd hx (by decide)

theorem baddr_of_views {s t : Kernel} {ip : Nat}
    (hn : (t.inode ip).addrs = (s.inode ip).addrs)
    (hind : (s.inode ip).addrs NDIRECT ≠ 0 →
      t.view ((s.inode ip).addrs NDIRECT) = s.view ((s.inode ip).addrs NDIRECT)) (bn : Nat) :
    t.baddr ip bn = s.baddr ip bn := by
  unfold Kernel.baddr
  rw [hn]
  by_cases h : (s.inode ip).addrs NDIRECT = 0
  · rw [if_pos h, if_pos h]
  · rw [if_neg h, if_neg h, hind h]

theorem Writable.of_views {s t : Kernel} {ip : Nat} (h : Writable s ip)
    (hdev : (t.inode ip).dev = (s.inode ip).dev)
    (hn : (t.inode ip).addrs = (s.inode ip).addrs)
    (hb : t.view BMAPBLOCK = s.view BMAPBLOCK)
    (hind : (s.inode ip).addrs NDIRECT ≠ 0 →
      t.view ((s.inode ip).addrs NDIRECT) = s.view ((s.inode ip).addrs NDIRECT)) :
    Writable t ip := by
  have hba : ∀ bn, t.baddr ip bn = s.baddr ip bn := baddr_of_views hn hind
  refine ⟨by rw [hdev]; exact h.dev, by rw [hb]; exact h.metaSet, ?_, ?_, ?_, ?_⟩
  · intro bn hbn hnz
    rw [hba] at hnz ⊢
    have := h.map bn hbn hnz
    exact ⟨this.1, this.2.1, by rw [hb]; exact this.2.2⟩
  · intro hnz
    rw [hn] at hnz ⊢
    have := h.ind hnz
    exact ⟨this.1, this.2.1, by rw [hb]; exact this.2.2⟩
  · intro bn bn' h1 h2 hnz he
    rw [hba] at hnz he
    rw [hba] at he
    exact h.inj bn bn' h1 h2 hnz he
  · intro bn hbn hnz
    rw [hba] at hnz ⊢
    rw [hn]
    exact h.ind_ne bn hbn hnz

/-- One round of the loop of `writei`. -/
theorem writei_round {s0 s : Kernel} {T : Set Nat} {m ip o n tot R eb el r mr : Nat} {src : Mem}
    (hi : FSInv s T m) (hv : WInv s0 ip src o tot s) (hlt : tot < n)
    (hon : o + n ≤ MAXFILE * BSIZE)
    (hfr : HasFree (s.view BMAPBLOCK) (r + 2)) (hb : WBudget s T m ip (R + 1) eb el)
    (hmr : (if BSIZE - (o + tot) % BSIZE > n - tot then n - tot
      else BSIZE - (o + tot) % BSIZE) = mr) :
    ∃ s2 T2 m2 c l, (∀ f, writei_loop ip src n (f + 1) tot (o + tot) s =
        writei_loop ip src n f (tot + mr) (o + (tot + mr)) s2) ∧
      CStep s T m s2 T2 m2 c l ∧ WInv s0 ip src o (tot + mr) s2 ∧
      HasFree (s2.view BMAPBLOCK) r ∧ WBudget s2 T2 m2 ip R eb el := by
  have hM : MAXFILE * BSIZE = 4243456 := by decide
  have hMF : MAXFILE = 1036 := rfl
  have hB : BSIZE = 4096 := rfl
  have hU : U32 = 4294967296 := by unfold U32; norm_num
  have hFS : FSSTART = 32 := rfl
  have hDS : DATASTART = 37 := rfl
  have hBM : BMAPBLOCK = 36 := rfl
  have hmr1 : 1 ≤ mr := by
    rw [← hmr]; simp only [hB]; split <;> omega
  have hmr2 : tot + mr ≤ n := by rw [← hmr]; split <;> omega
  have hmr3 : (o + tot) % BSIZE + mr ≤ BSIZE := by
    rw [← hmr]; simp only [hB]; split <;> omega
  have hoff : (o + tot + mr) % U32 = o + (tot + mr) := by
    rw [Nat.mod_eq_of_lt (by omega)]; omega
  have hbn : (o + tot) / BSIZE < MAXFILE := by rw [hB, hMF]; omega
  obtain ⟨s1, T1, m1, addr, c1, l1, e1, cst1, post, hfr1, hbu⟩ :=
    bmap_alloc_spec hi hv.unheld hv.wr hbn hfr hb
  obtain ⟨pb, pi, pr, u, hu, h1, h2, h3, h4, h5, h6⟩ := hbu
  have hnz1 : s1.baddr ip ((o + tot) / BSIZE) ≠ 0 := by rw [post.here]; exact post.nz
  have hin : InData s1 addr := by
    have := post.wr.map _ hbn hnz1
    rw [post.here] at this
    exact this
  have hlo : FSSTART ≤ addr := by have := hin.1; omega
  have hne_bm : addr ≠ BMAPBLOCK := by have := hin.1; omega
  have hne_ind : addr ≠ (s1.inode ip).addrs NDIRECT := by
    have := post.wr.ind_ne _ hbn hnz1
    rw [post.here] at this
    exact this
  obtain ⟨h, s1', e2, hd2, hr2, hrest⟩ :=
    @update_block_pay s1 T1 m1 addr u cst1.inv hlo hin.2.1 (post.unheld addr) hu (by omega)
      (by omega)
  obtain ⟨s3, s4, T4, m4, e3, e4, st, hw4, hview⟩ :=
    hrest (memmove_local (s1.view addr) ((o + tot) % BSIZE) src tot mr)
  have hino4 : s4.inode = s1.inode := st.rest.inode
  -- the views after the round
  have hv_addr : ∀ i, s4.view addr i =
      memmove_local (s1.view addr) ((o + tot) % BSIZE) src tot mr i := by
    intro i
    rw [hview addr hlo, Function.update_same]
  have hv_oth : ∀ x, FSSTART ≤ x → x ≠ addr → s4.view x = s1.view x := by
    intro x hx hne
    rw [hview x hx, Function.update_noteq hne]
  have hv_bm : s4.view BMAPBLOCK = s1.view BMAPBLOCK :=
    hv_oth _ (by omega) (fun e' => hne_bm e'.symm)
  have hv_ind : (s1.inode ip).addrs NDIRECT ≠ 0 →
      s4.view ((s1.inode ip).addrs NDIRECT) = s1.view ((s1.inode ip).addrs NDIRECT) := by
    intro hnz
    have := (post.wr.ind hnz).1
    exact hv_oth _ (by omega) (fun e' => hne_ind e'.symm)
  have hba4 : ∀ bn, s4.baddr ip bn = s1.baddr ip bn :=
    baddr_of_views (by rw [hino4]) hv_ind
  have hw4' : Writable s4 ip :=
    post.wr.of_views (by rw [hino4]) (by rw [hino4]) hv_bm hv_ind
  -- a block of the file other than the current one keeps its content
  have hblk : ∀ bn', bn' < MAXFILE → bn' ≠ (o + tot) / BSIZE → s.baddr ip bn' ≠ 0 →
      s4.baddr ip bn' = s.baddr ip bn' ∧ s4.view (s.baddr ip bn') = s.view (s.baddr ip bn') := by
    intro bn' hbn' hne hnz
    have hb1 : s1.baddr ip bn' = s.baddr ip bn' := post.others bn' hbn' hne
    have hind := hv.wr.map bn' hbn' hnz
    have hx1 : s.baddr ip bn' ≠ addr := by
      intro e'
      have := post.wr.inj bn' _ hbn' hbn (by rw [hb1]; exact hnz)
        (by rw [hb1, post.here]; exact e')
      exact hne this
    refine ⟨(hba4 bn').trans hb1, ?_⟩
    rw [hv_oth _ (by have := hind.1; omega) hx1]
    exact post.frame _ (by have := hind.1; omega) (by have := hind.1; omega) hind.2.2
      (hv.wr.ind_ne bn' hbn' hnz)
  -- the current block
  have hcur : s4.baddr ip ((o + tot) / BSIZE) = addr := (hba4 _).trans post.here
  have hcur_old : s.baddr ip ((o + tot) / BSIZE) ≠ 0 → ∀ i,
      ¬ ((o + tot) % BSIZE ≤ i ∧ i < (o + tot) % BSIZE + mr) →
      s4.view addr i = s.view (s.baddr ip ((o + tot) / BSIZE)) i := by
    intro hnz i hi'
    rw [hv_addr]
    unfold memmove_local
    rw [if_neg hi']
    obtain ⟨ha, hva⟩ := post.kept hnz
    rw [hva, ha]
  have hfresh4 : ∀ bn, bn < MAXFILE → s0.baddr ip bn = 0 → s4.baddr ip bn ≠ 0 →
      bit_clear (s0.view BMAPBLOCK) (s4.baddr ip bn) = true := by
    intro bn' hbn' h0 hnz
    rw [hba4] at hnz ⊢
    by_cases hbe : bn' = (o + tot) / BSIZE
    · subst hbe
      rw [post.here]
      by_cases hs : s.baddr ip ((o + tot) / BSIZE) = 0
      · exact bit_clear_true_of_mono hv.bits (post.fresh hs).1
      · rw [(post.kept hs).1]
        exact hv.fresh _ hbn' h0 hs
    · rw [post.others bn' hbn' hbe] at hnz ⊢
      exact hv.fresh bn' hbn' h0 hnz
  have hkept4 : ∀ bn, bn < MAXFILE → s0.baddr ip bn ≠ 0 → s4.baddr ip bn = s0.baddr ip bn := by
    intro bn' hbn' hnz
    have hs := hv.kept bn' hbn' hnz
    rw [hba4]
    by_cases hbe : bn' = (o + tot) / BSIZE
    · subst hbe
      rw [post.here, (post.kept (by rw [hs]; exact hnz)).1, hs]
    · rw [post.others bn' hbn' hbe, hs]
  refine ⟨s4, T4, m4, _, _, ?_, cst1.trans_cstep st.toCStep, ?_, by rw [hv_bm]; exact hfr1, ?_⟩
  · intro f
    conv_lhs => unfold writei_loop
    simp only [hlt, ↓reduceIte, bind_apply, e1, post.nz, getK_apply, post.wr.dev, e2, setData_ok,
      hd2, e3, e4, hmr, hoff]
  · refine ⟨fun x => st.unheld x (post.unheld x), hw4', ?_, hkept4, hfresh4, ?_, ?_, ?_, ?_, ?_,
      by rw [hino4, post.size, hv.size], by rw [hino4, post.inum, hv.inum],
      by rw [hino4, post.type, hv.type], by rw [hino4, post.major, hv.major],
      by rw [hino4, post.minor, hv.minor], by rw [hino4, post.nlink, hv.nlink],
      by rw [hino4, post.ref, hv.ref], by rw [hino4, post.locked, hv.locked],
      by rw [hino4, post.valid, hv.valid],
      fun j hj => by rw [hino4, post.inodes j hj, hv.inodes j hj],
      by rw [st.rest.file, post.file, hv.file],
      by rw [st.rest.g_ofile, post.ofile, hv.ofile]⟩
    · intro x hx
      rw [hv_bm]
      exact post.bits x (hv.bits x hx)
    · rw [hino4]
      rcases post.indp with e' | ⟨e0, ec⟩
      · rw [e']; exact hv.indp
      · have hc0 := bit_clear_true_of_mono hv.bits ec
        rcases hv.indp with e'' | ⟨e00, _⟩
        · exact Or.inr ⟨by rw [← e'']; exact e0, hc0⟩
        · exact Or.inr ⟨e00, hc0⟩
    · -- mapped
      intro p hp1 hp2
      by_cases hpb : p / BSIZE = (o + tot) / BSIZE
      · rw [hpb, hcur]; exact post.nz
      · have hp3 : p < o + tot := by rw [hB] at hpb hmr3; omega
        have := hv.mapped p hp1 hp3
        rw [(hblk _ (by rw [hB, hMF]; omega) hpb this).1]
        exact this
    · -- data
      intro p hp1 hp2
      unfold Kernel.fbyte
      by_cases hpb : p / BSIZE = (o + tot) / BSIZE
      · rw [hpb, hcur]
        by_cases hin' : (o + tot) % BSIZE ≤ p % BSIZE ∧ p % BSIZE < (o + tot) % BSIZE + mr
        · rw [hv_addr]
          unfold memmove_local
          rw [if_pos hin']
          congr 1
          rw [hB] at hpb hin' hmr3 ⊢
          omega
        · have hp3 : p < o + tot := by rw [hB] at hpb hin' hmr3; omega
          have hm := hv.mapped p hp1 hp3
          rw [hpb] at hm
          rw [hcur_old hm _ hin', ← hv.data p hp1 hp3]
          unfold Kernel.fbyte
          rw [hpb]
      · have hp3 : p < o + tot := by rw [hB] at hpb hmr3; omega
        have hm := hv.mapped p hp1 hp3
        obtain ⟨hb', hv'⟩ := hblk _ (by rw [hB, hMF]; omega) hpb hm
        rw [hb', hv', ← hv.data p hp1 hp3]
        rfl
    · -- old
      intro p hp hpM hnz
      have hs := hv.old p (by omega) hpM hnz
      have hk := hv.kept _ (by rw [hB, hMF]; omega) hnz
      have hnz' : s.baddr ip (p / BSIZE) ≠ 0 := by rw [hk]; exact hnz
      rw [← hs]
      unfold Kernel.fbyte
      by_cases hpb : p / BSIZE = (o + tot) / BSIZE
      · rw [hpb, hcur]
        rw [hpb] at hnz'
        exact hcur_old hnz' _ (by rw [hB] at hpb hmr3 ⊢; omega)
      · obtain ⟨hb', hv'⟩ := hblk _ (by rw [hB, hMF]; omega) hpb hnz'
        rw [hb', hv']
    · -- frame
      intro x hx hxb hxs hxi hxm
      have hxa : x ≠ addr := by
        by_cases h0 : s0.baddr ip ((o + tot) / BSIZE) = 0
        · intro e'
          have := hfresh4 _ hbn h0 (by rw [hcur]; exact post.nz)
          rw [hcur, ← e', hxs] at this
          exact absurd this (by decide)
        · have := hkept4 _ hbn h0
          rw [hcur] at this
          rw [this]
          exact fun e' => hxm _ hbn e'.symm
      have hxi' : x ≠ (s.inode ip).addrs NDIRECT := by
        rcases hv.indp with e' | ⟨_, ec⟩
        · rw [e']; exact hxi
        · intro e'
          rw [← e', hxs] at ec
          exact absurd ec (by decide)
      rw [hv_oth x hx hxa, post.frame x hx hxb (hv.bits x hxs) hxi']
      exact hv.frame x hx hxb hxs hxi hxm
  · refine ⟨pb, pi, pr, ?_, ?_, ?_, ?_, ?_, ?_⟩
    · rcases h1 with w | w
      · exact Or.inl (st.warm _ w)
      · exact Or.inr w
    · intro hnz
      rw [hino4] at hnz ⊢
      rcases h2 hnz with w | w
      · exact Or.inl (st.warm _ w)
      · exact Or.inr w
    · intro hz
      rw [hino4] at hz
      exact h3 hz
    · intro hnz
      rw [hino4] at hnz ⊢
      rcases h4 hnz with w | w
      · exact Or.inl (st.sub w)
      · exact Or.inr w
    · have := st.bud; omega
    · have := st.n_le; omega

theorem writei_loop_done (ip : Nat) (src : Mem) (n fuel tot off : Nat) (s : Kernel)
    (h : ¬ tot < n) : writei_loop ip src n fuel tot off s = Res.ok off s := by
  cases fuel with
  | zero => rfl
  | succ f => simp [writei_loop, h]

theorem WBudget.fewer_rounds {s : Kernel} {T : Set Nat} {m ip R R' eb el : Nat}
    (h : WBudget s T m ip R eb el) (hR : R' ≤ R) : WBudget s T m ip R' eb el := by
  obtain ⟨pb, pi, pr, h1, h2, h3, h4, h5, h6⟩ := h
  exact ⟨pb, pi, pr, h1, h2, h3, h4, by omega, by omega⟩

/-- The loop of `writei`: with two free blocks and one unit of reserve for
every block that the range touches, the loop ends with `off + n` and the
state described by `WInv`. -/
theorem writei_loop_spec (ip : Nat) (src : Mem) (o n : Nat) (hon : o + n ≤ MAXFILE * BSIZE)
    (s0 : Kernel) (eb el r : Nat) : ∀ (fuel tot : Nat) (s : Kernel) (T : Set Nat) (m : Nat),
    FSInv s T m → WInv s0 ip src o tot s → tot ≤ n → n - tot ≤ fuel →
    HasFree (s.view BMAPBLOCK) (r + 2 * blocks_left o n tot) →
    WBudget s T m ip (blocks_left o n tot) eb el →
    ∃ s1 T1 m1 c l, writei_loop ip src n fuel tot (o + tot) s = Res.ok (o + n) s1 ∧
      CStep s T m s1 T1 m1 c l ∧ WInv s0 ip src o n s1 ∧
      HasFree (s1.view BMAPBLOCK) r ∧ WBudget s1 T1 m1 ip 0 eb el := by
  intro fuel
  induction fuel with
  | zero =>
    intro tot s T m hi hv htot hfuel hfr hb
    have hn : ¬ tot < n := by omega
    have he : tot = n := by omega
    subst he
    refine ⟨s, T, m, 0, 0, writei_loop_done _ _ _ _ _ _ _ hn, CStep.refl_cstep hi, hv,
      hfr.fewer (by omega), hb.fewer_rounds (by omega)⟩
  | succ f ih =>
    intro tot s T m hi hv htot hfuel hfr hb
    by_cases hlt : tot < n
    swap
    · have he : tot = n := by omega
      subst he
      refine ⟨s, T, m, 0, 0, writei_loop_done _ _ _ _ _ _ _ hlt, CStep.refl_cstep hi, hv,
        hfr.fewer (by omega), hb.fewer_rounds (by omega)⟩
    have hM : MAXFILE * BSIZE = 4243456 := by decide
    have hB : BSIZE = 4096 := rfl
    generalize hmr : (if BSIZE - (o + tot) % BSIZE > n - tot then n - tot
      else BSIZE - (o + tot) % BSIZE) = mr
    have hmr1 : 1 ≤ mr := by
      rw [← hmr]; simp only [hB]; split <;> omega
    have hmr2 : tot + mr ≤ n := by rw [← hmr]; split <;> omega
    have hmr4 : tot + mr < n → (o + tot) % BSIZE + mr = BSIZE := by
      rw [← hmr]; simp only [hB]; split <;> omega
    have hbl0 : 1 ≤ blocks_left o n tot := by
      unfold blocks_left
      rw [if_pos hlt, hB]
      omega
    have hbl1 : blocks_left o n (tot + mr) + 1 ≤ blocks_left o n tot := by
      by_cases h : tot + mr < n
      · have h4 := hmr4 h
        unfold blocks_left
        rw [if_pos h, if_pos hlt, hB] at *
        omega
      · unfold blocks_left at hbl0 ⊢
        rw [if_neg h]; omega
    obtain ⟨R, hR⟩ : ∃ R, blocks_left o n tot = R + 1 := ⟨blocks_left o n tot - 1, by omega⟩
    rw [hR] at hb hfr hbl1
    obtain ⟨s2, T2, m2, c2, l2, e2, cst2, hv2, hfr2, hb2⟩ :=
      @writei_round s0 s T m ip o n tot R eb el (r + 2 * R) mr src hi hv hlt hon
        (hfr.fewer (by omega)) hb hmr
    obtain ⟨s3, T3, m3, c3, l3, e3, cst3, hv3, hfr3, hb3⟩ :=
      ih (tot + mr) s2 T2 m2 cst2.inv hv2 hmr2 (by omega) (hfr2.fewer (by omega))
        (hb2.fewer_rounds (by omega))
    refine ⟨s3, T3, m3, _, _, ?_, cst2.trans_cstep cst3, hv3, hfr3, hb3⟩
    rw [e2 f]
    exact e3

/-- The end of `writei`: the size is stored in the cached inode and `iupdate`
writes the record. -/
theorem writei_finish {s s1 s2 : Kernel} {T1 : Set Nat} {m1 ip o n sz : Nat} {src : Mem}
    (hw : Writable s ip) (hin : (s.inode ip).inum < 200)
    (hi1 : FSInv s1 T1 m1) (hv : WInv s ip src o n s1)
    (hb : s2.buf = s1.buf) (hl : s2.lru = s1.lru) (hd : s2.ramdisk = s1.ramdisk)
    (hg : s2.log = s1.log) (hs : s2.sb = s1.sb) (hf : s2.file = s1.file)
    (ho : s2.g_ofile = s1.g_ofile)
    (hip : s2.inode ip = { s1.inode ip with size := sz })
    (hjo : ∀ j, j ≠ ip → s2.inode j = s1.inode j)
    (hsz : sz = max (s.inode ip).size (o + n)) (hon : o + n ≤ MAXFILE * BSIZE)
    (hbud : 2 ≤ m1 ∧ s1.log.lh.n + 2 ≤ LOGSIZE) :
    ∃ s3 T3 m3, iupdate ip s2 = Res.ok () s3 ∧ CStep s1 T1 m1 s3 T3 m3 2 1 ∧
      WritePost s ip src o n s3 ∧ s3.view BMAPBLOCK = s1.view BMAPBLOCK ∧
      s3.warm T3 (IBLOCK (s.inode ip).inum mkfs_sb) := by
  have hFS : FSSTART = 32 := rfl
  have hDS : DATASTART = 37 := rfl
  have hBM : BMAPBLOCK = 36 := rfl
  have c12 := CStep.of_frame hi1 hb hl hd hg hs
  have hv2 : s2.view = s1.view := view_of_eq hb hl hd
  have hinum2 : (s2.inode ip).inum = (s.inode ip).inum := by rw [hip]; exact hv.inum
  have hdev2 : (s2.inode ip).dev = ROOTDEV := by rw [hip]; exact hv.wr.dev
  obtain ⟨hlo, hhi⟩ := IBLOCK_range hin
  have hu2 : ∀ x, s2.unheld x := fun x => unheld_of_cache_eq (hv.unheld x) hb hl
  obtain ⟨s3, T3, m3, e3, st, hw3, _, hrec, hoth⟩ :=
    @iupdate_spec s2 T1 m1 ip c12.inv hdev2 (by rw [hinum2]; exact hin) (hu2 _)
      (Or.inr ⟨hbud.1, by rw [hg]; exact hbud.2⟩)
  rw [hinum2] at hw3 hrec hoth
  have hino3 : s3.inode = s2.inode := st.rest.inode
  have hip3 : s3.inode ip = { s1.inode ip with size := sz } := by rw [hino3, hip]
  have haddrs : (s3.inode ip).addrs = (s1.inode ip).addrs := by rw [hip3]
  have hvo : ∀ x, DATASTART ≤ x → s3.view x = s1.view x := by
    intro x hx
    rw [hoth x (by omega) (by omega), hv2]
  have hvbm : s3.view BMAPBLOCK = s1.view BMAPBLOCK := by
    rw [hoth _ (by omega) (by omega), hv2]
  have hvind : (s1.inode ip).addrs NDIRECT ≠ 0 →
      s3.view ((s1.inode ip).addrs NDIRECT) = s1.view ((s1.inode ip).addrs NDIRECT) :=
    fun hnz => hvo _ (hv.wr.ind hnz).1
  have hba : ∀ bn, s3.baddr ip bn = s1.baddr ip bn := baddr_of_views haddrs hvind
  have hfb : ∀ p, p < MAXFILE * BSIZE → s1.baddr ip (p / BSIZE) ≠ 0 →
      s3.fbyte ip p = s1.fbyte ip p := by
    intro p hp hnz
    unfold Kernel.fbyte
    rw [hba, hvo _ (hv.wr.map _ (by
      have hB : BSIZE = 4096 := rfl
      have hMF : MAXFILE = 1036 := rfl
      have hM : MAXFILE * BSIZE = 4243456 := by decide
      rw [hB, hMF]; omega) hnz).1]
  have hsI : s1.view (IBLOCK (s.inode ip).inum mkfs_sb) =
      s.view (IBLOCK (s.inode ip).inum mkfs_sb) := by
    refine hv.frame _ hlo (by omega) (hw.metaSet _ (by omega)) ?_ ?_
    · intro e'
      by_cases h0 : (s.inode ip).addrs NDIRECT = 0
      · rw [h0] at e'; omega
      · have := (hw.ind h0).1
        rw [← e'] at this
        omega
    · intro bn hbn e'
      by_cases h0 : s.baddr ip bn = 0
      · rw [h0] at e'; omega
      · have := (hw.map bn hbn h0).1
        rw [e'] at this
        omega
  have hM : MAXFILE * BSIZE = 4243456 := by decide
  refine ⟨s3, T3, m3, e3, c12.trans_cstep st.toCStep, ?_, hvbm, hw3⟩
  refine ⟨fun x => st.unheld x (hu2 x), hv.wr.of_views (by rw [hip3]) haddrs hvbm hvind, ?_, ?_,
    ?_, ?_, ?_, ?_, ?_, ?_, ?_, by rw [hip3]; exact hsz, by rw [hip3]; exact hv.inum,
    by rw [hip3]; exact hv.type, by rw [hip3]; exact hv.major, by rw [hip3]; exact hv.minor,
    by rw [hip3]; exact hv.nlink, by rw [hip3]; exact hv.ref, by rw [hip3]; exact hv.locked,
    by rw [hip3]; exact hv.valid, fun j hj => by rw [hino3, hjo j hj, hv.inodes j hj],
    by rw [st.rest.file, hf, hv.file], by rw [st.rest.g_ofile, ho, hv.ofile]⟩
  · intro x hx
    rw [hvbm]
    exact hv.bits x hx
  · intro bn hbn hnz
    rw [hba]
    exact hv.kept bn hbn hnz
  · intro bn hbn h0 hnz
    rw [hba] at hnz ⊢
    exact hv.fresh bn hbn h0 hnz
  · rw [haddrs]
    exact hv.indp
  · intro p hp1 hp2
    rw [hba]
    exact hv.mapped p hp1 hp2
  · intro p hp1 hp2
    rw [hfb p (by omega) (hv.mapped p hp1 hp2)]
    exact hv.data p hp1 hp2
  · intro p hp hpM hnz
    rw [hfb p hpM (by
      rw [hv.kept _ (by
        have hB : BSIZE = 4096 := rfl
        have hMF : MAXFILE = 1036 := rfl
        rw [hB, hMF]; omega) hnz]
      exact hnz)]
    exact hv.old p hp hpM hnz
  · intro x hx hxb hxs hxi hxm hxI
    rw [hoth x hx hxI, hv2]
    exact hv.frame x hx hxb hxs hxi hxm
  · rw [hrec, hv2, hsI, hino3]

/-- The function `writei` on a writable file, with two free blocks and one
unit of reserve for every block of the range and one more unit for the block
of the inode: it returns `n`. -/
theorem writei_spec {s : Kernel} {T : Set Nat} {m ip o n eb el r : Nat} (src : Mem)
    (hi : FSInv s T m) (hu : ∀ x, s.unheld x) (hw : Writable s ip)
    (hin : (s.inode ip).inum < 200) (ho : o ≤ (s.inode ip).size)
    (hon : o + n ≤ MAXFILE * BSIZE)
    (hfr : HasFree (s.view BMAPBLOCK) (r + 2 * blocks_left o n 0))
    (hb : WBudget s T m ip (blocks_left o n 0) (eb + 2) (el + 1)) :
    ∃ s3 T3 m3 c l, writei ip src o n s = Res.ok (toInt32 n) s3 ∧ CStep s T m s3 T3 m3 c l ∧
      WritePost s ip src o n s3 ∧ HasFree (s3.view BMAPBLOCK) r ∧
      s3.warm T3 (IBLOCK (s.inode ip).inum mkfs_sb) ∧
      eb ≤ m3 ∧ s3.log.lh.n + el + 1 ≤ LOGSIZE := by
  have hM : MAXFILE * BSIZE = 4243456 := by decide
  have hU : U32 = 4294967296 := by unfold U32; norm_num
  obtain ⟨s1, T1, m1, c1, l1, e1, cst1, hv, hfr1, hb1⟩ :=
    writei_loop_spec ip src o n hon s (eb + 2) (el + 1) r n 0 s T m hi (WInv.start src o hu hw)
      (Nat.zero_le _) (by omega) hfr hb
  simp only [Nat.add_zero] at e1
  obtain ⟨pb, pi, pr, _, _, _, _, h5, h6⟩ := hb1
  have hmod : (o + n) % U32 = o + n := Nat.mod_eq_of_lt (by omega)
  have hg1 : ¬ (o > (s.inode ip).size ∨ (o + n) % U32 < o) := by rw [hmod]; omega
  have hg2 : ¬ ((o + n) % U32 > MAXFILE * BSIZE) := by rw [hmod]; omega
  by_cases hgt : o + n > (s1.inode ip).size
  · obtain ⟨s3, T3, m3, e3, cst3, post, hvbm, hw3⟩ :=
      @writei_finish s s1 (s1.setInode ip { s1.inode ip with size := o + n }) T1 m1 ip o n
        (o + n) src hw hin cst1.inv hv rfl rfl rfl rfl rfl rfl rfl
        (by simp [Kernel.setInode]) (fun j hj => by simp [Kernel.setInode, hj])
        (by rw [hv.size] at hgt; omega) hon ⟨by omega, by omega⟩
    refine ⟨s3, T3, m3, _, _, ?_, cst1.trans_cstep cst3, post, by rw [hvbm]; exact hfr1, hw3,
      ?_, ?_⟩
    · unfold writei
      simp only [bind_apply, getK_apply]
      rw [if_neg hg1, if_neg hg2]
      simp only [bind_apply, e1, getK_apply, if_pos hgt, modifyK_apply, e3, pure_apply]
    · have := cst3.bud; omega
    · have := cst3.n_le; omega
  · obtain ⟨s3, T3, m3, e3, cst3, post, hvbm, hw3⟩ :=
      @writei_finish s s1 s1 T1 m1 ip o n (s1.inode ip).size src hw hin cst1.inv hv rfl rfl rfl
        rfl rfl rfl rfl rfl (fun j hj => rfl)
        (by rw [hv.size] at hgt ⊢; omega) hon ⟨by omega, by omega⟩
    refine ⟨s3, T3, m3, _, _, ?_, cst1.trans_cstep cst3, post, by rw [hvbm]; exact hfr1, hw3,
      ?_, ?_⟩
    · unfold writei
      simp only [bind_apply, getK_apply]
      rw [if_neg hg1, if_neg hg2]
      simp only [bind_apply, e1, getK_apply, if_neg hgt, e3, pure_apply]
    · have := cst3.bud; omega
    · have := cst3.n_le; omega

/-- After `writei` the file has no hole below its size, if it had none and
the write started at or below the old size. -/
theorem WritePost.readable {s s3 : Kernel} {ip o n : Nat} {src : Mem}
    (post : WritePost s ip src o n s3) (hr : Readable s ip) (ho : o ≤ (s.inode ip).size)
    (hon : o + n ≤ MAXFILE * BSIZE) : Readable s3 ip := by
  have hM : MAXFILE * BSIZE = 4243456 := by decide
  have hB : BSIZE = 4096 := rfl
  have hMF : MAXFILE = 1036 := rfl
  have hN : NDIRECT = 12 := rfl
  have hFS : FSSTART = 32 := rfl
  have hDS : DATASTART = 37 := rfl
  have hsz := hr.size_le
  have hmap : ∀ bn, bn * BSIZE < (s3.inode ip).size → s3.baddr ip bn ≠ 0 := by
    intro bn hbn
    rw [post.size] at hbn
    by_cases hold : bn * BSIZE < (s.inode ip).size
    · have h1 := (hr.map bn hold).1
      have h2 : s.baddr ip bn ≠ 0 := by omega
      rw [post.kept bn (by rw [hB] at hold; omega) h2]
      exact h2
    · have hb : bn * BSIZE < o + n := by
        rcases Nat.le_total (s.inode ip).size (o + n) with h | h
        · rw [max_eq_right h] at hbn; exact hbn
        · rw [max_eq_left h] at hbn; omega
      have := post.mapped (bn * BSIZE) (by omega) hb
      rw [Nat.mul_div_cancel _ (by decide : 0 < BSIZE)] at this
      exact this
  have hlt : ∀ bn, bn * BSIZE < (s3.inode ip).size → bn < MAXFILE := by
    intro bn hbn
    rw [post.size] at hbn
    have : max (s.inode ip).size (o + n) ≤ MAXFILE * BSIZE := max_le hsz hon
    rw [hB] at hbn
    omega
  refine ⟨post.wr.dev, by rw [post.size]; exact max_le hsz hon, ?_, ?_⟩
  · intro h
    have h1 := hmap NDIRECT h
    have h2 : (s3.inode ip).addrs NDIRECT ≠ 0 := by
      intro e
      exact h1 (baddr_no_indirect s3 ip (by omega) e)
    have := post.wr.ind h2
    exact ⟨by have := this.1; omega, this.2.1⟩
  · intro bn hbn
    have := post.wr.map bn (hlt bn hbn) (hmap bn hbn)
    exact ⟨by have := this.1; omega, this.2.1⟩

/-- The records of the other inodes are not touched by `writei`. -/
theorem WritePost.records {s s3 : Kernel} {ip o n : Nat} {src : Mem}
    (post : WritePost s ip src o n s3) (hw : Writable s ip) (hsb : s.sb = mkfs_sb)
    (hsb3 : s3.sb = s.sb) (hin : (s.inode ip).inum < 200) :
    ∀ k i, k < 200 → k ≠ (s.inode ip).inum → i < DINODE_SIZE → s3.dinode k i = s.dinode k i := by
  have hIPB : IPB = 64 := rfl
  have hD : DINODE_SIZE = 64 := rfl
  have hFS : FSSTART = 32 := rfl
  have hDS : DATASTART = 37 := rfl
  have hBM : BMAPBLOCK = 36 := rfl
  intro k i hk hne hi64
  show s3.view (IBLOCK k s3.sb) (dinodeOff k + i) = s.view (IBLOCK k s.sb) (dinodeOff k + i)
  rw [hsb3, hsb]
  obtain ⟨hlo, hhi⟩ := IBLOCK_range hk
  by_cases hb : IBLOCK k mkfs_sb = IBLOCK (s.inode ip).inum mkfs_sb
  · rw [hb, post.record]
    apply dinode_image_outside
    rw [IBLOCK_mkfs hk, IBLOCK_mkfs hin, hIPB, hFS] at hb
    unfold dinodeOff
    rw [hIPB, hD]
    omega
  · rw [post.frame _ hlo (by omega) (hw.metaSet _ (by omega)) ?_ ?_ hb]
    · intro e'
      by_cases h0 : (s.inode ip).addrs NDIRECT = 0
      · rw [h0] at e'; omega
      · have := (hw.ind h0).1
        rw [← e'] at this
        omega
    · intro bn hbn e'
      by_cases h0 : s.baddr ip bn = 0
      · rw [h0] at e'; omega
      · have := (hw.map bn hbn h0).1
        rw [e'] at this
        omega

/-- Reading one byte of a file inside an operation with three buffers in
reserve. -/
theorem readi_byte {s : Kernel} {T : Set Nat} {m ip : Nat} (dst : Mem) (p : Nat)
    (hi : FSInv s T m) (hfree : ∀ x, s.unheld x) (hr : Readable s ip)
    (hp : p < (s.inode ip).size) (hm : 3 ≤ m) :
    ∃ s1, readi ip dst p 1 s = Res.ok (1, Function.update dst 0 (s.fbyte ip p)) s1 := by
  have hU : U32 = 4294967296 := by unfold U32; norm_num
  have hM : MAXFILE * BSIZE = 4243456 := by decide
  have hB : BSIZE = 4096 := rfl
  have hmax := hr.size_le
  have h3 : (p + 1) % U32 = p + 1 := Nat.mod_eq_of_lt (by omega)
  have hg : ¬ (p > (s.inode ip).size ∨ (p + 1) % U32 < p) := by rw [h3]; omega
  have hn1 : (if (p + 1) % U32 > (s.inode ip).size then ((s.inode ip).size - p) % U32
      else 1) = 1 := by
    rw [h3, if_neg (by omega)]
  have hbl : blocks_left p 1 0 + 1 ≤ m := by
    unfold blocks_left
    rw [hB]
    split <;> omega
  obtain ⟨s1, T1, m1, e, _⟩ :=
    readi_loop_spec ip p 1 1 1 0 dst s T m hi hfree hr (by omega) (Nat.zero_le _)
      (by omega) (fun _ => Or.inr ⟨Or.inr (le_refl 1), hbl⟩)
  refine ⟨s1, ?_⟩
  unfold readi
  simp only [bind_apply, getK_apply, hg, ↓reduceIte, hn1, pure_apply]
  have e' : readi_loop ip 1 1 0 p dst s =
      Res.ok (fun i => if 0 ≤ i ∧ i < 1 then s.fbyte ip (p + i) else dst i) s1 := e
  rw [e']
  have hf : (fun i => if 0 ≤ i ∧ i < 1 then s.fbyte ip (p + i) else dst i) =
      Function.update dst 0 (s.fbyte ip p) := by
    funext i
    by_cases h0 : i = 0
    · subst h0
      simp
    · rw [Function.update_noteq h0, if_neg (by omega)]
  rw [hf]
  rfl

theorem WBudget.of_room {s : Kernel} {T : Set Nat} {m ip R eb el : Nat}
    (hm : 2 * R + 5 + eb ≤ m) (hl : s.log.lh.n + R + 3 + el ≤ LOGSIZE) :
    WBudget s T m ip R eb el :=
  ⟨1, 1, 1, Or.inr (le_refl 1), fun _ => Or.inr (le_refl 1), fun _ => le_refl 1,
    fun _ => Or.inr (le_refl 1), by omega, by omega⟩

theorem demo_mapped_inv : FSInv demo_mapped ∅ NBUF := by
  have hne : ∀ i, (demo_mapped.buf i).dev ≠ ROOTDEV := fun _ => show (0 : Nat) ≠ 1 by decide
  exact FSInv.of_unbound (s := demo_mapped) (List.nodup_reverse.2 (List.nodup_range NBUF))
    (fun i _ => ⟨hne i, rfl, rfl⟩) rfl rfl rfl rfl rfl

theorem demo_mapped_unheld (c : Nat) : demo_mapped.unheld c := fun _ _ _ => rfl

theorem demo_mapped_view (c : Nat) : demo_mapped.view c = demo_mapped_disk c :=
  cold_view demo_mapped_disk 1 c

theorem demo_mapped_baddr (bn : Nat) :
    demo_mapped.baddr 0 bn = if bn = 0 then 40 else if bn = 1 then 41 else 0 := by
  have hN : NDIRECT = 12 := rfl
  unfold Kernel.baddr
  by_cases h : bn < NDIRECT
  · rw [if_pos h]
    rfl
  · rw [if_neg h]
    have h0 : (demo_mapped.inode 0).addrs NDIRECT = 0 := rfl
    rw [if_pos h0, if_neg (by omega), if_neg (by omega)]

set_option maxRecDepth 100000 in
theorem demo_mapped_meta : ∀ b, b < DATASTART → bit_clear (demo_mapped_disk BMAPBLOCK) b = false := by
  decide!

set_option maxRecDepth 100000 in
theorem demo_mapped_bits : bit_clear (demo_mapped_disk BMAPBLOCK) 40 = false ∧
    bit_clear (demo_mapped_disk BMAPBLOCK) 41 = false := by
  decide!

set_option maxRecDepth 100000 in
theorem demo_mapped_free : ∀ b ∈ [37, 38, 39, 42],
    DATASTART ≤ b ∧ b < FSSIZE ∧ bit_clear (demo_mapped_disk BMAPBLOCK) b = true := by
  decide!

theorem demo_mapped_writable : Writable demo_mapped 0 := by
  refine ⟨rfl, ?_, ?_, fun h => absurd rfl h, ?_, ?_⟩
  · intro b hb
    rw [demo_mapped_view]
    exact demo_mapped_meta b hb
  · intro bn _ hnz
    rw [demo_mapped_baddr] at hnz ⊢
    by_cases h0 : bn = 0
    · rw [if_pos h0]
      exact ⟨by decide, by decide, by rw [demo_mapped_view]; exact demo_mapped_bits.1⟩
    · rw [if_neg h0] at hnz ⊢
      by_cases h1 : bn = 1
      · rw [if_pos h1]
        exact ⟨by decide, by decide, by rw [demo_mapped_view]; exact demo_mapped_bits.2⟩
      · rw [if_neg h1] at hnz
        exact absurd rfl hnz
  · intro bn bn' _ _ hnz he
    rw [demo_mapped_baddr] at hnz he
    rw [demo_mapped_baddr] at he
    by_cases h0 : bn = 0
    · rw [if_pos h0] at he
      by_cases h0' : bn' = 0
      · rw [h0, h0']
      · rw [if_neg h0'] at he
        by_cases h1' : bn' = 1
        · rw [if_pos h1'] at he; exact absurd he (by decide)
        · rw [if_neg h1'] at he; exact absurd he (by decide)
    · rw [if_neg h0] at he hnz
      by_cases h1 : bn = 1
      · rw [if_pos h1] at he
        by_cases h0' : bn' = 0
        · rw [if_pos h0'] at he; exact absurd he (by decide)
        · rw [if_neg h0'] at he
          by_cases h1' : bn' = 1
          · rw [h1, h1']
          · rw [if_neg h1'] at he; exact absurd he (by decide)
      · rw [if_neg h1] at hnz
        exact absurd rfl hnz
  · intro bn _ hnz e
    exact hnz e

theorem demo_mapped_readable : Readable demo_mapped 0 := by
  refine ⟨rfl, by decide, fun h => absurd h (by decide), ?_⟩
  intro bn hbn
  have hsz : (demo_mapped.inode 0).size = 5000 := rfl
  rw [hsz] at hbn
  have : bn = 0 ∨ bn = 1 := by unfold BSIZE at hbn; omega
  rw [demo_mapped_baddr]
  rcases this with h | h <;> subst h <;> decide

theorem demo_mapped_has_free : HasFree (demo_mapped.view BMAPBLOCK) (2 * blocks_left 4090 100 0) := by
  rw [demo_mapped_view]
  exact ⟨[37, 38, 39, 42], by decide, by decide, demo_mapped_free⟩

/-- C10. For a cached directory inode `dp` (blocks below its size mapped, no
buffer pinned, budget as for `dirlookup`, some inode-cache slot unused) that
contains an entry with `inum != 0` named `name`: `dirlink(dp, name, inum)`
returns -1, and the size of the directory, every byte of its content, the
content of every block and the device are unchanged. -/
theorem dirlink_existing_name {s : Kernel} {T : Set Nat} {m dp : Nat} (name : Mem) (inum : Nat)
    (hi : FSInv s T m) (hfree : ∀ x, s.unheld x) (hr : Readable s dp)
    (hdir : (s.inode dp).type = T_DIR)
    (hroom : (s.log.outstanding = 0 ∧ 2 ≤ s.lru.length) ∨ (s.inode dp).size / BSIZE + 2 ≤ m)
    (hex : ∃ e, DIRENT_SIZE * e + DIRENT_SIZE ≤ (s.inode dp).size ∧ s.de_hit dp name e)
    (hslot : ∃ i, i < NINODE ∧ (s.inode i).ref = 0) :
    ∃ s1, dirlink dp name inum s = Res.ok (-1) s1 ∧
      (s1.inode dp).size = (s.inode dp).size ∧ (∀ p, s1.fbyte dp p = s.fbyte dp p) ∧
      s1.ramdisk = s.ramdisk ∧ s1.view = s.view := by
  obtain ⟨e0, ⟨hsz, hhit⟩, hmin⟩ := exists_first hex
  have hfirst : ∀ j, j < e0 → ¬ s.de_hit dp name j := by
    intro j hj hh
    refine hmin j hj ⟨?_, hh⟩
    have hsz' : 16 * e0 + 16 ≤ (s.inode dp).size := hsz
    show 16 * j + 16 ≤ _
    omega
  have hroom' : (s.log.outstanding = 0 ∧ 2 ≤ s.lru.length) ∨
      DIRENT_SIZE * e0 / BSIZE + 2 ≤ m := by
    rcases hroom with h | h
    · exact Or.inl h
    · refine Or.inr ?_
      have h' : (s.inode dp).size / 4096 + 2 ≤ m := h
      have hsz' : 16 * e0 + 16 ≤ (s.inode dp).size := hsz
      show 16 * e0 / 4096 + 2 ≤ m
      omega
  obtain ⟨s1, T1, m1, _, _, hv, hdk, _, hn, _, _, _, _, e⟩ :=
    dirlookup_found name hi hfree hr hdir hroom' hsz hhit hfirst
  obtain ⟨i, hi1, hi2⟩ := hslot
  obtain ⟨ip, x, eg, hip, hxs, hxa, _⟩ :=
    @iget_ok s1 ROOTDEV (s.de_inum dp (DIRENT_SIZE * e0))
      ⟨i, hi1, Or.inl (by rw [hn]; exact hi2)⟩
  have hsize : ((s1.setInode ip x).inode dp).size = (s.inode dp).size := by
    rw [setInode_inode]
    split
    · next h => rw [hxs, h, hn]
    · rw [hn]
  have haddrs : ((s1.setInode ip x).inode dp).addrs = (s.inode dp).addrs := by
    rw [setInode_inode]
    split
    · next h => rw [hxa, h, hn]
    · rw [hn]
  refine ⟨s1.setInode ip x, ?_, hsize, fun p => fbyte_congr_addrs (t := s1.setInode ip x) (s := s) hv haddrs p, hdk, hv⟩
  unfold dirlink
  simp only [bind_apply, e, eg, pure_apply]

/-- In the demonstration root directory a second entry `"."` is refused. -/
theorem dirlink_existing_name_witness :
    ∃ s1, dirlink 0 dotName 7 demo_dir = Res.ok (-1) s1 ∧
      (s1.inode 0).size = (demo_dir.inode 0).size ∧
      (∀ p, s1.fbyte 0 p = demo_dir.fbyte 0 p) ∧
      s1.ramdisk = demo_dir.ramdisk ∧ s1.view = demo_dir.view :=
  dirlink_existing_name dotName 7 demo_dir_inv demo_dir_unheld demo_dir_readable rfl
    (Or.inl ⟨rfl, by decide⟩) ⟨0, by decide, demo_dir_hits.2.2.1⟩ ⟨1, by decide, rfl⟩

/-- C12. For a cached inode `dp` whose blocks below its size are mapped (no
buffer pinned; either no operation open or one recyclable buffer per
directory block plus two): `dirlookup` panics when `dp` is not a directory;
when entry `e0` is the first one in ascending offset order with `inum != 0`
and a name field equal to `name` under `namecmp`, it returns the handle that
`iget` gives for that entry's inode number (provided the inode is cached or
a cache slot is unused) together with the byte offset of the entry; when the
directory is a whole number of entries none of which matches, it returns
null. Block contents and the device are unchanged. -/
theorem dirlookup_first_match {s : Kernel} {T : Set Nat} {m dp : Nat} (name : Mem)
    (hi : FSInv s T m) (hfree : ∀ x, s.unheld x) (hr : Readable s dp)
    (hroom : (s.log.outstanding = 0 ∧ 2 ≤ s.lru.length) ∨ (s.inode dp).size / BSIZE + 2 ≤ m) :
    ((s.inode dp).type ≠ T_DIR →
      dirlookup dp name s = Res.fail (Fault.panic PanicSite.dirlookup_not_dir)) ∧
    ((s.inode dp).type = T_DIR →
      (∀ e0, DIRENT_SIZE * e0 + DIRENT_SIZE ≤ (s.inode dp).size → s.de_hit dp name e0 →
        (∀ j, j < e0 → ¬ s.de_hit dp name j) →
        (∃ i, i < NINODE ∧ ((s.inode i).ref = 0 ∨ ((s.inode i).ref > 0 ∧
          (s.inode i).dev = ROOTDEV ∧ (s.inode i).inum = s.de_inum dp (DIRENT_SIZE * e0)))) →
        ∃ ip s1, dirlookup dp name s = Res.ok (some (ip, DIRENT_SIZE * e0)) s1 ∧
          ip < NINODE ∧ (s1.inode ip).dev = ROOTDEV ∧
          (s1.inode ip).inum = s.de_inum dp (DIRENT_SIZE * e0) ∧ 0 < (s1.inode ip).ref ∧
          s1.view = s.view ∧ s1.ramdisk = s.ramdisk) ∧
      ((s.inode dp).size % DIRENT_SIZE = 0 →
        (∀ j, DIRENT_SIZE * j + DIRENT_SIZE ≤ (s.inode dp).size → ¬ s.de_hit dp name j) →
        ∃ s1, dirlookup dp name s = Res.ok none s1 ∧ s1.inode = s.inode ∧
          s1.view = s.view ∧ s1.ramdisk = s.ramdisk)) := by
  refine ⟨?_, fun hdir => ⟨?_, ?_⟩⟩
  · intro hnd
    unfold dirlookup
    simp only [bind_apply, getK_apply, hnd, ne_eq, not_false_eq_true, ↓reduceIte, kpanic_apply]
  · intro e0 hsz hhit hfirst hslot
    have hroom' : (s.log.outstanding = 0 ∧ 2 ≤ s.lru.length) ∨
        DIRENT_SIZE * e0 / BSIZE + 2 ≤ m := by
      rcases hroom with h | h
      · exact Or.inl h
      · refine Or.inr ?_
        have h' : (s.inode dp).size / 4096 + 2 ≤ m := h
        have hsz' : 16 * e0 + 16 ≤ (s.inode dp).size := hsz
        show 16 * e0 / 4096 + 2 ≤ m
        omega
    obtain ⟨s1, T1, m1, _, _, hv, hdk, _, hn, _, _, _, _, e⟩ :=
      dirlookup_found name hi hfree hr hdir hroom' hsz hhit hfirst
    obtain ⟨ip, x, eg, hip, _, _, _, _, hxd, hxi, hxr⟩ :=
      iget_ok (s := s1) (by rw [hn]; exact hslot)
    refine ⟨ip, s1.setInode ip x, ?_, hip, ?_, ?_, ?_, hv, hdk⟩
    · rw [e]; simp only [bind_apply, eg, pure_apply]
    · rw [setInode_inode, if_pos rfl]; exact hxd
    · rw [setInode_inode, if_pos rfl]; exact hxi
    · rw [setInode_inode, if_pos rfl]; exact hxr
  · intro hdvd hmiss
    obtain ⟨s1, T1, m1, _, _, hv, hdk, _, hn, _, _, _, _, e⟩ :=
      dirlookup_none name hi hfree hr hdir hroom hdvd hmiss
    exact ⟨s1, e, hn, hv, hdk⟩

/-- In the demonstration root directory `".."` is found at entry 1 (byte
offset 16) and `"a"` is not found. -/
theorem dirlookup_first_match_witness :
    (∃ ip s1, dirlookup 0 dotdotName demo_dir = Res.ok (some (ip, DIRENT_SIZE * 1)) s1 ∧
      ip < NINODE ∧ (s1.inode ip).dev = ROOTDEV ∧
      (s1.inode ip).inum = demo_dir.de_inum 0 (DIRENT_SIZE * 1) ∧ 0 < (s1.inode ip).ref ∧
      s1.view = demo_dir.view ∧ s1.ramdisk = demo_dir.ramdisk) ∧
    (∃ s1, dirlookup 0 demo_name demo_dir = Res.ok none s1 ∧ s1.inode = demo_dir.inode ∧
      s1.view = demo_dir.view ∧ s1.ramdisk = demo_dir.ramdisk) :=
  ⟨((dirlookup_first_match dotdotName demo_dir_inv demo_dir_unheld demo_dir_readable
      (Or.inl ⟨rfl, by decide⟩)).2 rfl).1 1 (by decide) demo_dir_hits.2.1
      (fun j hj => by
        have : j = 0 := by omega
        subst this; exact demo_dir_hits.1)
      ⟨1, by decide, Or.inl rfl⟩,
   ((dirlookup_first_match demo_name demo_dir_inv demo_dir_unheld demo_dir_readable
      (Or.inl ⟨rfl, by decide⟩)).2 rfl).2 (by decide)
      (fun j hj => by
        rcases demo_dir_small hj with h | h <;> subst h
        · exact demo_dir_hits.2.2.2.1
        · exact demo_dir_hits.2.2.2.2)⟩

/-- C15. On the empty path `namei` and `nameiparent` return null and leave the
reference taken by `iget` on the root inode in place: the count of that cache
slot is one higher after the call than before it. -/
theorem namei_empty_path_leaks_reference (s : Kernel) (name : Mem)
    (h : ∃ i, i < NINODE ∧ ((s.inode i).ref = 0 ∨
      ((s.inode i).ref > 0 ∧ (s.inode i).dev = ROOTDEV ∧ (s.inode i).inum = ROOTINO))) :
    ∃ ip s1, namei [] s = Res.ok none s1 ∧ nameiparent [] name s = Res.ok (none, name) s1 ∧
      (s1.inode ip).ref = (s.inode ip).ref + 1 := by
  obtain ⟨ip, x, hg, -⟩ := iget_ok h
  refine ⟨ip, _, ?_, ?_, (iget_ref hg).1⟩
  · simp [namei, namex, hg]
  · simp [nameiparent, namex, hg]

theorem namei_empty_path_leaks_reference_witness :
    ∃ ip s1, namei [] (cold mkfs_disk 0) = Res.ok none s1 ∧
      nameiparent [] zeroMem (cold mkfs_disk 0) = Res.ok (none, zeroMem) s1 ∧
      (s1.inode ip).ref = ((cold mkfs_disk 0).inode ip).ref + 1 :=
  namei_empty_path_leaks_reference (cold mkfs_disk 0) zeroMem
    ⟨0, by decide, Or.inl rfl⟩

/-- C16. For a descriptor `fd` open for reading on a cached inode (file
system at rest: no operation open, no buffer pinned, a cache of at least two
buffers; a free descriptor is left), `sys_dup(fd)` returns the lowest free
descriptor, bound to the same file-table entry, whose reference count goes
up by one. Reads through the two descriptors share the offset of that entry:
for `a` and `b` each either of the two descriptors, reading `n1` bytes through
`a` and then `n2` bytes through `b` returns the file bytes `off .. off+n1-1`
and then `off+n1 .. off+n1+n2-1`, and leaves the offset at `off+n1+n2`. -/
theorem sys_dup_shares_offset {s : Kernel} {T : Set Nat} {m : Nat} (fd : Int) (f ip : Nat)
    (dst1 dst2 : Mem) (n1 n2 : Nat)
    (hi : FSInv s T m) (hfree : ∀ x, s.unheld x) (ho : s.log.outstanding = 0)
    (hl : 2 ≤ s.lru.length) (hopen : OpenRead s fd f ip) (hr : Readable s ip)
    (hslot : ∃ k, k < NOFILE ∧ s.g_ofile k = none) (hn1 : 0 < n1) (hn2 : 0 < n2)
    (hsz : (s.file f).off + n1 + n2 ≤ (s.inode ip).size) :
    ∃ (nfd : Nat) (s1 : Kernel), sys_dup fd s = Res.ok (nfd : Int) s1 ∧ nfd < NOFILE ∧
      (nfd : Int) ≠ fd ∧ s.g_ofile nfd = none ∧ (∀ j, j < nfd → s.g_ofile j ≠ none) ∧
      argfd s1 (nfd : Int) = some f ∧ argfd s1 fd = some f ∧
      (s1.file f).ref = (s.file f).ref + 1 ∧ (s1.file f).off = (s.file f).off ∧
      ∀ a b : Int, (a = fd ∨ a = (nfd : Int)) → (b = fd ∨ b = (nfd : Int)) →
        ∃ s2 s3, sys_read a dst1 (n1 : Int) s1 =
            Res.ok ((n1 : Int), fun i => if i < n1 then s.fbyte ip ((s.file f).off + i)
              else dst1 i) s2 ∧
          sys_read b dst2 (n2 : Int) s2 =
            Res.ok ((n2 : Int), fun i => if i < n2 then s.fbyte ip ((s.file f).off + n1 + i)
              else dst2 i) s3 ∧
          (s3.file f).off = (s.file f).off + n1 + n2 := by
  obtain ⟨k, hk, hk1, hlow, hdup⟩ := sys_dup_spec hopen.fd_open hopen.fref hslot
  generalize hs1 : Kernel.setFile { s with g_ofile := Function.update s.g_ofile k (some f) } f
    { s.file f with ref := (s.file f).ref + 1 } = s1 at hdup
  have hb1 : s1.buf = s.buf := by rw [← hs1]; rfl
  have hl1 : s1.lru = s.lru := by rw [← hs1]; rfl
  have hd1 : s1.ramdisk = s.ramdisk := by rw [← hs1]; rfl
  have hg1 : s1.log = s.log := by rw [← hs1]; rfl
  have hsb1 : s1.sb = s.sb := by rw [← hs1]; rfl
  have hin1 : s1.inode = s.inode := by rw [← hs1]; rfl
  have hv1 : s1.view = s.view := by rw [← hs1]; rfl
  have hf1 : s1.file f = { s.file f with ref := (s.file f).ref + 1 } := by
    rw [← hs1]; simp [Kernel.setFile]
  have hgo1 : s1.g_ofile = Function.update s.g_ofile k (some f) := by rw [← hs1]; rfl
  have hfdr : 0 ≤ fd ∧ fd < (NOFILE : Nat) ∧ s.g_ofile fd.toNat = some f := by
    have h := hopen.fd_open
    unfold argfd at h
    split at h
    · cases h
    · rename_i hc
      push_neg at hc
      exact ⟨hc.1, hc.2, h⟩
  have hne : (k : Int) ≠ fd := by
    intro h
    have : fd.toNat = k := by rw [← h]; exact Int.toNat_natCast k
    rw [this, hk1] at hfdr
    cases hfdr.2.2
  have hne2 : fd.toNat ≠ k := by
    intro h
    rw [h, hk1] at hfdr
    cases hfdr.2.2
  have ha1 : argfd s1 (k : Int) = some f := by
    unfold argfd
    rw [if_neg (by push_neg; exact ⟨by omega, by exact_mod_cast hk⟩), hgo1, Int.toNat_natCast,
      Function.update_same]
  have ha2 : argfd s1 fd = some f := by
    unfold argfd
    rw [if_neg (by push_neg; exact ⟨hfdr.1, hfdr.2.1⟩), hgo1, Function.update_noteq hne2]
    exact hfdr.2.2
  have hi1 : FSInv s1 T m := hi.of_cache_eq hb1 hl1 hd1 hg1 hsb1
  have hfree1 : ∀ x, s1.unheld x := fun x => unheld_of_cache_eq (hfree x) hb1 hl1
  have hr1 : Readable s1 ip := hr.of_fields hv1 (by rw [hin1]) (by rw [hin1]) (by rw [hin1])
  have hfb1 : ∀ p, s1.fbyte ip p = s.fbyte ip p := fun p =>
    fbyte_congr_addrs hv1 (by rw [hin1]) p
  refine ⟨k, s1, hdup, hk, hne, hk1, hlow, ha1, ha2, by rw [hf1], by rw [hf1], ?_⟩
  intro a b hab hbb
  have haa : argfd s1 a = some f := by
    rcases hab with h | h <;> rw [h] <;> assumption
  -- first read
  obtain ⟨s2, e2, hi2, hfree2, hlen2, hv2, hd2, hlog2, hin2, hgo2, hsb2, hf2⟩ :=
    @fileread_calm s1 T m f ip dst1 n1 hi1 hfree1 (by rw [hg1]; exact ho)
      (by rw [hl1]; exact hl) (by rw [hf1]; exact hopen.readable) (by rw [hf1]; exact hopen.type)
      (by rw [hf1]; exact hopen.ip_eq) (by rw [hin1]; exact hopen.iref)
      (by rw [hin1]; exact hopen.unlocked) (by rw [hin1]; exact hopen.valid) hr1 hn1
      (by rw [hin1, hf1]; show (s.file f).off + n1 ≤ _; omega)
  have hoff1 : (s1.file f).off = (s.file f).off := by rw [hf1]
  simp only [hfb1, hoff1] at e2
  have hbb2 : argfd s2 b = some f := by
    have : argfd s2 b = argfd s1 b := by unfold argfd; rw [hgo2]
    rw [this]
    rcases hbb with h | h <;> rw [h] <;> assumption
  have hf2f : s2.file f = { s1.file f with off := (s1.file f).off + n1 } := by
    rw [hf2, Function.update_same]
  have hr2 : Readable s2 ip := hr1.of_fields hv2 (by rw [hin2]) (by rw [hin2]) (by rw [hin2])
  have hfb2 : ∀ p, s2.fbyte ip p = s.fbyte ip p := fun p =>
    (fbyte_congr_addrs hv2 (by rw [hin2]) p).trans (hfb1 p)
  -- second read
  obtain ⟨s3, e3, -, -, -, -, -, -, -, -, -, hf3⟩ :=
    @fileread_calm s2 _ _ f ip dst2 n2 hi2 hfree2 (by rw [hlog2, hg1]; exact ho)
      (by rw [hlen2, hl1]; exact hl) (by rw [hf2f, hf1]; exact hopen.readable)
      (by rw [hf2f, hf1]; exact hopen.type) (by rw [hf2f, hf1]; exact hopen.ip_eq)
      (by rw [hin2, hin1]; exact hopen.iref) (by rw [hin2, hin1]; exact hopen.unlocked)
      (by rw [hin2, hin1]; exact hopen.valid) hr2 hn2
      (by rw [hin2, hin1, hf2f, hf1]; show (s.file f).off + n1 + n2 ≤ _; omega)
  have hoff2 : (s2.file f).off = (s.file f).off + n1 := by rw [hf2f, hf1]
  simp only [hfb2, hoff2] at e3
  refine ⟨s2, s3, ?_, ?_, ?_⟩
  · unfold sys_read
    simp only [bind_apply, getK_apply, haa]
    exact e2
  · unfold sys_read
    simp only [bind_apply, getK_apply, hbb2]
    exact e3
  · rw [hf3, Function.update_same]
    show (s2.file f).off + n2 = _
    rw [hoff2]

/-- On the demonstration volume descriptor 0 is duplicated and 2 bytes are read
through each of the two descriptors, as in `test_fs_dup`. -/
theorem sys_dup_shares_offset_witness :
    ∃ (nfd : Nat) (s1 : Kernel), sys_dup 0 demo_open = Res.ok (nfd : Int) s1 ∧ nfd < NOFILE ∧
      (nfd : Int) ≠ 0 ∧ demo_open.g_ofile nfd = none ∧
      (∀ j, j < nfd → demo_open.g_ofile j ≠ none) ∧
      argfd s1 (nfd : Int) = some 0 ∧ argfd s1 0 = some 0 ∧
      (s1.file 0).ref = (demo_open.file 0).ref + 1 ∧ (s1.file 0).off = (demo_open.file 0).off ∧
      ∀ a b : Int, (a = 0 ∨ a = (nfd : Int)) → (b = 0 ∨ b = (nfd : Int)) →
        ∃ s2 s3, sys_read a zeroMem ((2 : Nat) : Int) s1 =
            Res.ok (((2 : Nat) : Int), fun i => if i < 2 then
              demo_open.fbyte 0 ((demo_open.file 0).off + i) else zeroMem i) s2 ∧
          sys_read b zeroMem ((2 : Nat) : Int) s2 =
            Res.ok (((2 : Nat) : Int), fun i => if i < 2 then
              demo_open.fbyte 0 ((demo_open.file 0).off + 2 + i) else zeroMem i) s3 ∧
          (s3.file 0).off = (demo_open.file 0).off + 2 + 2 :=
  sys_dup_shares_offset 0 0 0 zeroMem zeroMem 2 2 demo_open_inv (fun _ _ _ _ => rfl) rfl
    (by decide) demo_open_open demo_open_readable ⟨1, by decide, rfl⟩ (by decide) (by decide)
    (by decide)

/-- C17. Inside a transaction, for a pinned buffer `h` of a file-system block
`X` on which `bwrite` has set the `disk` flag (the only caller of
`log_write`): if `X` is entry `i` of the in-memory header, `log_write` leaves
the header unchanged and writes the data of `h` to the log block
`log.start + 1 + i`; otherwise (with a free payload slot and a recyclable
buffer) it appends `X` at position `n`, increases `n` by one and writes the
data to `log.start + 1 + n`. No other device block changes, the entries of
the header stay pairwise distinct, and the invariant that every released
buffer of a listed block equals its slot is kept. -/
theorem log_write_absorbs_or_appends {s : Kernel} {T : Set Nat} {m h X : Nat}
    (hi : FSInv s T m) (hh : s.held h X) (hlo : FSSTART ≤ X) (hdisk : (s.buf h).disk = 1)
    (hout : s.log.outstanding ≠ 0)
    (hroom : s.logged X ∨ (s.log.lh.n + 2 ≤ LOGSIZE ∧ 1 ≤ m)) :
    ∃ s1 T1 m1, log_write h s = Res.ok () s1 ∧ FSInv s1 T1 m1 ∧
      (∀ i, i < s.log.lh.n → s.log.lh.block i = X →
        s1.log = s.log ∧
        s1.ramdisk = Function.update s.ramdisk (s.log.start + 1 + i) (s.buf h).data) ∧
      (¬ s.logged X →
        s1.log.lh.n = s.log.lh.n + 1 ∧
        s1.log.lh.block = Function.update s.log.lh.block s.log.lh.n X ∧
        s1.ramdisk = Function.update s.ramdisk (s.log.start + 1 + s.log.lh.n) (s.buf h).data) ∧
      (∀ k k', k < s1.log.lh.n → k' < s1.log.lh.n →
        s1.log.lh.block k = s1.log.lh.block k' → k = k') := by
  have hlocked : (s.buf h).locked ≠ 0 := by rw [(hi.ci.ok.lock h hh.1).1, hh.2.2]; simp
  have hself : s.setBuf h { s.buf h with disk := 1 } = s := by
    have : ({ s.buf h with disk := 1 } : Buf) = s.buf h := by
      rw [← hdisk]
    rw [this, setBuf_self]
  have hbw : bwrite h s = log_write h s := by
    unfold bwrite
    rw [if_neg hlocked, hself]
  obtain ⟨s1, T1, m1, e, p⟩ := fs_bwrite hi hh hlo (Or.inr hroom)
  rw [hbw] at e
  obtain ⟨k, hk, hkX, hd⟩ := p.disk hout
  refine ⟨s1, T1, m1, e, p.inv, ?_, ?_, fun a b ha hb => p.inv.lg.blk_inj a ha b hb⟩
  · intro i hin hiX
    obtain ⟨_, _, hlog⟩ := p.tight (Or.inr ⟨i, hin, hiX⟩)
    refine ⟨hlog, ?_⟩
    rw [hlog] at hk hkX
    have : k = i := hi.lg.blk_inj k hk i hin (hkX.trans hiX.symm)
    subst this
    exact hd
  · intro hnl
    obtain ⟨hn, hb⟩ := p.fresh hout hnl
    refine ⟨hn, hb, ?_⟩
    have hkn : k = s.log.lh.n := by
      by_contra hne
      rw [hn] at hk
      rw [hb, Function.update_noteq hne] at hkX
      exact hnl ⟨k, by omega, hkX⟩
    subst hkn
    exact hd

/-- In a fresh transaction, `log_write` of the pinned buffer of block 40
appends 40 as entry 0 and writes its payload to block 3. -/
theorem log_write_absorbs_or_appends_witness :
    ∃ s1 T1 m1, log_write 0 (flagged mkfs_disk 1 40) = Res.ok () s1 ∧ FSInv s1 T1 m1 ∧
      (∀ i, i < (flagged mkfs_disk 1 40).log.lh.n → (flagged mkfs_disk 1 40).log.lh.block i = 40 →
        s1.log = (flagged mkfs_disk 1 40).log ∧
        s1.ramdisk = Function.update (flagged mkfs_disk 1 40).ramdisk
          ((flagged mkfs_disk 1 40).log.start + 1 + i) ((flagged mkfs_disk 1 40).buf 0).data) ∧
      (¬ (flagged mkfs_disk 1 40).logged 40 →
        s1.log.lh.n = (flagged mkfs_disk 1 40).log.lh.n + 1 ∧
        s1.log.lh.block = Function.update (flagged mkfs_disk 1 40).log.lh.block
          (flagged mkfs_disk 1 40).log.lh.n 40 ∧
        s1.ramdisk = Function.update (flagged mkfs_disk 1 40).ramdisk
          ((flagged mkfs_disk 1 40).log.start + 1 + (flagged mkfs_disk 1 40).log.lh.n)
          ((flagged mkfs_disk 1 40).buf 0).data) ∧
      (∀ k k', k < s1.log.lh.n → k' < s1.log.lh.n →
        s1.log.lh.block k = s1.log.lh.block k' → k = k') :=
  log_write_absorbs_or_appends (flagged_inv mkfs_disk 1 (by decide) (by decide))
    (flagged_held mkfs_disk 1 (by decide) (by decide)) (by decide) rfl (by decide)
    (Or.inr ⟨by decide, by decide⟩)

set_option maxRecDepth 100000 in
set_option maxHeartbeats 0 in
/-- C18. The claim fails in the code: a transaction that stages the thirty
distinct blocks 40 .. 69 does not panic, the header count reaches 30 although
the log region `[logstart, logstart + nlog) = [2, 32)` has only 29 payload
slots, and the payload of the thirtieth block (69) has been written to block
32, the first inode block, outside the log region; "log full" is raised only
by the thirty-first distinct block. -/
theorem log_write_thirtieth_slot_outside_region :
    observe ((do fs_init ROOTDEV; begin_op; stageAll blocks30 : K Unit) boot)
        (fun s => [s.log.lh.n, s.sb.logstart, s.sb.nlog, s.sb.inodestart,
          s.log.start + 1 + 29, s.ramdisk 32 0]) = some [30, 2, 30, 32, 32, 69] ∧
    failure ((do fs_init ROOTDEV; begin_op; stageAll (blocks30 ++ [70]) : K Unit) boot) =
      some (Fault.panic PanicSite.log_write_full) := by
  decide!

/-- C19. `begin_op` panics exactly when `log.committing` is set and otherwise
only increments `log.outstanding`. On a mounted volume with no buffer pinned
and a recyclable buffer for the header block, `end_op` panics exactly when
`log.outstanding < 1`; with `outstanding >= 2` it only decrements the counter
(no commit: header and device are untouched); with `outstanding = 1` it runs
`commit` on the state with `outstanding = 0` and `committing = 1`, and
returns with both at 0, an empty header and every block installed on the
device. -/
theorem begin_end_op_nesting {s : Kernel} {T : Set Nat} {m : Nat} (hi : FSInv s T m)
    (hfree : ∀ x, s.unheld x) (hbud : 2 ∈ T ∨ 1 ≤ m) :
    ((∃ e, begin_op s = Res.fail e) ↔ s.log.committing ≠ 0) ∧
    (s.log.committing ≠ 0 → begin_op s = Res.fail (Fault.panic PanicSite.begin_op_committing)) ∧
    (s.log.committing = 0 → begin_op s =
      Res.ok () { s with log := { s.log with outstanding := s.log.outstanding + 1 } }) ∧
    ((∃ e, end_op s = Res.fail e) ↔ s.log.outstanding < 1) ∧
    (s.log.outstanding < 1 →
      end_op s = Res.fail (Fault.panic PanicSite.end_op_no_outstanding)) ∧
    (2 ≤ s.log.outstanding → end_op s =
      Res.ok () { s with log := { s.log with outstanding := s.log.outstanding - 1 } }) ∧
    (s.log.outstanding = 1 →
      end_op s = (commit >>= fun _ => modifyK Kernel.closed) s.closing ∧
      ∃ s1, end_op s = Res.ok () s1 ∧ s1.log.outstanding = 0 ∧ s1.log.committing = 0 ∧
        s1.log.lh.n = 0 ∧ (∀ c, s1.ramdisk c = s1.view c) ∧
        (∀ c, c ≠ 2 → s1.view c = s.view c)) := by
  have hb1 : s.log.committing ≠ 0 →
      begin_op s = Res.fail (Fault.panic PanicSite.begin_op_committing) := by
    intro h; unfold begin_op; rw [if_pos h]
  have hb2 : s.log.committing = 0 → begin_op s =
      Res.ok () { s with log := { s.log with outstanding := s.log.outstanding + 1 } } := by
    intro h; unfold begin_op; rw [if_neg (by simp [h])]
  have he1 : s.log.outstanding < 1 →
      end_op s = Res.fail (Fault.panic PanicSite.end_op_no_outstanding) := by
    intro h; unfold end_op; rw [if_pos h]
  have he2 : 2 ≤ s.log.outstanding → end_op s =
      Res.ok () { s with log := { s.log with outstanding := s.log.outstanding - 1 } } := by
    intro h
    unfold end_op
    have h1 : ¬ s.log.outstanding < 1 := by omega
    have h2 : ¬ s.log.outstanding - 1 = 0 := by omega
    simp only [h1, ↓reduceIte, h2]
  have he3 : s.log.outstanding = 1 → ∃ s1, end_op s = Res.ok () s1 ∧ s1.log.outstanding = 0 ∧
      s1.log.committing = 0 ∧ s1.log.lh.n = 0 ∧ (∀ c, s1.ramdisk c = s1.view c) ∧
      (∀ c, c ≠ 2 → s1.view c = s.view c) := by
    intro h
    obtain ⟨s1, T1, m1, e, _, _, _, a, b, c, d, f, _⟩ := end_op_spec hi hfree hbud h
    exact ⟨s1, e, a, b, c, fun x => (d x).symm, f⟩
  refine ⟨⟨?_, fun h => ⟨_, hb1 h⟩⟩, hb1, hb2, ⟨?_, fun h => ⟨_, he1 h⟩⟩, he1, he2,
    fun h => ⟨end_op_commits h, he3 h⟩⟩
  · rintro ⟨e, he⟩ hc
    rw [hb2 hc] at he
    exact absurd he (by simp)
  · rintro ⟨e, he⟩
    by_contra hc
    by_cases h2 : 2 ≤ s.log.outstanding
    · rw [he2 h2] at he; exact absurd he (by simp)
    · obtain ⟨s1, e1, _⟩ := he3 (by omega)
      rw [e1] at he; exact absurd he (by simp)

/-- On the freshly formatted volume with one operation open, `end_op`
returns with `outstanding = 0`; a transaction that stages block 40 is
committed by its `end_op`. -/
theorem begin_end_op_nesting_witness :
    (∃ s1, end_op (cold mkfs_disk 1) = Res.ok () s1 ∧ s1.log.outstanding = 0 ∧
      s1.log.committing = 0 ∧ s1.log.lh.n = 0 ∧ (∀ c, s1.ramdisk c = s1.view c) ∧
      (∀ c, c ≠ 2 → s1.view c = (cold mkfs_disk 1).view c)) ∧
    observe ((do begin_op; begin_op; stage 40 (fun _ => 7); end_op; end_op : K Unit)
        (cold mkfs_disk 0))
      (fun s => [s.log.outstanding, s.log.lh.n, s.ramdisk 40 0, s.ramdisk 3 0]) =
        some [0, 0, 7, 7] ∧
    observe ((do begin_op; begin_op; stage 40 (fun _ => 7); end_op : K Unit)
        (cold mkfs_disk 0))
      (fun s => [s.log.outstanding, s.log.lh.n, s.ramdisk 40 0, s.ramdisk 3 0]) =
        some [1, 1, 0, 7] :=
  ⟨((begin_end_op_nesting (cold_inv mkfs_disk 1) (cold_unheld mkfs_disk 1)
      (Or.inr (by decide))).2.2.2.2.2.2 rfl).2, by decide!, by decide!⟩

/-- C20. For a cached inode `ip` of the root device, under the file-system
invariant with no buffer pinned (`ind` is `ip->addrs[NDIRECT]`, `a` the next
free block, and the budgets count recyclable buffers and free log entries):
`bmap` panics for `bn >= NDIRECT + NINDIRECT`; with `alloc = 0` it returns the
stored address (0 when the block or the indirect block is unmapped) and leaves
the inode table, every block content and the device unchanged; with
`alloc = 1` and `bn < NDIRECT` it returns a non-zero `addrs[bn]` with the
state unchanged, and for a zero one it allocates `a`, stores it in `addrs[bn]`
and returns it; for an indirect `bn` with `ind != 0` it returns a non-zero
entry `bn - NDIRECT` of block `ind` unchanged, and for a zero entry allocates
`a`, stores it in that entry and returns it; with `ind = 0` it first
allocates `a` as the indirect block, stores it in `addrs[NDIRECT]`, then
allocates the next free block `a2` for the entry and returns it. -/
theorem bmap_maps_or_allocates {s : Kernel} {T : Set Nat} {m ip : Nat} (hi : FSInv s T m)
    (hfree : ∀ x, s.unheld x) (hdev : (s.inode ip).dev = ROOTDEV) :
    (∀ bn alloc, MAXFILE ≤ bn →
      bmap ip bn alloc s = Res.fail (Fault.panic PanicSite.bmap_out_of_range)) ∧
    (∀ bn, bn < MAXFILE →
      (NDIRECT ≤ bn → (s.inode ip).addrs NDIRECT ≠ 0 →
        FSSTART ≤ (s.inode ip).addrs NDIRECT ∧ (s.inode ip).addrs NDIRECT < FSSIZE ∧ 1 ≤ m) →
      ∃ s1, bmap ip bn false s = Res.ok (s.baddr ip bn) s1 ∧ s1.inode = s.inode ∧
        s1.view = s.view ∧ s1.ramdisk = s.ramdisk) ∧
    (∀ bn, bn < NDIRECT → (s.inode ip).addrs bn ≠ 0 →
      bmap ip bn true s = Res.ok ((s.inode ip).addrs bn) s) ∧
    (∀ bn a, bn < NDIRECT → (s.inode ip).addrs bn = 0 → FirstFree (s.view BMAPBLOCK) a →
      4 ≤ m → s.log.lh.n + 3 ≤ LOGSIZE →
      ∃ s1 T1 m1, bmap ip bn true s = Res.ok a s1 ∧ FSInv s1 T1 m1 ∧
        s1.inode = Function.update s.inode ip { s.inode ip with
          addrs := Function.update (s.inode ip).addrs bn a } ∧
        s1.view BMAPBLOCK = set_bit (s.view BMAPBLOCK) a ∧
        s1.view a = memset_local (s.view a) 0 0 BSIZE ∧
        (∀ x, FSSTART ≤ x → x ≠ BMAPBLOCK → x ≠ a → s1.view x = s.view x)) ∧
    (∀ bn, NDIRECT ≤ bn → bn < MAXFILE →
      FSSTART ≤ (s.inode ip).addrs NDIRECT → (s.inode ip).addrs NDIRECT < FSSIZE → 1 ≤ m →
      rd32 (s.view ((s.inode ip).addrs NDIRECT)) (4 * (bn - NDIRECT)) ≠ 0 →
      ∃ s1, bmap ip bn true s =
          Res.ok (rd32 (s.view ((s.inode ip).addrs NDIRECT)) (4 * (bn - NDIRECT))) s1 ∧
        s1.inode = s.inode ∧ s1.view = s.view ∧ s1.ramdisk = s.ramdisk) ∧
    (∀ bn a, NDIRECT ≤ bn → bn < MAXFILE →
      DATASTART ≤ (s.inode ip).addrs NDIRECT → (s.inode ip).addrs NDIRECT < FSSIZE →
      bit_clear (s.view BMAPBLOCK) ((s.inode ip).addrs NDIRECT) = false →
      rd32 (s.view ((s.inode ip).addrs NDIRECT)) (4 * (bn - NDIRECT)) = 0 →
      FirstFree (s.view BMAPBLOCK) a → 6 ≤ m → s.log.lh.n + 4 ≤ LOGSIZE →
      ∃ s1 T1 m1, bmap ip bn true s = Res.ok a s1 ∧ FSInv s1 T1 m1 ∧ s1.inode = s.inode ∧
        s1.view BMAPBLOCK = set_bit (s.view BMAPBLOCK) a ∧
        s1.view a = memset_local (s.view a) 0 0 BSIZE ∧
        s1.view ((s.inode ip).addrs NDIRECT) =
          wr32 (s.view ((s.inode ip).addrs NDIRECT)) (4 * (bn - NDIRECT)) a ∧
        (∀ x, FSSTART ≤ x → x ≠ BMAPBLOCK → x ≠ a → x ≠ (s.inode ip).addrs NDIRECT →
          s1.view x = s.view x)) ∧
    (∀ bn a a2, NDIRECT ≤ bn → bn < MAXFILE → (s.inode ip).addrs NDIRECT = 0 →
      FirstFree (s.view BMAPBLOCK) a → FirstFree (set_bit (s.view BMAPBLOCK) a) a2 →
      6 ≤ m → s.log.lh.n + 4 ≤ LOGSIZE →
      ∃ s1 T1 m1, bmap ip bn true s = Res.ok a2 s1 ∧ FSInv s1 T1 m1 ∧
        s1.inode = Function.update s.inode ip { s.inode ip with
          addrs := Function.update (s.inode ip).addrs NDIRECT a } ∧
        s1.view BMAPBLOCK = set_bit (set_bit (s.view BMAPBLOCK) a) a2 ∧
        s1.view a = wr32 (memset_local (s.view a) 0 0 BSIZE) (4 * (bn - NDIRECT)) a2 ∧
        s1.view a2 = memset_local (s.view a2) 0 0 BSIZE ∧
        (∀ x, FSSTART ≤ x → x ≠ BMAPBLOCK → x ≠ a → x ≠ a2 → s1.view x = s.view x)) := by
  have hMF : MAXFILE = 1036 := rfl
  have hND : NDIRECT = 12 := rfl
  have hNI : NINDIRECT = 1024 := rfl
  refine ⟨?_, ?_, ?_, ?_, ?_, ?_, ?_⟩
  · intro bn alloc hbn
    rw [bmap_eq]
    simp only [bind_apply, getK_apply]
    rw [if_neg (by omega), if_pos (by omega)]
    rfl
  · intro bn hbn hind
    by_cases h0 : NDIRECT ≤ bn ∧ (s.inode ip).addrs NDIRECT = 0
    · refine ⟨s, ?_, rfl, rfl, rfl⟩
      rw [bmap_eq]
      simp only [bind_apply, getK_apply]
      rw [if_neg (show ¬ bn < NDIRECT by omega), if_neg (show ¬ bn - NDIRECT ≥ NINDIRECT by omega),
        if_pos h0.2]
      unfold Kernel.baddr
      rw [if_neg (show ¬ bn < NDIRECT by omega), if_pos h0.2]
      rfl
    · obtain ⟨s1, T1, m1, e, st, hv, hd, -⟩ := @bmap_read s T m ip bn hi hdev hbn
        (fun hge => by
          have hne : (s.inode ip).addrs NDIRECT ≠ 0 := fun e => h0 ⟨hge, e⟩
          obtain ⟨a, b, c⟩ := hind hge hne
          exact ⟨a, b, hfree _, Or.inr c⟩)
      exact ⟨s1, e, st.rest.inode, hv, hd⟩
  · intro bn hbn hne
    rw [bmap_eq]
    simp only [bind_apply, getK_apply, hbn, ↓reduceIte, hne, false_and, pure_apply]
  · intro bn a hbn hz hff hm hn
    obtain ⟨s1, T1, m1, e1, st, hu, -, -, hvB, hva, hvo⟩ :=
      @balloc_into_addr s T m ip bn a 1 hi hfree hdev hff (Or.inr (le_refl 1)) (by omega)
        (by omega)
    refine ⟨s1.setInode ip { s1.inode ip with addrs := Function.update (s1.inode ip).addrs bn a },
      T1, m1, ?_, st.inv.of_cache_eq rfl rfl rfl rfl rfl, ?_, hvB, hva, hvo⟩
    · rw [bmap_eq]
      simp only [bind_apply, getK_apply, hbn, ↓reduceIte, hz, and_self]
      simp only [bind_apply] at e1
      exact e1
    · show Function.update s1.inode ip _ = _
      rw [st.rest.inode]
  · intro bn hge hbn hlo hc hm hnz
    have hne : (s.inode ip).addrs NDIRECT ≠ 0 := by unfold FSSTART at hlo; omega
    obtain ⟨s1, T1, m1, e, st, hv, hd, -⟩ :=
      @bmap_rest_read s T m ip _ (bn - NDIRECT) true hi hdev hlo hc (hfree _)
        (Or.inr hm) (Or.inl hnz)
    refine ⟨s1, ?_, st.rest.inode, hv, hd⟩
    rw [bmap_eq]
    simp only [bind_apply, getK_apply]
    rw [if_neg (by omega), if_neg (by omega), if_neg hne]
    exact e
  · intro bn a hge hbn hlo hc hset hz hff hm hn
    have hne : (s.inode ip).addrs NDIRECT ≠ 0 := by unfold DATASTART at hlo; omega
    obtain ⟨s1, T1, m1, e, st, -, -, -, -, hvB, hva, hvi, hvo⟩ :=
      @bmap_rest_alloc s T m ip _ (bn - NDIRECT) a 1 1 hi hfree hdev hlo hc hset
        hz hff (Or.inr (le_refl 1)) (Or.inr (le_refl 1)) (by omega) (by omega)
    refine ⟨s1, T1, m1, ?_, st.inv, st.rest.inode, hvB, hva, hvi, hvo⟩
    rw [bmap_eq]
    simp only [bind_apply, getK_apply]
    rw [if_neg (by omega), if_neg (by omega), if_neg hne]
    exact e
  · intro bn a a2 hge hbn hz hff hff2 hm hn
    obtain ⟨s1, T1, m1, e, hi1, -, -, -, -, hin, -, -, -, -, -, -, -, -, -, hvB, hva, hva2, hvo⟩ :=
      @bmap_new_indirect s T m ip (bn - NDIRECT) a a2 1 hi hfree hdev (by omega) hff hff2
        (Or.inr (le_refl 1)) (by omega) (by omega)
    refine ⟨s1, T1, m1, ?_, hi1, hin, hvB, hva, hva2, hvo⟩
    rw [bmap_eq]
    simp only [bind_apply, getK_apply]
    rw [if_neg (by omega), if_neg (by omega), if_pos hz]
    simp only [↓reduceIte]
    simp only [bind_apply] at e
    exact e

/-- In the empty file of the demonstration volume `bmap(ip, 0, 1)` allocates
block 37, and `bmap(ip, MAXFILE, 1)` panics. -/
theorem bmap_maps_or_allocates_witness :
    bmap 0 MAXFILE true demo_empty = Res.fail (Fault.panic PanicSite.bmap_out_of_range) ∧
    ∃ s1 T1 m1, bmap 0 0 true demo_empty = Res.ok 37 s1 ∧ FSInv s1 T1 m1 ∧
      s1.inode = Function.update demo_empty.inode 0 { demo_empty.inode 0 with
        addrs := Function.update (demo_empty.inode 0).addrs 0 37 } ∧
      s1.view BMAPBLOCK = set_bit (demo_empty.view BMAPBLOCK) 37 ∧
      s1.view 37 = memset_local (demo_empty.view 37) 0 0 BSIZE ∧
      (∀ x, FSSTART ≤ x → x ≠ BMAPBLOCK → x ≠ 37 → s1.view x = demo_empty.view x) :=
  ⟨(@bmap_maps_or_allocates demo_empty ∅ NBUF 0 demo_empty_inv demo_empty_unheld rfl).1 MAXFILE
     true (le_refl _),
   (@bmap_maps_or_allocates demo_empty ∅ NBUF 0 demo_empty_inv demo_empty_unheld rfl).2.2.2.1 0 37
     (by decide) rfl
     demo_empty_first_free (by decide) (by decide)⟩

/-- C23. For every `(dev, inum)`: if a slot with `ref > 0` is bound to it,
`iget` returns the lowest such slot with `ref` one higher and nothing else
changed; otherwise it returns the lowest slot with `ref == 0`, bound to
`(dev, inum)` with `ref = 1` and `valid = 0` and nothing else changed, and
panics if there is no such slot. Buffer cache and device are always left as
they were, and if no two referenced slots shared a `(dev, inum)` before the
call, none do after it. -/
theorem iget_hit_or_bind (s : Kernel) (dev inum : Nat) :
    (∀ ip, ip < NINODE → (s.inode ip).ref > 0 → (s.inode ip).dev = dev →
      (s.inode ip).inum = inum →
      (∀ j, j < ip → ¬ ((s.inode j).ref > 0 ∧ (s.inode j).dev = dev ∧ (s.inode j).inum = inum)) →
      iget dev inum s =
        Res.ok ip (s.setInode ip { s.inode ip with ref := (s.inode ip).ref + 1 })) ∧
    (∀ ip, ip < NINODE →
      (∀ j, j < NINODE → ¬ ((s.inode j).ref > 0 ∧ (s.inode j).dev = dev ∧ (s.inode j).inum = inum)) →
      (s.inode ip).ref = 0 → (∀ j, j < ip → (s.inode j).ref ≠ 0) →
      iget dev inum s =
        Res.ok ip (s.setInode ip { s.inode ip with dev := dev, inum := inum, ref := 1, valid := 0 })) ∧
    ((∀ j, j < NINODE → ¬ ((s.inode j).ref > 0 ∧ (s.inode j).dev = dev ∧ (s.inode j).inum = inum)) →
      (∀ j, j < NINODE → (s.inode j).ref ≠ 0) →
      iget dev inum s = Res.fail (Fault.panic PanicSite.iget_no_free_inode)) ∧
    (∀ ip s1, iget dev inum s = Res.ok ip s1 →
      ip < NINODE ∧ (s1.inode ip).dev = dev ∧ (s1.inode ip).inum = inum ∧ (s1.inode ip).ref > 0 ∧
      (∀ j, j ≠ ip → s1.inode j = s.inode j) ∧
      s1.buf = s.buf ∧ s1.lru = s.lru ∧ s1.ramdisk = s.ramdisk ∧ s1.log = s.log ∧ s1.sb = s.sb ∧
      s1.file = s.file ∧ s1.g_ofile = s.g_ofile ∧
      (InodeUniq s → InodeUniq s1)) := by
  have hfind1 : ∀ ip, ip < NINODE → (s.inode ip).ref > 0 → (s.inode ip).dev = dev →
      (s.inode ip).inum = inum →
      (∀ j, j < ip → ¬ ((s.inode j).ref > 0 ∧ (s.inode j).dev = dev ∧ (s.inode j).inum = inum)) →
      (List.range NINODE).find? (fun i => decide ((s.inode i).ref > 0) &&
        (s.inode i).dev == dev && (s.inode i).inum == inum) = some ip := by
    intro ip hip h1 h2 h3 hmin
    rw [List.find?_range_eq_some]
    refine ⟨by simp [h1, h2, h3], List.mem_range.2 hip, ?_⟩
    intro j hj
    have := hmin j hj
    simp only [Bool.and_eq_true, decide_eq_true_eq, beq_iff_eq, Bool.not_eq_true', Bool.not_eq_eq_eq_not,
      Bool.not_true]
    by_contra hc
    simp only [Bool.not_eq_false] at hc
    simp only [Bool.and_eq_true, decide_eq_true_eq, beq_iff_eq] at hc
    exact this ⟨hc.1.1, hc.1.2, hc.2⟩
  have hnone1 : (∀ j, j < NINODE →
      ¬ ((s.inode j).ref > 0 ∧ (s.inode j).dev = dev ∧ (s.inode j).inum = inum)) →
      (List.range NINODE).find? (fun i => decide ((s.inode i).ref > 0) &&
        (s.inode i).dev == dev && (s.inode i).inum == inum) = none := by
    intro h
    rw [List.find?_eq_none]
    intro j hj
    have := h j (List.mem_range.1 hj)
    simp only [Bool.and_eq_true, decide_eq_true_eq, beq_iff_eq]
    rintro ⟨⟨a, b⟩, c⟩
    exact this ⟨a, b, c⟩
  refine ⟨?_, ?_, ?_, ?_⟩
  · intro ip hip h1 h2 h3 hmin
    unfold iget
    rw [hfind1 ip hip h1 h2 h3 hmin]
  · intro ip hip hno h0 hmin
    unfold iget
    rw [hnone1 hno]
    have : (List.range NINODE).find? (fun i => (s.inode i).ref == 0) = some ip := by
      rw [List.find?_range_eq_some]
      refine ⟨by simp [h0], List.mem_range.2 hip, ?_⟩
      intro j hj
      simpa using hmin j hj
    rw [this]
  · intro hno hfull
    unfold iget
    rw [hnone1 hno]
    have : (List.range NINODE).find? (fun i => (s.inode i).ref == 0) = none := by
      rw [List.find?_eq_none]
      intro j hj
      simpa using hfull j (List.mem_range.1 hj)
    rw [this]
  · intro ip s1 h
    unfold iget at h
    cases h1 : (List.range NINODE).find? (fun i => decide ((s.inode i).ref > 0) &&
        (s.inode i).dev == dev && (s.inode i).inum == inum) with
    | some i =>
      rw [h1] at h
      have hm := List.mem_range.1 (List.mem_of_find?_eq_some h1)
      have hp := List.find?_some h1
      simp only [Bool.and_eq_true, decide_eq_true_eq, beq_iff_eq] at hp
      injection h with h2 h3
      subst h2; subst h3
      refine ⟨hm, by simp [Kernel.setInode, hp.1.2], by simp [Kernel.setInode, hp.2],
        by simp only [Kernel.setInode, Function.update_same]; omega,
        fun j hj => by simp [Kernel.setInode, hj], rfl, rfl, rfl, rfl, rfl, rfl, rfl, ?_⟩
      intro hu a b ha hb hab hra hrb
      have key : ∀ x, ((s.setInode i { s.inode i with ref := (s.inode i).ref + 1 }).inode x).dev =
          (s.inode x).dev ∧
          ((s.setInode i { s.inode i with ref := (s.inode i).ref + 1 }).inode x).inum =
          (s.inode x).inum ∧
          (((s.setInode i { s.inode i with ref := (s.inode i).ref + 1 }).inode x).ref > 0 →
            (s.inode x).ref > 0) := by
        intro x
        by_cases hx : x = i
        · subst hx
          simp only [Kernel.setInode, Function.update_same]
          exact ⟨trivial, trivial, fun _ => hp.1.1⟩
        · simp only [Kernel.setInode, Function.update_noteq hx]
          exact ⟨trivial, trivial, fun h => h⟩
      rw [(key a).1, (key a).2.1, (key b).1, (key b).2.1]
      exact hu a b ha hb hab ((key a).2.2 hra) ((key b).2.2 hrb)
    | none =>
      rw [h1] at h
      have hno : ∀ j, j < NINODE →
          ¬ ((s.inode j).ref > 0 ∧ (s.inode j).dev = dev ∧ (s.inode j).inum = inum) := by
        intro j hj hc
        rw [List.find?_eq_none] at h1
        have := h1 j (List.mem_range.2 hj)
        simp [hc.1, hc.2.1, hc.2.2] at this
      cases h2 : (List.range NINODE).find? (fun i => (s.inode i).ref == 0) with
      | some i =>
        rw [h2] at h
        have hm := List.mem_range.1 (List.mem_of_find?_eq_some h2)
        have hp := List.find?_some h2
        simp only [beq_iff_eq] at hp
        injection h with h3 h4
        subst h3; subst h4
        refine ⟨hm, by simp [Kernel.setInode], by simp [Kernel.setInode],
          by simp [Kernel.setInode],
          fun j hj => by simp [Kernel.setInode, hj], rfl, rfl, rfl, rfl, rfl, rfl, rfl, ?_⟩
        intro hu a b ha hb hab hra hrb
        by_cases hai : a = i
        · subst hai
          have hbi : b ≠ a := fun e => hab e.symm
          simp only [Kernel.setInode, Function.update_same, Function.update_noteq hbi] at hrb ⊢
          rintro ⟨e1, e2⟩
          exact hno b hb ⟨hrb, e1.symm, e2.symm⟩
        · by_cases hbi : b = i
          · subst hbi
            simp only [Kernel.setInode, Function.update_same, Function.update_noteq hai] at hra ⊢
            rintro ⟨e1, e2⟩
            exact hno a ha ⟨hra, e1, e2⟩
          · simp only [Kernel.setInode, Function.update_noteq hai, Function.update_noteq hbi]
              at hra hrb ⊢
            exact hu a b ha hb hab hra hrb
      | none =>
        rw [h2] at h
        cases h

/-- In the demonstration table `iget(1, 7)` returns slot 3 with a third reference. -/
theorem iget_hit_or_bind_witness :
    iget 1 7 demo_icache = Res.ok 3 (demo_icache.setInode 3
      { demo_icache.inode 3 with ref := (demo_icache.inode 3).ref + 1 }) :=
  (iget_hit_or_bind demo_icache 1 7).1 3 (by decide) (by decide) rfl rfl (by decide)

/-- C24. Under the file-system invariant, for a cached inode `ip` of the root
device with an inode number below `ninodes`, whose inode block is not pinned,
with two buffers and two log entries in reserve (or the block already current
in the operation): `iupdate(ip)` returns, leaves the inode cache alone, makes
the record of the inode in block `IBLOCK(inum)` carry type, major, minor,
nlink, size and the thirteen addresses of `ip` (reduced to the field widths),
and changes no byte of any other inode record nor any other block of the
file-system area. An `ilock` of an unlocked, referenced cache entry `jp` for
the same inode number with `valid == 0` then panics with "ilock: no type" if
the stored type is `T_UNUSED`, and otherwise returns with `valid` and the lock
set and exactly the stored metadata loaded, which is the metadata of `ip`
itself when its fields fit their C types. -/
theorem iupdate_ilock_round_trip {s : Kernel} {T : Set Nat} {m ip jp : Nat} (hi : FSInv s T m)
    (hdev : (s.inode ip).dev = ROOTDEV) (hin : (s.inode ip).inum < 200)
    (hu : s.unheld (IBLOCK (s.inode ip).inum mkfs_sb))
    (hbud : s.warm T (IBLOCK (s.inode ip).inum mkfs_sb) ∨ (2 ≤ m ∧ s.log.lh.n + 2 ≤ LOGSIZE))
    (hjd : (s.inode jp).dev = ROOTDEV) (hji : (s.inode jp).inum = (s.inode ip).inum)
    (hjr : 1 ≤ (s.inode jp).ref) (hjl : (s.inode jp).locked = 0)
    (hjv : (s.inode jp).valid = 0) :
    ∃ s1, iupdate ip s = Res.ok () s1 ∧ s1.inode = s.inode ∧
      RecordIs (s1.view (IBLOCK (s.inode ip).inum mkfs_sb)) (s.inode ip).inum (s.inode ip) ∧
      (∀ n i, n < 200 → n ≠ (s.inode ip).inum → i < DINODE_SIZE →
        s1.dinode n i = s.dinode n i) ∧
      (∀ x, FSSTART ≤ x → x ≠ IBLOCK (s.inode ip).inum mkfs_sb → s1.view x = s.view x) ∧
      ((s.inode ip).type % 65536 = T_UNUSED →
        ilock jp s1 = Res.fail (Fault.panic PanicSite.ilock_no_type)) ∧
      ((s.inode ip).type % 65536 ≠ T_UNUSED →
        ∃ s2, ilock jp s1 = Res.ok () s2 ∧ s2.view = s1.view ∧
          (s2.inode jp).valid = 1 ∧ (s2.inode jp).locked = 1 ∧
          (s2.inode jp).ref = (s.inode jp).ref ∧
          LoadedFrom (s2.inode jp) (s.inode ip) ∧
          ((s.inode ip).typed → SameMeta (s2.inode jp) (s.inode ip)) ∧
          ∀ j, j ≠ jp → s2.inode j = s.inode j) := by
  obtain ⟨s1, T1, m1, e1, st, hw, _, hv, hoth⟩ := iupdate_spec hi hdev hin hu hbud
  have hino : s1.inode = s.inode := st.rest.inode
  have hsb1 : s1.sb = s.sb := st.rest.sb
  have hrec := recordIs_image (s.inode ip) (s.inode ip).inum
    (s.view (IBLOCK (s.inode ip).inum mkfs_sb))
  rw [← hv] at hrec
  obtain ⟨hlo, hhi⟩ := IBLOCK_range hin
  have hIPB : IPB = 64 := rfl
  have hD : DINODE_SIZE = 64 := rfl
  have hF : FSSTART = 32 := rfl
  refine ⟨s1, e1, hino, hrec, ?_, hoth, ?_, ?_⟩
  · intro n i hn hne hi64
    unfold Kernel.dinode
    rw [hsb1, hi.sb]
    by_cases hb : IBLOCK n mkfs_sb = IBLOCK (s.inode ip).inum mkfs_sb
    · rw [hb, hv]
      apply dinode_image_outside
      rw [IBLOCK_mkfs hn, IBLOCK_mkfs hin, hIPB, hF] at hb
      unfold dinodeOff
      rw [hIPB, hD]
      omega
    · rw [hoth _ (IBLOCK_range hn).1 hb]
  · intro h0
    have hj1 : s1.inode jp = s.inode jp := by rw [hino]
    have := (@ilock_load s1 T1 m1 jp st.inv (by rw [hj1]; exact hjr) (by rw [hj1]; exact hjl)
      (by rw [hj1]; exact hjv) (by rw [hj1]; exact hjd) (by rw [hj1, hji]; exact hin)
      (by rw [hj1, hji]; exact st.unheld _ hu) (by rw [hj1, hji]; exact Or.inl hw.1)).1
    rw [hj1, hji] at this
    exact this (hrec.type.trans h0)
  · intro h0
    have hj1 : s1.inode jp = s.inode jp := by rw [hino]
    have := (@ilock_load s1 T1 m1 jp st.inv (by rw [hj1]; exact hjr) (by rw [hj1]; exact hjl)
      (by rw [hj1]; exact hjv) (by rw [hj1]; exact hjd) (by rw [hj1, hji]; exact hin)
      (by rw [hj1, hji]; exact st.unheld _ hu) (by rw [hj1, hji]; exact Or.inl hw.1)).2
    rw [hj1, hji] at this
    obtain ⟨s2, T2, m2, e2, _, hv2, _, _, _, _, hothers, hload⟩ :=
      this (fun e => h0 (hrec.type.symm.trans e))
    have hld : LoadedFrom (s2.inode jp) (s.inode ip) := by
      rw [hload]
      refine ⟨hrec.type, hrec.major, hrec.minor, hrec.nlink, hrec.size, ?_⟩
      intro k hk
      show (if k < NDIRECT + 1 then _ else _) = _
      rw [if_pos hk]
      exact hrec.addrs k hk
    refine ⟨s2, e2, hv2, by rw [hload], by rw [hload], by rw [hload], hld,
      fun t => hld.same t, ?_⟩
    intro j hj
    rw [hothers j hj, hino]

set_option maxRecDepth 100000 in
theorem iupdate_ilock_round_trip_witness :
    ∃ s1, iupdate 0 demo_stale = Res.ok () s1 ∧ s1.inode = demo_stale.inode ∧
      RecordIs (s1.view (IBLOCK (demo_stale.inode 0).inum mkfs_sb)) (demo_stale.inode 0).inum
        (demo_stale.inode 0) ∧
      (∀ n i, n < 200 → n ≠ (demo_stale.inode 0).inum → i < DINODE_SIZE →
        s1.dinode n i = demo_stale.dinode n i) ∧
      (∀ x, FSSTART ≤ x → x ≠ IBLOCK (demo_stale.inode 0).inum mkfs_sb →
        s1.view x = demo_stale.view x) ∧
      ((demo_stale.inode 0).type % 65536 = T_UNUSED →
        ilock 0 s1 = Res.fail (Fault.panic PanicSite.ilock_no_type)) ∧
      ((demo_stale.inode 0).type % 65536 ≠ T_UNUSED →
        ∃ s2, ilock 0 s1 = Res.ok () s2 ∧ s2.view = s1.view ∧
          (s2.inode 0).valid = 1 ∧ (s2.inode 0).locked = 1 ∧
          (s2.inode 0).ref = (demo_stale.inode 0).ref ∧
          LoadedFrom (s2.inode 0) (demo_stale.inode 0) ∧
          ((demo_stale.inode 0).typed → SameMeta (s2.inode 0) (demo_stale.inode 0)) ∧
          ∀ j, j ≠ 0 → s2.inode j = demo_stale.inode j) :=
  iupdate_ilock_round_trip demo_stale_inv rfl (by decide) (demo_stale_unheld _)
    (Or.inr ⟨by decide, by decide⟩) rfl rfl (by decide) rfl rfl

/-- C25. Under the file-system invariant with no buffer pinned, six buffers
and two log entries in reserve: if `k` is the smallest inode number in
`1 .. ninodes-1` whose on-disk record has type `T_UNUSED`, and the inode
cache has an unreferenced slot or already holds inode `k`, then `ialloc`
returns a referenced cache handle for inode `k` of the device with the type
(as a `short`) and one link set in the cached copy, the record of `k` on the
device becomes zero except for the type and a link count of 1, no byte of
any other inode record and no other block of the file-system area changes,
and no other cache slot changes. If no record in `1 .. ninodes-1` has type
`T_UNUSED`, `ialloc` panics with "ialloc: no inodes". Inode 0 is never
looked at. -/
theorem ialloc_first_unused {s : Kernel} {T : Set Nat} {m type : Nat} (hi : FSInv s T m)
    (hu : ∀ x, s.unheld x) (hm : 6 ≤ m) (hn : s.log.lh.n + 2 ≤ LOGSIZE) :
    (∀ k, 1 ≤ k → k < mkfs_sb.ninodes → (∀ j, 1 ≤ j → j < k → s.dtype j ≠ T_UNUSED) →
      s.dtype k = T_UNUSED →
      (∃ i, i < NINODE ∧ ((s.inode i).ref = 0 ∨
        ((s.inode i).ref > 0 ∧ (s.inode i).dev = ROOTDEV ∧ (s.inode i).inum = k))) →
      ∃ ip s1, ialloc ROOTDEV type s = Res.ok ip s1 ∧ ip < NINODE ∧
        (s1.inode ip).dev = ROOTDEV ∧ (s1.inode ip).inum = k ∧ 0 < (s1.inode ip).ref ∧
        (s1.inode ip).type = type % 65536 ∧ (s1.inode ip).nlink = 1 ∧
        (∀ j, j ≠ ip → s1.inode j = s.inode j) ∧
        RecordIs (s1.view (IBLOCK k mkfs_sb)) k (fresh_meta type) ∧
        (∀ n i, n < mkfs_sb.ninodes → n ≠ k → i < DINODE_SIZE → s1.dinode n i = s.dinode n i) ∧
        (∀ y, FSSTART ≤ y → y ≠ IBLOCK k mkfs_sb → s1.view y = s.view y)) ∧
    ((∀ j, 1 ≤ j → j < mkfs_sb.ninodes → s.dtype j ≠ T_UNUSED) →
      ialloc ROOTDEV type s = Res.fail (Fault.panic PanicSite.ialloc_no_inodes)) := by
  have hIPB : IPB = 64 := rfl
  have hD : DINODE_SIZE = 64 := rfl
  have hF : FSSTART = 32 := rfl
  have hia : ialloc ROOTDEV type s = ialloc_loop ROOTDEV type 200 1 s := by
    unfold ialloc
    simp only [bind_apply, getK_apply, hi.sb, mkfs_sb_ninodes]
  rw [mkfs_sb_ninodes]
  constructor
  · intro k hk1 hk hused hfree hslot
    unfold Kernel.dtype at hused hfree
    rw [hi.sb] at hused hfree
    obtain ⟨ip, s4, T4, m4, x, e, st, _, hip, hxd, hxi, hxr, hv, hoth⟩ :=
      @ialloc_scan type k hk (k - 1) s T m 200 1 rfl hk1 (by omega) hi hu
        (Or.inr (by rw [hIPB]; omega)) hn hused hfree hslot
    refine ⟨ip, _, hia.trans e, hip, ?_, ?_, ?_, ?_, ?_, ?_, ?_, ?_, ?_⟩
    · simp [Kernel.setInode, hxd]
    · simp [Kernel.setInode, hxi]
    · simp [Kernel.setInode, hxr]
    · simp [Kernel.setInode]
    · simp [Kernel.setInode]
    · intro j hj
      simp only [Kernel.setInode, Function.update_noteq hj]
      rw [st.rest.inode]
    · show RecordIs (s4.view (IBLOCK k mkfs_sb)) k (fresh_meta type)
      rw [hv]
      exact ialloc_image_record _ _ _
    · intro n i hn200 hne hi64
      show s4.view (IBLOCK n s4.sb) (dinodeOff n + i) = s.view (IBLOCK n s.sb) (dinodeOff n + i)
      rw [st.rest.sb, hi.sb]
      by_cases hb : IBLOCK n mkfs_sb = IBLOCK k mkfs_sb
      · rw [hb, hv]
        apply ialloc_image_outside
        rw [IBLOCK_mkfs hn200, IBLOCK_mkfs hk, hIPB, hF] at hb
        unfold dinodeOff
        rw [hIPB, hD]
        omega
      · rw [hoth _ (IBLOCK_range hn200).1 hb]
    · intro y hy hne
      exact hoth y hy hne
  · intro hused
    unfold Kernel.dtype at hused
    rw [hi.sb] at hused
    rw [hia]
    exact ialloc_scan_none 200 hi hu (Or.inr (by rw [hIPB]; omega)) hused

set_option maxRecDepth 100000 in
theorem ialloc_first_unused_witness :
    ∃ ip s1, ialloc ROOTDEV T_FILE (cold demo_root_disk 1) = Res.ok ip s1 ∧ ip < NINODE ∧
      (s1.inode ip).dev = ROOTDEV ∧ (s1.inode ip).inum = 2 ∧ 0 < (s1.inode ip).ref ∧
      (s1.inode ip).type = T_FILE % 65536 ∧ (s1.inode ip).nlink = 1 ∧
      (∀ j, j ≠ ip → s1.inode j = (cold demo_root_disk 1).inode j) ∧
      RecordIs (s1.view (IBLOCK 2 mkfs_sb)) 2 (fresh_meta T_FILE) ∧
      (∀ n i, n < mkfs_sb.ninodes → n ≠ 2 → i < DINODE_SIZE →
        s1.dinode n i = (cold demo_root_disk 1).dinode n i) ∧
      (∀ y, FSSTART ≤ y → y ≠ IBLOCK 2 mkfs_sb → s1.view y = (cold demo_root_disk 1).view y) :=
  (@ialloc_first_unused (cold demo_root_disk 1) ∅ NBUF T_FILE (cold_inv demo_root_disk 1)
    (cold_unheld demo_root_disk 1) (by decide) (by decide)).1 2 (by decide) (by decide)
    (fun j h1 h2 => by
      have e : j = 1 := by omega
      subst e
      unfold Kernel.dtype
      rw [cold_view]
      decide!)
    (by
      unfold Kernel.dtype
      rw [cold_view]
      decide!)
    ⟨0, by decide, Or.inl rfl⟩

set_option maxRecDepth 1000000 in
set_option maxHeartbeats 0 in
/-- C26. On the freshly mounted volume `fsck_lite` returns 0, and after a
second pointer to the root directory's block has been forged it returns -1.
But when the block address referenced twice is the indirect-block pointer and
it is out of range (2000 on a volume of 1024 blocks), `check_addr` counts the
error and `fsck_lite` then reads that block all the same: `bread` panics in
`virtio_disk_rw`; and when it is the inode block that `fsck_lite` is holding
(32), the second `bread` of that block waits for ever on the buffer lock. In
neither case does `fsck_lite` return -1. -/
theorem fsck_lite_reads_rejected_indirect_block :
    value (fsck_fresh boot) = some 0 ∧
    value (fsck_duplicate boot) = some (-1) ∧
    failure (fsck_far_indirect boot) = some (Fault.panic PanicSite.virtio_disk_rw_range) ∧
    failure (fsck_self_indirect boot) = some Fault.spin := by
  decide!

set_option maxRecDepth 100000 in
/-- C28. After `virtio_disk_init` block 1 holds, in this order, the 32-bit
fields magic, size, nblocks, ninodes, nlog, logstart, inodestart, bmapstart,
with magic = `FSMAGIC`, size = `FSSIZE`, logstart = 2, inodestart = logstart +
nlog, bmapstart = inodestart + ceil(ninodes / IPB) and nblocks = size -
(bmapstart + ceil(size / BPB)); bit `b` of the bitmap block is set exactly for
`b < bmapstart + ceil(size / BPB)`; every other block is zero, and nothing but
the device changes. -/
theorem virtio_disk_init_layout (s : Kernel) :
    ∃ s1, virtio_disk_init s = Res.ok () s1 ∧
      s1.buf = s.buf ∧ s1.lru = s.lru ∧ s1.inode = s.inode ∧ s1.log = s.log ∧
      rd32 (s1.ramdisk 1) 0 = FSMAGIC ∧ rd32 (s1.ramdisk 1) 4 = FSSIZE ∧
      rd32 (s1.ramdisk 1) 20 = 2 ∧
      rd32 (s1.ramdisk 1) 24 = rd32 (s1.ramdisk 1) 20 + rd32 (s1.ramdisk 1) 16 ∧
      rd32 (s1.ramdisk 1) 28 =
        rd32 (s1.ramdisk 1) 24 + (rd32 (s1.ramdisk 1) 12 + IPB - 1) / IPB ∧
      rd32 (s1.ramdisk 1) 8 + (rd32 (s1.ramdisk 1) 28 + (rd32 (s1.ramdisk 1) 4 + BPB - 1) / BPB) =
        rd32 (s1.ramdisk 1) 4 ∧
      rd32 (s1.ramdisk 1) 12 = 200 ∧ rd32 (s1.ramdisk 1) 16 = LOGSIZE ∧
      (∀ b, bit_clear (s1.ramdisk (rd32 (s1.ramdisk 1) 28)) b =
        decide (rd32 (s1.ramdisk 1) 28 + (rd32 (s1.ramdisk 1) 4 + BPB - 1) / BPB ≤ b)) ∧
      (∀ c, c ≠ 1 → c ≠ rd32 (s1.ramdisk 1) 28 → s1.ramdisk c = zeroMem) := by
  refine ⟨{ s with ramdisk := mkfs_disk }, rfl, rfl, rfl, rfl, rfl, ?_⟩
  show rd32 (mkfs_disk 1) 0 = FSMAGIC ∧ rd32 (mkfs_disk 1) 4 = FSSIZE ∧
      rd32 (mkfs_disk 1) 20 = 2 ∧
      rd32 (mkfs_disk 1) 24 = rd32 (mkfs_disk 1) 20 + rd32 (mkfs_disk 1) 16 ∧
      rd32 (mkfs_disk 1) 28 =
        rd32 (mkfs_disk 1) 24 + (rd32 (mkfs_disk 1) 12 + IPB - 1) / IPB ∧
      rd32 (mkfs_disk 1) 8 + (rd32 (mkfs_disk 1) 28 + (rd32 (mkfs_disk 1) 4 + BPB - 1) / BPB) =
        rd32 (mkfs_disk 1) 4 ∧
      rd32 (mkfs_disk 1) 12 = 200 ∧ rd32 (mkfs_disk 1) 16 = LOGSIZE ∧
      (∀ b, bit_clear (mkfs_disk (rd32 (mkfs_disk 1) 28)) b =
        decide (rd32 (mkfs_disk 1) 28 + (rd32 (mkfs_disk 1) 4 + BPB - 1) / BPB ≤ b)) ∧
      (∀ c, c ≠ 1 → c ≠ rd32 (mkfs_disk 1) 28 → mkfs_disk c = zeroMem)
  have h28 : rd32 (mkfs_disk 1) 28 = 36 := by decide!
  have h4 : rd32 (mkfs_disk 1) 4 = 1024 := by decide!
  have hbs : mkfs_sb.bmapstart = 36 := by decide
  refine ⟨by decide!, by decide!, by decide!, by decide!, by decide!, by decide!, by decide!,
    by decide!, ?_, ?_⟩
  · intro b
    rw [h28, h4]
    have hc : (36 + (1024 + BPB - 1) / BPB) = 37 := by decide
    rw [hc]
    by_cases hb : b < 40
    · have hall : ∀ b, b < 40 → bit_clear (mkfs_disk 36) b = decide (37 ≤ b) := by decide!
      exact hall b hb
    · have hbyte : mkfs_disk 36 (b / 8) = 0 := by
        rw [mkfs_disk_eq, hbs, Function.update_same]
        rw [mkfs_bits_far _ (by decide) _ _ _ (b / 8) (by
          have : (36 + (mkfs_sb.size + BPB - 1) / BPB) = 37 := by decide
          rw [this]; omega)]
        rfl
      unfold bit_clear
      rw [hbyte]
      have : decide (37 ≤ b) = true := by simp; omega
      rw [this]
      simp
  · intro c h1 h2
    rw [h28] at h2
    rw [mkfs_disk_eq, hbs, Function.update_noteq h2, Function.update_noteq h1]

/-- C30. In every state reachable from `binit` through `bread` and `brelse`
calls no two buffers with `refcnt > 0` carry the same `(dev, blockno)`, and
every buffer has `refcnt` 0 and is unlocked or has `refcnt` 1 and is locked.
If some buffer is labelled `(dev, blockno)`, `bread(dev, blockno)` never
relabels a buffer: when it returns, it returns the first buffer `f` of the
list with that label, which had `refcnt` 0 and now has `refcnt` 1, and no
other buffer changed; it does return when `f` has `refcnt` 0 and is valid or
`blockno` is on the device; when `f` has `refcnt > 0` it waits for the lock
of `f` for ever. -/
theorem bread_keeps_bindings_unique {g : BioHist} (hr : BioReach g) :
    (∀ a b, a < NBUF → b < NBUF → a ≠ b → (g.s.buf a).refcnt ≠ 0 → (g.s.buf b).refcnt ≠ 0 →
      ¬ ((g.s.buf a).dev = (g.s.buf b).dev ∧ (g.s.buf a).blockno = (g.s.buf b).blockno)) ∧
    (∀ b, b < NBUF → ((g.s.buf b).refcnt = 0 ∧ (g.s.buf b).locked = 0) ∨
      ((g.s.buf b).refcnt = 1 ∧ (g.s.buf b).locked = 1)) ∧
    (∀ dev blockno b, b < NBUF → (g.s.buf b).dev = dev → (g.s.buf b).blockno = blockno →
      ∃ f, f < NBUF ∧ (g.s.buf f).dev = dev ∧ (g.s.buf f).blockno = blockno ∧
        ((g.s.buf b).refcnt ≠ 0 → f = b) ∧
        (∀ x s1, bread dev blockno g.s = Res.ok x s1 →
          x = f ∧ (g.s.buf f).refcnt = 0 ∧ (s1.buf f).refcnt = 1 ∧
          (s1.buf f).dev = dev ∧ (s1.buf f).blockno = blockno ∧
          (∀ j, j ≠ f → s1.buf j = g.s.buf j) ∧ s1.lru = g.s.lru) ∧
        ((g.s.buf f).refcnt = 0 → (g.s.buf f).valid ≠ 0 ∨ blockno < FSSIZE →
          ∃ s1, bread dev blockno g.s = Res.ok f s1) ∧
        ((g.s.buf f).refcnt ≠ 0 → bread dev blockno g.s = Res.fail Fault.spin)) := by
  have hi := bio_reach_inv hr
  refine ⟨?_, fun b hb => hi.lock b (hi.all b hb), ?_⟩
  · intro a b ha hb hab hra hrb hsame
    have h1 := hi.first a (hi.all a ha) hra
    have h2 := hi.first b (hi.all b hb) hrb
    rw [hsame.1, hsame.2, h2] at h1
    injection h1 with h1
    exact hab h1.symm
  · intro dev blockno b hb hd hn
    cases hf : g.s.lru.find? (g.s.labelled dev blockno) with
    | none =>
      rw [List.find?_eq_none] at hf
      have := hf b (hi.all b hb)
      rw [labelled_iff] at this
      exact absurd ⟨hd, hn⟩ this
    | some f =>
      have hfm := List.mem_of_find?_eq_some hf
      have hfp := List.find?_some hf
      rw [labelled_iff] at hfp
      refine ⟨f, hi.lt f hfm, hfp.1, hfp.2, ?_, ?_, ?_, ?_⟩
      · intro hrb
        have := hi.first b (hi.all b hb) hrb
        rw [hd, hn, hf] at this
        injection this
      · intro x s1 hx
        obtain ⟨e1, e2, hm, hl0, hl1, hd1, hbn1, hcase⟩ := bread_effect hx
        rcases hcase with ⟨h1, h2⟩ | ⟨h1, _, _⟩
        · rw [hf] at h1
          injection h1 with h1
          subst h1
          have hr0 : (g.s.buf f).refcnt = 0 := by
            rcases hi.lock f hm with h | h
            · exact h.1
            · rw [h.2] at hl0; cases hl0
          exact ⟨rfl, hr0, by rw [h2, hr0], hd1, hbn1, e2, e1⟩
        · rw [hf] at h1
          cases h1
      · intro hr0 hv
        have hl : (g.s.buf f).locked = 0 := by
          rcases hi.lock f hfm with h | h
          · exact h.2
          · rw [h.1] at hr0; cases hr0
        exact bread_hit_free hf hl hv
      · intro hrn
        have hl : (g.s.buf f).locked ≠ 0 := by
          rcases hi.lock f hfm with h | h
          · exact absurd h.1 hrn
          · rw [h.2]; decide
        exact bread_hit_locked hf hl

/-- Right after `binit` every buffer is labelled `(0, 0)` and free, and
`bread(0, 0)` returns the first of them. -/
theorem bread_keeps_bindings_unique_witness :
    ∃ f, f < NBUF ∧ ((bio_init boot).s.buf f).dev = 0 ∧ ((bio_init boot).s.buf f).blockno = 0 ∧
      (((bio_init boot).s.buf 0).refcnt ≠ 0 → f = 0) ∧
      (∀ x s1, bread 0 0 (bio_init boot).s = Res.ok x s1 →
        x = f ∧ ((bio_init boot).s.buf f).refcnt = 0 ∧ (s1.buf f).refcnt = 1 ∧
        (s1.buf f).dev = 0 ∧ (s1.buf f).blockno = 0 ∧
        (∀ j, j ≠ f → s1.buf j = (bio_init boot).s.buf j) ∧ s1.lru = (bio_init boot).s.lru) ∧
      (((bio_init boot).s.buf f).refcnt = 0 → ((bio_init boot).s.buf f).valid ≠ 0 ∨ 0 < FSSIZE →
        ∃ s1, bread 0 0 (bio_init boot).s = Res.ok f s1) ∧
      (((bio_init boot).s.buf f).refcnt ≠ 0 →
        bread 0 0 (bio_init boot).s = Res.fail Fault.spin) :=
  (bread_keeps_bindings_unique (bio_init_reach boot)).2.2 0 0 0 (by decide) rfl rfl

/-- C33. For every sequence `cs` of `klogf` calls (each with its level, tag,
time stamp and formatted text) made right after `klog_init`, and right after
`klog_clear` on any state: the count reported by `klog_get_stats` is
`min(kept, KLOG_NENTRY)`, where `kept` counts the calls whose level is not
below the threshold, so it never exceeds `KLOG_NENTRY`; after `klog_init`
`overwritten` is `kept - KLOG_NENTRY` (0 if `kept` is smaller) and `filtered`
is the number of calls below the threshold, as 64-bit values; after
`klog_clear` both have grown by these amounts modulo `2^64`. On an initialised
state a call below the threshold changes `filtered` only (count, head, ring
and the other statistics stay as they are), and a call at or above the
threshold made while `count == KLOG_NENTRY` keeps the count and adds one to
`overwritten`. -/
theorem klogf_ring_counters (k : Klog) (cs : List KlogCall) :
    ((klog_get_stats (klog_run cs (klog_init k))).count =
        min (klog_kept KLOG_DEBUG cs) KLOG_NENTRY ∧
      (klog_get_stats (klog_run cs (klog_init k))).count ≤ KLOG_NENTRY ∧
      (klog_get_stats (klog_run cs (klog_init k))).overwritten =
        (klog_kept KLOG_DEBUG cs - KLOG_NENTRY) % U64 ∧
      (klog_get_stats (klog_run cs (klog_init k))).filtered =
        (cs.length - klog_kept KLOG_DEBUG cs) % U64) ∧
    ((klog_get_stats (klog_run cs (klog_clear k))).count =
        min (klog_kept (klog_clear k).level_threshold cs) KLOG_NENTRY ∧
      (klog_get_stats (klog_run cs (klog_clear k))).count ≤ KLOG_NENTRY ∧
      (klog_get_stats (klog_run cs (klog_clear k))).overwritten % U64 =
        ((klog_clear k).overwritten +
          (klog_kept (klog_clear k).level_threshold cs - KLOG_NENTRY)) % U64 ∧
      (klog_get_stats (klog_run cs (klog_clear k))).filtered % U64 =
        ((klog_clear k).filtered +
          (cs.length - klog_kept (klog_clear k).level_threshold cs)) % U64) ∧
    (∀ (c : KlogCall) (st : Klog), st.inited ≠ 0 → c.level < st.level_threshold →
      klogf c.level c.tag c.ts c.msg st = { st with filtered := (st.filtered + 1) % U64 }) ∧
    (∀ (c : KlogCall) (st : Klog), st.inited ≠ 0 → ¬ c.level < st.level_threshold →
      st.count = KLOG_NENTRY →
      (klogf c.level c.tag c.ts c.msg st).count = KLOG_NENTRY ∧
      (klogf c.level c.tag c.ts c.msg st).overwritten = (st.overwritten + 1) % U64) := by
  have hstats : ∀ st : Klog, st.inited ≠ 0 →
      klog_get_stats st = ⟨st.total_written, st.overwritten, st.filtered, st.count⟩ := by
    intro st h
    unfold klog_get_stats
    rw [klog_inited_of h]
  have hi0 : (klog_init k).inited ≠ 0 := show (1 : Nat) ≠ 0 by decide
  have hc0 : (klog_clear k).inited ≠ 0 := by
    unfold klog_clear klog_inited
    by_cases h : k.inited = 0
    · rw [if_pos h]; exact hi0
    · rw [if_neg h]; exact h
  refine ⟨?_, ?_, fun c st h hl => klogf_filtered c h hl, ?_⟩
  · obtain ⟨h1, _, h3, h4, h5, _⟩ := klog_run_counts cs (klog_init k) hi0 (show (0 : Nat) ≤ 256 by decide)
    obtain ⟨t1, t2⟩ := klog_run_typed cs (klog_init k) hi0
      (show (0 : Nat) < U64 by unfold U64; norm_num) (show (0 : Nat) < U64 by unfold U64; norm_num)
    rw [hstats _ (by rw [h1]; exact hi0)]
    rw [Nat.mod_eq_of_lt t1] at h4
    rw [Nat.mod_eq_of_lt t2] at h5
    refine ⟨?_, ?_, ?_, ?_⟩
    · show (klog_run cs (klog_init k)).count = _
      rw [h3]
      show min (0 + klog_kept KLOG_DEBUG cs) KLOG_NENTRY = _
      rw [Nat.zero_add]
    · show (klog_run cs (klog_init k)).count ≤ _
      rw [h3]
      exact Nat.min_le_right _ _
    · show (klog_run cs (klog_init k)).overwritten = _
      rw [h4]
      show (0 + (0 + klog_kept KLOG_DEBUG cs - KLOG_NENTRY)) % U64 = _
      rw [Nat.zero_add, Nat.zero_add]
    · show (klog_run cs (klog_init k)).filtered = _
      rw [h5]
      show (0 + (cs.length - klog_kept KLOG_DEBUG cs)) % U64 = _
      rw [Nat.zero_add]
  · have hcc : (klog_clear k).count = 0 := rfl
    obtain ⟨h1, _, h3, h4, h5, _⟩ :=
      klog_run_counts cs (klog_clear k) hc0 (by rw [hcc]; exact Nat.zero_le _)
    rw [hstats _ (by rw [h1]; exact hc0)]
    rw [hcc, Nat.zero_add] at h3 h4
    refine ⟨h3, ?_, h4, h5⟩
    show (klog_run cs (klog_clear k)).count ≤ _
    rw [h3]
    exact Nat.min_le_right _ _
  · intro c st h hl hfull
    obtain ⟨_, _, _, _, _, g6, _⟩ := klogf_kept c h hl
    exact ⟨(g6 hfull).1.trans hfull, (g6 hfull).2⟩

set_option maxRecDepth 100000 in
set_option maxHeartbeats 0 in
/-- C34. Inside a transaction on the freshly mounted volume block 40 is staged
with payload byte 7 and released. After five other blocks have been read and
released, `bread` of block 40 still delivers byte 7; after thirty other
blocks have been read and released (the cache has thirty buffers and
`log_write` does not pin the staged buffer), the buffer of block 40 has been
recycled and `bread` of block 40 delivers byte 0, the old device content,
although the transaction is still open with the block listed in the header;
`end_op` then installs byte 7 on the device. -/
theorem staged_block_is_evicted_before_commit :
    value (stage_then_read 5 boot) = some 7 ∧
    value (stage_then_read 30 boot) = some 0 ∧
    observe (stage_then_read 30 boot)
        (fun s => [s.log.outstanding, s.log.lh.n, s.log.lh.block 0]) = some [1, 1, 40] ∧
    observe (stage_read_commit 30 boot) (fun s => [s.ramdisk 40 0]) = some [7] := by
  decide!

/-- C35. The store `name[len] = 0` of `skipelem`: for a first component of
fewer than `DIRSIZ` characters no index from `DIRSIZ` on is written, but for a
first component of `DIRSIZ` or more characters the NUL is stored at index
`DIRSIZ`, one past the end of the `DIRSIZ`-byte buffer `elem` of `namex`. -/
theorem skipelem_stores_past_name (path : List Nat) (name : Mem) (c : List Nat)
    (cs : List (List Nat)) (h : components path = c :: cs) :
    (c.length < DIRSIZ → ∀ i, DIRSIZ ≤ i → (skipelem path name).2 i = name i) ∧
    (DIRSIZ ≤ c.length → (skipelem path name).2 DIRSIZ = 0 ∧
      ∀ i, DIRSIZ < i → (skipelem path name).2 i = name i) := by
  obtain ⟨path1, hsk, _⟩ := skipelem_cons h name
  rw [hsk]
  constructor
  · intro hl i hi
    show elem_of c name i = name i
    unfold elem_of
    rw [Nat.min_eq_left (by omega), if_neg (by omega), if_neg (by omega)]
  · intro hl
    constructor
    · show elem_of c name DIRSIZ = 0
      unfold elem_of
      rw [Nat.min_eq_right hl, if_neg (lt_irrefl _), if_pos rfl]
    · intro i hi
      show elem_of c name i = name i
      unfold elem_of
      rw [Nat.min_eq_right hl, if_neg (by omega), if_neg (by omega)]

theorem skipelem_stores_past_name_witness :
    DIRSIZ ≤ (List.replicate DIRSIZ 97).length ∧
      ((skipelem path_long (fun _ => 1)).2 DIRSIZ = 0 ∧
        ∀ i, DIRSIZ < i → (skipelem path_long (fun _ => 1)).2 i = (fun _ => 1) i) :=
  ⟨by decide,
    (skipelem_stores_past_name path_long (fun _ => 1) (List.replicate DIRSIZ 97) []
      (by decide)).2 (by decide)⟩

/-- C36. For a cached directory inode `dp` (blocks below its size mapped, no
buffer pinned, budget as for `dirlookup`, some inode-cache slot unused) that
contains an entry with `inum != 0` named `name`: `dirlink(dp, name, inum)`
returns -1 and leaves one inode-cache slot with a reference count one higher
than before the call, every other slot being unchanged: the handle that the
internal `dirlookup` took with `iget` is not released. -/
theorem dirlink_existing_name_keeps_handle {s : Kernel} {T : Set Nat} {m dp : Nat} (name : Mem)
    (inum : Nat) (hi : FSInv s T m) (hfree : ∀ x, s.unheld x) (hr : Readable s dp)
    (hdir : (s.inode dp).type = T_DIR)
    (hroom : (s.log.outstanding = 0 ∧ 2 ≤ s.lru.length) ∨ (s.inode dp).size / BSIZE + 2 ≤ m)
    (hex : ∃ e, DIRENT_SIZE * e + DIRENT_SIZE ≤ (s.inode dp).size ∧ s.de_hit dp name e)
    (hslot : ∃ i, i < NINODE ∧ (s.inode i).ref = 0) :
    ∃ ip s1, dirlink dp name inum s = Res.ok (-1) s1 ∧
      (s1.inode ip).ref = (s.inode ip).ref + 1 ∧ (∀ j, j ≠ ip → s1.inode j = s.inode j) := by
  obtain ⟨e0, ⟨hsz, hhit⟩, hmin⟩ := exists_first hex
  have hfirst : ∀ j, j < e0 → ¬ s.de_hit dp name j := by
    intro j hj hh
    refine hmin j hj ⟨?_, hh⟩
    have hsz' : 16 * e0 + 16 ≤ (s.inode dp).size := hsz
    show 16 * j + 16 ≤ _
    omega
  have hroom' : (s.log.outstanding = 0 ∧ 2 ≤ s.lru.length) ∨
      DIRENT_SIZE * e0 / BSIZE + 2 ≤ m := by
    rcases hroom with h | h
    · exact Or.inl h
    · refine Or.inr ?_
      have h' : (s.inode dp).size / 4096 + 2 ≤ m := h
      have hsz' : 16 * e0 + 16 ≤ (s.inode dp).size := hsz
      show 16 * e0 / 4096 + 2 ≤ m
      omega
  obtain ⟨s1, T1, m1, _, _, hv, hdk, _, hn, _, _, _, _, e⟩ :=
    dirlookup_found name hi hfree hr hdir hroom' hsz hhit hfirst
  obtain ⟨i, hi1, hi2⟩ := hslot
  obtain ⟨ip, x, eg, hip, hxs, hxa, _⟩ :=
    @iget_ok s1 ROOTDEV (s.de_inum dp (DIRENT_SIZE * e0))
      ⟨i, hi1, Or.inl (by rw [hn]; exact hi2)⟩
  obtain ⟨hr1, hr2, _⟩ := iget_ref eg
  rw [hn] at hr1 hr2
  refine ⟨ip, s1.setInode ip x, ?_, hr1, hr2⟩
  unfold dirlink
  simp only [bind_apply, e, eg, pure_apply]

/-- In the demonstration root directory a second entry `"."` is refused and
the reference count of the root inode goes from 1 to 2. -/
theorem dirlink_existing_name_keeps_handle_witness :
    ∃ ip s1, dirlink 0 dotName 7 demo_dir = Res.ok (-1) s1 ∧
      (s1.inode ip).ref = (demo_dir.inode ip).ref + 1 ∧
      (∀ j, j ≠ ip → s1.inode j = demo_dir.inode j) :=
  dirlink_existing_name_keeps_handle dotName 7 demo_dir_inv demo_dir_unheld demo_dir_readable rfl
    (Or.inl ⟨rfl, by decide⟩) ⟨0, by decide, demo_dir_hits.2.2.1⟩ ⟨1, by decide, rfl⟩

/-- C39. On a writable file without holes below its size (no buffer pinned,
`off <= ip->size`, `off + n <= MAXFILE*BSIZE`, room on the volume, in the
cache and in the log for the blocks of the range), `writei` returns `n` and
changes no byte of the file outside `[off, off+n)`: for every offset `p`
below the old size and outside the range, `readi` of that byte returns the
same result before and after. The other cached inodes are unchanged, the
records of the other inodes in the inode blocks are unchanged byte for byte,
and every allocated data block that is neither mapped by the file nor its
indirect block has the content it had. -/
theorem writei_changes_only_its_range {s : Kernel} {T : Set Nat} {m ip o n : Nat} (src : Mem)
    (hi : FSInv s T m) (hu : ∀ x, s.unheld x) (hw : Writable s ip) (hr : Readable s ip)
    (hin : (s.inode ip).inum < 200)
    (ho : o ≤ (s.inode ip).size) (hon : o + n ≤ MAXFILE * BSIZE)
    (hfr : HasFree (s.view BMAPBLOCK) (2 * blocks_left o n 0))
    (hm : 2 * blocks_left o n 0 + 10 ≤ m)
    (hl : s.log.lh.n + blocks_left o n 0 + 4 ≤ LOGSIZE) :
    ∃ s3, writei ip src o n s = Res.ok (n : Int) s3 ∧
      (∀ p dst, p < (s.inode ip).size → (p < o ∨ o + n ≤ p) →
        ∃ b sa sb, readi ip dst p 1 s = Res.ok (1, b) sa ∧
          readi ip dst p 1 s3 = Res.ok (1, b) sb) ∧
      (∀ p, p < (s.inode ip).size → (p < o ∨ o + n ≤ p) → s3.fbyte ip p = s.fbyte ip p) ∧
      (∀ j, j ≠ ip → s3.inode j = s.inode j) ∧
      (∀ k i, k < 200 → k ≠ (s.inode ip).inum → i < DINODE_SIZE →
        s3.dinode k i = s.dinode k i) ∧
      (∀ x, DATASTART ≤ x → x < FSSIZE → bit_clear (s.view BMAPBLOCK) x = false →
        x ≠ (s.inode ip).addrs NDIRECT → (∀ bn, bn < MAXFILE → s.baddr ip bn ≠ x) →
        s3.view x = s.view x) := by
  have hM : MAXFILE * BSIZE = 4243456 := by decide
  have hB : BSIZE = 4096 := rfl
  have hFS : FSSTART = 32 := rfl
  have hDS : DATASTART = 37 := rfl
  have hBM : BMAPBLOCK = 36 := rfl
  obtain ⟨s3, T3, m3, c, l, e, cst, post, _, _, hm3, _⟩ :=
    @writei_spec s T m ip o n 3 0 0 src hi hu hw hin ho hon (by rw [Nat.zero_add]; exact hfr)
      (WBudget.of_room (by omega) (by omega))
  have hr3 := post.readable hr ho hon
  have hsz := hr.size_le
  have hold : ∀ p, p < (s.inode ip).size → (p < o ∨ o + n ≤ p) →
      s3.fbyte ip p = s.fbyte ip p := by
    intro p hp hout
    refine post.old p hout (by omega) ?_
    have := (hr.map (p / BSIZE) (by
      have := Nat.div_mul_le_self p BSIZE
      omega)).1
    omega
  refine ⟨s3, ?_, ?_, hold, post.inodes, post.records hw hi.sb cst.sb hin, ?_⟩
  · rw [e, toInt32_small (by omega)]
  · intro p dst hp hout
    obtain ⟨sa, ea⟩ := readi_byte dst p hi hu hr hp (by omega)
    obtain ⟨sb, eb⟩ := readi_byte dst p cst.inv post.unheld hr3 (by
      rw [post.size]
      exact lt_of_lt_of_le hp (le_max_left _ _)) hm3
    exact ⟨_, sa, sb, ea, by rw [eb, hold p hp hout]⟩
  · intro x hx hxs hxb hxi hxm
    refine post.frame x (by omega) (by omega) hxb hxi hxm ?_
    have := (IBLOCK_range hin).2
    omega

theorem writei_changes_only_its_range_witness :
    ∃ s3, writei 0 zeroMem 4090 100 demo_mapped = Res.ok ((100 : Nat) : Int) s3 ∧
      (∀ p dst, p < (demo_mapped.inode 0).size → (p < 4090 ∨ 4090 + 100 ≤ p) →
        ∃ b sa sb, readi 0 dst p 1 demo_mapped = Res.ok (1, b) sa ∧
          readi 0 dst p 1 s3 = Res.ok (1, b) sb) ∧
      (∀ p, p < (demo_mapped.inode 0).size → (p < 4090 ∨ 4090 + 100 ≤ p) →
        s3.fbyte 0 p = demo_mapped.fbyte 0 p) ∧
      (∀ j, j ≠ 0 → s3.inode j = demo_mapped.inode j) ∧
      (∀ k i, k < 200 → k ≠ (demo_mapped.inode 0).inum → i < DINODE_SIZE →
        s3.dinode k i = demo_mapped.dinode k i) ∧
      (∀ x, DATASTART ≤ x → x < FSSIZE → bit_clear (demo_mapped.view BMAPBLOCK) x = false →
        x ≠ (demo_mapped.inode 0).addrs NDIRECT →
        (∀ bn, bn < MAXFILE → demo_mapped.baddr 0 bn ≠ x) →
        s3.view x = demo_mapped.view x) :=
  writei_changes_only_its_range zeroMem demo_mapped_inv demo_mapped_unheld demo_mapped_writable
    demo_mapped_readable (by decide) (by decide) (by decide) demo_mapped_has_free (by decide)
    (by decide)

/-- C6. On a mounted volume with room for one more log entry and two
recyclable buffers, for every 32-bit block number `bno` whose bitmap block
lies on the device: `bfree(dev, bno)` panics exactly when the bitmap bit of
`bno` is clear (with "bfree: block not allocated"); otherwise it returns and
afterwards exactly that bit has been cleared, every other bit of the bitmap
block being unchanged. -/
theorem bfree_clears_bit {s : Kernel} {T : Set Nat} {m bno : Nat} (hi : FSInv s T m)
    (h32 : bno < U32) (hblk : BBLOCK bno s.sb < FSSIZE) (hu : s.unheld (BBLOCK bno s.sb))
    (hbud : 2 ≤ m ∧ s.log.lh.n + 2 ≤ LOGSIZE) :
    ((∃ site, bfree ROOTDEV bno s = Res.fail (Fault.panic site)) ↔
      bit_clear (s.view (BBLOCK bno s.sb)) (bno % BPB) = true) ∧
    (bit_clear (s.view (BBLOCK bno s.sb)) (bno % BPB) = true →
      bfree ROOTDEV bno s = Res.fail (Fault.panic PanicSite.bfree_not_allocated)) ∧
    (bit_clear (s.view (BBLOCK bno s.sb)) (bno % BPB) = false →
      ∃ s1, bfree ROOTDEV bno s = Res.ok () s1 ∧
        ∀ j, bit_clear (s1.view (BBLOCK bno s.sb)) j =
          (decide (j = bno % BPB) || bit_clear (s.view (BBLOCK bno s.sb)) j)) := by
  have hlo : FSSTART ≤ BBLOCK bno s.sb := by
    rw [hi.sb]; unfold BBLOCK; rw [mkfs_sb_bmapstart]
    have : bno / BPB < U32 := lt_of_le_of_lt (Nat.div_le_self _ _) h32
    have h2 : bno / BPB ≤ U32 / BPB := Nat.div_le_div_right (le_of_lt h32)
    have h3 : U32 / BPB = 131072 := by decide
    have hU : U32 = 4294967296 := by unfold U32; norm_num
    have hB : BMAPBLOCK = 36 := rfl
    rw [Nat.mod_eq_of_lt (by omega)]
    exact le_trans (by decide : FSSTART ≤ BMAPBLOCK) (Nat.le_add_left _ _)
  obtain ⟨h, s1, e1, hd1, hr1, hrest⟩ := update_block hi hlo hblk hu (Or.inr hbud)
  have hpanic : bit_clear (s.view (BBLOCK bno s.sb)) (bno % BPB) = true →
      bfree ROOTDEV bno s = Res.fail (Fault.panic PanicSite.bfree_not_allocated) := by
    intro hc
    unfold bfree
    simp only [bind_apply, getK_apply, e1, hd1, hc, ↓reduceIte, kpanic_apply]
  have hok : bit_clear (s.view (BBLOCK bno s.sb)) (bno % BPB) = false →
      ∃ s1, bfree ROOTDEV bno s = Res.ok () s1 ∧
        ∀ j, bit_clear (s1.view (BBLOCK bno s.sb)) j =
          (decide (j = bno % BPB) || bit_clear (s.view (BBLOCK bno s.sb)) j) := by
    intro hc
    obtain ⟨s3, s4, T4, m4, e3, e4, st, hw, htight, hv⟩ :=
      hrest (clear_bit (s.view (BBLOCK bno s.sb)) (bno % BPB))
    refine ⟨s4, ?_, ?_⟩
    · unfold bfree
      simp only [bind_apply, getK_apply, e1, hd1, hc, Bool.false_eq_true, ↓reduceIte,
        setData_ok]
      have e3' : bwrite h (s1.store h (Function.update (s.view (BBLOCK bno s.sb))
        (bno % BPB / 8) (s.view (BBLOCK bno s.sb) (bno % BPB / 8) % 256 &&&
          (255 - bitmask (bno % BPB))))) = Res.ok () s3 := e3
      simp only [e3', e4]
    · intro j
      rw [hv _ hlo, Function.update_same, bit_clear_clear_bit]
  refine ⟨⟨?_, fun hc => ⟨_, hpanic hc⟩⟩, hpanic, hok⟩
  rintro ⟨site, hf⟩
  cases hc : bit_clear (s.view (BBLOCK bno s.sb)) (bno % BPB) with
  | true => rfl
  | false =>
    obtain ⟨s1, e, _⟩ := hok hc
    rw [e] at hf
    exact absurd hf (by simp)

set_option maxRecDepth 100000 in
/-- On the freshly formatted device inside an operation, freeing block 36
(marked by `virtio_disk_init`) returns and clears exactly its bit. -/
theorem bfree_clears_bit_witness :
    (∃ s1, bfree ROOTDEV 36 (cold mkfs_disk 1) = Res.ok () s1 ∧
      ∀ j, bit_clear (s1.view (BBLOCK 36 (cold mkfs_disk 1).sb)) j =
        (decide (j = 36 % BPB) ||
          bit_clear ((cold mkfs_disk 1).view (BBLOCK 36 (cold mkfs_disk 1).sb)) j)) :=
  (@bfree_clears_bit _ _ _ 36 (cold_inv mkfs_disk 1) (by decide) (by decide)
    (cold_unheld mkfs_disk 1 _) ⟨by decide, by decide⟩).2.2 (by rw [cold_view]; decide!)


/-- C7. For a cached inode whose blocks below its size are mapped (no
buffer pinned; either no operation open, or one recyclable buffer per block
read plus one for the indirect block), and 32-bit `off` and `n`: `readi`
returns 0 and leaves everything unchanged when `off > ip->size` or `off + n`
wraps below `off`; otherwise it returns `min(n, ip->size - off)`, the
destination holds exactly the file bytes `off .. off+ret-1` in its first
`ret` bytes and is unchanged beyond, and the inode table, the device and the
content of every block are unchanged. -/
theorem readi_reads_file {s : Kernel} {T : Set Nat} {m ip : Nat} (dst : Mem) (off n : Nat)
    (hi : FSInv s T m) (hfree : ∀ x, s.unheld x) (hr : Readable s ip)
    (hoff : off < U32) (hn : n < U32)
    (hroom : (s.log.outstanding = 0 ∧ 2 ≤ s.lru.length) ∨ n / BSIZE + 3 ≤ m) :
    (off > (s.inode ip).size ∨ (off + n) % U32 < off →
      readi ip dst off n s = Res.ok (0, dst) s) ∧
    (¬ (off > (s.inode ip).size ∨ (off + n) % U32 < off) →
      ∃ s1, readi ip dst off n s =
          Res.ok (((min n ((s.inode ip).size - off) : Nat) : Int),
            fun i => if i < min n ((s.inode ip).size - off) then s.fbyte ip (off + i)
              else dst i) s1 ∧
        s1.inode = s.inode ∧ s1.ramdisk = s.ramdisk ∧ s1.view = s.view) := by
  have hU : U32 = 4294967296 := by unfold U32; norm_num
  have hM : MAXFILE * BSIZE = 4243456 := by decide
  have hB : BSIZE = 4096 := rfl
  have hmax := hr.size_le
  constructor
  · intro h
    unfold readi
    simp only [bind_apply, getK_apply, h, ↓reduceIte, pure_apply]
  · intro h
    have h1 : off ≤ (s.inode ip).size := by omega
    have h2 : off + n < U32 := by
      by_contra hc
      have : (off + n) % U32 = off + n - U32 := by
        rw [Nat.mod_eq_sub_mod (by omega), Nat.mod_eq_of_lt (by omega)]
      omega
    have h3 : (off + n) % U32 = off + n := Nat.mod_eq_of_lt h2
    generalize hn1 : min n ((s.inode ip).size - off) = n1
    have hn1' : (if (off + n) % U32 > (s.inode ip).size then ((s.inode ip).size - off) % U32
        else n) = n1 := by
      rw [h3, ← hn1]
      split
      · rw [Nat.mod_eq_of_lt (by omega)]; omega
      · omega
    have hn1le : off + n1 ≤ (s.inode ip).size := by omega
    have hbl : blocks_left off n1 0 + 1 ≤ n / BSIZE + 3 := by
      unfold blocks_left
      rw [hB]
      split <;> omega
    -- the epoch in which the loop runs
    obtain ⟨T0, m0, hi0, hb0⟩ : ∃ T0 m0, FSInv s T0 m0 ∧
        ((Calm s T0 m0 ∧ 2 ≤ m0) ∨ blocks_left off n1 0 + 1 ≤ m0) := by
      rcases hroom with ⟨ho, hl⟩ | hm
      · exact ⟨∅, s.lru.length, hi.reset_fs ho hfree, Or.inl ⟨⟨rfl, rfl, ho⟩, hl⟩⟩
      · exact ⟨T, m, hi, Or.inr (by omega)⟩
    obtain ⟨s1, T1, m1, e, st, hv, hd, _, _⟩ :=
      readi_loop_spec ip off n1 n1 1 0 dst s T0 m0 hi0 hfree hr hn1le (Nat.zero_le _)
        (by omega) (fun _ => hb0.imp id (fun hh => ⟨Or.inr (le_refl 1), hh⟩))
    refine ⟨s1, ?_, st.rest.inode, hd, hv⟩
    unfold readi
    simp only [bind_apply, getK_apply, h, ↓reduceIte, hn1', pure_apply]
    have e' : readi_loop ip n1 n1 0 off dst s =
        Res.ok (fun i => if 0 ≤ i ∧ i < n1 then s.fbyte ip (off + i) else dst i) s1 := e
    rw [e', toInt32_small (by omega)]
    simp only [Nat.zero_le, true_and]

set_option maxRecDepth 100000 in
/-- Reading 20 bytes at offset 4090 of the demonstration file crosses from
block 40 into block 41. -/
theorem readi_reads_file_witness :
    (∃ s1, readi 0 zeroMem 4090 20 demo_file =
        Res.ok (((min 20 ((demo_file.inode 0).size - 4090) : Nat) : Int),
          fun i => if i < min 20 ((demo_file.inode 0).size - 4090)
            then demo_file.fbyte 0 (4090 + i) else zeroMem i) s1 ∧
      s1.inode = demo_file.inode ∧ s1.ramdisk = demo_file.ramdisk ∧
      s1.view = demo_file.view) ∧
    (match readi 0 zeroMem 4090 20 demo_file with
      | Res.ok r _ => (r.1, (List.range 10).map r.2)
      | Res.fail _ => (0, [])) = (20, [74, 75, 76, 77, 78, 79, 3, 10, 17, 24]) :=
  ⟨(readi_reads_file zeroMem 4090 20 demo_file_inv demo_file_unheld demo_file_readable
    (by decide) (by decide) (Or.inl ⟨rfl, by decide⟩)).2 (by decide), by decide!⟩

/-! ## Claim C8 -/
/-- C8. `writei` rejects a range whose end wraps around in 32-bit arithmetic or
lies beyond `MAXFILE * BSIZE`: it returns `-1` and the whole machine state
(inode size and block pointers, bitmap, every device block) is left as it was. -/
theorem writei_rejects_bad_range (s : Kernel) (ip : Nat) (src : Mem) (off n : Nat)
    (hoff : off < U32) (hn : n < U32)
    (h : (off + n) % U32 < off ∨ off + n > MAXFILE * BSIZE) :
    writei ip src off n s = Res.ok (-1) s := by
  unfold writei
  simp only [bind_apply, getK_apply]
  by_cases h1 : off > (s.inode ip).size ∨ (off + n) % U32 < off
  · simp [h1]
  · rw [if_neg h1]
    have h2 : ¬ (off + n) % U32 < off := fun c => h1 (Or.inr c)
    have h3 : off + n > MAXFILE * BSIZE := by
      rcases h with h | h
      · exact absurd h h2
      · exact h
    have h4 : off + n < U32 := by
      by_contra hc
      apply h2
      have : (off + n) % U32 = off + n - U32 := by
        rw [Nat.mod_eq_sub_mod (by omega), Nat.mod_eq_of_lt (by unfold U32 at *; omega)]
      rw [this]; unfold U32 at *; omega
    rw [Nat.mod_eq_of_lt h4, if_pos h3]
    rfl

theorem writei_rejects_bad_range_witness :
    writei 0 zeroMem 0 (MAXFILE * BSIZE + 1) boot = Res.ok (-1) boot :=
  writei_rejects_bad_range boot 0 zeroMem 0 (MAXFILE * BSIZE + 1) (by decide) (by decide)
    (Or.inr (by decide))

end OS3
